import Mathlib

/-!
Verification development for the dialoguefactory repository.

This file gives a shallow embedding of the core of the system:

* the entity/world model with its single undo log
  (`src/dialoguefactory/environment/entities.py`,
   `src/dialoguefactory/environments/world.py`),
* the action layer (`src/dialoguefactory/environment/actions.py`),
* the knowledge base with its updaters and checkers
  (`src/dialoguefactory/state/`),
* the policy fragments `ActionPolicy.one_task` and `AndPolicy`
  (`src/dialoguefactory/policies/`).

Entities are identified by their `var_name` string (concrete world entities
are compared by `var_name` in `Entity.__eq__`), and the mutable object graph
is represented as a finite association list from identifiers to entity
records.  Python dictionaries become association lists with in-place update
semantics; Python lists become Lean lists (`remove` = erase the first
occurrence).  Zero-argument undo closures become constructors of an
inductive type `URec` paired with an interpretation function `applyU`,
each constructor capturing exactly the values the corresponding Python
closure captures.  Sentences are represented by their describer content
(Python `Sentence.__eq__` compares describers only), and the side effect of
`Entity.describe` (memoising a description phrase and pushing an undo
record for the cache entry) is modelled by `describeE`.  The pseudo-random
generator is passed explicitly as an oracle (`Rnd`).
-/

namespace DF

/-- Entity identifier: the `var_name` property of a concrete world entity. -/
abbrev EId := String

/-- Property / attribute keys: plain strings or two-element tuples such as
`("north", "obstacle")`. -/
inductive PKey where
  | s (x : String)
  | p (x y : String)
deriving DecidableEq, Repr

/-- Property values: strings, entity references, two-element location lists
`[preposition, entity]`, or lists of strings such as `["very", "small"]`. -/
inductive Val where
  | str (s : String)
  | ent (i : EId)
  | loc (pos : String) (i : EId)
  | strs (l : List String)
deriving DecidableEq, Repr

/-- Lookup in an association list (first occurrence wins, like a dict). -/
def alook {α : Type} (l : List (PKey × α)) (k : PKey) : Option α :=
  match l with
  | [] => none
  | (k2, v) :: t => if k2 = k then some v else alook t k

/-- Dict-style update: overwrite the existing binding in place, otherwise
append the new binding at the end (Python dict insertion order). -/
def aset {α : Type} (l : List (PKey × α)) (k : PKey) (v : α) : List (PKey × α) :=
  match l with
  | [] => [(k, v)]
  | (k2, v2) :: t => if k2 = k then (k2, v) :: t else (k2, v2) :: aset t k v

/-- Dict-style deletion of the (single) binding for a key. -/
def adel {α : Type} (l : List (PKey × α)) (k : PKey) : List (PKey × α) :=
  match l with
  | [] => []
  | (k2, v2) :: t => if k2 = k then t else (k2, v2) :: adel t k

/-- Erase the first occurrence of an element from a list
(Python `list.remove`). -/
def lerase {α : Type} [DecidableEq α] (l : List α) (x : α) : List α :=
  match l with
  | [] => []
  | y :: t => if y = x then t else y :: lerase t x

/-- Boolean total order on keys, used to keep attribute sets canonical. -/
def PKey.ble (a b : PKey) : Bool :=
  match a, b with
  | PKey.s x, PKey.s y => x ≤ y
  | PKey.s _, PKey.p _ _ => true
  | PKey.p _ _, PKey.s _ => false
  | PKey.p x y, PKey.p x2 y2 => x < x2 ∨ (x = x2 ∧ y ≤ y2)

/-- Ordered insertion into a sorted key list. -/
def insSorted (l : List PKey) (x : PKey) : List PKey :=
  match l with
  | [] => [x]
  | y :: t => if PKey.ble x y then x :: y :: t else y :: insSorted t x

/-- Add an element to an attribute set if absent. The source stores
attributes as a dict with `None` values, whose Python equality is
order-insensitive and which the modelled code only ever reads through
membership tests; the model keeps the set in canonical sorted order so
that structural equality coincides with dict equality. -/
def sadd (l : List PKey) (x : PKey) : List PKey :=
  if x ∈ l then l else insSorted l x

/-- A memoised-description cache key: the valuation of the description's
elements over the entity's properties (`Entity.describe` builds
`prop_key_val` this way; attributes and missing elements both map to
`None`). -/
abbrev DKey := List (PKey × Option Val)

/-- One simulated entity: its properties, attributes, contained objects and
the per-entity visibility state consulted by the knowledge base
(`Entity` in `environment/entities.py`). `descElems` are the elements of
the entity's (already generated) description and `descCache` is the
memoised-description cache `Entity.descriptions`. -/
structure Ent where
  props : List (PKey × Val)
  attrs : List PKey
  objs : List EId
  propSeen : List (PKey × Val)
  propSeenNeg : List (PKey × List Val)
  attrSeen : List PKey
  attrSeenNeg : List PKey
  elemExists : List PKey
  elemNotExists : List PKey
  descElems : List PKey
  descCache : List DKey
deriving DecidableEq, Repr

/-- An undo record: one constructor per undo closure pushed by the action
layer, capturing exactly the values the Python closure captures.
`descU` corresponds to the `undo_desc` closure pushed by
`Entity.describe` when a new description phrase is memoised. -/
inductive URec where
  | goU (p oldLoc : EId) (oldObjs : List EId)
  | opensU (e : EId)
  | closesU (e : EId)
  | getU (e oldLoc : EId) (oldPos : String) (oldObjs : List EId)
  | dropU (e oldLoc : EId) (oldPos : String) (oldObjs : List EId)
  | changeU (e : EId) (k : PKey) (oldVal : Option Val)
  | descU (e : EId) (key : DKey)
deriving DecidableEq, Repr

/-- The world: the concrete entity graph, the single shared undo log, and
the derived / configuration data the modelled functions read
(`World` in `environments/world.py`). `allVals` models the derived
`world.<property_key>s` value indices, `playerVals` the
`world.player_<prop>s` lists. -/
structure World where
  ents : List (EId × Ent)
  undo : List URec
  changeActionProperties : List PKey
  locationPositions : List String
  directions : List String
  allProperties : List PKey
  allVals : List (PKey × List Val)
  playerVals : List (String × List Val)
deriving DecidableEq, Repr

/-- Lookup of an entity record in the world's entity list
(`getattr(world, var_name, None)`). -/
def entsGet (l : List (EId × Ent)) (i : EId) : Option Ent :=
  match l with
  | [] => none
  | (j, e) :: t => if j = i then some e else entsGet t i

/-- Apply a function to one entity record of the world's entity list. -/
def entsModify (l : List (EId × Ent)) (i : EId) (f : Ent → Ent) : List (EId × Ent) :=
  match l with
  | [] => []
  | (j, e) :: t => if j = i then (j, f e) :: t else (j, e) :: entsModify t i f

namespace World

/-- Fetch an entity by identifier (`getattr(world, var_name, None)`). -/
def get (w : World) (i : EId) : Option Ent :=
  entsGet w.ents i

/-- Replace one entity's record, leaving the rest of the world unchanged. -/
def modify (w : World) (i : EId) (f : Ent → Ent) : World :=
  { w with ents := entsModify w.ents i f }

/-- Property lookup on an entity of the world. -/
def prop (w : World) (i : EId) (k : PKey) : Option Val :=
  match w.get i with
  | none => none
  | some e => alook e.props k

/-- The location preposition and location entity of an entity
(`entity.properties["location"]`). -/
def locOf (w : World) (i : EId) : Option (String × EId) :=
  match w.prop i (PKey.s "location") with
  | some (Val.loc pos j) => some (pos, j)
  | _ => none

/-- Membership of an attribute. -/
def hasAttr (w : World) (i : EId) (a : PKey) : Bool :=
  match w.get i with
  | none => false
  | some e => a ∈ e.attrs

/-- The contained-objects list of an entity. -/
def objsOf (w : World) (i : EId) : List EId :=
  match w.get i with
  | none => []
  | some e => e.objs

/-- Append an undo record to the shared log
(`entity.undo_changes.append(undo)`). -/
def push (w : World) (r : URec) : World :=
  { w with undo := w.undo ++ [r] }

end World

/-- In-place deletion of a memoised-description cache key (`del
ent.descriptions[key]`). -/
def adel2 : List DKey → DKey → List DKey
  | [], _ => []
  | k2 :: t, k => if k2 = k then t else k2 :: adel2 t k

/-- `entity.objects.append(x)`. -/
def Ent.objsAppend (x : EId) (e : Ent) : Ent :=
  { e with objs := e.objs ++ [x] }

/-- `entity.objects.remove(x)` (first occurrence). -/
def Ent.objsRemove (x : EId) (e : Ent) : Ent :=
  { e with objs := lerase e.objs x }

/-- `del entity.objects[:]; entity.objects.extend(l)`. -/
def Ent.objsSet (l : List EId) (e : Ent) : Ent :=
  { e with objs := l }

/-- `entity.properties['location'] = [pos, j]`. -/
def Ent.locSet (pos : String) (j : EId) (e : Ent) : Ent :=
  { e with props := aset e.props (PKey.s "location") (Val.loc pos j) }

/-- `pla.properties['location'][1] = old_loc`: the location entity is
replaced, the preposition kept. -/
def Ent.locRestore (oldLoc : EId) (e : Ent) : Ent :=
  let newLoc :=
    match alook e.props (PKey.s "location") with
    | some (Val.loc pos _) => Val.loc pos oldLoc
    | _ => Val.loc "in" oldLoc
  { e with props := aset e.props (PKey.s "location") newLoc }

/-- `entity.attributes[a] = None`. -/
def Ent.attrAdd (a : PKey) (e : Ent) : Ent :=
  { e with attrs := sadd e.attrs a }

/-- `del entity.attributes[a]`. -/
def Ent.attrDel (a : PKey) (e : Ent) : Ent :=
  { e with attrs := lerase e.attrs a }

/-- `del ent.properties[k]` / `ent.properties[k] = old_value`. -/
def Ent.propRestore (k : PKey) (oldVal : Option Val) (e : Ent) : Ent :=
  { e with props :=
      match oldVal with
      | none => adel e.props k
      | some v => aset e.props k v }

/-- The tentative mutation of `actions.change`: the property and its
`prop_seen` entry are both set. -/
def Ent.changeApply (k : PKey) (v : Val) (e : Ent) : Ent :=
  { e with props := aset e.props k v, propSeen := aset e.propSeen k v }

/-- `del ent.prop_seen[k]` / `ent.prop_seen[k] = old`. -/
def Ent.seenRestore (k : PKey) (oldProp : Option Val) (e : Ent) : Ent :=
  { e with propSeen :=
      match oldProp with
      | none => adel e.propSeen k
      | some v => aset e.propSeen k v }

/-- `ent.descriptions[key] = phrase` (memoisation). -/
def Ent.cacheAdd (key : DKey) (e : Ent) : Ent :=
  { e with descCache := e.descCache ++ [key] }

/-- `del ent.descriptions[key]` (the `undo_desc` closure). -/
def Ent.cacheDel (key : DKey) (e : Ent) : Ent :=
  { e with descCache := adel2 e.descCache key }

/-- Interpretation of one undo record: the body of the corresponding Python
closure, executed on the current world. -/
def applyU (r : URec) (w : World) : World :=
  match r with
  | URec.goU p oldLoc oldObjs =>
      -- pla.properties['location'][1].objects.remove(pla)
      let cur := match w.locOf p with | some (_, j) => j | none => p
      let w := w.modify cur (Ent.objsRemove p)
      -- pla.properties['location'][1] = old_loc
      let w := w.modify p (Ent.locRestore oldLoc)
      -- del objects[:]; extend(old_loc_objs) on the (restored) location
      w.modify oldLoc (Ent.objsSet oldObjs)
  | URec.opensU e =>
      -- del ent.attributes["open"]
      w.modify e (Ent.attrDel (PKey.s "open"))
  | URec.closesU e =>
      -- ent.attributes["open"] = None
      w.modify e (Ent.attrAdd (PKey.s "open"))
  | URec.getU e oldLoc oldPos oldObjs =>
      -- ent.properties['location'][1].objects.remove(ent)
      let cur := match w.locOf e with | some (_, j) => j | none => e
      let w := w.modify cur (Ent.objsRemove e)
      -- ent.properties['location'] = [old_loc_pos, old_location]
      let w := w.modify e (Ent.locSet oldPos oldLoc)
      -- del old_location.objects[:]; extend(old_loc_objs)
      w.modify oldLoc (Ent.objsSet oldObjs)
  | URec.dropU e oldLoc oldPos oldObjs =>
      let cur := match w.locOf e with | some (_, j) => j | none => e
      let w := w.modify cur (Ent.objsRemove e)
      let w := w.modify e (Ent.locSet oldPos oldLoc)
      w.modify oldLoc (Ent.objsSet oldObjs)
  | URec.changeU e k oldVal =>
      -- del ent.properties[k]  /  ent.properties[k] = old_value
      w.modify e (Ent.propRestore k oldVal)
  | URec.descU e key =>
      -- del ent.descriptions[key]
      w.modify e (Ent.cacheDel key)

/-- Checkpointing (`World.save_state`): the current undo-log length. -/
def saveState (w : World) : Nat :=
  w.undo.length

/-- Rollback (`World.recover_state`): replay every undo record appended
after the checkpoint, newest first, then truncate the log. -/
def recoverState (c : Nat) (w : World) : World :=
  let w2 := ((w.undo.drop c).reverse).foldl (fun acc r => applyU r acc) w
  { w2 with undo := w.undo.take c }

/-- Cache key used by `Entity.describe`: the valuation of the description's
elements over the entity's current properties (an attribute element and a
missing element both record `None`). -/
def descKey (e : Ent) : DKey :=
  e.descElems.map (fun k => (k, alook e.props k))

/-- The side effect of `Entity.describe()`: if the valuation of the
description elements is not memoised yet, memoise it and push an
`undo_desc` record onto the shared undo log. -/
def describeE (i : EId) (w : World) : World :=
  match w.get i with
  | none => w
  | some e =>
      let key := descKey e
      if key ∈ e.descCache then w
      else
        ((w.modify i (Ent.cacheAdd key)).push (URec.descU i key))

/-- Describe a list of entities in order: the description side effects of
converting the entity arguments of one or more sentence constructions
(`language/helpers.py convert_obj_to_part`). -/
def describeMany (l : List EId) (w : World) : World :=
  match l with
  | [] => w
  | i :: t => describeMany t (describeE i w)

/-- Topic (`Arg-PPT`) of a `be` sentence, by shape. -/
inductive STopic where
  | ent (i : EId)
  | v (x : Val)
  | poss (i : EId) (ks : List String)
  | theChange (i : EId) (ks : List String) (x : Val)
  | there
  | theLocPos
  | ifItem
deriving DecidableEq, Repr

/-- Comment (`Arg-PRD`) of a `be` sentence. The `posSet` payload is the
`set(['in', 'on', 'under'])` argument (a Python set, so the shuffling of
the phrase does not affect sentence equality). -/
inductive SCom where
  | v (x : Val)
  | conflicting (i : EId)
  | nothingSpecial (i : EId)
  | posSet (ps : List String)
deriving DecidableEq, Repr

/-- Entity argument of a `get`/`drop` sentence: a world entity, a plain
string such as `"players"`, or a list of words. -/
inductive EArg where
  | ent (i : EId)
  | str (s : String)
  | strs (l : List String)
deriving DecidableEq, Repr

/-- Possession argument (`Arg-PPT`) of a `have`/`see` sentence: a plain
string (for example `'items'` or a property name), a list of strings (for
example `['direction', 'north']`), a single entity, a set of entities, or
absent. Python set equality is order-insensitive; the model keeps the
construction order, which is finer but never coarser. -/
inductive HPoss where
  | str (s : String)
  | strs (l : List String)
  | one (i : EId)
  | many (l : List EId)
  | noneP
deriving DecidableEq, Repr

/-- The `thing_changing` argument of a `change` sentence. -/
inductive ChThing where
  | entKey (i : EId) (ks : List String)
  | theKey (ks : List String)
  | theItemKey (k : String)
deriving DecidableEq, Repr

/-- The action argument of a `permit` sentence: the four shapes the code
constructs (`actions.get`, `actions.drop`, `actions.change`). -/
inductive PAct where
  | gettingPlayers
  | droppingItself
  | changingKey (ks : List String)
  | changingItemKeyIf (k : String)
deriving DecidableEq, Repr

/-- One atomic sentence, identified with its describer content
(`Sentence.__eq__` compares describers only; parts, meta sentences and
customizers never enter equality). -/
inductive AStmt where
  | be (topic : STopic) (neg : Bool) (com : SCom)
  | goV (p : EId) (mod : Option String) (neg : Bool) (rel : String) (dir : String)
      (src : Option EId)
  | getV (p : Option EId) (mod : Option String) (neg : Bool) (rel : String)
      (e : Option EArg) (loc : Option (String × EId))
  | dropV (p : Option EId) (mod : Option String) (neg : Bool) (rel : String)
      (e : Option EArg) (loc : Option (String × EId))
  | opensV (p : EId) (mod : Option String) (neg : Bool) (rel : String) (e : EId)
  | closeV (p : EId) (mod : Option String) (neg : Bool) (rel : String) (e : EId)
  | lookV (p : EId) (mod : Option String) (neg : Bool) (rel : String)
      (target : String × EId)
  | seeV (p : EId) (things : HPoss) (loc : Option (String × EId))
  | haveV (e : EId) (neg : Bool) (poss : HPoss) (loc : Option (String × EId))
  | changeV (p : Option EId) (mod : Option String) (neg : Bool) (rel : String)
      (thing : Option ChThing) (toVal : Option Val)
  | permitV (act : PAct) (neg : Bool)
deriving DecidableEq, Repr

/-- A sentence: an atomic sentence, a concatenation (`tsentences.cont`,
whose describers are the concatenation of the parts' describers), a
`say` wrapper, or the empty placeholder sentence `lc.Sentence()`. -/
inductive Stmt where
  | a (s : AStmt)
  | cont (l : List AStmt)
  | say (p : EId) (inner : Stmt)
  | emptyS
deriving DecidableEq, Repr

/-- A sentence together with its `trusted_source` flag
(`language/components.py`, `Sentence.trusted_source`, default `True`). -/
structure Sent where
  stmt : Stmt
  trusted : Bool := true
deriving DecidableEq, Repr

/-- Random-generator oracle standing for the `random.Random` instance:
`shuffle` is `random_gen.shuffle` (expected to permute its input) and
`randint a b` is `random_gen.randint(a, b)` (an integer between `a` and
`b` inclusive; the model clamps into that range, which is what
`random.Random.randint` guarantees). -/
structure Rnd where
  shuffle : List EId → List EId
  randint : Nat → Nat → Nat

/-- The identity oracle: shuffling keeps the order, `randint a b` picks `a`. -/
def Rnd.low : Rnd where
  shuffle := fun l => l
  randint := fun a _ => a

/-- Walk the `location` links from an entity until they self-loop
(the loop body of `Entity.top_location`). The fuel bounds the walk; the
source loops forever on a location cycle, which well-formed worlds exclude. -/
def topLocAux (w : World) (fuel : Nat) (cur : EId) : EId :=
  match fuel with
  | 0 => cur
  | Nat.succ f =>
      match w.locOf cur with
      | some (_, j) => if j = cur then cur else topLocAux w f j
      | none => cur

/-- Default fuel: one more than the number of entities, enough for any
acyclic location chain. -/
def wfuel (w : World) : Nat := w.ents.length + 1

/-- `Entity.top_location`: `None` when the entity has no location property,
otherwise the first location followed until it self-loops. -/
def topLocation (w : World) (i : EId) : Option EId :=
  match w.locOf i with
  | none => none
  | some (_, j) => some (topLocAux w (wfuel w) j)

/-- The while-loop of `Entity.validate_reachability` over the container
chain: collect a `locked` response for every locked holder and a
`not open` response for every openable-but-closed holder, walking up to
(but not including) the self-looping top location. A missing location
property raises `KeyError` in the source; the model stops there, and the
theorems only use worlds where the chain is total. -/
def chainWalk (negRes : AStmt) (fuel : Nat) (cur : EId) (w : World)
    (lockedAcc notOpenAcc : List Stmt) : World × List Stmt × List Stmt :=
  match fuel with
  | 0 => (w, lockedAcc, notOpenAcc)
  | Nat.succ f =>
      match w.locOf cur with
      | none => (w, lockedAcc, notOpenAcc)
      | some (_, nxt) =>
          if nxt = cur then (w, lockedAcc, notOpenAcc)
          else if w.hasAttr cur (PKey.s "locked") then
            let w := describeE cur w
            chainWalk negRes f nxt w
              (lockedAcc ++
                [Stmt.cont [negRes, AStmt.be (STopic.ent cur) false (SCom.v (Val.str "locked"))]])
              notOpenAcc
          else if w.hasAttr cur (PKey.s "openable") ∧ ¬ w.hasAttr cur (PKey.s "open") then
            let w := describeE cur w
            chainWalk negRes f nxt w lockedAcc
              (notOpenAcc ++
                [Stmt.cont [negRes, AStmt.be (STopic.ent cur) true (SCom.v (Val.str "open"))]])
          else
            chainWalk negRes f nxt w lockedAcc notOpenAcc

/-- `Entity.validate_reachability(self, player, location_entity, neg_res)`:
the accumulated blocking responses (empty when the entity is reachable),
together with the description side effects of building them. -/
def validateReachability (selfE player locEnt : EId) (negRes : AStmt) (w0 : World) :
    List Stmt × World :=
  let playerTop := topLocation w0 player
  -- if 'player' not in player.attributes
  let st1 : List Stmt × World :=
    if ¬ w0.hasAttr player (PKey.s "player") then
      ([Stmt.cont [negRes, AStmt.be (STopic.ent player) true (SCom.v (Val.str "player"))]],
        describeE player w0)
    else ([], w0)
  let log := st1.1
  let w := st1.2
  -- not a door (or no type), and the top locations differ
  let typeOk : Bool :=
    match w.prop selfE (PKey.s "type") with
    | some x => x ≠ Val.str "door"
    | none => true
  let locTop := topLocation w locEnt
  let st2 : List Stmt × World :=
    if typeOk = true ∧ locTop ≠ playerTop then
      let w := describeMany (player :: locTop.toList) w
      (log ++ [Stmt.cont [negRes,
          AStmt.be (STopic.poss player ["location"]) true
            (SCom.v (Val.loc "in" (locTop.getD "")))]], w)
    else (log, w)
  let log := st2.1
  let w := st2.2
  -- a door whose far side and own side both differ from the player's top
  -- location (a door without a location property raises in the source)
  let st3 : List Stmt × World :=
    match w.prop selfE (PKey.s "type"), w.prop selfE (PKey.s "door_to"), w.locOf selfE with
    | some (Val.str "door"), some dv, some (_, l1) =>
        let doorToNe : Bool :=
          match dv with
          | Val.ent d => decide (some d ≠ playerTop)
          | _ => true
        let dId : EId := match dv with | Val.ent d => d | _ => ""
        if doorToNe = true ∧ some l1 ≠ playerTop ∧ locEnt = l1 then
          let w := describeMany [player, dId, l1] w
          (log ++ [Stmt.cont [negRes,
              AStmt.be (STopic.poss player ["location"]) true (SCom.v (Val.loc "in" dId)),
              AStmt.be (STopic.poss player ["location"]) true (SCom.v (Val.loc "in" l1))]], w)
        else (log, w)
    | _, _, _ => (log, w)
  let log := st3.1
  let w := st3.2
  -- container chain: locked holders are reported; merely-closed holders are
  -- reported only when no holder is locked
  let chainCond : Bool :=
    w.hasAttr locEnt (PKey.s "container") &&
      (match w.locOf selfE, topLocation w locEnt with
       | some (_, l1), some t => decide (l1 ≠ t)
       | some _, none => true
       | none, _ => false)
  if chainCond then
    let res := chainWalk negRes (wfuel w) locEnt w [] []
    let w := res.1
    let lockedL := res.2.1
    let notOpenL := res.2.2
    (log ++ lockedL ++ (if lockedL = [] then notOpenL else []), w)
  else
    (log, w)

/-- `em_helpers.item_path`: the chain of locations from an item (inclusive)
up to and including its self-looping top location. -/
def itemPath (w : World) (fuel : Nat) (cur : EId) : List EId :=
  match fuel with
  | 0 => [cur]
  | Nat.succ f =>
      match w.locOf cur with
      | none => [cur]
      | some (_, nxt) => if nxt = cur then [cur] else cur :: itemPath w f nxt

/-- Result of `actions.objects_loc_pos`: `None`, a single object, or a list
of several objects. -/
inductive OLPRes where
  | noneR
  | oneR (i : EId)
  | manyR (l : List EId)
deriving DecidableEq, Repr

/-- `actions.objects_loc_pos(entity, location_preposition)`: the contained
objects whose location preposition matches; with two or more matches a
random permutation is cut to a random length between 1 and all. -/
def objectsLocPos (rnd : Rnd) (w : World) (entity : EId) (lp : String) : OLPRes :=
  let holder := (w.objsOf entity).filter
    (fun o => match w.locOf o with | some (ps, _) => ps = lp | none => false)
  if 1 < holder.length then
    let shuffled := rnd.shuffle holder
    let k := min (max (rnd.randint 1 holder.length) 1) holder.length
    let chosen := shuffled.take k
    match chosen with
    | [x] => OLPRes.oneR x
    | l => OLPRes.manyR l
  else
    match holder with
    | [] => OLPRes.noneR
    | [x] => OLPRes.oneR x
    | l => OLPRes.manyR l

/-- The `HPoss` payload carried by a `have`/`see` sentence for an
`objects_loc_pos` result. -/
def OLPRes.toPoss : OLPRes → HPoss
  | OLPRes.noneR => HPoss.noneP
  | OLPRes.oneR i => HPoss.one i
  | OLPRes.manyR l => HPoss.many l

/-- The entities described while converting an `objects_loc_pos` result into
sentence parts (`join_el_conn` + `convert_obj_to_part`). -/
def OLPRes.described : OLPRes → List EId
  | OLPRes.noneR => []
  | OLPRes.oneR i => [i]
  | OLPRes.manyR l => l

/-- `actions.look_place`: what a player sees inside a place. -/
def lookPlace (rnd : Rnd) (entity player : EId) (lp : String) (w : World) :
    List AStmt × World :=
  if ¬ (w.hasAttr entity (PKey.s "place") ∧ lp = "in") then ([], w)
  else
    let res := objectsLocPos rnd w entity lp
    match res with
    | OLPRes.noneR =>
        let w := describeE entity w
        ([AStmt.haveV entity true (HPoss.str "items") (some (lp, entity))], w)
    | _ =>
        let w := describeMany (player :: res.described) w
        ([AStmt.seeV player res.toPoss none], w)

/-- `actions.look_supporter`. -/
def lookSupporter (rnd : Rnd) (entity : EId) (lp : String) (w : World) :
    List AStmt × World :=
  if ¬ (w.hasAttr entity (PKey.s "supporter") ∧ lp = "on") then ([], w)
  else
    let res := objectsLocPos rnd w entity lp
    match res with
    | OLPRes.noneR =>
        let w := describeE entity w
        ([AStmt.haveV entity true (HPoss.str "items") (some (lp, entity))], w)
    | _ =>
        let w := describeMany (entity :: res.described ++ [entity]) w
        ([AStmt.haveV entity false res.toPoss (some (lp, entity))], w)

/-- `actions.look_container`: locked and closed containers yield the
negative response, open ones report a randomly cut selection of their
contents. -/
def lookContainer (rnd : Rnd) (entity : EId) (lp : String) (canNot : AStmt) (w : World) :
    List AStmt × World :=
  if ¬ (w.hasAttr entity (PKey.s "container") ∧ lp = "in") then ([], w)
  else if w.hasAttr entity (PKey.s "locked") then
    let w := describeE entity w
    ([canNot, AStmt.be (STopic.ent entity) false (SCom.v (Val.str "locked"))], w)
  else if w.hasAttr entity (PKey.s "open") then
    let res := objectsLocPos rnd w entity lp
    match res with
    | OLPRes.noneR =>
        let w := describeE entity w
        ([AStmt.haveV entity true (HPoss.str "items") (some (lp, entity))], w)
    | _ =>
        let w := describeMany (entity :: res.described ++ [entity]) w
        ([AStmt.haveV entity false res.toPoss (some (lp, entity))], w)
  else
    let w := describeE entity w
    ([canNot, AStmt.be (STopic.ent entity) true (SCom.v (Val.str "open"))], w)

/-- `actions.look_hollow`. -/
def lookHollow (rnd : Rnd) (entity : EId) (lp : String) (w : World) :
    List AStmt × World :=
  if ¬ (w.hasAttr entity (PKey.s "hollow") ∧ lp = "under") then ([], w)
  else
    let res := objectsLocPos rnd w entity lp
    match res with
    | OLPRes.noneR =>
        let w := describeE entity w
        ([AStmt.haveV entity true (HPoss.str "items") (some (lp, entity))], w)
    | _ =>
        let w := describeMany (entity :: res.described ++ [entity]) w
        ([AStmt.haveV entity false res.toPoss (some (lp, entity))], w)

/-- `actions.look_inventory`: the branch on a non-empty `objects` list (not
on the matches), exactly as in the source. -/
def lookInventory (rnd : Rnd) (entity : EId) (lp : String) (w : World) :
    List AStmt × World :=
  if ¬ (w.hasAttr entity (PKey.s "player") ∧ lp = "in") then ([], w)
  else if (w.objsOf entity).length > 0 then
    let res := objectsLocPos rnd w entity lp
    let w := describeMany (entity :: res.described ++ [entity]) w
    ([AStmt.haveV entity false res.toPoss (some ("in", entity))], w)
  else
    let w := describeE entity w
    ([AStmt.haveV entity true (HPoss.str "items") (some ("in", entity))], w)

/-- `em_helpers.check_can_not(log, verb)` specialised to `look`: is a
`can not look` sentence among the atoms? -/
def checkCanNotLook (l : List AStmt) : Bool :=
  l.any (fun s =>
    match s with
    | AStmt.lookV _ (some "can") true "look" _ => true
    | _ => false)

/-- The door feedback atoms of `look_object_response` (emitted when looking
`at` a door). -/
def lookDoorLog (entity : EId) (pos : String) (w : World) : List AStmt :=
  if w.prop entity (PKey.s "type") = some (Val.str "door") ∧ pos = "at" then
    if ¬ w.hasAttr entity (PKey.s "open") then
      [AStmt.be (STopic.ent entity) true (SCom.v (Val.str "open"))]
    else
      [AStmt.be (STopic.ent entity) false (SCom.v (Val.str "open"))]
  else []

/-- The description side effect of the door branch of `look_object_response`. -/
def lookDoorW (entity : EId) (pos : String) (w : World) : World :=
  if w.prop entity (PKey.s "type") = some (Val.str "door") ∧ pos = "at" then
    describeE entity w
  else w

/-- The inventory/supporter/container/hollow cascade of
`look_object_response`, appending each helper's feedback to the log. -/
def lookChain (rnd : Rnd) (entity : EId) (pos : String) (canNot : AStmt)
    (log0 : List AStmt) (w : World) : List AStmt × World :=
  let r1 := lookInventory rnd entity pos w
  let r2 := lookSupporter rnd entity pos r1.2
  let r3 := lookContainer rnd entity pos canNot r2.2
  let r4 := lookHollow rnd entity pos r3.2
  (log0 ++ r1.1 ++ r2.1 ++ r3.1 ++ r4.1, r4.2)

/-- The empty-log fallback of `look_object_response`: the missing-attribute
feedback, or `nothing special` when no attribute is missing. -/
def lookNoMatch (entity : EId) (pos : String) (canNot : AStmt) (w : World) :
    List AStmt × World :=
  let negAttrs : List String :=
    if pos = "in" then
      (["container", "place", "player"].filter
        (fun atr => ¬ w.hasAttr entity (PKey.s atr)))
    else if pos = "on" then
      (if ¬ w.hasAttr entity (PKey.s "supporter") then ["supporter"] else [])
    else if pos = "under" then
      (if ¬ w.hasAttr entity (PKey.s "hollow") then ["hollow"] else [])
    else []
  let negLog := negAttrs.map
    (fun atr => AStmt.be (STopic.ent entity) true (SCom.v (Val.str atr)))
  let w := describeMany (negAttrs.map (fun _ => entity)) w
  if negLog ≠ [] then
    (canNot :: negLog, w)
  else
    (([AStmt.be STopic.there false (SCom.nothingSpecial entity)] : List AStmt),
      describeE entity w)

/-- `actions.look_object_response`: a single response (an atom list merged
into one compound sentence by the caller). -/
def lookObjectResponse (rnd : Rnd) (entity player : EId) (pos : String)
    (canNot : AStmt) (w0 : World) : List AStmt × World :=
  let w := describeMany [player, entity] w0
  let lookRes := AStmt.lookV player none false "looks" (pos, entity)
  let log := lookDoorLog entity pos w
  let w := lookDoorW entity pos w
  let pr := lookPlace rnd entity player pos w
  if pr.1 ≠ [] then
    (lookRes :: pr.1, pr.2)
  else
    let ch := lookChain rnd entity pos canNot log pr.2
    let st := if ch.1 = [] then lookNoMatch entity pos canNot ch.2 else ch
    if ¬ checkCanNotLook st.1 then
      (lookRes :: st.1, st.2)
    else st

/-- The location-mismatch check shared by `opens`/`closes`/`get`/`drop`:
feedback when the entity is not at the stated location. -/
def locCheckStage (e : EId) (canNot : AStmt) (locPos : String) (location : EId)
    (acc : List Stmt × World) : List Stmt × World :=
  if acc.2.locOf e ≠ some (locPos, location) then
    (acc.1 ++ [Stmt.cont [canNot,
      AStmt.be (STopic.poss e ["location"]) true (SCom.v (Val.loc locPos location))]],
      describeMany [e, location] acc.2)
  else acc

/-- Feedback when a required attribute is missing (`is not <attr>`). -/
def attrMissingStage (e : EId) (canNot : AStmt) (attr : String)
    (acc : List Stmt × World) : List Stmt × World :=
  if ¬ acc.2.hasAttr e (PKey.s attr) then
    (acc.1 ++ [Stmt.cont [canNot, AStmt.be (STopic.ent e) true (SCom.v (Val.str attr))]],
      describeE e acc.2)
  else acc

/-- Feedback when a forbidding attribute is present (`is <attr>`). -/
def attrPresentStage (e : EId) (canNot : AStmt) (attr : String)
    (acc : List Stmt × World) : List Stmt × World :=
  if acc.2.hasAttr e (PKey.s attr) then
    (acc.1 ++ [Stmt.cont [canNot, AStmt.be (STopic.ent e) false (SCom.v (Val.str attr))]],
      describeE e acc.2)
  else acc

/-- `actions.look(entity, player, position, location)`: the list of valid
responses, each a compound sentence. -/
def look (rnd : Rnd) (entity player : EId) (pos : String) (location : String × EId)
    (w0 : World) : List Stmt × World :=
  let w := describeMany [player, entity] w0
  let canNot := AStmt.lookV player (some "can") true "look" (pos, entity)
  let vr := validateReachability entity player location.2 canNot w
  let st := locCheckStage entity canNot location.1 location.2 (vr.1, vr.2)
  let pr := lookObjectResponse rnd entity player pos canNot st.2
  if canNot ∈ pr.1 then
    (st.1 ++ [Stmt.cont pr.1], pr.2)
  else if st.1 = [] then
    ([Stmt.cont pr.1], pr.2)
  else
    (st.1, pr.2)

/-- The closed-door-obstacle check of `actions.go`. -/
def goObstacleStage (p : EId) (dir : String) (canNot : AStmt) (loc1p fromL : EId)
    (acc : List Stmt × World) : List Stmt × World :=
  let log := acc.1
  let w := acc.2
  match w.prop loc1p (PKey.p dir "obstacle") with
  | some (Val.ent o) =>
      let w := describeMany [loc1p, o, fromL, p] w
      if w.prop o (PKey.s "type") = some (Val.str "door") ∧
          ¬ w.hasAttr o (PKey.s "open") then
        let obsLoc := AStmt.be (STopic.poss loc1p [dir, "obstacle"]) false
          (SCom.v (Val.ent o))
        if w.hasAttr o (PKey.s "locked") then
          (log ++ [Stmt.cont [canNot, obsLoc,
            AStmt.be (STopic.ent o) false (SCom.v (Val.str "locked"))]], w)
        else if ¬ w.hasAttr o (PKey.s "openable") then
          (log ++ [Stmt.cont [canNot, obsLoc,
            AStmt.be (STopic.ent o) true (SCom.v (Val.str "openable"))]], w)
        else
          (log ++ [Stmt.cont [canNot, obsLoc,
            AStmt.be (STopic.ent o) true (SCom.v (Val.str "open"))]], w)
      else (log, w)
  | _ => (log, w)

/-- The unknown-direction and missing-direction checks of `actions.go`. -/
def goDirStage (p : EId) (dir : String) (canNot : AStmt) (loc1p : EId)
    (acc : List Stmt × World) : List Stmt × World :=
  let log := acc.1
  let w := acc.2
  if (dir ∈ w.directions) = false then
    (log ++ [Stmt.a (AStmt.be (STopic.v (Val.str dir)) true (SCom.v (Val.str "direction")))], w)
  else if w.prop loc1p (PKey.s dir) = none then
    let w := describeMany [p, loc1p] w
    (log ++ [Stmt.cont [canNot,
      AStmt.haveV loc1p true (HPoss.strs ["direction", dir]) none]], w)
  else (log, w)

/-- The committed branch of `actions.go`: the player is moved and one undo
record capturing the previous location and its contents list is pushed. -/
def goCore (rnd : Rnd) (p : EId) (dir : String) (loc1p : EId) (log : List Stmt)
    (w : World) : List Stmt × World :=
  match w.prop loc1p (PKey.s dir) with
  | some (Val.ent newLoc) =>
      -- new_location.objects.append(player)
      let w := w.modify newLoc (Ent.objsAppend p)
      let oldLoc := loc1p
      -- old_location_objs = copy(old_location.objects)  (after the append)
      let oldLocObjs := w.objsOf oldLoc
      -- old_location.objects.remove(player)
      let w := w.modify oldLoc (Ent.objsRemove p)
      -- player.properties['location'][1] = new_location
      let oldPos := match w.locOf p with | some (ps, _) => ps | none => "in"
      let w := w.modify p (Ent.locSet oldPos newLoc)
      let w := w.push (URec.goU p oldLoc oldLocObjs)
      let lr := look rnd newLoc p "in" (oldPos, newLoc) w
      let w := describeMany [p, oldLoc] lr.2
      let moved := AStmt.goV p none false "goes" dir (some oldLoc)
      let introAtoms := lr.1.flatMap
        (fun s => match s with | Stmt.cont l => l | Stmt.a x => [x] | _ => [])
      ([Stmt.cont (moved :: introAtoms)], w)
  | _ => (log, w)

/-- `actions.go(player, direction, from_location)`: the list of valid
responses; on success the player is moved and one undo record capturing
the previous location and its contents list is pushed. -/
def go (rnd : Rnd) (p : EId) (dir : String) (fromLoc : Option EId) (w0 : World) :
    List Stmt × World :=
  let fromL := fromLoc.getD (match w0.locOf p with | some (_, l) => l | none => p)
  let w := describeE p w0
  let canNot := AStmt.goV p (some "can") true "go" dir none
  let vr := validateReachability p p fromL canNot w
  let loc1p := match vr.2.locOf p with | some (_, l) => l | none => p
  let st1 := goObstacleStage p dir canNot loc1p fromL (vr.1, vr.2)
  let st2 := goDirStage p dir canNot loc1p st1
  if st2.1 = [] then goCore rnd p dir loc1p st2.1 st2.2
  else st2

/-- `actions.opens(entity, player, location, location_position)`. -/
def opens (e p : EId) (loc0 : Option EId) (pos0 : Option String) (w0 : World) :
    List Stmt × World :=
  let location := loc0.getD (match w0.locOf e with | some (_, l) => l | none => e)
  let locPos := pos0.getD (match w0.locOf e with | some (ps, _) => ps | none => "")
  let w := describeMany [p, e] w0
  let canNot := AStmt.opensV p (some "can") true "open" e
  let vr := validateReachability e p location canNot w
  let st1 := locCheckStage e canNot locPos location (vr.1, vr.2)
  let st2 := attrMissingStage e canNot "openable" st1
  let st3 := attrPresentStage e canNot "locked" st2
  let st4 := attrPresentStage e canNot "open" st3
  if st4.1 = [] then
    let w := describeMany [p, e] st4.2
    let w := w.modify e (Ent.attrAdd (PKey.s "open"))
    let w := w.push (URec.opensU e)
    ([Stmt.cont [AStmt.opensV p none false "opens" e]], w)
  else st4

/-- `actions.closes(entity, player, location, location_position)`. -/
def closes (e p : EId) (location : EId) (locPos : String) (w0 : World) :
    List Stmt × World :=
  let w := describeMany [p, e] w0
  let canNot := AStmt.closeV p (some "can") true "close" e
  let vr := validateReachability e p location canNot w
  let st1 := locCheckStage e canNot locPos location (vr.1, vr.2)
  let st2 := attrMissingStage e canNot "openable" st1
  let st3 := attrPresentStage e canNot "locked" st2
  let st4 := attrMissingStage e canNot "open" st3
  if st4.1 = [] then
    let w := st4.2.modify e (Ent.attrDel (PKey.s "open"))
    let w := describeMany [p, e] w
    let w := w.push (URec.closesU e)
    ([Stmt.a (AStmt.closeV p none false "closes" e)], w)
  else st4

/-- The player-entity check of `actions.get` (players may not be taken). -/
def getPlayerStage (e : EId) (canNot : AStmt) (acc : List Stmt × World) :
    List Stmt × World :=
  if acc.2.hasAttr e (PKey.s "player") then
    (acc.1 ++ [Stmt.cont [canNot,
      AStmt.be (STopic.ent e) false (SCom.v (Val.str "player")),
      AStmt.permitV PAct.gettingPlayers true]], describeE e acc.2)
  else acc

/-- The already-held check of `actions.get`. -/
def getHeldStage (e p : EId) (canNot : AStmt) (acc : List Stmt × World) :
    List Stmt × World :=
  if acc.2.locOf e = some ("in", p) then
    (acc.1 ++ [Stmt.cont [canNot,
      AStmt.be (STopic.poss e ["location"]) false (SCom.v (Val.loc "in" p))]],
      describeMany [e, p] acc.2)
  else acc

/-- `actions.get(entity, player, location, location_position)`: on success
the entity moves into the player's inventory and one undo record capturing
the previous holder, preposition and contents list is pushed. -/
def get (e p : EId) (location : EId) (locPos : String) (w0 : World) :
    List Stmt × World :=
  let w := describeMany [p, e] w0
  let canNot := AStmt.getV (some p) (some "can") true "get" (some (EArg.ent e)) none
  let vr := validateReachability e p location canNot w
  let st1 := locCheckStage e canNot locPos location (vr.1, vr.2)
  let st2 := attrPresentStage e canNot "static" st1
  let st3 := getPlayerStage e canNot st2
  let st4 := getHeldStage e p canNot st3
  if st4.1 = [] then
    let w := st4.2
    let oldPos := match w.locOf e with | some (ps, _) => ps | none => "in"
    -- player.objects.append(entity)
    let w := w.modify p (Ent.objsAppend e)
    -- old_loc_objects = copy(location.objects)  (after the append)
    let oldLocObjs := w.objsOf location
    -- location.objects.remove(entity)
    let w := w.modify location (Ent.objsRemove e)
    -- entity.properties['location'] = ['in', player]
    let w := w.modify e (Ent.locSet "in" p)
    let w := describeMany [p, e] w
    let w := w.push (URec.getU e location oldPos oldLocObjs)
    ([Stmt.a (AStmt.getV (some p) none false "gets" (some (EArg.ent e)) none)], w)
  else st4

/-- `Entity.__gt__`: size comparison; sizes outside the fixed order raise
in the source, and a missing size yields `None` (falsy). -/
def sizeRank (v : Val) : Option Int :=
  match v with
  | Val.strs ["very", "small"] => some (-1)
  | Val.str "small" => some 0
  | Val.str "medium" => some 1
  | Val.str "big" => some 2
  | Val.strs ["very", "big"] => some 3
  | _ => none

/-- `entity > location` as used in `actions.drop` (falsy unless both sizes
are present and comparable). -/
def gtSize (w : World) (e1 e2 : EId) : Bool :=
  match w.prop e1 (PKey.s "size"), w.prop e2 (PKey.s "size") with
  | some v1, some v2 =>
      match sizeRank v1, sizeRank v2 with
      | some r1, some r2 => r2 < r1
      | _, _ => false
  | _, _ => false

/-- The dropping-itself check of `actions.drop`. -/
def dropSelfStage (e location : EId) (canNot : AStmt) (acc : List Stmt × World) :
    List Stmt × World :=
  if e = location then
    (acc.1 ++ [Stmt.cont [canNot, AStmt.permitV PAct.droppingItself true]], acc.2)
  else acc

/-- The cyclic-holding check of `actions.drop`: the target location may not
be (transitively) inside the dropped entity. -/
def dropPathStage (e location : EId) (canNot : AStmt) (acc : List Stmt × World) :
    List Stmt × World :=
  let w := acc.2
  let locPath := itemPath w (wfuel w) location
  if e ∈ locPath then
    let pre := locPath.takeWhile (fun x => x ≠ e)
    if pre ≠ [] then
      let w2 := describeMany (pre.flatMap
        (fun x => x :: (match w.locOf x with | some (_, j) => [j] | none => []))) w
      let subLog := pre.map (fun x =>
        AStmt.be (STopic.poss x ["location"]) false
          (SCom.v (match w.prop x (PKey.s "location") with
                   | some v => v | none => Val.str "")))
      (acc.1 ++ [Stmt.cont (canNot :: subLog)], w2)
    else acc
  else acc

/-- The target-position suitability check of `actions.drop`. -/
def dropPosStage (e location : EId) (locPos : String) (canNot : AStmt)
    (acc : List Stmt × World) : List Stmt × World :=
  let log := acc.1
  let w := acc.2
  if locPos = "in" then
    if ¬ w.hasAttr location (PKey.s "container") ∧ ¬ w.hasAttr location (PKey.s "place") then
      let w := describeMany [location, location] w
      (log ++ [Stmt.cont [canNot,
        AStmt.be (STopic.ent location) true (SCom.v (Val.str "container")),
        AStmt.be (STopic.ent location) true (SCom.v (Val.str "place"))]], w)
    else if w.hasAttr location (PKey.s "container") ∧ gtSize w e location then
      let w := describeMany [e, location] w
      (log ++ [Stmt.cont [canNot,
        AStmt.be (STopic.poss e ["size"]) false
          (SCom.v ((w.prop e (PKey.s "size")).getD (Val.str ""))),
        AStmt.be (STopic.poss location ["size"]) false
          (SCom.v ((w.prop location (PKey.s "size")).getD (Val.str "")))]], w)
    else (log, w)
  else if locPos = "on" then
    if ¬ w.hasAttr location (PKey.s "supporter") then
      (log ++ [Stmt.cont [canNot,
        AStmt.be (STopic.ent location) true (SCom.v (Val.str "supporter"))]],
        describeE location w)
    else (log, w)
  else if locPos = "under" then
    if ¬ w.hasAttr location (PKey.s "hollow") then
      (log ++ [Stmt.cont [canNot,
        AStmt.be (STopic.ent location) true (SCom.v (Val.str "hollow"))]],
        describeE location w)
    else (log, w)
  else
    (log ++ [Stmt.a (AStmt.be STopic.theLocPos true (SCom.posSet ["in", "on", "under"]))], w)

/-- `actions.drop(entity, player, location, location_position)`. -/
def drop (rnd : Rnd) (e p : EId) (location : EId) (locPos : String) (w0 : World) :
    List Stmt × World :=
  let w := describeMany [p, e] w0
  let canNot := AStmt.dropV (some p) (some "can") true "drop" (some (EArg.ent e)) none
  let vr := validateReachability location p location canNot w
  let st1 := locCheckStage e canNot "in" p (vr.1, vr.2)
  let st2 := dropSelfStage e location canNot st1
  let st3 := dropPathStage e location canNot st2
  let st4 := dropPosStage e location locPos canNot st3
  if st4.1 = [] then
    let w := st4.2
    -- old_loc_objects = copy(player.objects)  (before any mutation)
    let oldLocObjs := w.objsOf p
    let w := w.modify p (Ent.objsRemove e)
    let w := w.modify location (Ent.objsAppend e)
    let oldPos := match w.locOf e with | some (ps, _) => ps | none => "in"
    let w := w.modify e (Ent.locSet locPos location)
    let w := describeMany [p, e, location] w
    let w := w.push (URec.dropU e p oldPos oldLocObjs)
    ([Stmt.a (AStmt.dropV (some p) none false "drops" (some (EArg.ent e))
        (some (locPos, location)))], w)
  else st4

/-- Key parts of a property key, as `list(element_key)` / `[element_key]`
in `actions.change`. -/
def keyParts (k : PKey) : List String :=
  match k with
  | PKey.s x => [x]
  | PKey.p x y => [x, y]

/-- The derived `world.<property_key>s` value list (created by
`World.update_all_property_vals`; absent indices read as empty). -/
def World.valsFor (w : World) (k : PKey) : List Val :=
  (alook w.allVals k).getD []

/-- String-keyed association lookup. -/
def slook {α : Type} (l : List (String × α)) (s : String) : Option α :=
  match l with
  | [] => none
  | (s2, v) :: t => if s2 = s then some v else slook t s

/-- The derived `world.player_<prop>s` list. -/
def World.playerValsFor (w : World) (s : String) : List Val :=
  (slook w.playerVals s).getD []

/-- The changeable-key check of `actions.change`. -/
def changeKeyStage (k : PKey) (ekl : List String) (canNot : AStmt)
    (acc : List Stmt × World) : List Stmt × World :=
  if ¬ k ∈ acc.2.changeActionProperties then
    (acc.1 ++ [Stmt.cont [canNot,
      AStmt.permitV (PAct.changingKey ("the" :: ekl)) true]], acc.2)
  else acc

/-- The naming check of `actions.change`: name/surname/nickname may only be
given to players, and only using known player values. -/
def changeNameStage (e : EId) (k : PKey) (v : Val) (canNot : AStmt)
    (acc : List Stmt × World) : List Stmt × World :=
  if k = PKey.s "name" ∨ k = PKey.s "surname" ∨ k = PKey.s "nickname" then
    if ¬ acc.2.hasAttr e (PKey.s "player") then
      (acc.1 ++ [Stmt.cont [canNot,
        AStmt.be (STopic.ent e) true (SCom.v (Val.str "player"))]], describeE e acc.2)
    else
      let kStr := match k with | PKey.s x => x | PKey.p x _ => x
      if ¬ v ∈ acc.2.playerValsFor kStr then
        (acc.1 ++ [Stmt.cont [canNot,
          AStmt.be (STopic.v v) true (SCom.v (Val.strs ["player", kStr]))]], acc.2)
      else acc
  else acc

/-- The known-value check of `actions.change`. -/
def changeValStage (k : PKey) (v : Val) (canNot : AStmt)
    (acc : List Stmt × World) : List Stmt × World :=
  if k ∈ acc.2.changeActionProperties then
    if ¬ v ∈ acc.2.valsFor k then
      let com := match k with
        | PKey.s x => Val.str x
        | PKey.p x y => Val.strs [x, y]
      (acc.1 ++ [Stmt.cont [canNot, AStmt.be (STopic.v v) true (SCom.v com)]], acc.2)
    else acc
  else acc

/-- The held-item check of `actions.change` for size and color. -/
def changeHeldStage (e p : EId) (k : PKey) (canNot : AStmt)
    (acc : List Stmt × World) : List Stmt × World :=
  if (k = PKey.s "size" ∨ k = PKey.s "color") ∧ ¬ e ∈ acc.2.objsOf p then
    let kStr := match k with | PKey.s x => x | PKey.p x _ => x
    (acc.1 ++ [Stmt.cont [canNot,
      AStmt.be (STopic.poss e ["location"]) true (SCom.v (Val.loc "in" p)),
      AStmt.permitV (PAct.changingItemKeyIf kStr) false]], describeMany [e, p] acc.2)
  else acc

/-- The already-equal check of `actions.change`. -/
def changeSameStage (e : EId) (k : PKey) (ekl : List String) (v : Val)
    (canNot : AStmt) (acc : List Stmt × World) : List Stmt × World :=
  if acc.2.prop e k = some v then
    (acc.1 ++ [Stmt.cont [canNot,
      AStmt.be (STopic.poss e ekl) false (SCom.v v)]], describeE e acc.2)
  else acc

/-- `ent.prop_seen.get(element_key)` as read by `actions.change`. -/
def propSeenOf (w : World) (i : EId) (k : PKey) : Option Val :=
  match w.get i with
  | some en => alook en.propSeen k
  | none => none

/-- The tail of `actions.change` after the validations: the tentative
mutation, the conflict scan and either the committed change (with its undo
record) or the full revert. -/
def changeCore (genDesc : World → EId → Bool) (e p : EId) (k : PKey) (v : Val)
    (ekl : List String) (canNot : AStmt) (log : List Stmt) (w0 : World) :
    List Stmt × World :=
  -- prev_player_desc / prev_item_desc (both already memoised above)
  let w := describeE p w0
  let w := describeE e w
  let oldVal := w.prop e k
  -- tentative mutation of the property and of prop_seen
  let oldProp := propSeenOf w e k
  let w := w.modify e (Ent.changeApply k v)
  let revertProp : World → World := fun w2 => w2.modify e (Ent.propRestore k oldVal)
  let revertSeen : World → World := fun w2 => w2.modify e (Ent.seenRestore k oldProp)
  let allConflicting := (w.ents.map Prod.fst).filter
    (fun i => w.prop i k = some v ∧ genDesc w i = false)
  if allConflicting ≠ [] then
    let w := revertSeen (revertProp w)
    let res := allConflicting.foldl (fun (acc : List Stmt × World) obj =>
      let w := describeMany [e, obj] acc.2
      (acc.1 ++ [Stmt.cont [canNot,
        AStmt.be (STopic.theChange e ekl v) false (SCom.conflicting obj)]], w))
      (log, w)
    res
  else
    if log = [] then
      let w := revertSeen w
      let w := w.push (URec.changeU e k oldVal)
      let w := describeE e w
      ([Stmt.a (AStmt.changeV (some p) none false "changes"
          (some (ChThing.entKey e ekl)) (some v))], w)
    else
      (log, revertProp (revertSeen w))

/-- `actions.change(entity, player, element_key, element_val)`. The
`genDesc` oracle stands for `wobj.generate_description(relaxed=False)`,
whose candidate selection is random; only whether it returns `None` is
consumed here (`None` = no entity-distinguishing description remains after
the tentative change). On success the property is committed, the
tentative `prop_seen` update is reverted, and exactly one `changeU`
record capturing the previous value is pushed; on a conflict the
tentative mutation is fully reverted and nothing is pushed. -/
def change (genDesc : World → EId → Bool) (e p : EId) (k : PKey) (v : Val)
    (w0 : World) : List Stmt × World :=
  let ekl := keyParts k
  let w := describeMany [p, e] w0
  let canNot := AStmt.changeV (some p) (some "can") true "change"
    (some (ChThing.entKey e ekl)) (some v)
  let st1 := changeKeyStage k ekl canNot ([], w)
  let st2 := changeNameStage e k v canNot st1
  let st3 := changeValStage k v canNot st2
  let st4 := changeHeldStage e p k canNot st3
  let st5 := changeSameStage e k ekl v canNot st4
  changeCore genDesc e p k v ekl canNot st5.1 st5.2

/-- One committed action-layer call. -/
inductive Act where
  | goA (p : EId) (dir : String) (fromLoc : Option EId)
  | opensA (e p : EId) (loc : Option EId) (pos : Option String)
  | closesA (e p : EId) (loc : EId) (pos : String)
  | getA (e p : EId) (loc : EId) (pos : String)
  | dropA (e p : EId) (loc : EId) (pos : String)
  | changeA (e p : EId) (k : PKey) (v : Val)
deriving DecidableEq, Repr

/-- Execute one action-layer call, keeping only the world. -/
def applyAct (rnd : Rnd) (genDesc : World → EId → Bool) (a : Act) (w : World) : World :=
  match a with
  | Act.goA p dir fromLoc => (go rnd p dir fromLoc w).2
  | Act.opensA e p loc pos => (opens e p loc pos w).2
  | Act.closesA e p loc pos => (closes e p loc pos w).2
  | Act.getA e p loc pos => (get e p loc pos w).2
  | Act.dropA e p loc pos => (drop rnd e p loc pos w).2
  | Act.changeA e p k v => (change genDesc e p k v w).2

/-- Execute a sequence of action-layer calls. -/
def applyActs (rnd : Rnd) (genDesc : World → EId → Bool) (l : List Act) (w : World) :
    World :=
  match l with
  | [] => w
  | a :: t => applyActs rnd genDesc t (applyAct rnd genDesc a w)

/-- One undo record of the knowledge base's own undo log: one constructor
per closure pushed by `kn_updaters.basic_update`, the `kn_helpers`
functions and `update_elem_exists_alt`. -/
inductive KRec where
  | addSentU (s : Stmt)
  | removeSentU (s : Stmt)
  | propSeenU (i : EId) (k : PKey) (old : Option Val)
  | propSeenRemU (i : EId) (k : PKey) (old : Val)
  | propSeenNegSetU (i : EId) (k : PKey)
  | propSeenNegValU (i : EId) (k : PKey) (x : Val)
  | propSeenNegRemU (i : EId) (k : PKey) (x : Val)
  | attrSeenU (i : EId) (a : PKey) (neg : Bool)
  | attrSeenRemU (i : EId) (a : PKey) (neg : Bool)
  | elemExU (i : EId) (k : PKey) (neg : Bool)
  | elemExRemU (i : EId) (k : PKey) (neg : Bool)
deriving DecidableEq, Repr

/-- The knowledge base's own bookkeeping (`state/knowledge_base.py`); the
per-entity visibility state lives on the world's entities. -/
structure KB where
  sentDb : List Stmt
  undo : List KRec
  lastContextId : Nat
deriving DecidableEq, Repr

/-- A fresh knowledge base. -/
def KB.init : KB := { sentDb := [], undo := [], lastContextId := 0 }

/-- The first describer of a sentence (`sent.describers[0]`): the atom
itself, or the head of a compound sentence. A `say` sentence's first
describer has the verb `say`, which none of the modelled parsers accept,
so it maps to `none` here. -/
def firstDesc (s : Stmt) : Option AStmt :=
  match s with
  | Stmt.a x => some x
  | Stmt.cont (x :: _) => some x
  | _ => none

/-- A sentence that consists of exactly one describer, as required by the
`mapped_sent == sent` comparisons of the updaters. -/
def asSingle (s : Stmt) : Option AStmt :=
  match s with
  | Stmt.a x => some x
  | Stmt.cont [x] => some x
  | _ => none

/-- Flip the `AM-NEG` argument of one describer
(`kn_helpers.create_oppos_sent`). -/
def flipNeg (x : AStmt) : AStmt :=
  match x with
  | AStmt.be t n c => AStmt.be t (¬ n) c
  | AStmt.goV p m n r d s => AStmt.goV p m (¬ n) r d s
  | AStmt.getV p m n r e l => AStmt.getV p m (¬ n) r e l
  | AStmt.dropV p m n r e l => AStmt.dropV p m (¬ n) r e l
  | AStmt.opensV p m n r e => AStmt.opensV p m (¬ n) r e
  | AStmt.closeV p m n r e => AStmt.closeV p m (¬ n) r e
  | AStmt.lookV p m n r t => AStmt.lookV p m (¬ n) r t
  | AStmt.seeV p t l => AStmt.seeV p t l
  | AStmt.haveV e n ps l => AStmt.haveV e (¬ n) ps l
  | AStmt.changeV p m n r t v => AStmt.changeV p m (¬ n) r t v
  | AStmt.permitV a n => AStmt.permitV a (¬ n)

/-- Opposite sentence (`kn_helpers.create_oppos_sent`): one describer,
copied from the sentence's first describer with the negation flipped.
The source sentence `see` carries no `AM-NEG` slot in the modelled
constructions, so flipping it is the identity there. -/
def opposStmt (s : Stmt) : Stmt :=
  match firstDesc s with
  | some x => Stmt.a (flipNeg x)
  | none => Stmt.emptyS

/-- `kn_helpers.check_prop`: parse `<entity> 's <key> is (not) <value>` or
`<entity> is (not) <attribute>`. Only plain value comments (`SCom.v`)
can ever match a stored property or attribute, so the special comment
shapes are rejected here, matching the no-op the source performs on them. -/
def checkProp (s : Stmt) : Option (EId × Option PKey × Val × Bool) :=
  match firstDesc s with
  | some (AStmt.be topic neg com) =>
      match com with
      | SCom.v pval =>
          match topic with
          | STopic.poss i ks =>
              match ks with
              | [k] => some (i, some (PKey.s k), pval, neg)
              | [a, b] => some (i, some (PKey.p a b), pval, neg)
              | _ => none
          | STopic.ent i => some (i, none, pval, neg)
          | _ => none
      | _ => none
  | _ => none

/-- `kn_helpers.add_prop_seen`. -/
def addPropSeen (i : EId) (k : PKey) (v : Val) (w : World) (kb : KB) : World × KB :=
  let old := match w.get i with | some e => alook e.propSeen k | none => none
  (w.modify i (fun e => { e with propSeen := aset e.propSeen k v }),
    { kb with undo := kb.undo ++ [KRec.propSeenU i k old] })

/-- `kn_helpers.remove_prop_seen`. -/
def removePropSeen (i : EId) (k : PKey) (w : World) (kb : KB) : World × KB :=
  match w.get i with
  | some e =>
      match alook e.propSeen k with
      | some old =>
          (w.modify i (fun en => { en with propSeen := adel en.propSeen k }),
            { kb with undo := kb.undo ++ [KRec.propSeenRemU i k old] })
      | none => (w, kb)
  | none => (w, kb)

/-- `kn_helpers.add_prop_seen_neg`. -/
def addPropSeenNeg (i : EId) (k : PKey) (v : Val) (w : World) (kb : KB) : World × KB :=
  match w.get i with
  | none => (w, kb)
  | some e =>
      let st1 : World × KB :=
        if alook e.propSeenNeg k = none then
          (w.modify i (fun en => { en with propSeenNeg := aset en.propSeenNeg k [] }),
            { kb with undo := kb.undo ++ [KRec.propSeenNegSetU i k] })
        else (w, kb)
      let w := st1.1
      let kb := st1.2
      match w.get i with
      | none => (w, kb)
      | some e2 =>
          if v ∈ (alook e2.propSeenNeg k).getD [] then (w, kb)
          else
            (w.modify i (fun en =>
              let newList := (alook en.propSeenNeg k).getD [] ++ [v]
              { en with propSeenNeg := aset en.propSeenNeg k newList }),
              { kb with undo := kb.undo ++ [KRec.propSeenNegValU i k v] })

/-- `kn_helpers.remove_prop_seen_neg`. -/
def removePropSeenNeg (i : EId) (k : PKey) (v : Val) (w : World) (kb : KB) : World × KB :=
  match w.get i with
  | none => (w, kb)
  | some e =>
      match alook e.propSeenNeg k with
      | some l =>
          if v ∈ l then
            (w.modify i (fun en =>
              { en with propSeenNeg := aset en.propSeenNeg k (lerase l v) }),
              { kb with undo := kb.undo ++ [KRec.propSeenNegRemU i k v] })
          else (w, kb)
      | none => (w, kb)

/-- `kn_helpers.add_attr_seen`. -/
def addAttrSeen (i : EId) (a : PKey) (neg : Bool) (w : World) (kb : KB) : World × KB :=
  match w.get i with
  | none => (w, kb)
  | some e =>
      let present := if neg then a ∈ e.attrSeenNeg else a ∈ e.attrSeen
      if present then (w, kb)
      else
        (w.modify i (fun en =>
          if neg then { en with attrSeenNeg := sadd en.attrSeenNeg a }
          else { en with attrSeen := sadd en.attrSeen a }),
          { kb with undo := kb.undo ++ [KRec.attrSeenU i a neg] })

/-- `kn_helpers.remove_attr_seen`. -/
def removeAttrSeen (i : EId) (a : PKey) (neg : Bool) (w : World) (kb : KB) : World × KB :=
  match w.get i with
  | none => (w, kb)
  | some e =>
      let present := if neg then a ∈ e.attrSeenNeg else a ∈ e.attrSeen
      if present then
        (w.modify i (fun en =>
          if neg then { en with attrSeenNeg := lerase en.attrSeenNeg a }
          else { en with attrSeen := lerase en.attrSeen a }),
          { kb with undo := kb.undo ++ [KRec.attrSeenRemU i a neg] })
      else (w, kb)

/-- `kn_updaters.property_update_alt`: fold an observed (entity, key,
value, negation) into the entity's visibility state, after validating it
against the current world. Callers that pass non-entities reach the
source's `world_ent is None` no-op, modelled at the call sites. -/
def propertyUpdateAlt (ent : EId) (pkey : Option PKey) (pval : Val) (pneg : Bool)
    (w : World) (kb : KB) : World × KB :=
  match w.get ent with
  | none => (w, kb)
  | some we =>
      match pkey with
      | some k =>
          match alook we.props k with
          | none => (w, kb)
          | some cur =>
              if ¬ pneg ∧ cur = pval then
                let r := addPropSeen ent k pval w kb
                removePropSeenNeg ent k pval r.1 r.2
              else if pneg ∧ cur ≠ pval then
                let r := addPropSeenNeg ent k pval w kb
                let w := r.1
                let kb := r.2
                match w.get ent with
                | some we2 =>
                    if alook we2.propSeen k = some pval then removePropSeen ent k w kb
                    else (w, kb)
                | none => (w, kb)
              else (w, kb)
      | none =>
          match pval with
          | Val.str a =>
              let ak := PKey.s a
              if ¬ pneg ∧ ak ∈ we.attrs then
                let r := addAttrSeen ent ak false w kb
                removeAttrSeen ent ak true r.1 r.2
              else if pneg ∧ ¬ ak ∈ we.attrs then
                let r := addAttrSeen ent ak true w kb
                removeAttrSeen ent ak false r.1 r.2
              else (w, kb)
          | _ => (w, kb)

/-- `kn_updaters.property_update`, including its two extra derivations
(`locked` implies not `open`; a confirmed place type reveals the
location). Reading a missing `type` property raises `KeyError` in the
source, which aborts the remaining updaters for this sentence: the
Boolean result is `false` exactly there. -/
def propertyUpdate (s : Stmt) (w : World) (kb : KB) : (World × KB) × Bool :=
  match checkProp s with
  | none => ((w, kb), true)
  | some (ent, pkey, pval, pneg) =>
      let r := propertyUpdateAlt ent pkey pval pneg w kb
      let w := r.1
      let kb := r.2
      match w.get ent with
      | none => ((w, kb), true)
      | some we =>
          match pkey with
          | none =>
              if pval = Val.str "locked" ∧ ¬ pneg ∧ (PKey.s "locked") ∈ we.attrs then
                (propertyUpdateAlt ent none (Val.str "open") true w kb, true)
              else ((w, kb), true)
          | some k =>
              if k = PKey.s "type" ∧ ¬ pneg then
                match alook we.props (PKey.s "type") with
                | none => ((w, kb), false)
                | some tv =>
                    if tv = pval ∧ (PKey.s "place") ∈ we.attrs then
                      match alook we.props (PKey.s "location") with
                      | some lv =>
                          (propertyUpdateAlt ent (some (PKey.s "location")) lv false w kb,
                            true)
                      | none => ((w, kb), true)
                    else ((w, kb), true)
              else ((w, kb), true)

/-- `kn_parsers.have_parse`: a single-describer present-tense `have`
sentence with an entity owner and a non-`None` possession. -/
def haveParse (s : Stmt) : Option (EId × HPoss × Bool × Option (String × EId)) :=
  match asSingle s with
  | some (AStmt.haveV e neg poss loc) =>
      match poss with
      | HPoss.noneP => none
      | _ => some (e, poss, neg, loc)
  | _ => none

/-- `kn_updaters.have_update`: mark the location of the possessions as
observed (and, for positive statements, mark all other objects'
location as not there; for `has not items`, mark every object's location
as not there). Updates on non-entity possessions are the
`world_ent is None` no-op of `property_update_alt`. -/
def haveUpdate (s : Stmt) (w : World) (kb : KB) : World × KB :=
  match haveParse s with
  | none => (w, kb)
  | some (owner, poss, neg, loc0) =>
      let loc := loc0.getD ("in", owner)
      let lv := Val.loc loc.1 loc.2
      if poss = HPoss.str "items" ∧ neg then
        (w.ents.map Prod.fst).foldl
          (fun acc obj => propertyUpdateAlt obj (some (PKey.s "location")) lv true acc.1 acc.2)
          (w, kb)
      else
        let possL : List EId :=
          match poss with
          | HPoss.one i => [i]
          | HPoss.many l => l
          | _ => []
        let r := possL.foldl
          (fun acc obj => propertyUpdateAlt obj (some (PKey.s "location")) lv neg acc.1 acc.2)
          (w, kb)
        if ¬ neg then
          (r.1.ents.map Prod.fst).foldl
            (fun acc obj =>
              if obj ∈ possL then acc
              else propertyUpdateAlt obj (some (PKey.s "location")) lv true acc.1 acc.2)
            r
        else r

/-- The element key extracted by `kn_parsers.elem_exists_parse`. Keys that
can never name a property or attribute (an entity, `None`, or a tuple of
more than two components) are collapsed to `none`; the source stores
such objects in the `elem_*exists` sets, where no modelled query ever
looks them up. -/
def elemExistsParse (s : Stmt) : Option (EId × Option PKey × Bool) :=
  match asSingle s with
  | some (AStmt.haveV e neg poss loc) =>
      match loc with
      | some _ => none
      | none =>
          match poss with
          | HPoss.str x => some (e, some (PKey.s x), neg)
          | HPoss.strs l =>
              match l with
              | ["direction", d] => some (e, some (PKey.s d), neg)
              | [a, b] => some (e, some (PKey.p a b), neg)
              | _ => some (e, none, neg)
          | _ => some (e, none, neg)
  | _ => none

/-- `kn_updaters.update_elem_exists_alt`. -/
def updateElemExistsAlt (i : EId) (elem : Option PKey) (pneg : Bool)
    (w : World) (kb : KB) : World × KB :=
  match w.get i with
  | none => (w, kb)
  | some we =>
      let incond : Bool :=
        match elem with
        | some k => (alook we.props k).isSome ∨ k ∈ we.attrs
        | none => false
      let cond := if pneg then ¬ incond else incond
      if cond then
        match elem with
        | none => (w, kb)
        | some k =>
            if ¬ pneg then
              let st1 : World × KB :=
                if ¬ k ∈ we.elemExists then
                  (w.modify i (fun en => { en with elemExists := sadd en.elemExists k }),
                    { kb with undo := kb.undo ++ [KRec.elemExU i k false] })
                else (w, kb)
              let w := st1.1
              let kb := st1.2
              if k ∈ we.elemNotExists then
                (w.modify i (fun en => { en with elemNotExists := lerase en.elemNotExists k }),
                  { kb with undo := kb.undo ++ [KRec.elemExRemU i k true] })
              else (w, kb)
            else
              let st1 : World × KB :=
                if ¬ k ∈ we.elemNotExists then
                  (w.modify i (fun en => { en with elemNotExists := sadd en.elemNotExists k }),
                    { kb with undo := kb.undo ++ [KRec.elemExU i k true] })
                else (w, kb)
              let w := st1.1
              let kb := st1.2
              if k ∈ we.elemExists then
                (w.modify i (fun en => { en with elemExists := lerase en.elemExists k }),
                  { kb with undo := kb.undo ++ [KRec.elemExRemU i k false] })
              else (w, kb)
      else (w, kb)

/-- `kn_updaters.update_elem_exists`. -/
def updateElemExists (s : Stmt) (w : World) (kb : KB) : World × KB :=
  match elemExistsParse s with
  | none => (w, kb)
  | some (ent, elem, pneg) => updateElemExistsAlt ent elem pneg w kb

/-- `kn_updaters.see_updater`: a `see` sentence with a well-formed location
marks the location of the seen items and the player. -/
def seeUpdater (s : Stmt) (w : World) (kb : KB) : World × KB :=
  match asSingle s with
  | some (AStmt.seeV player things loc) =>
      match loc with
      | some (pos, l) =>
          if pos ∈ w.locationPositions then
            let thingsL : List EId :=
              match things with
              | HPoss.one i => [i]
              | HPoss.many li => li
              | _ => []
            (thingsL ++ [player]).foldl
              (fun acc ent =>
                propertyUpdateAlt ent (some (PKey.s "location")) (Val.loc pos l) false
                  acc.1 acc.2)
              (w, kb)
          else (w, kb)
      | none => (w, kb)
  | _ => (w, kb)

/-- `kn_updaters.look_updater`: a sentence whose first describer is a
present-tense `look` marks the location of the player and the looked-at
entity; with exactly two describers the second one is re-run through
`see_updater` with the looked-at location filled in when missing. -/
def lookUpdater (s : Stmt) (w : World) (kb : KB) : World × KB :=
  match firstDesc s with
  | some (AStmt.lookV player none false rel (pos, tgt)) =>
      if rel = "look" ∨ rel = "looks" then
        let st1 : World × KB :=
          if pos ∈ w.locationPositions then
            let r := propertyUpdateAlt player (some (PKey.s "location")) (Val.loc pos tgt)
              false w kb
            propertyUpdateAlt tgt (some (PKey.s "location")) (Val.loc pos tgt) false r.1 r.2
          else (w, kb)
        let w := st1.1
        let kb := st1.2
        match s with
        | Stmt.cont [_, b] =>
            let b2 := match b with
              | AStmt.seeV pl things none => AStmt.seeV pl things (some (pos, tgt))
              | x => x
            seeUpdater (Stmt.a b2) w kb
        | _ => (w, kb)
      else (w, kb)
  | _ => (w, kb)

/-- `kn_updaters.go_updater`: a three-describer sentence starting with
`<player> goes <direction> from <start>` followed by a `look`; the
direction of the start location and the player's new location become
observed. Reading a direction property that is missing raises in the
source, aborting the remaining updaters (Boolean `false`). -/
def goUpdater (s : Stmt) (w : World) (kb : KB) : (World × KB) × Bool :=
  match s with
  | Stmt.cont [AStmt.goV player none false rel dir (some src), b, _] =>
      if rel = "go" ∨ rel = "goes" then
        match b with
        | AStmt.lookV pl none false rel2 (pos2, tgt2) =>
            if (rel2 = "look" ∨ rel2 = "looks") ∧ pl = player then
              match w.prop src (PKey.s dir) with
              | none => ((w, kb), false)
              | some pv =>
                  if pv = Val.ent tgt2 then
                    let r := propertyUpdateAlt src (some (PKey.s dir)) pv false w kb
                    (propertyUpdateAlt player (some (PKey.s "location"))
                      (Val.loc pos2 tgt2) false r.1 r.2, true)
                  else ((w, kb), true)
            else ((w, kb), true)
        | _ => ((w, kb), true)
      else ((w, kb), true)
  | _ => ((w, kb), true)

/-- `kn_updaters.get_updater`. -/
def getUpdater (s : Stmt) (w : World) (kb : KB) : World × KB :=
  match asSingle s with
  | some (AStmt.getV (some player) none false rel (some (EArg.ent thing)) _) =>
      if rel = "get" ∨ rel = "gets" then
        propertyUpdateAlt thing (some (PKey.s "location")) (Val.loc "in" player) false w kb
      else (w, kb)
  | _ => (w, kb)

/-- `kn_updaters.drop_updater`. -/
def dropUpdater (s : Stmt) (w : World) (kb : KB) : World × KB :=
  match asSingle s with
  | some (AStmt.dropV (some player) none false rel (some (EArg.ent thing))
      (some (pos, l))) =>
      if (rel = "drop" ∨ rel = "drops") ∧ pos ∈ w.locationPositions then
        let r := propertyUpdateAlt player (some (PKey.s "location")) (Val.loc pos l) false w kb
        propertyUpdateAlt thing (some (PKey.s "location")) (Val.loc pos l) false r.1 r.2
      else (w, kb)
  | _ => (w, kb)

/-- `kn_updaters.opens_updater`. -/
def opensUpdater (s : Stmt) (w : World) (kb : KB) : World × KB :=
  match asSingle s with
  | some (AStmt.opensV _ none false rel thing) =>
      if rel = "open" ∨ rel = "opens" then
        let r := propertyUpdateAlt thing none (Val.str "open") false w kb
        propertyUpdateAlt thing none (Val.str "openable") false r.1 r.2
      else (w, kb)
  | _ => (w, kb)

/-- `kn_updaters.close_updater`. -/
def closeUpdater (s : Stmt) (w : World) (kb : KB) : World × KB :=
  match asSingle s with
  | some (AStmt.closeV _ none false rel thing) =>
      if rel = "close" ∨ rel = "closes" then
        let r := propertyUpdateAlt thing none (Val.str "open") true w kb
        propertyUpdateAlt thing none (Val.str "openable") false r.1 r.2
      else (w, kb)
  | _ => (w, kb)

/-- `kn_updaters.basic_update`: add the sentence to the factual database and
remove its opposite, with undo records for both. -/
def basicUpdate (s : Stmt) (w : World) (kb : KB) : World × KB :=
  let kb :=
    if s ∈ kb.sentDb then kb
    else { kb with sentDb := kb.sentDb ++ [s], undo := kb.undo ++ [KRec.addSentU s] }
  let opp := opposStmt s
  let kb :=
    if opp ∈ kb.sentDb then
      { kb with sentDb := lerase kb.sentDb opp, undo := kb.undo ++ [KRec.removeSentU opp] }
    else kb
  (w, kb)

/-- `kn_updaters.change_updater`: a `changing <key> is not permitted`
sentence is added to the database. The extracted key is a word list that
is never a member of `change_action_properties` (those are strings and
tuples), so the source's final membership test always passes. -/
def changeUpdater (s : Stmt) (w : World) (kb : KB) : World × KB :=
  match asSingle s with
  | some (AStmt.permitV (PAct.changingKey _) true) => basicUpdate s w kb
  | _ => (w, kb)

/-- `kn_updaters.permit_updater`: the four fixed permission sentences are
added to the database. -/
def permitUpdater (s : Stmt) (w : World) (kb : KB) : World × KB :=
  match asSingle s with
  | some (AStmt.permitV act neg) =>
      if (act = PAct.gettingPlayers ∧ neg) ∨
          (act = PAct.changingItemKeyIf "color" ∧ ¬ neg) ∨
          (act = PAct.changingItemKeyIf "size" ∧ ¬ neg) ∨
          (act = PAct.droppingItself ∧ neg) then
        basicUpdate s w kb
      else (w, kb)
  | _ => (w, kb)

/-- `KnowledgeBase.single_update`: run every registered updater in order.
An exception (modelled by the Boolean flag of `propertyUpdate` and
`goUpdater`) keeps the effects made so far and aborts the remaining
updaters, matching the per-sentence `try`/`except` of `multi_update`.
No updater consults `sent.trusted_source`. -/
def singleUpdate (s : Sent) (w : World) (kb : KB) : World × KB :=
  let r1 := propertyUpdate s.stmt w kb
  if r1.2 = false then r1.1
  else
    let r := r1.1
    let r := haveUpdate s.stmt r.1 r.2
    let r := lookUpdater s.stmt r.1 r.2
    let r := seeUpdater s.stmt r.1 r.2
    let r2 := goUpdater s.stmt r.1 r.2
    if r2.2 = false then r2.1
    else
      let r := r2.1
      let r := getUpdater s.stmt r.1 r.2
      let r := dropUpdater s.stmt r.1 r.2
      let r := opensUpdater s.stmt r.1 r.2
      let r := closeUpdater s.stmt r.1 r.2
      let r := updateElemExists s.stmt r.1 r.2
      let r := changeUpdater s.stmt r.1 r.2
      permitUpdater s.stmt r.1 r.2

/-- `KnowledgeBase.multi_update`. -/
def multiUpdate (sents : List Sent) (w : World) (kb : KB) : World × KB :=
  match sents with
  | [] => (w, kb)
  | s :: t =>
      let r := singleUpdate s w kb
      multiUpdate t r.1 r.2

/-- The filter of `KnowledgeBase.context_update`: keep sentences with at
least one describer whose `Rel` is set. Every modelled atom carries a
relation; `say` wrappers pass the filter in the source but every updater
ignores their verb, so dropping them here is observationally equal. -/
def hasRelFilter (s : Sent) : Bool :=
  (firstDesc s.stmt).isSome

/-- `KnowledgeBase.context_update`: process exactly the unseen suffix of
the meta context (all of it after a flush made the remembered offset
exceed the context length) and remember the new offset. -/
def contextUpdate (ctx : List Sent) (w : World) (kb : KB) : World × KB :=
  let lastNum :=
    if ctx.length < kb.lastContextId then ctx.length
    else ctx.length - kb.lastContextId
  let addition :=
    (if lastNum > 0 ∧ ctx.length ≥ lastNum then ctx.drop (ctx.length - lastNum) else []).filter
      hasRelFilter
  let r := multiUpdate addition w kb
  (r.1, { r.2 with lastContextId := ctx.length })

/-- The attribute branch of `kn_checkers.property_check_alt`. -/
def attrCheckAlt (ent : EId) (a : PKey) (w : World) : Option Bool :=
  match w.get ent with
  | none => none
  | some we =>
      if a ∈ we.attrSeen then some true
      else if a ∈ we.attrSeenNeg then some false
      else none

/-- `kn_checkers.property_check_alt`: answer a property or attribute query
from the visibility state only; `none` means not yet observed. -/
def propertyCheckAlt (ent : EId) (pkey : Option PKey) (pval : Val) (pneg : Bool)
    (w : World) : Option Bool :=
  match w.get ent with
  | none => none
  | some we =>
      let result : Option Bool :=
        match pkey with
        | some k =>
            match alook we.propSeen k with
            | some sv => some (sv = pval)
            | none =>
                match alook we.propSeenNeg k with
                | some l => if pval ∈ l then some false else none
                | none => none
        | none =>
            match pval with
            | Val.str a => attrCheckAlt ent (PKey.s a) w
            | _ => none
      match result with
      | some b => some (if pneg then ¬ b else b)
      | none => none

/-- `kn_checkers.property_check`. -/
def propertyCheck (w : World) (_kb : KB) (s : Stmt) : Option Bool :=
  match checkProp s with
  | none => none
  | some (ent, pkey, pval, pneg) => propertyCheckAlt ent pkey pval pneg w

/-- `kn_checkers.have_check`. -/
def haveCheck (w : World) (_kb : KB) (s : Stmt) : Option Bool :=
  match haveParse s with
  | none => none
  | some (owner, poss, neg, loc0) =>
      let loc := loc0.getD ("in", owner)
      let lv := Val.loc loc.1 loc.2
      let objs : Option (List EId) :=
        if poss = HPoss.str "items" ∧ neg then some (w.ents.map Prod.fst)
        else
          match poss with
          | HPoss.one i => some [i]
          | HPoss.many l => some l
          | HPoss.str _ => none
          | HPoss.strs _ => none
          | HPoss.noneP => some []
      match objs with
      | none => none
      | some li =>
          let results := li.map
            (fun obj => propertyCheckAlt obj (some (PKey.s "location")) lv neg w)
          if results ≠ [] ∧ results.all (fun r => r = some true) then some true
          else if (some false) ∈ results then some false
          else none

/-- `kn_checkers.check_elem_exists_alt`. -/
def checkElemExistsAlt (ent : EId) (elem : Option PKey) (pneg : Bool) (w : World) :
    Option Bool :=
  match w.get ent with
  | none => none
  | some we =>
      let result : Option Bool :=
        match elem with
        | none => none
        | some k =>
            if k ∈ we.elemExists ∨ (alook we.propSeen k).isSome ∨ k ∈ we.attrSeen then
              some true
            else if k ∈ we.elemNotExists then some false
            else none
      match result with
      | some b => some (if pneg then ¬ b else b)
      | none => none

/-- `kn_checkers.check_elem_exists`. -/
def checkElemExists (w : World) (_kb : KB) (s : Stmt) : Option Bool :=
  match elemExistsParse s with
  | none => none
  | some (ent, elem, pneg) => checkElemExistsAlt ent elem pneg w

/-- `kn_checkers.unique_desc_check`: a `The change from <entity> 's <key> to
<value> is conflicting with <obj>` sentence is confirmed when, after
tentatively applying the change (the source restores it before
returning, so the net world effect is none), the other object has no
distinguishing description left. Only single-component keys parse, as
in the source (`topic[5]` must be `'to'`). -/
def uniqueDescCheck (genDesc : World → EId → Bool) (w : World) (_kb : KB) (s : Stmt) :
    Option Bool :=
  match firstDesc s with
  | some (AStmt.be (STopic.theChange e ks v) _ (SCom.conflicting obj)) =>
      match ks with
      | [k] =>
          let w2 := w.modify e (fun en =>
            { en with props := aset en.props (PKey.s k) v,
                      propSeen := aset en.propSeen (PKey.s k) v })
          if genDesc w2 obj = false then some true else none
      | _ => none
  | _ => none

/-- `kn_checkers.basic_check`: membership of the sentence (true) or of its
opposite (false) in the factual database; a presence of the opposite
overrides. -/
def basicCheck (_w : World) (kb : KB) (s : Stmt) : Option Bool :=
  match firstDesc s with
  | none => none
  | some x =>
      if (Stmt.a (flipNeg x)) ∈ kb.sentDb then some false
      else if s ∈ kb.sentDb then some true
      else none

/-- `kn_checkers.val_is_key_checker`: does the agent know that a value is a
valid value of a property key. A seen property value can only equal the
topic when the topic is a plain value or an entity; other topic shapes
never match a stored value. -/
def valIsKeyChecker (w : World) (kb : KB) (s : Stmt) : Option Bool :=
  match asSingle s with
  | some (AStmt.be topic neg com) =>
      let prd : Option PKey :=
        match com with
        | SCom.v (Val.str x) => some (PKey.s x)
        | SCom.v (Val.strs [a, b]) => some (PKey.p a b)
        | _ => none
      match prd with
      | none => none
      | some k =>
          let additional := [PKey.p "player" "name", PKey.p "player" "nickname",
            PKey.p "player" "surname"]
          if ¬ (k ∈ w.allProperties ∨ k = PKey.s "direction" ∨ k ∈ additional) then none
          else
            let tv : Option Val :=
              match topic with
              | STopic.v x => some x
              | STopic.ent i => some (Val.ent i)
              | _ => none
            let allKeys := w.ents.flatMap
              (fun pr => (pr.2.propSeen.filter (fun kv => some kv.2 = tv)).map Prod.fst)
            if allKeys ≠ [] then
              if neg then some (¬ k ∈ allKeys) else some (k ∈ allKeys)
            else basicCheck w kb s
  | _ => none

/-- `KnowledgeBase.check(sent, update_context=False)`: try each checker in
the registered order and return the first non-`None` answer. -/
def checkKB (genDesc : World → EId → Bool) (w : World) (kb : KB) (s : Stmt) :
    Option Bool :=
  match propertyCheck w kb s with
  | some b => some b
  | none =>
      match haveCheck w kb s with
      | some b => some b
      | none =>
          match checkElemExists w kb s with
          | some b => some b
          | none =>
              match uniqueDescCheck genDesc w kb s with
              | some b => some b
              | none =>
                  match valIsKeyChecker w kb s with
                  | some b => some b
                  | none => basicCheck w kb s

/-- `KnowledgeBase.check(sent)` with the default `update_context=True`:
first fold the unseen context suffix into the knowledge base, then ask
the checkers. -/
def checkTop (genDesc : World → EId → Bool) (ctx : List Sent) (w : World) (kb : KB)
    (s : Stmt) : Option Bool :=
  let r := contextUpdate ctx w kb
  checkKB genDesc r.1 r.2 s

/-- A goal (`policies/goals.py`): the goal functions that `one_task`
constructs and inspects (`correct_steps_sublist`, `multiple_correct`,
their OR-combination), plus an opaque constructor for every other goal a
sub-task may produce. -/
inductive Goal where
  | css (steps : List Stmt)
  | mc (steps : List Stmt)
  | orG (gs : List Goal)
  | opaq (n : Nat)

/-- An evaluation environment for goals: the player's utterances from the
goal's start index on, and the verdicts of opaque goals. -/
structure Dia where
  utters : List Stmt
  opaqEval : Nat → Int

/-- Python `is_sublist`: the second list embeds into the first in order. -/
def isSublist (l sub : List Stmt) : Bool :=
  match l, sub with
  | _, [] => true
  | [], _ :: _ => false
  | x :: t, y :: ys => if x = y then isSublist t ys else isSublist t (y :: ys)

mutual

/-- Goal evaluation: `correct_steps_sublist`, `multiple_correct`, `goal_or`
over the environment. -/
def Goal.eval (d : Dia) : Goal → Int
  | Goal.css steps => if isSublist d.utters steps then 1 else 0
  | Goal.mc steps => if steps.any (fun s => s ∈ d.utters) then 1 else 0
  | Goal.orG gs => if Goal.evalAny d gs then 1 else 0
  | Goal.opaq n => d.opaqEval n

/-- Does some goal of the list evaluate to success (`goal_or`)? -/
def Goal.evalAny (d : Dia) : List Goal → Bool
  | [] => false
  | g :: t => (Goal.eval d g = 1) ∨ Goal.evalAny d t

end

/-- `World.query_entity_from_db`: world entities whose properties include
all the abstract entity's properties (ignoring `"empty"` values and the
`var_name` key) and whose attributes include all its attributes except
`abstract` and `('main', 'player')`. -/
def queryEntityFromDb (w : World) (item : Ent) : List EId :=
  (w.ents.filter (fun pr =>
    item.props.all (fun kv =>
      kv.2 = Val.str "empty" ∨ kv.1 = PKey.s "var_name" ∨ alook pr.2.props kv.1 = some kv.2)
    ∧ item.attrs.all (fun a =>
      a = PKey.s "abstract" ∨ a = PKey.p "main" "player" ∨ a ∈ pr.2.attrs))).map Prod.fst

/-- The observability filter of `ActionPolicy.one_task`: a candidate
survives only when every description element it instantiates has already
been positively observed (`property_check_alt` must return `True`; both
`False` and the unknown `None` reject). -/
def observedCompatible (w : World) (descElems : List PKey) (sitem : EId) : Bool :=
  match w.get sitem with
  | none => true
  | some se =>
      descElems.all (fun elem =>
        (match alook se.props elem with
         | some pv => propertyCheckAlt sitem (some elem) pv false w == some true
         | none => true)
        && (if elem ≠ PKey.s "abstract" ∧ elem ∈ se.attrs then
            attrCheckAlt sitem elem w == some true
          else true))

/-- `Sentence.reduce` as used by `reduce_and_check_say`: a compound
sentence reduces to its parts, a `say` wrapper reduces to one `say` per
reduced inner sentence, and everything else reduces to itself. -/
def reduceStmt (s : Stmt) : List Stmt :=
  match s with
  | Stmt.cont l => l.map Stmt.a
  | Stmt.say p inner => (reduceStmt inner).map (Stmt.say p)
  | s2 => [s2]

/-- `policies_helpers.reduce_and_check_say`: is `<player> says: <target>`
among the reduced steps? -/
def reduceAndCheckSay (steps : List Stmt) (target : Stmt) : Bool :=
  (steps.flatMap reduceStmt).any (fun r =>
    match r with
    | Stmt.say _ inner => inner = target
    | _ => false)

/-- The outcome of `self.task(item=sitem, ...)` for one candidate:
the steps and the goal the subclass-specific task computes. `one_task`
treats these as opaque, so they are an oracle parameter here. -/
structure TaskO where
  steps : List Stmt
  goal : Goal

/-- The accumulator state of the candidate loop in `ActionPolicy.one_task`. -/
structure OTAcc where
  counter : Nat
  negGoals : Nat
  goals : List Goal
  listSteps : List (List Stmt)
  itemList : List EId

/-- The result of `ActionPolicy.one_task`: the chosen steps, the combined
goal, and the updated memoised candidate (`self.item`). -/
structure OTRes where
  steps : List Stmt
  goal : Goal
  memo : Option EId

/-- The candidate loop of `ActionPolicy.one_task`: count the candidates
whose steps already contain their failure response, count the ones whose
steps or `multiple_correct` goal steps contain it, and collect the
surviving candidates' goals, steps and identities in order. -/
def oneTaskLoop (task : EId → TaskO) (negResFunc : EId → Stmt) (items : List EId)
    (acc : OTAcc) : OTAcc :=
  match items with
  | [] => acc
  | sitem :: rest =>
      let t := task sitem
      let negSent := negResFunc sitem
      if reduceAndCheckSay t.steps negSent then
        oneTaskLoop task negResFunc rest
          { acc with counter := acc.counter + 1, negGoals := acc.negGoals + 1 }
      else
        let extraNeg : Nat :=
          match t.goal with
          | Goal.mc gsteps => if reduceAndCheckSay gsteps negSent then 1 else 0
          | _ => 0
        let acc2 : OTAcc :=
          { counter := acc.counter
            negGoals := acc.negGoals + extraNeg
            goals := acc.goals ++ [t.goal]
            listSteps := acc.listSteps ++ [t.steps]
            itemList := acc.itemList ++ [sitem] }
        oneTaskLoop task negResFunc rest acc2

/-- Position of the first occurrence of an element in a list. -/
def idxOf (l : List EId) (x : EId) : Option Nat :=
  match l with
  | [] => none
  | y :: t => if y = x then some 0 else (idxOf t x).map Nat.succ

/-- `ActionPolicy.one_task(item, neg_response, neg_res_func, ...)` after the
per-request reset: the candidates are the world entities compatible with
the abstract item whose compatibility is already observed; if every
candidate's steps contain its failure response the shared negative
response is returned with a goal requiring it; otherwise either the
shared negative-response goal (when every candidate's steps or goal
steps contain it) or the OR-combination of the surviving goals, with the
steps of the memoised (or freshly randomly chosen) candidate.
`pick n` stands for `dialogue.random_gen.choice(range(n))` and is
clamped below `n` as the source guarantees. -/
def oneTask (w : World) (task : EId → TaskO) (player : EId) (item : Ent)
    (negResponse : Stmt) (negResFunc : EId → Stmt) (memo : Option EId)
    (pick : Nat → Nat) : OTRes :=
  let similar0 := queryEntityFromDb w item
  let similar := similar0.filter (observedCompatible w item.descElems)
  let sayNeg := Stmt.say player negResponse
  let acc := oneTaskLoop task negResFunc similar
    { counter := 0, negGoals := 0, goals := [], listSteps := [], itemList := [] }
  if acc.counter ≠ similar.length then
    let goal :=
      if acc.negGoals = similar.length then Goal.css [sayNeg]
      else Goal.orG acc.goals
    let idx0 : Option Nat :=
      match memo with
      | some it => idxOf acc.itemList it
      | none => none
    let st :=
      match idx0 with
      | some idx => (idx, memo)
      | none =>
          let idx := min (pick acc.listSteps.length) (acc.listSteps.length - 1)
          (idx, acc.itemList.get? idx)
    { steps := (acc.listSteps.get? st.1).getD [], goal := goal, memo := st.2 }
  else
    { steps := [sayNeg], goal := Goal.css [sayNeg], memo := memo }

/-- A sub-policy goal held in `AndPolicy.utterance_goal`, abstracted to its
current evaluation (`goal.execute()`), which can be unknown (`None`). -/
structure SubGoalO where
  eval : Option Int
deriving DecidableEq, Repr

/-- Natural-number keyed association lookup (a Python dict keyed by the
sub-request index). -/
def nlook (l : List (Nat × SubGoalO)) (n : Nat) : Option SubGoalO :=
  match l with
  | [] => none
  | (m, g) :: t => if m = n then some g else nlook t n

/-- Dict update for the sub-request goal map. -/
def nset (l : List (Nat × SubGoalO)) (n : Nat) (g : SubGoalO) :
    List (Nat × SubGoalO) :=
  match l with
  | [] => [(n, g)]
  | (m, g2) :: t => if m = n then (m, g) :: t else (m, g2) :: nset t n g

/-- The mutable state of one agent's `AndPolicy`
(`policies/agent_policies.py`). `playersInOrder` holds the `AM-DIS`
player of each reduced sub-request (`None` when a sub-request names no
player). -/
structure AndState where
  player : EId
  currGoalUidx : Option Nat
  utteranceGoal : List (Nat × SubGoalO)
  playersInOrder : List (Option EId)
  stopAt : Option Nat
  numGoals : Option Nat
deriving DecidableEq, Repr

/-- The goal object returned by `AndPolicy.compute_goal`: either the
constant in-progress goal (`lambda: 0`) or the conjunction over the
agent's per-sub-request goals (`goals_and_func`), which late-binds to
the policy state. -/
inductive CGoal where
  | zeroG
  | andG
deriving DecidableEq, Repr

/-- `goals_and_func`: `0` while not all sub-request goals exist or none has
a verdict, else Python's `all` over the collected raw verdicts (a
verdict is truthy iff non-zero). -/
def goalsAndExec (st : AndState) : Int :=
  if st.utteranceGoal.length ≠ st.numGoals.getD 0 then 0
  else
    let res := (st.utteranceGoal.map (fun pr => pr.2.eval)).filterMap id
    if res = [] then 0
    else if res.all (fun v => v ≠ 0) then 1 else 0

/-- `AndPolicy.compute_goal`, with `set_members` already run (`numGoals`
set). -/
def computeGoal (st : AndState) : Option CGoal :=
  match st.numGoals with
  | none => none
  | some n =>
      if st.utteranceGoal.length = 0 ∧ 0 < n then some CGoal.zeroG
      else if n = 0 then none
      else some CGoal.andG

/-- Evaluation of a `compute_goal` result. -/
def cgExec (st : AndState) : CGoal → Int
  | CGoal.zeroG => 0
  | CGoal.andG => goalsAndExec st

/-- Index of the last occurrence of an element. -/
def lastIdxOf (l : List (Option EId)) (x : Option EId) : Option Nat :=
  match l with
  | [] => none
  | y :: t =>
      match lastIdxOf t x with
      | some n => some (n + 1)
      | none => if y = x then some 0 else none

/-- `AndPolicy.set_members`: on the first call, record the addressed player
of every reduced sub-request, the number of requests addressed to this
agent, and the index of the last of them. -/
def setMembers (st : AndState) (request : List (Option EId)) : AndState :=
  if st.numGoals ≠ none then st
  else
    let numG := (request.filter (fun c => c = some st.player)).length
    let stopA := lastIdxOf request (some st.player)
    { st with numGoals := some numG
              playersInOrder := request
              stopAt := match stopA with | some a => some a | none => st.stopAt }

/-- `AndPolicy.recursion_break`: the reply of an agent whose turn has not
arrived, computed from its own state only. -/
def recursionBreak (st : AndState) : Option (List Stmt) × Option CGoal :=
  match st.currGoalUidx with
  | none => (none, computeGoal st)
  | some u =>
      let g := (nlook st.utteranceGoal u).getD { eval := none }
      if g.eval = some 1 then
        if st.playersInOrder.length ≤ u + 1 ∨
            st.playersInOrder.get? (u + 1) ≠ some (some st.player) then
          (none, computeGoal st)
        else ([Stmt.emptyS], computeGoal st)
      else ([Stmt.emptyS], computeGoal st)

/-- The outcome of one sub-policy execution inside the `_and_parse` loop
(`pol.execute(include_goal=True, say_last_user_command=sent)`). -/
structure PolO where
  steps : Option (List Stmt)
  goal : Option SubGoalO

/-- The sub-request loop of `AndPolicy._and_parse` (the current-speaker
path): walk the sub-requests up to `stop_at`; another agent's
sub-request with a non-`None` policy result ends the walk; this agent's
sub-requests run its own policies, store the produced goal and return
the produced steps while the stored goal is not yet a success. -/
def andLoop (stIn : AndState) (request : List (Option EId × Nat))
    (otherPol : Nat → Option (List Stmt)) (ownPol : Nat → PolO) :
    Option (List Stmt) × Option CGoal × AndState :=
  match request with
  | [] => (none, computeGoal stIn, stIn)
  | (curr, uidx) :: rest =>
      if curr ≠ some stIn.player then
        match otherPol uidx with
        | some _ => (none, computeGoal stIn, stIn)
        | none => andLoop stIn rest otherPol ownPol
      else
        let po := ownPol uidx
        match po.steps with
        | none => (none, computeGoal stIn, stIn)
        | some steps =>
            match po.goal with
            | none => andLoop stIn rest otherPol ownPol
            | some g =>
                let st :=
                  if nlook stIn.utteranceGoal uidx = none then
                    { stIn with utteranceGoal := nset stIn.utteranceGoal uidx g
                                currGoalUidx := some uidx }
                  else stIn
                if ((nlook st.utteranceGoal uidx).getD { eval := none }).eval ≠ some 1 then
                  let st2 := { st with utteranceGoal := nset st.utteranceGoal uidx g }
                  (some steps, computeGoal st2, st2)
                else andLoop st rest otherPol ownPol

/-- `AndPolicy._and_parse` after the request extraction and per-request
reset: `request` lists the addressed player of each reduced sub-request
and `nDescribers` is the describer count of the compound request (at
most one describer means no compound request). `otherPol`/`ownPol` are
the sub-policy calls the current-speaker path makes. -/
def andParse (st0 : AndState) (request : List (Option EId)) (nDescribers : Nat)
    (currSpeaker : Option EId) (otherPol : Nat → Option (List Stmt))
    (ownPol : Nat → PolO) : Option (List Stmt) × Option CGoal × AndState :=
  if nDescribers ≤ 1 then (none, none, st0)
  else
    let st := setMembers st0 request
    let goalDone : Bool :=
      match computeGoal st with
      | some g => cgExec st g = 1
      | none => false
    if st.numGoals = some 0 ∨ goalDone = true then
      (none, computeGoal st, st)
    else if currSpeaker ≠ some st.player then
      let r := recursionBreak st
      (r.1, r.2, st)
    else
      let stopA := (st.stopAt).getD (request.length - 1)
      let indexed := (request.zip (List.range request.length)).take (stopA + 1)
      andLoop st indexed otherPol ownPol

/-- Is this undo record a description-cache record pushed by
`Entity.describe`, as opposed to a record reversing a world mutation of
an action? -/
def URec.isDesc : URec → Bool
  | URec.descU _ _ => true
  | _ => false

/-- Strictly sorted key list (the canonical attribute-set representation). -/
def ssorted (l : List PKey) : Prop :=
  l.Pairwise (fun a b => PKey.ble a b = true ∧ a ≠ b)

/-- Well-formedness of a world: the invariants the shipped environments
establish and the action layer maintains. `consist` ties the
contained-objects lists to the location links; `playerIn` says carried
items always use the preposition `in`; `dirTargets` says direction
properties lead to other, non-player entities; `playerNotHolder`
excludes players as supporters or hollow holders; `changeKeysOk` keeps
the changeable properties away from locations and directions. -/
structure WF (w : World) : Prop where
  entsNodup : (w.ents.map Prod.fst).Nodup
  consist : ∀ i j, i ∈ w.objsOf j ↔ ((∃ ps, w.locOf i = some (ps, j)) ∧ i ≠ j)
  nodupObjs : ∀ j, (w.objsOf j).Nodup
  attrsSorted : ∀ i e, w.get i = some e → ssorted e.attrs
  playerIn : ∀ i ps j, w.locOf i = some (ps, j) → w.hasAttr j (PKey.s "player") → ps = "in"
  playersLoc : ∀ j, w.hasAttr j (PKey.s "player") → (w.locOf j).isSome
  dirTargets : ∀ i d v, d ∈ w.directions → w.prop i (PKey.s d) = some v →
    ∀ jj, v = Val.ent jj → jj ≠ i ∧ ¬ w.hasAttr jj (PKey.s "player") ∧
      ((w.get jj).isSome = true)
  locNotDir : ¬ "location" ∈ w.directions
  playerNotHolder : ∀ j, w.hasAttr j (PKey.s "player") →
    ¬ w.hasAttr j (PKey.s "supporter") ∧ ¬ w.hasAttr j (PKey.s "hollow")
  changeKeysOk : ∀ k, k ∈ w.changeActionProperties →
    k ≠ PKey.s "location" ∧ ∀ d, d ∈ w.directions → k ≠ PKey.s d

theorem alook_aset_self {α : Type} (l : List (PKey × α)) (k : PKey) (v : α) :
    alook (aset l k v) k = some v := by
  induction l with
  | nil => simp [aset, alook]
  | cons h t ih =>
      obtain ⟨k2, v2⟩ := h
      by_cases hk : k2 = k
      · simp [aset, alook, hk]
      · simp [aset, alook, hk, ih]

theorem alook_aset_ne {α : Type} (l : List (PKey × α)) (k k2 : PKey) (v : α)
    (h : k2 ≠ k) : alook (aset l k v) k2 = alook l k2 := by
  induction l with
  | nil =>
      have hne : k ≠ k2 := Ne.symm h
      simp [aset, alook, hne]
  | cons hd t ih =>
      obtain ⟨k3, v3⟩ := hd
      by_cases hk : k3 = k
      · subst hk
        have hne : k3 ≠ k2 := Ne.symm h
        simp [aset, alook, hne]
      · simp [aset, alook, hk, ih]

theorem aset_restore_some {α : Type} (l : List (PKey × α)) (k : PKey) (x v : α)
    (h : alook l k = some x) : aset (aset l k v) k x = l := by
  induction l with
  | nil => simp [alook] at h
  | cons hd t ih =>
      obtain ⟨k2, v2⟩ := hd
      by_cases hk : k2 = k
      · subst hk
        simp [alook] at h
        simp [aset, h]
      · simp [alook, hk] at h
        simp [aset, hk, ih h]

theorem aset_restore_none {α : Type} (l : List (PKey × α)) (k : PKey) (v : α)
    (h : alook l k = none) : adel (aset l k v) k = l := by
  induction l with
  | nil => simp [aset, adel]
  | cons hd t ih =>
      obtain ⟨k2, v2⟩ := hd
      by_cases hk : k2 = k
      · subst hk
        simp [alook] at h
      · simp [alook, hk] at h
        simp [aset, adel, hk, ih h]

theorem lerase_append_not_mem {α : Type} [DecidableEq α] (l : List α) (x : α)
    (h : ¬ x ∈ l) : lerase (l ++ [x]) x = l := by
  induction l with
  | nil => simp [lerase]
  | cons y t ih =>
      simp only [List.mem_cons, not_or] at h
      have hne : y ≠ x := Ne.symm h.1
      simp [lerase, hne, ih h.2]

theorem mem_lerase_ne {α : Type} [DecidableEq α] (l : List α) (x i : α)
    (h : i ≠ x) : i ∈ lerase l x ↔ i ∈ l := by
  induction l with
  | nil => simp [lerase]
  | cons y t ih =>
      by_cases hy : y = x
      · subst hy
        simp only [lerase, if_pos rfl, List.mem_cons]
        constructor
        · exact fun hh => Or.inr hh
        · rintro (hh | hh)
          · exact absurd hh h
          · exact hh
      · simp [lerase, hy, List.mem_cons, ih]

theorem lerase_sublist {α : Type} [DecidableEq α] (l : List α) (x : α) :
    (lerase l x).Sublist l := by
  induction l with
  | nil => simp [lerase]
  | cons y t ih =>
      by_cases hy : y = x
      · rw [lerase, if_pos hy]
        exact List.sublist_cons_self y t
      · rw [lerase, if_neg hy]
        exact List.Sublist.cons₂ y ih

theorem nodup_lerase {α : Type} [DecidableEq α] (l : List α) (x : α)
    (h : l.Nodup) : (lerase l x).Nodup :=
  (lerase_sublist l x).nodup h

theorem not_mem_lerase_of_nodup {α : Type} [DecidableEq α] (l : List α) (x : α)
    (h : l.Nodup) : ¬ x ∈ lerase l x := by
  induction l with
  | nil => simp [lerase]
  | cons y t ih =>
      simp only [List.nodup_cons] at h
      by_cases hy : y = x
      · subst hy
        simpa [lerase] using h.1
      · simp only [lerase, if_neg hy, List.mem_cons]
        rintro (hh | hh)
        · exact hy hh.symm
        · exact ih h.2 hh

theorem mem_insSorted {l : List PKey} {x y : PKey} :
    y ∈ insSorted l x ↔ y = x ∨ y ∈ l := by
  induction l with
  | nil => simp [insSorted]
  | cons z t ih =>
      by_cases hb : PKey.ble x z
      · simp [insSorted, hb]
      · simp only [insSorted, if_neg hb, List.mem_cons, ih]
        tauto

theorem lerase_insSorted_not_mem (l : List PKey) (x : PKey) (h : ¬ x ∈ l) :
    lerase (insSorted l x) x = l := by
  induction l with
  | nil => simp [insSorted, lerase]
  | cons y t ih =>
      simp only [List.mem_cons, not_or] at h
      have hne : y ≠ x := Ne.symm h.1
      by_cases hb : PKey.ble x y
      · simp [insSorted, hb, lerase]
      · simp [insSorted, hb, lerase, hne, ih h.2]

theorem ble_total (a b : PKey) : PKey.ble a b = true ∨ PKey.ble b a = true := by
  cases a with
  | s x =>
      cases b with
      | s y =>
          simp only [PKey.ble, decide_eq_true_eq]
          exact le_total x y
      | p u v => simp [PKey.ble]
  | p x y =>
      cases b with
      | s z => simp [PKey.ble]
      | p u v =>
          simp only [PKey.ble, decide_eq_true_eq]
          rcases lt_trichotomy x u with h | h | h
          · exact Or.inl (Or.inl h)
          · subst h
            rcases le_total y v with h2 | h2
            · exact Or.inl (Or.inr ⟨rfl, h2⟩)
            · exact Or.inr (Or.inr ⟨rfl, h2⟩)
          · exact Or.inr (Or.inl h)

theorem ble_antisymm (a b : PKey) (h1 : PKey.ble a b = true)
    (h2 : PKey.ble b a = true) : a = b := by
  cases a with
  | s x =>
      cases b with
      | s y =>
          simp only [PKey.ble, decide_eq_true_eq] at h1 h2
          exact congrArg PKey.s (le_antisymm h1 h2)
      | p u v => simp [PKey.ble] at h2
  | p x y =>
      cases b with
      | s z => simp [PKey.ble] at h1
      | p u v =>
          simp only [PKey.ble, decide_eq_true_eq] at h1 h2
          rcases h1 with h1 | h1
          · rcases h2 with h2 | h2
            · exact absurd h2 (not_lt_of_gt h1)
            · exact absurd h1 (by simp [h2.1])
          · rcases h2 with h2 | h2
            · exact absurd h2 (by simp [h1.1])
            · rw [h1.1, le_antisymm h1.2 h2.2]

theorem ble_trans (a b c : PKey) (h1 : PKey.ble a b = true)
    (h2 : PKey.ble b c = true) : PKey.ble a c = true := by
  cases a with
  | s x =>
      cases b with
      | s y =>
          cases c with
          | s z =>
              simp only [PKey.ble, decide_eq_true_eq] at h1 h2 ⊢
              exact le_trans h1 h2
          | p _ _ => simp [PKey.ble]
      | p u v =>
          cases c with
          | s z => simp [PKey.ble] at h2
          | p _ _ => simp [PKey.ble]
  | p x y =>
      cases b with
      | s z => simp [PKey.ble] at h1
      | p u v =>
          cases c with
          | s z => simp [PKey.ble] at h2
          | p r t =>
              simp only [PKey.ble, decide_eq_true_eq] at h1 h2 ⊢
              rcases h1 with h1 | h1
              · rcases h2 with h2 | h2
                · exact Or.inl (lt_trans h1 h2)
                · exact Or.inl (h2.1 ▸ h1)
              · rcases h2 with h2 | h2
                · exact Or.inl (h1.1 ▸ h2)
                · exact Or.inr ⟨h1.1.trans h2.1, le_trans h1.2 h2.2⟩

theorem ssorted_cons_iff {a : PKey} {l : List PKey} :
    ssorted (a :: l) ↔ (∀ b ∈ l, PKey.ble a b = true ∧ a ≠ b) ∧ ssorted l := by
  simp [ssorted, List.pairwise_cons]

theorem insSorted_lerase_mem (l : List PKey) (x : PKey) (hmem : x ∈ l)
    (hs : ssorted l) : insSorted (lerase l x) x = l := by
  induction l with
  | nil => simp at hmem
  | cons y t ih =>
      rw [ssorted_cons_iff] at hs
      by_cases hy : y = x
      · subst hy
        simp only [lerase, if_pos rfl]
        cases t with
        | nil => simp [insSorted]
        | cons z t2 =>
            have hz := hs.1 z (by simp)
            simp [insSorted, hz.1]
      · have hx : x ∈ t := by
          rcases List.mem_cons.mp hmem with hh | hh
          · exact absurd hh.symm hy
          · exact hh
        have hylt := hs.1 x hx
        have hnb : ¬ PKey.ble x y = true := by
          intro hxy
          exact Ne.symm hy (ble_antisymm x y hxy hylt.1)
        simp [lerase, hy, insSorted, hnb, ih hx hs.2]

theorem ssorted_lerase (l : List PKey) (x : PKey) (hs : ssorted l) :
    ssorted (lerase l x) :=
  List.Pairwise.sublist (lerase_sublist l x) hs

theorem ssorted_nodup (l : List PKey) (hs : ssorted l) : l.Nodup := by
  induction l with
  | nil => simp
  | cons y t ih =>
      rw [ssorted_cons_iff] at hs
      refine List.Nodup.cons ?_ (ih hs.2)
      intro hmem
      exact (hs.1 y hmem).2 rfl

theorem ssorted_insSorted (l : List PKey) (x : PKey) (hx : ¬ x ∈ l)
    (hs : ssorted l) : ssorted (insSorted l x) := by
  induction l with
  | nil => simp [insSorted, ssorted]
  | cons y t ih =>
      simp only [List.mem_cons, not_or] at hx
      rw [ssorted_cons_iff] at hs
      by_cases hb : PKey.ble x y
      · rw [insSorted, if_pos hb, ssorted_cons_iff]
        refine ⟨?_, ssorted_cons_iff.mpr hs⟩
        intro b hb2
        rcases List.mem_cons.mp hb2 with hh | hh
        · exact ⟨hh ▸ hb, hh ▸ hx.1⟩
        · exact ⟨ble_trans x y b hb (hs.1 b hh).1,
            fun he => hx.2 (he ▸ hh)⟩
      · rw [insSorted, if_neg hb, ssorted_cons_iff]
        refine ⟨?_, ih hx.2 hs.2⟩
        intro b hb2
        rcases mem_insSorted.mp hb2 with hh | hh
        · rcases ble_total x y with ht | ht
          · exact absurd ht hb
          · exact ⟨hh.symm ▸ ht, fun he => hx.1 (he.trans hh).symm⟩
        · exact hs.1 b hh

theorem sadd_lerase_mem (l : List PKey) (x : PKey) (hmem : x ∈ l)
    (hs : ssorted l) : sadd (lerase l x) x = l := by
  have hnx : ¬ x ∈ lerase l x := not_mem_lerase_of_nodup l x (ssorted_nodup l hs)
  rw [sadd, if_neg hnx]
  exact insSorted_lerase_mem l x hmem hs

theorem lerase_sadd_not_mem (l : List PKey) (x : PKey) (h : ¬ x ∈ l) :
    lerase (sadd l x) x = l := by
  rw [sadd, if_neg h]
  exact lerase_insSorted_not_mem l x h

theorem entsGet_entsModify_self (l : List (EId × Ent)) (i : EId) (f : Ent → Ent) :
    entsGet (entsModify l i f) i = (entsGet l i).map f := by
  induction l with
  | nil => simp [entsGet, entsModify]
  | cons hd t ih =>
      obtain ⟨j, e⟩ := hd
      by_cases hj : j = i
      · simp [entsGet, entsModify, hj]
      · simp [entsGet, entsModify, hj, ih]

theorem entsGet_entsModify_ne (l : List (EId × Ent)) (i j : EId) (f : Ent → Ent)
    (h : j ≠ i) : entsGet (entsModify l i f) j = entsGet l j := by
  induction l with
  | nil => simp [entsGet, entsModify]
  | cons hd t ih =>
      obtain ⟨k, e⟩ := hd
      by_cases hk : k = i
      · subst hk
        have hne : k ≠ j := Ne.symm h
        simp [entsGet, entsModify, hne]
      · by_cases hkj : k = j
        · subst hkj
          simp [entsGet, entsModify, hk]
        · simp [entsGet, entsModify, hk, hkj, ih]

theorem entsModify_entsModify (l : List (EId × Ent)) (i : EId) (f g : Ent → Ent) :
    entsModify (entsModify l i f) i g = entsModify l i (fun e => g (f e)) := by
  induction l with
  | nil => simp [entsModify]
  | cons hd t ih =>
      obtain ⟨j, e⟩ := hd
      by_cases hj : j = i
      · simp [entsModify, hj]
      · simp [entsModify, hj, ih]

theorem entsModify_comm (l : List (EId × Ent)) (i j : EId) (f g : Ent → Ent)
    (h : i ≠ j) :
    entsModify (entsModify l i f) j g = entsModify (entsModify l j g) i f := by
  induction l with
  | nil => simp [entsModify]
  | cons hd t ih =>
      obtain ⟨k, e⟩ := hd
      by_cases hk : k = i
      · subst hk
        have hne : k ≠ j := h
        simp [entsModify, hne, ih]
      · by_cases hkj : k = j
        · subst hkj
          simp [entsModify, hk]
        · simp [entsModify, hk, hkj, ih]

theorem entsModify_congr_id (l : List (EId × Ent)) (i : EId) (f : Ent → Ent)
    (h : ∀ e, entsGet l i = some e → f e = e) : entsModify l i f = l := by
  induction l with
  | nil => simp [entsModify]
  | cons hd t ih =>
      obtain ⟨j, e⟩ := hd
      by_cases hj : j = i
      · subst hj
        have he : f e = e := h e (by simp [entsGet])
        simp [entsModify, he]
      · refine (by
          rw [entsModify, if_neg hj]
          rw [ih (fun e2 he2 => h e2 ?_)]
          rw [entsGet, if_neg hj]
          exact he2)

theorem entsGet_none_entsModify (l : List (EId × Ent)) (i : EId) (f : Ent → Ent)
    (h : entsGet l i = none) : entsModify l i f = l := by
  induction l with
  | nil => simp [entsModify]
  | cons hd t ih =>
      obtain ⟨j, e⟩ := hd
      by_cases hj : j = i
      · simp [entsGet, hj] at h
      · simp [entsGet, hj] at h
        simp [entsModify, hj, ih h]

theorem World.get_modify_self (w : World) (i : EId) (f : Ent → Ent) :
    (w.modify i f).get i = (w.get i).map f := by
  simp [World.get, World.modify, entsGet_entsModify_self]

theorem World.get_modify_ne (w : World) (i j : EId) (f : Ent → Ent) (h : j ≠ i) :
    (w.modify i f).get j = w.get j := by
  simp [World.get, World.modify, entsGet_entsModify_ne _ _ _ _ h]

theorem World.modify_modify (w : World) (i : EId) (f g : Ent → Ent) :
    (w.modify i f).modify i g = w.modify i (fun e => g (f e)) := by
  simp [World.modify, entsModify_entsModify]

theorem World.modify_comm (w : World) (i j : EId) (f g : Ent → Ent) (h : i ≠ j) :
    (w.modify i f).modify j g = (w.modify j g).modify i f := by
  simp [World.modify, entsModify_comm _ _ _ _ _ h]

theorem World.modify_congr_id (w : World) (i : EId) (f : Ent → Ent)
    (h : ∀ e, w.get i = some e → f e = e) : w.modify i f = w := by
  simp [World.modify, entsModify_congr_id _ _ _ h]

theorem World.modify_undo (w : World) (i : EId) (f : Ent → Ent) :
    (w.modify i f).undo = w.undo := rfl

theorem World.push_get (w : World) (r : URec) (i : EId) :
    (w.push r).get i = w.get i := rfl

theorem World.push_undo (w : World) (r : URec) :
    (w.push r).undo = w.undo ++ [r] := rfl

/-- Replay a list of undo records, oldest-in-list first (`recover_state`
pops them newest-first, so the replay argument is the reversed suffix). -/
def replay (rs : List URec) (w : World) : World :=
  rs.foldl (fun acc r => applyU r acc) w

theorem replay_nil (w : World) : replay [] w = w := rfl

theorem replay_cons (r : URec) (rs : List URec) (w : World) :
    replay (r :: rs) w = replay rs (applyU r w) := rfl

theorem replay_append (a b : List URec) (w : World) :
    replay (a ++ b) w = replay b (replay a w) := by
  simp [replay, List.foldl_append]

theorem applyU_undo (r : URec) (w : World) : (applyU r w).undo = w.undo := by
  cases r <;> rfl

theorem replay_undo (rs : List URec) (w : World) : (replay rs w).undo = w.undo := by
  induction rs generalizing w with
  | nil => rfl
  | cons r t ih => rw [replay_cons, ih, applyU_undo]

theorem applyU_swap_undo (r : URec) (w : World) (u : List URec) :
    applyU r { w with undo := u } = { applyU r w with undo := u } := by
  cases r <;> rfl

theorem replay_swap_undo (rs : List URec) (w : World) (u : List URec) :
    replay rs { w with undo := u } = { replay rs w with undo := u } := by
  induction rs generalizing w with
  | nil => rfl
  | cons r t ih => rw [replay_cons, applyU_swap_undo, ih, replay_cons]

theorem recoverState_eq (c : Nat) (w : World) :
    recoverState c w = { replay ((w.undo.drop c).reverse) w with undo := w.undo.take c } :=
  rfl

/-- The world `w2` can be rolled back to `w` from the checkpoint taken at
`w`: the statement proved for every committed action path. -/
def Restores (w w2 : World) : Prop :=
  recoverState w.undo.length w2 = w

theorem restores_refl (w : World) : Restores w w := by
  unfold Restores
  rw [recoverState_eq, List.drop_length, List.take_length]
  rfl

theorem restores_undo_take (w w2 : World) (h : Restores w w2) :
    w2.undo.take w.undo.length = w.undo := by
  unfold Restores at h
  rw [recoverState_eq] at h
  exact congrArg World.undo h

theorem restores_len_le (w w2 : World) (h : Restores w w2) :
    w.undo.length ≤ w2.undo.length := by
  have h2 := congrArg List.length (restores_undo_take w w2 h)
  rw [List.length_take] at h2
  omega

theorem setUndo_eq (w : World) (u : List URec) (h : w.undo = u) :
    ({ w with undo := u } : World) = w := by
  rw [← h]

theorem restores_replay_eq (w w2 : World) (h : Restores w w2) :
    replay ((w2.undo.drop w.undo.length).reverse) w2 = { w with undo := w2.undo } := by
  unfold Restores at h
  rw [recoverState_eq] at h
  conv_rhs => rw [← h]
  exact (setUndo_eq _ _ (replay_undo _ _)).symm

theorem restores_trans (w1 w2 w3 : World) (h12 : Restores w1 w2)
    (h23 : Restores w2 w3) : Restores w1 w3 := by
  have hu1 := restores_undo_take w1 w2 h12
  have hu2 := restores_undo_take w2 w3 h23
  have hl1 := restores_len_le w1 w2 h12
  have hl2 := restores_len_le w2 w3 h23
  unfold Restores
  rw [recoverState_eq]
  have hsplit : w3.undo.drop w1.undo.length =
      (w3.undo.take w2.undo.length).drop w1.undo.length ++ w3.undo.drop w2.undo.length := by
    have hlen : w1.undo.length ≤ (w3.undo.take w2.undo.length).length := by
      rw [List.length_take]
      omega
    rw [← List.drop_append_of_le_length hlen, List.take_append_drop]
  rw [hsplit, List.reverse_append, replay_append, restores_replay_eq w2 w3 h23, hu2,
    replay_swap_undo, restores_replay_eq w1 w2 h12]
  have hu13 : w3.undo.take w1.undo.length = w1.undo := by
    have hh : w3.undo.take w1.undo.length =
        (w3.undo.take w2.undo.length).take w1.undo.length := by
      rw [List.take_take, min_eq_left hl1]
    rw [hh, hu2, hu1]
  rw [hu13]

theorem adel2_append_not_mem (l : List DKey) (k : DKey) (h : ¬ k ∈ l) :
    adel2 (l ++ [k]) k = l := by
  induction l with
  | nil => simp [adel2]
  | cons y t ih =>
      simp only [List.mem_cons, not_or] at h
      have hne : y ≠ k := Ne.symm h.1
      simp [adel2, hne, ih h.2]

theorem restores_describeE (i : EId) (w : World) : Restores w (describeE i w) := by
  unfold describeE
  cases hg : w.get i with
  | none => exact restores_refl w
  | some e =>
      dsimp only
      by_cases hc : descKey e ∈ e.descCache
      · rw [if_pos hc]
        exact restores_refl w
      · rw [if_neg hc]
        unfold Restores
        rw [recoverState_eq]
        have hents : entsModify
            (entsModify w.ents i (Ent.cacheAdd (descKey e)))
            i (Ent.cacheDel (descKey e)) =
            w.ents := by
          rw [entsModify_entsModify]
          refine entsModify_congr_id _ _ _ (fun e2 he2 => ?_)
          have he : e2 = e := by
            have hg2 := hg
            rw [World.get] at hg2
            rw [hg2] at he2
            exact (Option.some.injEq _ _).mp he2.symm
          subst he
          simp [Ent.cacheAdd, Ent.cacheDel, adel2_append_not_mem _ _ hc]
        simp only [World.push_undo, World.modify_undo, List.drop_left, List.take_left,
          List.reverse_singleton]
        rw [replay_cons, replay_nil]
        simp only [applyU, World.modify, World.push]
        rw [hents]

theorem restores_describeMany (l : List EId) (w : World) :
    Restores w (describeMany l w) := by
  induction l generalizing w with
  | nil => exact restores_refl w
  | cons i t ih =>
      rw [describeMany]
      exact restores_trans w (describeE i w) _ (restores_describeE i w) (ih (describeE i w))

/-- `w2` arises from `w` by description side effects only. -/
def DescOnly (w w2 : World) : Prop :=
  ∃ l : List EId, w2 = describeMany l w

theorem descOnly_refl (w : World) : DescOnly w w := ⟨[], rfl⟩

theorem describeMany_append (a b : List EId) (w : World) :
    describeMany (a ++ b) w = describeMany b (describeMany a w) := by
  induction a generalizing w with
  | nil => rfl
  | cons i t ih => rw [List.cons_append, describeMany, describeMany, ih]

theorem descOnly_trans (w1 w2 w3 : World) (h1 : DescOnly w1 w2) (h2 : DescOnly w2 w3) :
    DescOnly w1 w3 := by
  obtain ⟨a, rfl⟩ := h1
  obtain ⟨b, rfl⟩ := h2
  exact ⟨a ++ b, (describeMany_append a b w1).symm⟩

theorem descOnly_describeE_of (w w2 : World) (i : EId) (h : DescOnly w w2) :
    DescOnly w (describeE i w2) := by
  refine descOnly_trans w w2 _ h ⟨[i], ?_⟩
  rfl

theorem descOnly_describeMany_of (w w2 : World) (l : List EId) (h : DescOnly w w2) :
    DescOnly w (describeMany l w2) :=
  descOnly_trans w w2 _ h ⟨l, rfl⟩

theorem restores_descOnly (w w2 : World) (h : DescOnly w w2) : Restores w w2 := by
  obtain ⟨l, rfl⟩ := h
  exact restores_describeMany l w

theorem World.get_map_modify {β : Type} (g : Ent → β) (w : World) (i j : EId)
    (f : Ent → Ent) (hf : ∀ e, g (f e) = g e) :
    ((w.modify i f).get j).map g = (w.get j).map g := by
  by_cases hj : j = i
  · subst hj
    rw [World.get_modify_self]
    cases w.get j <;> simp [hf]
  · rw [World.get_modify_ne _ _ _ _ hj]

theorem World.get_map_push {β : Type} (g : Ent → β) (w : World) (r : URec) (j : EId) :
    ((w.push r).get j).map g = (w.get j).map g := rfl

theorem describeE_get_map {β : Type} (g : Ent → β)
    (hg : ∀ e l, g { e with descCache := l } = g e) (i j : EId) (w : World) :
    ((describeE i w).get j).map g = (w.get j).map g := by
  unfold describeE
  cases w.get i with
  | none => rfl
  | some e =>
      dsimp only
      split
      · rfl
      · rw [World.get_map_push]
        exact World.get_map_modify g w i j _ (fun e2 => hg e2 _)

theorem prop_of_get_map (w w2 : World) (j : EId) (k : PKey)
    (h : (w2.get j).map Ent.props = (w.get j).map Ent.props) :
    w2.prop j k = w.prop j k := by
  rw [World.prop, World.prop]
  cases hw : w.get j with
  | none =>
      rw [hw] at h
      cases hw2 : w2.get j with
      | none => rfl
      | some e2 => rw [hw2] at h; exact Option.noConfusion h
  | some e =>
      rw [hw] at h
      cases hw2 : w2.get j with
      | none => rw [hw2] at h; exact Option.noConfusion h
      | some e2 =>
          rw [hw2] at h
          have h2 : e2.props = e.props := Option.some.inj h
          dsimp only
          rw [h2]

theorem describeE_prop (i j : EId) (k : PKey) (w : World) :
    (describeE i w).prop j k = w.prop j k :=
  prop_of_get_map w _ j k (describeE_get_map Ent.props (fun _ _ => rfl) i j w)

theorem describeE_locOf (i j : EId) (w : World) :
    (describeE i w).locOf j = w.locOf j := by
  rw [World.locOf, World.locOf, describeE_prop]

theorem hasAttr_of_get_map (w w2 : World) (j : EId) (a : PKey)
    (h : (w2.get j).map Ent.attrs = (w.get j).map Ent.attrs) :
    w2.hasAttr j a = w.hasAttr j a := by
  rw [World.hasAttr, World.hasAttr]
  cases hw : w.get j with
  | none =>
      rw [hw] at h
      cases hw2 : w2.get j with
      | none => rfl
      | some e2 => rw [hw2] at h; exact Option.noConfusion h
  | some e =>
      rw [hw] at h
      cases hw2 : w2.get j with
      | none => rw [hw2] at h; exact Option.noConfusion h
      | some e2 =>
          rw [hw2] at h
          have h2 : e2.attrs = e.attrs := Option.some.inj h
          dsimp only
          rw [h2]

theorem describeE_hasAttr (i j : EId) (a : PKey) (w : World) :
    (describeE i w).hasAttr j a = w.hasAttr j a :=
  hasAttr_of_get_map w _ j a (describeE_get_map Ent.attrs (fun _ _ => rfl) i j w)

theorem objsOf_of_get_map (w w2 : World) (j : EId)
    (h : (w2.get j).map Ent.objs = (w.get j).map Ent.objs) :
    w2.objsOf j = w.objsOf j := by
  rw [World.objsOf, World.objsOf]
  cases hw : w.get j with
  | none =>
      rw [hw] at h
      cases hw2 : w2.get j with
      | none => rfl
      | some e2 => rw [hw2] at h; exact Option.noConfusion h
  | some e =>
      rw [hw] at h
      cases hw2 : w2.get j with
      | none => rw [hw2] at h; exact Option.noConfusion h
      | some e2 =>
          rw [hw2] at h
          have h2 : e2.objs = e.objs := Option.some.inj h
          dsimp only
          rw [h2]

theorem describeE_objsOf (i j : EId) (w : World) :
    (describeE i w).objsOf j = w.objsOf j :=
  objsOf_of_get_map w _ j (describeE_get_map Ent.objs (fun _ _ => rfl) i j w)

theorem describeE_directions (i : EId) (w : World) :
    (describeE i w).directions = w.directions := by
  unfold describeE
  cases w.get i with
  | none => rfl
  | some e => dsimp only; split <;> rfl

theorem describeE_changeActionProperties (i : EId) (w : World) :
    (describeE i w).changeActionProperties = w.changeActionProperties := by
  unfold describeE
  cases w.get i with
  | none => rfl
  | some e => dsimp only; split <;> rfl

theorem describeE_allVals (i : EId) (w : World) :
    (describeE i w).allVals = w.allVals := by
  unfold describeE
  cases w.get i with
  | none => rfl
  | some e => dsimp only; split <;> rfl

theorem describeE_playerVals (i : EId) (w : World) :
    (describeE i w).playerVals = w.playerVals := by
  unfold describeE
  cases w.get i with
  | none => rfl
  | some e => dsimp only; split <;> rfl

theorem describeE_locationPositions (i : EId) (w : World) :
    (describeE i w).locationPositions = w.locationPositions := by
  unfold describeE
  cases w.get i with
  | none => rfl
  | some e => dsimp only; split <;> rfl

theorem describeE_ents_length (i : EId) (w : World) :
    (describeE i w).ents.length = w.ents.length := by
  unfold describeE
  cases w.get i with
  | none => rfl
  | some e =>
      dsimp only
      split
      · rfl
      · show (entsModify w.ents i _).length = w.ents.length
        induction w.ents with
        | nil => rfl
        | cons hd t ih =>
            obtain ⟨a, b⟩ := hd
            rw [entsModify]
            split <;> simp [ih]

theorem describeMany_prop (l : List EId) (j : EId) (k : PKey) (w : World) :
    (describeMany l w).prop j k = w.prop j k := by
  induction l generalizing w with
  | nil => rfl
  | cons i t ih => rw [describeMany, ih, describeE_prop]

theorem describeMany_locOf (l : List EId) (j : EId) (w : World) :
    (describeMany l w).locOf j = w.locOf j := by
  induction l generalizing w with
  | nil => rfl
  | cons i t ih => rw [describeMany, ih, describeE_locOf]

theorem describeMany_hasAttr (l : List EId) (j : EId) (a : PKey) (w : World) :
    (describeMany l w).hasAttr j a = w.hasAttr j a := by
  induction l generalizing w with
  | nil => rfl
  | cons i t ih => rw [describeMany, ih, describeE_hasAttr]

theorem describeMany_objsOf (l : List EId) (j : EId) (w : World) :
    (describeMany l w).objsOf j = w.objsOf j := by
  induction l generalizing w with
  | nil => rfl
  | cons i t ih => rw [describeMany, ih, describeE_objsOf]

theorem describeMany_directions (l : List EId) (w : World) :
    (describeMany l w).directions = w.directions := by
  induction l generalizing w with
  | nil => rfl
  | cons i t ih => rw [describeMany, ih, describeE_directions]

theorem describeMany_changeActionProperties (l : List EId) (w : World) :
    (describeMany l w).changeActionProperties = w.changeActionProperties := by
  induction l generalizing w with
  | nil => rfl
  | cons i t ih => rw [describeMany, ih, describeE_changeActionProperties]

theorem describeMany_allVals (l : List EId) (w : World) :
    (describeMany l w).allVals = w.allVals := by
  induction l generalizing w with
  | nil => rfl
  | cons i t ih => rw [describeMany, ih, describeE_allVals]

theorem describeMany_playerVals (l : List EId) (w : World) :
    (describeMany l w).playerVals = w.playerVals := by
  induction l generalizing w with
  | nil => rfl
  | cons i t ih => rw [describeMany, ih, describeE_playerVals]

theorem describeMany_ents_length (l : List EId) (w : World) :
    (describeMany l w).ents.length = w.ents.length := by
  induction l generalizing w with
  | nil => rfl
  | cons i t ih => rw [describeMany, ih, describeE_ents_length]

theorem describeMany_get_map {β : Type} (g : Ent → β)
    (hg : ∀ e l2, g { e with descCache := l2 } = g e) (l : List EId) (j : EId) (w : World) :
    ((describeMany l w).get j).map g = ((w.get j).map g) := by
  induction l generalizing w with
  | nil => rfl
  | cons i t ih => rw [describeMany, ih, describeE_get_map g hg]

theorem entsModify_spine (l : List (EId × Ent)) (i : EId) (f : Ent → Ent) :
    (entsModify l i f).map Prod.fst = l.map Prod.fst := by
  induction l with
  | nil => rfl
  | cons hd t ih =>
      obtain ⟨a, b⟩ := hd
      rw [entsModify]
      split <;> simp [ih]

theorem describeE_spine (i : EId) (w : World) :
    (describeE i w).ents.map Prod.fst = w.ents.map Prod.fst := by
  unfold describeE
  cases w.get i with
  | none => rfl
  | some e =>
      dsimp only
      split
      · rfl
      · exact entsModify_spine w.ents i _

theorem describeMany_spine (l : List EId) (w : World) :
    (describeMany l w).ents.map Prod.fst = w.ents.map Prod.fst := by
  induction l generalizing w with
  | nil => rfl
  | cons i t ih => rw [describeMany, ih, describeE_spine]

theorem descOnly_spine (w w2 : World) (h : DescOnly w w2) :
    w2.ents.map Prod.fst = w.ents.map Prod.fst := by
  obtain ⟨l, rfl⟩ := h
  exact describeMany_spine l w

theorem World.get_isSome_modify (w : World) (i : EId) (f : Ent → Ent) (j : EId) :
    ((w.modify i f).get j).isSome = (w.get j).isSome := by
  by_cases hj : j = i
  · subst hj
    rw [World.get_modify_self]
    cases w.get j <;> rfl
  · rw [World.get_modify_ne _ _ _ _ hj]

theorem describeE_get_isSome (i j : EId) (w : World) :
    ((describeE i w).get j).isSome = (w.get j).isSome := by
  have hm := describeE_get_map (fun _ => true) (fun _ _ => rfl) i j w
  cases h2 : w.get j with
  | none =>
      rw [h2] at hm
      cases h1 : (describeE i w).get j with
      | none => rfl
      | some e => rw [h1] at hm; simp at hm
  | some e0 =>
      rw [h2] at hm
      cases h1 : (describeE i w).get j with
      | none => rw [h1] at hm; simp at hm
      | some e => rfl

theorem describeMany_get_isSome (l : List EId) (j : EId) (w : World) :
    ((describeMany l w).get j).isSome = (w.get j).isSome := by
  induction l generalizing w with
  | nil => rfl
  | cons i t ih => rw [describeMany, ih, describeE_get_isSome]

theorem descOnly_get_isSome (w w2 : World) (h : DescOnly w w2) (j : EId) :
    (w2.get j).isSome = (w.get j).isSome := by
  obtain ⟨l, rfl⟩ := h
  exact describeMany_get_isSome l j w

theorem WF_describeE (i : EId) (w : World) (h : WF w) : WF (describeE i w) := by
  constructor
  · rw [describeE_spine]
    exact h.entsNodup
  · intro a b
    rw [describeE_objsOf, describeE_locOf]
    exact h.consist a b
  · intro j
    rw [describeE_objsOf]
    exact h.nodupObjs j
  · intro j e hge
    have hm := describeE_get_map Ent.attrs (fun _ _ => rfl) i j w
    rw [hge] at hm
    cases hw : w.get j with
    | none => rw [hw] at hm; exact Option.noConfusion hm
    | some e0 =>
        rw [hw] at hm
        have h2 : e.attrs = e0.attrs := Option.some.inj hm
        rw [h2]
        exact h.attrsSorted j e0 hw
  · intro i2 ps j hloc hpl
    rw [describeE_locOf] at hloc
    rw [describeE_hasAttr] at hpl
    exact h.playerIn i2 ps j hloc hpl
  · intro j hpl
    rw [describeE_hasAttr] at hpl
    rw [describeE_locOf]
    exact h.playersLoc j hpl
  · intro i2 d v hd hp jj hv
    rw [describeE_directions] at hd
    rw [describeE_prop] at hp
    have hr := h.dirTargets i2 d v hd hp jj hv
    refine ⟨hr.1, ?_, ?_⟩
    · rw [describeE_hasAttr]
      exact hr.2.1
    · rw [describeE_get_isSome]
      exact hr.2.2
  · rw [describeE_directions]
    exact h.locNotDir
  · intro j hpl
    rw [describeE_hasAttr] at hpl
    have hr := h.playerNotHolder j hpl
    rw [describeE_hasAttr, describeE_hasAttr]
    exact hr
  · intro k hk
    rw [describeE_changeActionProperties] at hk
    have hr := h.changeKeysOk k hk
    refine ⟨hr.1, ?_⟩
    intro d hd
    rw [describeE_directions] at hd
    exact hr.2 d hd

theorem WF_describeMany (l : List EId) (w : World) (h : WF w) : WF (describeMany l w) := by
  induction l generalizing w with
  | nil => exact h
  | cons i t ih => exact ih (describeE i w) (WF_describeE i w h)

theorem WF_descOnly (w w2 : World) (h : WF w) (hd : DescOnly w w2) : WF w2 := by
  obtain ⟨l, rfl⟩ := hd
  exact WF_describeMany l w h

theorem chainWalk_descOnly (negRes : AStmt) (fuel : Nat) (cur : EId) (w : World)
    (a b : List Stmt) : DescOnly w (chainWalk negRes fuel cur w a b).1 := by
  induction fuel generalizing cur w a b with
  | zero => exact descOnly_refl w
  | succ f ih =>
      rw [chainWalk]
      cases hl : w.locOf cur with
      | none => exact descOnly_refl w
      | some pr =>
          obtain ⟨ps, nxt⟩ := pr
          dsimp only
          by_cases h1 : nxt = cur
          · rw [if_pos h1]
            exact descOnly_refl w
          · rw [if_neg h1]
            split
            · exact descOnly_trans w (describeE cur w) _
                (descOnly_describeE_of w w cur (descOnly_refl w)) (ih _ _ _ _)
            · split
              · exact descOnly_trans w (describeE cur w) _
                  (descOnly_describeE_of w w cur (descOnly_refl w)) (ih _ _ _ _)
              · exact ih _ _ _ _

theorem descOnly_chainWalk_of (w w2 : World) (negRes : AStmt) (fuel : Nat) (cur : EId)
    (a b : List Stmt) (h : DescOnly w w2) :
    DescOnly w (chainWalk negRes fuel cur w2 a b).1 :=
  descOnly_trans w w2 _ h (chainWalk_descOnly negRes fuel cur w2 a b)

theorem validateReachability_descOnly (selfE player locEnt : EId) (negRes : AStmt)
    (w0 : World) : DescOnly w0 (validateReachability selfE player locEnt negRes w0).2 := by
  unfold validateReachability
  dsimp only
  repeat' first
    | exact descOnly_refl _
    | apply descOnly_chainWalk_of
    | apply descOnly_describeMany_of
    | apply descOnly_describeE_of
    | split

theorem lookPlace_descOnly (rnd : Rnd) (entity player : EId) (lp : String) (w : World) :
    DescOnly w (lookPlace rnd entity player lp w).2 := by
  unfold lookPlace
  dsimp only
  repeat' first
    | exact descOnly_refl _
    | apply descOnly_describeMany_of
    | apply descOnly_describeE_of
    | split

theorem lookSupporter_descOnly (rnd : Rnd) (entity : EId) (lp : String) (w : World) :
    DescOnly w (lookSupporter rnd entity lp w).2 := by
  unfold lookSupporter
  dsimp only
  repeat' first
    | exact descOnly_refl _
    | apply descOnly_describeMany_of
    | apply descOnly_describeE_of
    | split

theorem lookContainer_descOnly (rnd : Rnd) (entity : EId) (lp : String) (canNot : AStmt)
    (w : World) : DescOnly w (lookContainer rnd entity lp canNot w).2 := by
  unfold lookContainer
  dsimp only
  repeat' first
    | exact descOnly_refl _
    | apply descOnly_describeMany_of
    | apply descOnly_describeE_of
    | split

theorem lookHollow_descOnly (rnd : Rnd) (entity : EId) (lp : String) (w : World) :
    DescOnly w (lookHollow rnd entity lp w).2 := by
  unfold lookHollow
  dsimp only
  repeat' first
    | exact descOnly_refl _
    | apply descOnly_describeMany_of
    | apply descOnly_describeE_of
    | split

theorem lookInventory_descOnly (rnd : Rnd) (entity : EId) (lp : String) (w : World) :
    DescOnly w (lookInventory rnd entity lp w).2 := by
  unfold lookInventory
  dsimp only
  repeat' first
    | exact descOnly_refl _
    | apply descOnly_describeMany_of
    | apply descOnly_describeE_of
    | split

theorem descOnly_lookPlace_of (rnd : Rnd) (entity player : EId) (lp : String)
    (w w2 : World) (h : DescOnly w w2) :
    DescOnly w (lookPlace rnd entity player lp w2).2 :=
  descOnly_trans w w2 _ h (lookPlace_descOnly rnd entity player lp w2)

theorem descOnly_lookSupporter_of (rnd : Rnd) (entity : EId) (lp : String)
    (w w2 : World) (h : DescOnly w w2) :
    DescOnly w (lookSupporter rnd entity lp w2).2 :=
  descOnly_trans w w2 _ h (lookSupporter_descOnly rnd entity lp w2)

theorem descOnly_lookContainer_of (rnd : Rnd) (entity : EId) (lp : String)
    (canNot : AStmt) (w w2 : World) (h : DescOnly w w2) :
    DescOnly w (lookContainer rnd entity lp canNot w2).2 :=
  descOnly_trans w w2 _ h (lookContainer_descOnly rnd entity lp canNot w2)

theorem descOnly_lookHollow_of (rnd : Rnd) (entity : EId) (lp : String)
    (w w2 : World) (h : DescOnly w w2) :
    DescOnly w (lookHollow rnd entity lp w2).2 :=
  descOnly_trans w w2 _ h (lookHollow_descOnly rnd entity lp w2)

theorem descOnly_lookInventory_of (rnd : Rnd) (entity : EId) (lp : String)
    (w w2 : World) (h : DescOnly w w2) :
    DescOnly w (lookInventory rnd entity lp w2).2 :=
  descOnly_trans w w2 _ h (lookInventory_descOnly rnd entity lp w2)

theorem descOnly_ite (c : Prop) [Decidable c] (w w1 w2 : World) (h1 : DescOnly w w1)
    (h2 : DescOnly w w2) : DescOnly w (if c then w1 else w2) := by
  split
  · exact h1
  · exact h2

theorem descOnly_ite_pair {α : Type} (c : Prop) [Decidable c] (w : World)
    (p1 p2 : α × World) (h1 : DescOnly w p1.2) (h2 : DescOnly w p2.2) :
    DescOnly w (if c then p1 else p2).2 := by
  split
  · exact h1
  · exact h2

theorem descOnly_lookDoorW_of (entity : EId) (pos : String) (w w2 : World)
    (h : DescOnly w w2) : DescOnly w (lookDoorW entity pos w2) := by
  unfold lookDoorW
  exact descOnly_ite _ _ _ _ (descOnly_describeE_of _ _ _ h) h

theorem descOnly_lookChain_of (rnd : Rnd) (entity : EId) (pos : String)
    (canNot : AStmt) (log0 : List AStmt) (w w2 : World) (h : DescOnly w w2) :
    DescOnly w (lookChain rnd entity pos canNot log0 w2).2 := by
  unfold lookChain
  dsimp only
  exact descOnly_lookHollow_of _ _ _ _ _
    (descOnly_lookContainer_of _ _ _ _ _ _
      (descOnly_lookSupporter_of _ _ _ _ _
        (descOnly_lookInventory_of _ _ _ _ _ h)))

theorem descOnly_lookNoMatch_of (entity : EId) (pos : String) (canNot : AStmt)
    (w w2 : World) (h : DescOnly w w2) :
    DescOnly w (lookNoMatch entity pos canNot w2).2 := by
  unfold lookNoMatch
  dsimp only
  apply descOnly_ite_pair
  · exact descOnly_describeMany_of _ _ _ h
  · exact descOnly_describeE_of _ _ _ (descOnly_describeMany_of _ _ _ h)

theorem lookObjectResponse_descOnly (rnd : Rnd) (entity player : EId) (pos : String)
    (canNot : AStmt) (w0 : World) :
    DescOnly w0 (lookObjectResponse rnd entity player pos canNot w0).2 := by
  unfold lookObjectResponse
  dsimp only
  have d2 : DescOnly w0 (lookDoorW entity pos (describeMany [player, entity] w0)) :=
    descOnly_lookDoorW_of _ _ _ _ (descOnly_describeMany_of _ _ _ (descOnly_refl w0))
  have dpr : DescOnly w0
      (lookPlace rnd entity player pos
        (lookDoorW entity pos (describeMany [player, entity] w0))).2 :=
    descOnly_lookPlace_of _ _ _ _ _ _ d2
  have dch : DescOnly w0
      (lookChain rnd entity pos canNot
        (lookDoorLog entity pos (describeMany [player, entity] w0))
        (lookPlace rnd entity player pos
          (lookDoorW entity pos (describeMany [player, entity] w0))).2).2 :=
    descOnly_lookChain_of _ _ _ _ _ _ _ dpr
  apply descOnly_ite_pair
  · exact dpr
  · apply descOnly_ite_pair
    · apply descOnly_ite_pair
      · exact descOnly_lookNoMatch_of _ _ _ _ _ dch
      · exact dch
    · apply descOnly_ite_pair
      · exact descOnly_lookNoMatch_of _ _ _ _ _ dch
      · exact dch

theorem descOnly_lookObjectResponse_of (rnd : Rnd) (entity player : EId) (pos : String)
    (canNot : AStmt) (w w2 : World) (h : DescOnly w w2) :
    DescOnly w (lookObjectResponse rnd entity player pos canNot w2).2 :=
  descOnly_trans w w2 _ h (lookObjectResponse_descOnly rnd entity player pos canNot w2)

theorem descOnly_validateReachability_of (selfE player locEnt : EId) (negRes : AStmt)
    (w w2 : World) (h : DescOnly w w2) :
    DescOnly w (validateReachability selfE player locEnt negRes w2).2 :=
  descOnly_trans w w2 _ h (validateReachability_descOnly selfE player locEnt negRes w2)

theorem descOnly_locCheckStage_of (e : EId) (canNot : AStmt) (locPos : String)
    (location : EId) (acc : List Stmt × World) (w : World) (h : DescOnly w acc.2) :
    DescOnly w (locCheckStage e canNot locPos location acc).2 := by
  unfold locCheckStage
  apply descOnly_ite_pair
  · exact descOnly_describeMany_of _ _ _ h
  · exact h

theorem look_descOnly (rnd : Rnd) (entity player : EId) (pos : String)
    (location : String × EId) (w0 : World) :
    DescOnly w0 (look rnd entity player pos location w0).2 := by
  unfold look
  dsimp only
  have d1 : DescOnly w0 (describeMany [player, entity] w0) :=
    descOnly_describeMany_of _ _ _ (descOnly_refl w0)
  have dvr : DescOnly w0 (validateReachability entity player location.2
      (AStmt.lookV player (some "can") true "look" (pos, entity))
      (describeMany [player, entity] w0)).2 :=
    descOnly_validateReachability_of _ _ _ _ _ _ d1
  have dst := descOnly_locCheckStage_of entity
    (AStmt.lookV player (some "can") true "look" (pos, entity)) location.1 location.2
    ((validateReachability entity player location.2
      (AStmt.lookV player (some "can") true "look" (pos, entity))
      (describeMany [player, entity] w0)).1,
     (validateReachability entity player location.2
      (AStmt.lookV player (some "can") true "look" (pos, entity))
      (describeMany [player, entity] w0)).2) w0 dvr
  have dpr := descOnly_lookObjectResponse_of rnd entity player pos
    (AStmt.lookV player (some "can") true "look" (pos, entity)) w0 _ dst
  split
  · dsimp only
    exact dpr
  · split
    · dsimp only
      exact dpr
    · dsimp only
      exact dpr

theorem descOnly_look_of (rnd : Rnd) (entity player : EId) (pos : String)
    (location : String × EId) (w w2 : World) (h : DescOnly w w2) :
    DescOnly w (look rnd entity player pos location w2).2 :=
  descOnly_trans w w2 _ h (look_descOnly rnd entity player pos location w2)


theorem descOnly_prop (w w2 : World) (h : DescOnly w w2) (j : EId) (k : PKey) :
    w2.prop j k = w.prop j k := by
  obtain ⟨l, rfl⟩ := h
  exact describeMany_prop l j k w

theorem descOnly_locOf (w w2 : World) (h : DescOnly w w2) (j : EId) :
    w2.locOf j = w.locOf j := by
  obtain ⟨l, rfl⟩ := h
  exact describeMany_locOf l j w

theorem descOnly_hasAttr (w w2 : World) (h : DescOnly w w2) (j : EId) (a : PKey) :
    w2.hasAttr j a = w.hasAttr j a := by
  obtain ⟨l, rfl⟩ := h
  exact describeMany_hasAttr l j a w

theorem descOnly_objsOf (w w2 : World) (h : DescOnly w w2) (j : EId) :
    w2.objsOf j = w.objsOf j := by
  obtain ⟨l, rfl⟩ := h
  exact describeMany_objsOf l j w

theorem descOnly_directions (w w2 : World) (h : DescOnly w w2) :
    w2.directions = w.directions := by
  obtain ⟨l, rfl⟩ := h
  exact describeMany_directions l w

theorem descOnly_changeActionProperties (w w2 : World) (h : DescOnly w w2) :
    w2.changeActionProperties = w.changeActionProperties := by
  obtain ⟨l, rfl⟩ := h
  exact describeMany_changeActionProperties l w

theorem descOnly_allVals (w w2 : World) (h : DescOnly w w2) :
    w2.allVals = w.allVals := by
  obtain ⟨l, rfl⟩ := h
  exact describeMany_allVals l w

theorem descOnly_playerVals (w w2 : World) (h : DescOnly w w2) :
    w2.playerVals = w.playerVals := by
  obtain ⟨l, rfl⟩ := h
  exact describeMany_playerVals l w

theorem descOnly_get_map {β : Type} (g : Ent → β)
    (hg : ∀ e l2, g { e with descCache := l2 } = g e) (w w2 : World)
    (h : DescOnly w w2) (j : EId) : ((w2.get j).map g) = ((w.get j).map g) := by
  obtain ⟨l, rfl⟩ := h
  exact describeMany_get_map g hg l j w

theorem descOnly_attrMissingStage_of (e : EId) (canNot : AStmt) (attr : String)
    (acc : List Stmt × World) (w : World) (h : DescOnly w acc.2) :
    DescOnly w (attrMissingStage e canNot attr acc).2 := by
  unfold attrMissingStage
  apply descOnly_ite_pair
  · exact descOnly_describeE_of _ _ _ h
  · exact h

theorem descOnly_attrPresentStage_of (e : EId) (canNot : AStmt) (attr : String)
    (acc : List Stmt × World) (w : World) (h : DescOnly w acc.2) :
    DescOnly w (attrPresentStage e canNot attr acc).2 := by
  unfold attrPresentStage
  apply descOnly_ite_pair
  · exact descOnly_describeE_of _ _ _ h
  · exact h

theorem descOnly_getPlayerStage_of (e : EId) (canNot : AStmt)
    (acc : List Stmt × World) (w : World) (h : DescOnly w acc.2) :
    DescOnly w (getPlayerStage e canNot acc).2 := by
  unfold getPlayerStage
  apply descOnly_ite_pair
  · exact descOnly_describeE_of _ _ _ h
  · exact h

theorem descOnly_getHeldStage_of (e p : EId) (canNot : AStmt)
    (acc : List Stmt × World) (w : World) (h : DescOnly w acc.2) :
    DescOnly w (getHeldStage e p canNot acc).2 := by
  unfold getHeldStage
  apply descOnly_ite_pair
  · exact descOnly_describeMany_of _ _ _ h
  · exact h

theorem descOnly_dropSelfStage_of (e location : EId) (canNot : AStmt)
    (acc : List Stmt × World) (w : World) (h : DescOnly w acc.2) :
    DescOnly w (dropSelfStage e location canNot acc).2 := by
  unfold dropSelfStage
  apply descOnly_ite_pair
  · exact h
  · exact h

theorem descOnly_dropPathStage_of (e location : EId) (canNot : AStmt)
    (acc : List Stmt × World) (w : World) (h : DescOnly w acc.2) :
    DescOnly w (dropPathStage e location canNot acc).2 := by
  unfold dropPathStage
  dsimp only
  apply descOnly_ite_pair
  · apply descOnly_ite_pair
    · exact descOnly_describeMany_of _ _ _ h
    · exact h
  · exact h

theorem descOnly_dropPosStage_of (e location : EId) (locPos : String) (canNot : AStmt)
    (acc : List Stmt × World) (w : World) (h : DescOnly w acc.2) :
    DescOnly w (dropPosStage e location locPos canNot acc).2 := by
  unfold dropPosStage
  dsimp only
  repeat' first
    | apply descOnly_ite_pair
    | exact descOnly_describeE_of _ _ _ h
    | exact descOnly_describeMany_of _ _ _ h
    | exact h

theorem descOnly_goObstacleStage_of (p : EId) (dir : String) (canNot : AStmt)
    (loc1p fromL : EId) (acc : List Stmt × World) (w : World) (h : DescOnly w acc.2) :
    DescOnly w (goObstacleStage p dir canNot loc1p fromL acc).2 := by
  unfold goObstacleStage
  dsimp only
  repeat' first
    | apply descOnly_ite_pair
    | exact descOnly_describeMany_of _ _ _ h
    | exact h
    | split

theorem descOnly_goDirStage_of (p : EId) (dir : String) (canNot : AStmt)
    (loc1p : EId) (acc : List Stmt × World) (w : World) (h : DescOnly w acc.2) :
    DescOnly w (goDirStage p dir canNot loc1p acc).2 := by
  unfold goDirStage
  dsimp only
  repeat' first
    | apply descOnly_ite_pair
    | exact descOnly_describeMany_of _ _ _ h
    | exact h

theorem descOnly_changeKeyStage_of (k : PKey) (ekl : List String) (canNot : AStmt)
    (acc : List Stmt × World) (w : World) (h : DescOnly w acc.2) :
    DescOnly w (changeKeyStage k ekl canNot acc).2 := by
  unfold changeKeyStage
  apply descOnly_ite_pair
  · exact h
  · exact h

theorem descOnly_changeNameStage_of (e : EId) (k : PKey) (v : Val) (canNot : AStmt)
    (acc : List Stmt × World) (w : World) (h : DescOnly w acc.2) :
    DescOnly w (changeNameStage e k v canNot acc).2 := by
  unfold changeNameStage
  dsimp only
  repeat' first
    | apply descOnly_ite_pair
    | exact descOnly_describeE_of _ _ _ h
    | exact h

theorem descOnly_changeValStage_of (k : PKey) (v : Val) (canNot : AStmt)
    (acc : List Stmt × World) (w : World) (h : DescOnly w acc.2) :
    DescOnly w (changeValStage k v canNot acc).2 := by
  unfold changeValStage
  dsimp only
  repeat' first
    | apply descOnly_ite_pair
    | exact h

theorem descOnly_changeHeldStage_of (e p : EId) (k : PKey) (canNot : AStmt)
    (acc : List Stmt × World) (w : World) (h : DescOnly w acc.2) :
    DescOnly w (changeHeldStage e p k canNot acc).2 := by
  unfold changeHeldStage
  dsimp only
  repeat' first
    | apply descOnly_ite_pair
    | exact descOnly_describeMany_of _ _ _ h
    | exact h

theorem descOnly_changeSameStage_of (e : EId) (k : PKey) (ekl : List String) (v : Val)
    (canNot : AStmt) (acc : List Stmt × World) (w : World) (h : DescOnly w acc.2) :
    DescOnly w (changeSameStage e k ekl v canNot acc).2 := by
  unfold changeSameStage
  apply descOnly_ite_pair
  · exact descOnly_describeE_of _ _ _ h
  · exact h



theorem locCheckStage_nil (e : EId) (canNot : AStmt) (locPos : String)
    (location : EId) (acc : List Stmt × World)
    (h : (locCheckStage e canNot locPos location acc).1 = []) :
    locCheckStage e canNot locPos location acc = acc ∧ acc.1 = [] ∧
      acc.2.locOf e = some (locPos, location) := by
  unfold locCheckStage at h ⊢
  by_cases hc : acc.2.locOf e ≠ some (locPos, location)
  · rw [if_pos hc] at h
    simp at h
  · rw [if_neg hc] at h ⊢
    exact ⟨rfl, h, not_not.mp hc⟩

theorem attrMissingStage_nil (e : EId) (canNot : AStmt) (attr : String)
    (acc : List Stmt × World) (h : (attrMissingStage e canNot attr acc).1 = []) :
    attrMissingStage e canNot attr acc = acc ∧ acc.1 = [] ∧
      acc.2.hasAttr e (PKey.s attr) = true := by
  unfold attrMissingStage at h ⊢
  by_cases hc : ¬ acc.2.hasAttr e (PKey.s attr) = true
  · rw [if_pos hc] at h
    simp at h
  · rw [if_neg hc] at h ⊢
    exact ⟨rfl, h, not_not.mp hc⟩

theorem attrPresentStage_nil (e : EId) (canNot : AStmt) (attr : String)
    (acc : List Stmt × World) (h : (attrPresentStage e canNot attr acc).1 = []) :
    attrPresentStage e canNot attr acc = acc ∧ acc.1 = [] ∧
      acc.2.hasAttr e (PKey.s attr) = false := by
  unfold attrPresentStage at h ⊢
  by_cases hc : acc.2.hasAttr e (PKey.s attr) = true
  · rw [if_pos hc] at h
    simp at h
  · rw [if_neg hc] at h ⊢
    exact ⟨rfl, h, Bool.not_eq_true _ ▸ hc⟩

theorem getPlayerStage_nil (e : EId) (canNot : AStmt) (acc : List Stmt × World)
    (h : (getPlayerStage e canNot acc).1 = []) :
    getPlayerStage e canNot acc = acc ∧ acc.1 = [] ∧
      acc.2.hasAttr e (PKey.s "player") = false := by
  unfold getPlayerStage at h ⊢
  by_cases hc : acc.2.hasAttr e (PKey.s "player") = true
  · rw [if_pos hc] at h
    simp at h
  · rw [if_neg hc] at h ⊢
    exact ⟨rfl, h, Bool.not_eq_true _ ▸ hc⟩

theorem getHeldStage_nil (e p : EId) (canNot : AStmt) (acc : List Stmt × World)
    (h : (getHeldStage e p canNot acc).1 = []) :
    getHeldStage e p canNot acc = acc ∧ acc.1 = [] ∧
      ¬ acc.2.locOf e = some ("in", p) := by
  unfold getHeldStage at h ⊢
  by_cases hc : acc.2.locOf e = some ("in", p)
  · rw [if_pos hc] at h
    simp at h
  · rw [if_neg hc] at h ⊢
    exact ⟨rfl, h, hc⟩

theorem dropSelfStage_nil (e location : EId) (canNot : AStmt)
    (acc : List Stmt × World) (h : (dropSelfStage e location canNot acc).1 = []) :
    dropSelfStage e location canNot acc = acc ∧ acc.1 = [] ∧ e ≠ location := by
  unfold dropSelfStage at h ⊢
  by_cases hc : e = location
  · rw [if_pos hc] at h
    simp at h
  · rw [if_neg hc] at h ⊢
    exact ⟨rfl, h, hc⟩

theorem dropPathStage_nil (e location : EId) (canNot : AStmt)
    (acc : List Stmt × World) (h : (dropPathStage e location canNot acc).1 = []) :
    dropPathStage e location canNot acc = acc ∧ acc.1 = [] := by
  unfold dropPathStage at h ⊢
  dsimp only at h ⊢
  split at h
  · split at h
    · simp at h
    · rename_i h1 h2
      rw [if_pos h1, if_neg h2]
      exact ⟨rfl, h⟩
  · rename_i h1
    rw [if_neg h1]
    exact ⟨rfl, h⟩

theorem dropPosStage_nil (e location : EId) (locPos : String) (canNot : AStmt)
    (acc : List Stmt × World) (h : (dropPosStage e location locPos canNot acc).1 = []) :
    dropPosStage e location locPos canNot acc = acc ∧ acc.1 = [] ∧
      (locPos = "in" ∨
        (locPos = "on" ∧ acc.2.hasAttr location (PKey.s "supporter") = true) ∨
        (locPos = "under" ∧ acc.2.hasAttr location (PKey.s "hollow") = true)) := by
  unfold dropPosStage at h ⊢
  dsimp only at h ⊢
  by_cases h1 : locPos = "in"
  · rw [if_pos h1] at h ⊢
    split at h
    · simp at h
    · split at h
      · simp at h
      · rename_i h2 h3
        rw [if_neg h2, if_neg h3]
        exact ⟨rfl, h, Or.inl h1⟩
  · rw [if_neg h1] at h ⊢
    by_cases h2 : locPos = "on"
    · rw [if_pos h2] at h ⊢
      by_cases h3 : ¬ acc.2.hasAttr location (PKey.s "supporter") = true
      · rw [if_pos h3] at h
        simp at h
      · rw [if_neg h3] at h ⊢
        exact ⟨rfl, h, Or.inr (Or.inl ⟨h2, not_not.mp h3⟩)⟩
    · rw [if_neg h2] at h ⊢
      by_cases h4 : locPos = "under"
      · rw [if_pos h4] at h ⊢
        by_cases h5 : ¬ acc.2.hasAttr location (PKey.s "hollow") = true
        · rw [if_pos h5] at h
          simp at h
        · rw [if_neg h5] at h ⊢
          exact ⟨rfl, h, Or.inr (Or.inr ⟨h4, not_not.mp h5⟩)⟩
      · rw [if_neg h4] at h
        simp at h

theorem goObstacleStage_nil (p : EId) (dir : String) (canNot : AStmt)
    (loc1p fromL : EId) (acc : List Stmt × World)
    (h : (goObstacleStage p dir canNot loc1p fromL acc).1 = []) : acc.1 = [] := by
  unfold goObstacleStage at h
  dsimp only at h
  split at h
  · split at h
    · split at h
      · simp at h
      · split at h
        · simp at h
        · simp at h
    · exact h
  · exact h

theorem goDirStage_nil (p : EId) (dir : String) (canNot : AStmt) (loc1p : EId)
    (acc : List Stmt × World) (h : (goDirStage p dir canNot loc1p acc).1 = []) :
    goDirStage p dir canNot loc1p acc = acc ∧ acc.1 = [] := by
  unfold goDirStage at h ⊢
  dsimp only at h ⊢
  split at h
  · simp at h
  · split at h
    · simp at h
    · rename_i h1 h2
      rw [if_neg h1, if_neg h2]
      exact ⟨rfl, h⟩

theorem changeKeyStage_nil (k : PKey) (ekl : List String) (canNot : AStmt)
    (acc : List Stmt × World) (h : (changeKeyStage k ekl canNot acc).1 = []) :
    changeKeyStage k ekl canNot acc = acc ∧ acc.1 = [] ∧
      k ∈ acc.2.changeActionProperties := by
  unfold changeKeyStage at h ⊢
  by_cases hc : ¬ k ∈ acc.2.changeActionProperties
  · rw [if_pos hc] at h
    simp at h
  · rw [if_neg hc] at h ⊢
    exact ⟨rfl, h, not_not.mp hc⟩

theorem changeNameStage_nil (e : EId) (k : PKey) (v : Val) (canNot : AStmt)
    (acc : List Stmt × World) (h : (changeNameStage e k v canNot acc).1 = []) :
    changeNameStage e k v canNot acc = acc ∧ acc.1 = [] := by
  unfold changeNameStage at h ⊢
  dsimp only at h ⊢
  split at h
  · split at h
    · simp at h
    · split at h
      · simp at h
      · rename_i h1 h2 h3
        rw [if_pos h1, if_neg h2, if_neg h3]
        exact ⟨rfl, h⟩
  · rename_i h1
    rw [if_neg h1]
    exact ⟨rfl, h⟩

theorem changeValStage_nil (k : PKey) (v : Val) (canNot : AStmt)
    (acc : List Stmt × World) (h : (changeValStage k v canNot acc).1 = []) :
    changeValStage k v canNot acc = acc ∧ acc.1 = [] := by
  unfold changeValStage at h ⊢
  dsimp only at h ⊢
  split at h
  · split at h
    · simp at h
    · rename_i h1 h2
      rw [if_pos h1, if_neg h2]
      exact ⟨rfl, h⟩
  · rename_i h1
    rw [if_neg h1]
    exact ⟨rfl, h⟩

theorem changeHeldStage_nil (e p : EId) (k : PKey) (canNot : AStmt)
    (acc : List Stmt × World) (h : (changeHeldStage e p k canNot acc).1 = []) :
    changeHeldStage e p k canNot acc = acc ∧ acc.1 = [] := by
  unfold changeHeldStage at h ⊢
  dsimp only at h ⊢
  split at h
  · simp at h
  · rename_i h1
    rw [if_neg h1]
    exact ⟨rfl, h⟩

theorem changeSameStage_nil (e : EId) (k : PKey) (ekl : List String) (v : Val)
    (canNot : AStmt) (acc : List Stmt × World)
    (h : (changeSameStage e k ekl v canNot acc).1 = []) :
    changeSameStage e k ekl v canNot acc = acc ∧ acc.1 = [] ∧
      ¬ acc.2.prop e k = some v := by
  unfold changeSameStage at h ⊢
  by_cases hc : acc.2.prop e k = some v
  · rw [if_pos hc] at h
    simp at h
  · rw [if_neg hc] at h ⊢
    exact ⟨rfl, h, hc⟩

theorem validateReachability_nil_player (selfE player locEnt : EId) (negRes : AStmt)
    (w0 : World) (h : (validateReachability selfE player locEnt negRes w0).1 = []) :
    w0.hasAttr player (PKey.s "player") = true := by
  by_contra hpl
  apply absurd h
  unfold validateReachability
  dsimp only
  rw [if_pos hpl]
  dsimp only
  repeat' first
    | split
    | simp



theorem applyU_push (r : URec) (w : World) (r2 : URec) :
    applyU r (w.push r2) = (applyU r w).push r2 := by
  cases r <;> rfl

theorem entsModify_comm_fields (l : List (EId × Ent)) (i j : EId) (f g : Ent → Ent)
    (hc : ∀ e, g (f e) = f (g e)) :
    entsModify (entsModify l i f) j g = entsModify (entsModify l j g) i f := by
  by_cases hij : i = j
  · subst hij
    rw [entsModify_entsModify, entsModify_entsModify]
    have hfg : (fun e => g (f e)) = (fun e => f (g e)) := funext hc
    rw [hfg]
  · exact entsModify_comm l i j f g hij

theorem World.modify_comm_fields (w : World) (i j : EId) (f g : Ent → Ent)
    (hc : ∀ e, g (f e) = f (g e)) :
    (w.modify i f).modify j g = (w.modify j g).modify i f := by
  simp only [World.modify]
  rw [entsModify_comm_fields w.ents i j f g hc]

theorem World.locOf_modify_propsEq (w : World) (i j : EId) (f : Ent → Ent)
    (hf : ∀ e, (f e).props = e.props) : (w.modify i f).locOf j = w.locOf j := by
  rw [World.locOf, World.locOf,
    prop_of_get_map w _ j (PKey.s "location")
      (World.get_map_modify Ent.props w i j f hf)]

theorem applyU_comm_descU (i : EId) (key : DKey) (r : URec) (hr : r.isDesc = false)
    (w : World) :
    applyU r (applyU (URec.descU i key) w) = applyU (URec.descU i key) (applyU r w) := by
  cases r with
  | descU a b => simp [URec.isDesc] at hr
  | opensU e =>
      show applyU (URec.opensU e) (w.modify i (Ent.cacheDel key)) = _
      simp only [applyU]
      exact World.modify_comm_fields w i e _ _ (fun e2 => rfl)
  | closesU e =>
      show applyU (URec.closesU e) (w.modify i (Ent.cacheDel key)) = _
      simp only [applyU]
      exact World.modify_comm_fields w i e _ _ (fun e2 => rfl)
  | changeU e k oldVal =>
      show applyU (URec.changeU e k oldVal) (w.modify i (Ent.cacheDel key)) = _
      simp only [applyU]
      exact World.modify_comm_fields w i e _ _ (fun e2 => rfl)
  | goU p oldLoc oldObjs =>
      simp only [applyU]
      rw [World.locOf_modify_propsEq w i p (Ent.cacheDel key) (fun e => rfl)]
      cases w.locOf p with
      | none =>
          dsimp only
          rw [World.modify_comm_fields w i p (Ent.cacheDel key) (Ent.objsRemove p)
            (fun e => rfl)]
          rw [World.modify_comm_fields (w.modify p (Ent.objsRemove p)) i p
            (Ent.cacheDel key) (Ent.locRestore oldLoc) (fun e => rfl)]
          rw [World.modify_comm_fields
            ((w.modify p (Ent.objsRemove p)).modify p (Ent.locRestore oldLoc)) i oldLoc
            (Ent.cacheDel key) (Ent.objsSet oldObjs) (fun e => rfl)]
      | some pr =>
          obtain ⟨ps, cur⟩ := pr
          dsimp only
          rw [World.modify_comm_fields w i cur (Ent.cacheDel key) (Ent.objsRemove p)
            (fun e => rfl)]
          rw [World.modify_comm_fields (w.modify cur (Ent.objsRemove p)) i p
            (Ent.cacheDel key) (Ent.locRestore oldLoc) (fun e => rfl)]
          rw [World.modify_comm_fields
            ((w.modify cur (Ent.objsRemove p)).modify p (Ent.locRestore oldLoc)) i oldLoc
            (Ent.cacheDel key) (Ent.objsSet oldObjs) (fun e => rfl)]
  | getU e oldLoc oldPos oldObjs =>
      simp only [applyU]
      rw [World.locOf_modify_propsEq w i e (Ent.cacheDel key) (fun e2 => rfl)]
      cases w.locOf e with
      | none =>
          dsimp only
          rw [World.modify_comm_fields w i e (Ent.cacheDel key) (Ent.objsRemove e)
            (fun e2 => rfl)]
          rw [World.modify_comm_fields (w.modify e (Ent.objsRemove e)) i e
            (Ent.cacheDel key) (Ent.locSet oldPos oldLoc) (fun e2 => rfl)]
          rw [World.modify_comm_fields
            ((w.modify e (Ent.objsRemove e)).modify e (Ent.locSet oldPos oldLoc)) i oldLoc
            (Ent.cacheDel key) (Ent.objsSet oldObjs) (fun e2 => rfl)]
      | some pr =>
          obtain ⟨ps, cur⟩ := pr
          dsimp only
          rw [World.modify_comm_fields w i cur (Ent.cacheDel key) (Ent.objsRemove e)
            (fun e2 => rfl)]
          rw [World.modify_comm_fields (w.modify cur (Ent.objsRemove e)) i e
            (Ent.cacheDel key) (Ent.locSet oldPos oldLoc) (fun e2 => rfl)]
          rw [World.modify_comm_fields
            ((w.modify cur (Ent.objsRemove e)).modify e (Ent.locSet oldPos oldLoc)) i oldLoc
            (Ent.cacheDel key) (Ent.objsSet oldObjs) (fun e2 => rfl)]
  | dropU e oldLoc oldPos oldObjs =>
      simp only [applyU]
      rw [World.locOf_modify_propsEq w i e (Ent.cacheDel key) (fun e2 => rfl)]
      cases w.locOf e with
      | none =>
          dsimp only
          rw [World.modify_comm_fields w i e (Ent.cacheDel key) (Ent.objsRemove e)
            (fun e2 => rfl)]
          rw [World.modify_comm_fields (w.modify e (Ent.objsRemove e)) i e
            (Ent.cacheDel key) (Ent.locSet oldPos oldLoc) (fun e2 => rfl)]
          rw [World.modify_comm_fields
            ((w.modify e (Ent.objsRemove e)).modify e (Ent.locSet oldPos oldLoc)) i oldLoc
            (Ent.cacheDel key) (Ent.objsSet oldObjs) (fun e2 => rfl)]
      | some pr =>
          obtain ⟨ps, cur⟩ := pr
          dsimp only
          rw [World.modify_comm_fields w i cur (Ent.cacheDel key) (Ent.objsRemove e)
            (fun e2 => rfl)]
          rw [World.modify_comm_fields (w.modify cur (Ent.objsRemove e)) i e
            (Ent.cacheDel key) (Ent.locSet oldPos oldLoc) (fun e2 => rfl)]
          rw [World.modify_comm_fields
            ((w.modify cur (Ent.objsRemove e)).modify e (Ent.locSet oldPos oldLoc)) i oldLoc
            (Ent.cacheDel key) (Ent.objsSet oldObjs) (fun e2 => rfl)]

theorem replay_comm_desc (rs : List URec) (hall : ∀ x ∈ rs, x.isDesc = true)
    (r : URec) (hr : r.isDesc = false) (w : World) :
    replay rs (applyU r w) = applyU r (replay rs w) := by
  induction rs generalizing w with
  | nil => rfl
  | cons d t ih =>
      have hd := hall d (by simp)
      have ht : ∀ x ∈ t, x.isDesc = true := fun x hx => hall x (by simp [hx])
      cases d with
      | descU i key =>
          rw [replay_cons, replay_cons, ← applyU_comm_descU i key r hr w, ih ht]
      | goU a b c => simp [URec.isDesc] at hd
      | opensU a => simp [URec.isDesc] at hd
      | closesU a => simp [URec.isDesc] at hd
      | getU a b c d2 => simp [URec.isDesc] at hd
      | dropU a b c d2 => simp [URec.isDesc] at hd
      | changeU a b c => simp [URec.isDesc] at hd

theorem describeE_undo (i : EId) (w : World) :
    ∃ recs, (describeE i w).undo = w.undo ++ recs ∧ ∀ x ∈ recs, x.isDesc = true := by
  unfold describeE
  cases w.get i with
  | none => exact ⟨[], by simp, by simp⟩
  | some e =>
      dsimp only
      split
      · exact ⟨[], by simp, by simp⟩
      · refine ⟨[URec.descU i (descKey e)], rfl, ?_⟩
        intro x hx
        simp at hx
        rw [hx]
        rfl

theorem describeMany_undo (L : List EId) (w : World) :
    ∃ recs, (describeMany L w).undo = w.undo ++ recs ∧ ∀ x ∈ recs, x.isDesc = true := by
  induction L generalizing w with
  | nil => exact ⟨[], by simp [describeMany], by simp⟩
  | cons i t ih =>
      obtain ⟨r1, h1, ha1⟩ := describeE_undo i w
      obtain ⟨r2, h2, ha2⟩ := ih (describeE i w)
      refine ⟨r1 ++ r2, ?_, ?_⟩
      · rw [describeMany, h2, h1, List.append_assoc]
      · intro x hx
        rcases List.mem_append.mp hx with hx | hx
        · exact ha1 x hx
        · exact ha2 x hx

theorem replay_push (rs : List URec) (w : World) (r : URec) :
    replay rs (w.push r) = { replay rs w with undo := w.undo ++ [r] } := by
  have hp : w.push r = { w with undo := w.undo ++ [r] } := rfl
  rw [hp, replay_swap_undo]

theorem restores_mut_desc (w wd wm : World) (L : List EId) (r : URec)
    (hd : Restores w wd) (hm : wm.undo = wd.undo) (hr : r.isDesc = false)
    (happly : applyU r wm = wd) :
    Restores w ((describeMany L wm).push r) := by
  obtain ⟨recs, hrec, hall⟩ := describeMany_undo L wm
  have hfu : ((describeMany L wm).push r).undo = wd.undo ++ (recs ++ [r]) := by
    rw [World.push_undo, hrec, hm, List.append_assoc]
  have hdu := restores_undo_take w wd hd
  have hlen := restores_len_le w wd hd
  unfold Restores
  rw [recoverState_eq, hfu, List.drop_append_of_le_length hlen, List.reverse_append,
    List.take_append_of_le_length hlen, hdu]
  have hrev : (recs ++ [r]).reverse = r :: recs.reverse := by simp
  rw [hrev, replay_append, replay_cons]
  have h1 : applyU r ((describeMany L wm).push r) =
      { applyU r (describeMany L wm) with
          undo := (describeMany L wm).undo ++ [r] } := by
    rw [applyU_push]
    have h1b : (applyU r (describeMany L wm)).push r =
        { applyU r (describeMany L wm) with
            undo := (applyU r (describeMany L wm)).undo ++ [r] } := rfl
    rw [h1b, applyU_undo]
  have hallrev : ∀ x ∈ recs.reverse, x.isDesc = true := by
    intro x hx
    exact hall x (List.mem_reverse.mp hx)
  have hrepd : replay recs.reverse (describeMany L wm) =
      { wm with undo := (describeMany L wm).undo } := by
    have hres := restores_replay_eq wm (describeMany L wm) (restores_describeMany L wm)
    have hdrop : (describeMany L wm).undo.drop wm.undo.length = recs := by
      rw [hrec, List.drop_left]
    rw [hdrop] at hres
    exact hres
  have h2 : replay recs.reverse (applyU r ((describeMany L wm).push r)) =
      { wd with undo := (describeMany L wm).undo ++ [r] } := by
    rw [h1, replay_swap_undo, replay_comm_desc recs.reverse hallrev r hr, hrepd,
      applyU_swap_undo, happly]
  rw [h2, replay_swap_undo, restores_replay_eq w wd hd]



theorem entsGet_eq_none_of_not_mem (l : List (EId × Ent)) (i : EId)
    (h : ¬ i ∈ l.map Prod.fst) : entsGet l i = none := by
  induction l with
  | nil => rfl
  | cons hd t ih =>
      obtain ⟨a, b⟩ := hd
      simp only [List.map_cons, List.mem_cons, not_or] at h
      rw [entsGet, if_neg (Ne.symm h.1)]
      exact ih h.2

theorem ents_ext (l1 l2 : List (EId × Ent)) (hsp : l1.map Prod.fst = l2.map Prod.fst)
    (hnd : (l1.map Prod.fst).Nodup) (h : ∀ i, entsGet l1 i = entsGet l2 i) :
    l1 = l2 := by
  induction l1 generalizing l2 with
  | nil =>
      cases l2 with
      | nil => rfl
      | cons c t2 => simp at hsp
  | cons hd t1 ih =>
      obtain ⟨a, b⟩ := hd
      cases l2 with
      | nil => simp at hsp
      | cons hd2 t2 =>
          obtain ⟨c, d⟩ := hd2
          simp only [List.map_cons, List.cons.injEq] at hsp
          obtain ⟨hac, hsp2⟩ := hsp
          subst hac
          simp only [List.map_cons, List.nodup_cons] at hnd
          have hb : b = d := by
            have hh := h a
            rw [entsGet, if_pos rfl, entsGet, if_pos rfl] at hh
            exact Option.some.inj hh
          subst hb
          congr 1
          refine ih t2 hsp2 hnd.2 (fun i => ?_)
          by_cases hia : i = a
          · subst hia
            rw [entsGet_eq_none_of_not_mem t1 i hnd.1,
                entsGet_eq_none_of_not_mem t2 i (hsp2 ▸ hnd.1)]
          · have hh := h i
            rw [entsGet, if_neg (Ne.symm hia), entsGet, if_neg (Ne.symm hia)] at hh
            exact hh

theorem World.eq_of_fields (w1 w2 : World) (h1 : w1.ents = w2.ents)
    (h2 : w1.undo = w2.undo) (h3 : w1.changeActionProperties = w2.changeActionProperties)
    (h4 : w1.locationPositions = w2.locationPositions)
    (h5 : w1.directions = w2.directions) (h6 : w1.allProperties = w2.allProperties)
    (h7 : w1.allVals = w2.allVals) (h8 : w1.playerVals = w2.playerVals) : w1 = w2 := by
  cases w1
  cases w2
  simp_all

theorem World.eq_of_get (w1 w2 : World)
    (hnd : (w1.ents.map Prod.fst).Nodup)
    (hsp : w1.ents.map Prod.fst = w2.ents.map Prod.fst)
    (hget : ∀ i, w1.get i = w2.get i)
    (h2 : w1.undo = w2.undo) (h3 : w1.changeActionProperties = w2.changeActionProperties)
    (h4 : w1.locationPositions = w2.locationPositions)
    (h5 : w1.directions = w2.directions) (h6 : w1.allProperties = w2.allProperties)
    (h7 : w1.allVals = w2.allVals) (h8 : w1.playerVals = w2.playerVals) : w1 = w2 :=
  World.eq_of_fields w1 w2 (ents_ext w1.ents w2.ents hsp hnd hget) h2 h3 h4 h5 h6 h7 h8

theorem World.modify_spine (w : World) (i : EId) (f : Ent → Ent) :
    (w.modify i f).ents.map Prod.fst = w.ents.map Prod.fst :=
  entsModify_spine w.ents i f

theorem World.modify_fields (w : World) (i : EId) (f : Ent → Ent) :
    (w.modify i f).changeActionProperties = w.changeActionProperties ∧
    (w.modify i f).locationPositions = w.locationPositions ∧
    (w.modify i f).directions = w.directions ∧
    (w.modify i f).allProperties = w.allProperties ∧
    (w.modify i f).allVals = w.allVals ∧
    (w.modify i f).playerVals = w.playerVals :=
  ⟨rfl, rfl, rfl, rfl, rfl, rfl⟩



theorem hasAttr_false_not_mem (w : World) (i : EId) (a : PKey) (e : Ent)
    (h : w.hasAttr i a = false) (hg : w.get i = some e) : ¬ a ∈ e.attrs := by
  rw [World.hasAttr, hg] at h
  simpa using h

theorem hasAttr_true_mem (w : World) (i : EId) (a : PKey) (e : Ent)
    (h : w.hasAttr i a = true) (hg : w.get i = some e) : a ∈ e.attrs := by
  rw [World.hasAttr, hg] at h
  simpa using h

theorem World.prop_modify_propsEq (w : World) (i j : EId) (k : PKey) (f : Ent → Ent)
    (hf : ∀ e, (f e).props = e.props) : (w.modify i f).prop j k = w.prop j k :=
  prop_of_get_map w _ j k (World.get_map_modify Ent.props w i j f hf)

theorem World.hasAttr_modify_attrsEq (w : World) (i j : EId) (a : PKey) (f : Ent → Ent)
    (hf : ∀ e, (f e).attrs = e.attrs) : (w.modify i f).hasAttr j a = w.hasAttr j a :=
  hasAttr_of_get_map w _ j a (World.get_map_modify Ent.attrs w i j f hf)

theorem World.objsOf_modify_objsEq (w : World) (i j : EId) (f : Ent → Ent)
    (hf : ∀ e, (f e).objs = e.objs) : (w.modify i f).objsOf j = w.objsOf j :=
  objsOf_of_get_map w _ j (World.get_map_modify Ent.objs w i j f hf)

theorem mem_sadd (l : List PKey) (x a : PKey) : a ∈ sadd l x ↔ a = x ∨ a ∈ l := by
  rw [sadd]
  split
  · rename_i hx
    constructor
    · exact fun h => Or.inr h
    · rintro (h | h)
      · exact h ▸ hx
      · exact h
  · exact mem_insSorted

theorem mem_lerase_imp {α : Type} [DecidableEq α] (l : List α) (x a : α)
    (h : a ∈ lerase l x) : a ∈ l := by
  by_cases hax : a = x
  · subst hax
    induction l with
    | nil => simp [lerase] at h
    | cons y t ih =>
        by_cases hy : y = a
        · simp [hy]
        · rw [lerase, if_neg hy] at h
          rcases List.mem_cons.mp h with hh | hh
          · exact List.mem_cons.mpr (Or.inl hh)
          · exact List.mem_cons.mpr (Or.inr (ih hh))
  · exact (mem_lerase_ne l x a hax).mp h

theorem WF_push (w : World) (r : URec) (h : WF w) : WF (w.push r) :=
  ⟨h.entsNodup, h.consist, h.nodupObjs, h.attrsSorted, h.playerIn, h.playersLoc,
    h.dirTargets, h.locNotDir, h.playerNotHolder, h.changeKeysOk⟩

theorem get_attrs_of_modify_attrF (w : World) (i j : EId) (f : List PKey → List PKey)
    (e2 : Ent) (hg : (w.modify i (fun e => { e with attrs := f e.attrs })).get j = some e2) :
    ∃ e0, w.get j = some e0 ∧ (e2.attrs = e0.attrs ∨ (j = i ∧ e2.attrs = f e0.attrs)) := by
  by_cases hj : j = i
  · subst hj
    rw [World.get_modify_self] at hg
    cases hw : w.get j with
    | none => rw [hw] at hg; exact Option.noConfusion hg
    | some e0 =>
        rw [hw] at hg
        refine ⟨e0, rfl, Or.inr ⟨rfl, ?_⟩⟩
        have he : e2 = { e0 with attrs := f e0.attrs } := (Option.some.inj hg).symm
        rw [he]
  · rw [World.get_modify_ne _ _ _ _ hj] at hg
    exact ⟨e2, hg, Or.inl rfl⟩


theorem hasAttr_modify_attrAdd_ne (w : World) (i j : EId) (a b : PKey) (hne : b ≠ a) :
    (w.modify i (Ent.attrAdd a)).hasAttr j b = w.hasAttr j b := by
  by_cases hj : j = i
  · subst hj
    rw [World.hasAttr, World.hasAttr, World.get_modify_self]
    cases w.get j with
    | none => rfl
    | some e =>
        simp [Ent.attrAdd, mem_sadd, hne]
  · rw [World.hasAttr, World.hasAttr, World.get_modify_ne _ _ _ _ hj]

theorem hasAttr_modify_attrDel_ne (w : World) (i j : EId) (a b : PKey) (hne : b ≠ a) :
    (w.modify i (Ent.attrDel a)).hasAttr j b = w.hasAttr j b := by
  by_cases hj : j = i
  · subst hj
    rw [World.hasAttr, World.hasAttr, World.get_modify_self]
    cases w.get j with
    | none => rfl
    | some e =>
        simp [Ent.attrDel, mem_lerase_ne _ _ _ hne]
  · rw [World.hasAttr, World.hasAttr, World.get_modify_ne _ _ _ _ hj]

theorem ssorted_sadd (l : List PKey) (x : PKey) (hs : ssorted l) :
    ssorted (sadd l x) := by
  rw [sadd]
  split
  · exact hs
  · rename_i hx
    exact ssorted_insSorted l x hx hs

theorem WF_modify_attrAdd (w : World) (i : EId) (a : PKey) (hwf : WF w)
    (hne1 : a ≠ PKey.s "player") (hne2 : a ≠ PKey.s "supporter")
    (hne3 : a ≠ PKey.s "hollow") :
    WF (w.modify i (Ent.attrAdd a)) := by
  constructor
  · rw [World.modify_spine]
    exact hwf.entsNodup
  · intro x j
    rw [World.objsOf_modify_objsEq w i j (Ent.attrAdd a) (fun e => rfl),
      World.locOf_modify_propsEq w i x (Ent.attrAdd a) (fun e => rfl)]
    exact hwf.consist x j
  · intro j
    rw [World.objsOf_modify_objsEq w i j (Ent.attrAdd a) (fun e => rfl)]
    exact hwf.nodupObjs j
  · intro j e2 hg
    obtain ⟨e0, hg0, hcase⟩ := get_attrs_of_modify_attrF w i j (fun l => sadd l a) e2 hg
    rcases hcase with hh | ⟨hji, hh⟩
    · rw [hh]
      exact hwf.attrsSorted j e0 hg0
    · rw [hh]
      exact ssorted_sadd _ _ (hwf.attrsSorted j e0 hg0)
  · intro x ps j hloc hpl
    rw [World.locOf_modify_propsEq w i x (Ent.attrAdd a) (fun e => rfl)] at hloc
    rw [hasAttr_modify_attrAdd_ne w i j a (PKey.s "player") (Ne.symm hne1)] at hpl
    exact hwf.playerIn x ps j hloc hpl
  · intro j hpl
    rw [hasAttr_modify_attrAdd_ne w i j a (PKey.s "player") (Ne.symm hne1)] at hpl
    rw [World.locOf_modify_propsEq w i j (Ent.attrAdd a) (fun e => rfl)]
    exact hwf.playersLoc j hpl
  · intro x d v hd hp jj hv
    rw [World.prop_modify_propsEq w i x (PKey.s d) (Ent.attrAdd a) (fun e => rfl)] at hp
    have hr := hwf.dirTargets x d v hd hp jj hv
    refine ⟨hr.1, ?_, ?_⟩
    · rw [hasAttr_modify_attrAdd_ne w i jj a (PKey.s "player") (Ne.symm hne1)]
      exact hr.2.1
    · rw [World.get_isSome_modify]
      exact hr.2.2
  · exact hwf.locNotDir
  · intro j hpl
    rw [hasAttr_modify_attrAdd_ne w i j a (PKey.s "player") (Ne.symm hne1)] at hpl
    have hr := hwf.playerNotHolder j hpl
    rw [hasAttr_modify_attrAdd_ne w i j a (PKey.s "supporter") (Ne.symm hne2),
      hasAttr_modify_attrAdd_ne w i j a (PKey.s "hollow") (Ne.symm hne3)]
    exact hr
  · exact hwf.changeKeysOk

theorem WF_modify_attrDel (w : World) (i : EId) (a : PKey) (hwf : WF w)
    (hne1 : a ≠ PKey.s "player") (hne2 : a ≠ PKey.s "supporter")
    (hne3 : a ≠ PKey.s "hollow") :
    WF (w.modify i (Ent.attrDel a)) := by
  constructor
  · rw [World.modify_spine]
    exact hwf.entsNodup
  · intro x j
    rw [World.objsOf_modify_objsEq w i j (Ent.attrDel a) (fun e => rfl),
      World.locOf_modify_propsEq w i x (Ent.attrDel a) (fun e => rfl)]
    exact hwf.consist x j
  · intro j
    rw [World.objsOf_modify_objsEq w i j (Ent.attrDel a) (fun e => rfl)]
    exact hwf.nodupObjs j
  · intro j e2 hg
    obtain ⟨e0, hg0, hcase⟩ := get_attrs_of_modify_attrF w i j (fun l => lerase l a) e2 hg
    rcases hcase with hh | ⟨hji, hh⟩
    · rw [hh]
      exact hwf.attrsSorted j e0 hg0
    · rw [hh]
      exact ssorted_lerase _ _ (hwf.attrsSorted j e0 hg0)
  · intro x ps j hloc hpl
    rw [World.locOf_modify_propsEq w i x (Ent.attrDel a) (fun e => rfl)] at hloc
    rw [hasAttr_modify_attrDel_ne w i j a (PKey.s "player") (Ne.symm hne1)] at hpl
    exact hwf.playerIn x ps j hloc hpl
  · intro j hpl
    rw [hasAttr_modify_attrDel_ne w i j a (PKey.s "player") (Ne.symm hne1)] at hpl
    rw [World.locOf_modify_propsEq w i j (Ent.attrDel a) (fun e => rfl)]
    exact hwf.playersLoc j hpl
  · intro x d v hd hp jj hv
    rw [World.prop_modify_propsEq w i x (PKey.s d) (Ent.attrDel a) (fun e => rfl)] at hp
    have hr := hwf.dirTargets x d v hd hp jj hv
    refine ⟨hr.1, ?_, ?_⟩
    · rw [hasAttr_modify_attrDel_ne w i jj a (PKey.s "player") (Ne.symm hne1)]
      exact hr.2.1
    · rw [World.get_isSome_modify]
      exact hr.2.2
  · exact hwf.locNotDir
  · intro j hpl
    rw [hasAttr_modify_attrDel_ne w i j a (PKey.s "player") (Ne.symm hne1)] at hpl
    have hr := hwf.playerNotHolder j hpl
    rw [hasAttr_modify_attrDel_ne w i j a (PKey.s "supporter") (Ne.symm hne2),
      hasAttr_modify_attrDel_ne w i j a (PKey.s "hollow") (Ne.symm hne3)]
    exact hr
  · exact hwf.changeKeysOk


theorem opens_core_ok (e p : EId) (w0 W : World) (hdo : DescOnly w0 W) (hwf : WF w0)
    (hopen : W.hasAttr e (PKey.s "open") = false) :
    Restores w0 (((describeMany [p, e] W).modify e
        (Ent.attrAdd (PKey.s "open"))).push (URec.opensU e)) ∧
    WF (((describeMany [p, e] W).modify e
        (Ent.attrAdd (PKey.s "open"))).push (URec.opensU e)) := by
  have hdoW : DescOnly w0 (describeMany [p, e] W) := descOnly_describeMany_of _ _ _ hdo
  have hwfW : WF (describeMany [p, e] W) := WF_descOnly w0 _ hwf hdoW
  have hopenW : (describeMany [p, e] W).hasAttr e (PKey.s "open") = false := by
    rw [describeMany_hasAttr]
    exact hopen
  constructor
  · refine restores_mut_desc w0 (describeMany [p, e] W)
      ((describeMany [p, e] W).modify e (Ent.attrAdd (PKey.s "open"))) []
      (URec.opensU e) (restores_descOnly _ _ hdoW) rfl rfl ?_
    show ((describeMany [p, e] W).modify e (Ent.attrAdd (PKey.s "open"))).modify e
        (Ent.attrDel (PKey.s "open")) = describeMany [p, e] W
    rw [World.modify_modify]
    refine World.modify_congr_id _ _ _ (fun e2 hg => ?_)
    have hna : ¬ (PKey.s "open") ∈ e2.attrs :=
      hasAttr_false_not_mem _ _ _ e2 hopenW hg
    show Ent.attrDel (PKey.s "open") (Ent.attrAdd (PKey.s "open") e2) = e2
    simp [Ent.attrDel, Ent.attrAdd, lerase_sadd_not_mem _ _ hna]
  · refine WF_push _ _ (WF_modify_attrAdd (describeMany [p, e] W) e (PKey.s "open")
      hwfW ?_ ?_ ?_) <;> decide

theorem closes_core_ok (e p : EId) (w0 W : World) (hdo : DescOnly w0 W) (hwf : WF w0)
    (hopen : W.hasAttr e (PKey.s "open") = true) :
    Restores w0 ((describeMany [p, e] (W.modify e
        (Ent.attrDel (PKey.s "open")))).push (URec.closesU e)) ∧
    WF ((describeMany [p, e] (W.modify e
        (Ent.attrDel (PKey.s "open")))).push (URec.closesU e)) := by
  have hwfV : WF W := WF_descOnly w0 W hwf hdo
  constructor
  · refine restores_mut_desc w0 W (W.modify e (Ent.attrDel (PKey.s "open"))) [p, e]
      (URec.closesU e) (restores_descOnly _ _ hdo) rfl rfl ?_
    show (W.modify e (Ent.attrDel (PKey.s "open"))).modify e
        (Ent.attrAdd (PKey.s "open")) = W
    rw [World.modify_modify]
    refine World.modify_congr_id _ _ _ (fun e2 hg => ?_)
    have hmem : (PKey.s "open") ∈ e2.attrs :=
      hasAttr_true_mem _ _ _ e2 hopen hg
    have hsort : ssorted e2.attrs := hwfV.attrsSorted e e2 hg
    show Ent.attrAdd (PKey.s "open") (Ent.attrDel (PKey.s "open") e2) = e2
    simp [Ent.attrAdd, Ent.attrDel, sadd_lerase_mem _ _ hmem hsort]
  · refine WF_push _ _ (WF_descOnly _ _
      (WF_modify_attrDel W e (PKey.s "open") hwfV ?_ ?_ ?_)
      (descOnly_describeMany_of _ _ _ (descOnly_refl _))) <;> decide

theorem opens_ok (e p : EId) (loc0 : Option EId) (pos0 : Option String)
    (w0 : World) (hwf : WF w0) :
    Restores w0 (opens e p loc0 pos0 w0).2 ∧ WF (opens e p loc0 pos0 w0).2 := by
  unfold opens
  dsimp only
  split
  · rename_i hnil
    obtain ⟨he4, h41, hopen⟩ := attrPresentStage_nil _ _ _ _ hnil
    obtain ⟨he3, h31, hlock⟩ := attrPresentStage_nil _ _ _ _ h41
    obtain ⟨he2, h21, hopenable⟩ := attrMissingStage_nil _ _ _ _ h31
    obtain ⟨he1, h11, hloc⟩ := locCheckStage_nil _ _ _ _ _ h21
    rw [he3, he2, he1] at hopen
    dsimp only at hopen
    rw [he4, he3, he2, he1]
    dsimp only
    exact opens_core_ok e p w0 _
      (descOnly_validateReachability_of _ _ _ _ _ _
        (descOnly_describeMany_of _ _ _ (descOnly_refl w0))) hwf hopen
  · rename_i hnil
    have hdo : DescOnly w0 (attrPresentStage e
        (AStmt.opensV p (some "can") true "open" e) "open"
        (attrPresentStage e (AStmt.opensV p (some "can") true "open" e) "locked"
          (attrMissingStage e (AStmt.opensV p (some "can") true "open" e) "openable"
            (locCheckStage e (AStmt.opensV p (some "can") true "open" e)
              (pos0.getD (match w0.locOf e with | some (ps, _) => ps | none => ""))
              (loc0.getD (match w0.locOf e with | some (_, l) => l | none => e))
              ((validateReachability e p
                  (loc0.getD (match w0.locOf e with | some (_, l) => l | none => e))
                  (AStmt.opensV p (some "can") true "open" e)
                  (describeMany [p, e] w0)).1,
               (validateReachability e p
                  (loc0.getD (match w0.locOf e with | some (_, l) => l | none => e))
                  (AStmt.opensV p (some "can") true "open" e)
                  (describeMany [p, e] w0)).2))))).2 := by
      apply descOnly_attrPresentStage_of
      apply descOnly_attrPresentStage_of
      apply descOnly_attrMissingStage_of
      apply descOnly_locCheckStage_of
      exact descOnly_validateReachability_of _ _ _ _ _ _
        (descOnly_describeMany_of _ _ _ (descOnly_refl w0))
    exact ⟨restores_descOnly _ _ hdo, WF_descOnly _ _ hwf hdo⟩


theorem closes_ok (e p : EId) (location : EId) (locPos : String)
    (w0 : World) (hwf : WF w0) :
    Restores w0 (closes e p location locPos w0).2 ∧ WF (closes e p location locPos w0).2 := by
  unfold closes
  dsimp only
  split
  · rename_i hnil
    obtain ⟨he4, h41, hopen⟩ := attrMissingStage_nil _ _ _ _ hnil
    obtain ⟨he3, h31, hlock⟩ := attrPresentStage_nil _ _ _ _ h41
    obtain ⟨he2, h21, hopenable⟩ := attrMissingStage_nil _ _ _ _ h31
    obtain ⟨he1, h11, hloc⟩ := locCheckStage_nil _ _ _ _ _ h21
    rw [he3, he2, he1] at hopen
    dsimp only at hopen
    rw [he4, he3, he2, he1]
    dsimp only
    exact closes_core_ok e p w0 _
      (descOnly_validateReachability_of _ _ _ _ _ _
        (descOnly_describeMany_of _ _ _ (descOnly_refl w0))) hwf hopen
  · refine (fun hdo => ⟨restores_descOnly _ _ hdo, WF_descOnly _ _ hwf hdo⟩) ?_
    apply descOnly_attrMissingStage_of
    apply descOnly_attrPresentStage_of
    apply descOnly_attrMissingStage_of
    apply descOnly_locCheckStage_of
    exact descOnly_validateReachability_of _ _ _ _ _ _
      (descOnly_describeMany_of _ _ _ (descOnly_refl w0))


theorem lerase_not_mem_id {α : Type} [DecidableEq α] (l : List α) (x : α)
    (h : ¬ x ∈ l) : lerase l x = l := by
  induction l with
  | nil => rfl
  | cons y t ih =>
      simp only [List.mem_cons, not_or] at h
      rw [lerase, if_neg (Ne.symm h.1), ih h.2]

theorem get_isSome_of_locOf (w : World) (i : EId) (x : String × EId)
    (h : w.locOf i = some x) : ∃ e0, w.get i = some e0 := by
  rw [World.locOf, World.prop] at h
  cases hg : w.get i with
  | none => rw [hg] at h; simp at h
  | some e0 => exact ⟨e0, rfl⟩

theorem locOf_some_alook (w : World) (i : EId) (ps : String) (j : EId)
    (h : w.locOf i = some (ps, j)) (e0 : Ent) (hg : w.get i = some e0) :
    alook e0.props (PKey.s "location") = some (Val.loc ps j) := by
  rw [World.locOf, World.prop, hg] at h
  dsimp only at h
  cases ha : alook e0.props (PKey.s "location") with
  | none => rw [ha] at h; simp at h
  | some v =>
      rw [ha] at h
      cases v with
      | str x => simp at h
      | ent x => simp at h
      | strs x => simp at h
      | loc ps2 j2 =>
          simp only [Option.some.injEq, Prod.mk.injEq] at h
          rw [h.1, h.2]

theorem objsOf_not_mem_get (w : World) (j : EId) (x : EId) (hn : ¬ x ∈ w.objsOf j)
    (e0 : Ent) (hg : w.get j = some e0) : ¬ x ∈ e0.objs := by
  rw [World.objsOf, hg] at hn
  exact hn

theorem objsOf_get (w : World) (j : EId) (e0 : Ent) (hg : w.get j = some e0) :
    w.objsOf j = e0.objs := by
  rw [World.objsOf, hg]

theorem locOf_modify_locSet_self (w : World) (i : EId) (ps : String) (j : EId)
    (e0 : Ent) (hg : w.get i = some e0) :
    (w.modify i (Ent.locSet ps j)).locOf i = some (ps, j) := by
  rw [World.locOf, World.prop, World.get_modify_self, hg]
  dsimp only [Option.map, Ent.locSet]
  rw [alook_aset_self]



theorem World.modify_ext_entity (w : World) (i : EId) (f g : Ent → Ent)
    (h : ∀ e0, w.get i = some e0 → f e0 = g e0) : w.modify i f = w.modify i g := by
  have hgen : ∀ l : List (EId × Ent), (∀ e0, entsGet l i = some e0 → f e0 = g e0) →
      entsModify l i f = entsModify l i g := by
    intro l
    induction l with
    | nil => intro _; rfl
    | cons hd t ih =>
        obtain ⟨a, b⟩ := hd
        intro hal
        by_cases hai : a = i
        · rw [entsModify, if_pos hai, entsModify, if_pos hai,
            hal b (by rw [entsGet, if_pos hai])]
        · rw [entsModify, if_neg hai, entsModify, if_neg hai,
            ih (fun e0 he0 => hal e0 (by rw [entsGet, if_neg hai]; exact he0))]
  show { w with ents := entsModify w.ents i f } = { w with ents := entsModify w.ents i g }
  rw [hgen w.ents h]

theorem objsOf_modify_ne (w : World) (i j : EId) (f : Ent → Ent) (h : j ≠ i) :
    (w.modify i f).objsOf j = w.objsOf j := by
  rw [World.objsOf, World.objsOf, World.get_modify_ne _ _ _ _ h]

theorem World.locOf_modify_ne (w : World) (i : EId) (f : Ent → Ent) (a : EId)
    (h : a ≠ i) : (w.modify i f).locOf a = w.locOf a := by
  rw [World.locOf, World.locOf, World.prop, World.prop, World.get_modify_ne _ _ _ _ h]

theorem World.prop_modify_ne (w : World) (i : EId) (f : Ent → Ent) (a : EId)
    (k : PKey) (h : a ≠ i) : (w.modify i f).prop a k = w.prop a k := by
  rw [World.prop, World.prop, World.get_modify_ne _ _ _ _ h]

theorem prop_modify_locSet_ne_key (w : World) (i : EId) (ps : String) (j : EId)
    (a : EId) (k : PKey) (hk : k ≠ PKey.s "location") :
    (w.modify i (Ent.locSet ps j)).prop a k = w.prop a k := by
  by_cases hai : a = i
  · subst hai
    rw [World.prop, World.prop, World.get_modify_self]
    cases hg : w.get a with
    | none => rfl
    | some e0 =>
        dsimp only [Option.map, Ent.locSet]
        rw [alook_aset_ne _ _ _ _ hk]
  · exact World.prop_modify_ne w i _ a k hai

theorem not_mem_objsOf_of_locOf_ne (w : World) (hwf : WF w) (x b : EId)
    (ps0 : String) (src : EId) (hloc : w.locOf x = some (ps0, src)) (hne : b ≠ src) :
    ¬ x ∈ w.objsOf b := by
  intro hmem
  obtain ⟨⟨q, hq⟩, _⟩ := (hwf.consist x b).mp hmem
  rw [hloc] at hq
  simp only [Option.some.injEq, Prod.mk.injEq] at hq
  exact hne hq.2.symm

theorem not_mem_objsOf_self (w : World) (hwf : WF w) (x : EId) :
    ¬ x ∈ w.objsOf x := by
  intro hmem
  exact ((hwf.consist x x).mp hmem).2 rfl

theorem get_isSome_of_hasAttr (w : World) (j : EId) (a : PKey)
    (h : w.hasAttr j a = true) : (w.get j).isSome = true := by
  rw [World.hasAttr] at h
  cases hg : w.get j with
  | none => rw [hg] at h; simp at h
  | some e0 => rfl

theorem objsOf_modify_objsAppend_self (w : World) (i x2 : EId) (e0 : Ent)
    (hg : w.get i = some e0) :
    (w.modify i (Ent.objsAppend x2)).objsOf i = w.objsOf i ++ [x2] := by
  rw [World.objsOf, World.objsOf, World.get_modify_self, hg]
  rfl

theorem objsOf_modify_objsRemove_self (w : World) (i x2 : EId) :
    (w.modify i (Ent.objsRemove x2)).objsOf i = lerase (w.objsOf i) x2 := by
  cases hg : w.get i with
  | none => rw [World.objsOf, World.objsOf, World.get_modify_self, hg]; rfl
  | some e0 => rw [World.objsOf, World.objsOf, World.get_modify_self, hg]; rfl

theorem applyU_move_restore_af (W : World) (x src dst : EId) (ps0 ps : String)
    (hwf : WF W) (hsrc : W.locOf x = some (ps0, src)) (hxd : x ≠ dst)
    (hsd : src ≠ dst) :
    (((((W.modify dst (Ent.objsAppend x)).modify src (Ent.objsRemove x)).modify x
        (Ent.locSet ps dst)).modify dst (Ent.objsRemove x)).modify x
      (Ent.locSet ps0 src)).modify src (Ent.objsSet (W.objsOf src)) = W := by
  have hndst : ¬ x ∈ W.objsOf dst :=
    not_mem_objsOf_of_locOf_ne W hwf x dst ps0 src hsrc (Ne.symm hsd)
  have hnx : ¬ x ∈ W.objsOf x := not_mem_objsOf_self W hwf x
  refine World.eq_of_get _ _ ?_ ?_ ?_ rfl rfl rfl rfl rfl rfl rfl
  · simp only [World.modify_spine]
    exact hwf.entsNodup
  · simp only [World.modify_spine]
  · intro j
    by_cases hjx : j = x
    · subst hjx
      by_cases hxs : j = src
      · subst hxs
        rw [World.get_modify_self, World.get_modify_self,
          World.get_modify_ne _ _ _ _ hxd, World.get_modify_self,
          World.get_modify_self, World.get_modify_ne _ _ _ _ hxd]
        cases hg : W.get j with
        | none => rfl
        | some e0 =>
            have halook := locOf_some_alook W j ps0 j hsrc e0 hg
            have hobjs := objsOf_get W j e0 hg
            dsimp only [Option.map]
            congr 1
            simp [Ent.objsSet, Ent.locSet, Ent.objsRemove,
              aset_restore_some _ _ _ _ halook, hobjs]
      · rw [World.get_modify_ne _ _ _ _ hxs, World.get_modify_self,
          World.get_modify_ne _ _ _ _ hxd, World.get_modify_self,
          World.get_modify_ne _ _ _ _ hxs, World.get_modify_ne _ _ _ _ hxd]
        cases hg : W.get j with
        | none => rfl
        | some e0 =>
            have halook := locOf_some_alook W j ps0 src hsrc e0 hg
            dsimp only [Option.map]
            congr 1
            simp [Ent.locSet, aset_restore_some _ _ _ _ halook]
    · by_cases hjs : j = src
      · subst hjs
        rw [World.get_modify_self, World.get_modify_ne _ _ _ _ hjx,
          World.get_modify_ne _ _ _ _ hsd, World.get_modify_ne _ _ _ _ hjx,
          World.get_modify_self, World.get_modify_ne _ _ _ _ hsd]
        cases hg : W.get j with
        | none => rfl
        | some e0 =>
            have hobjs := objsOf_get W j e0 hg
            dsimp only [Option.map]
            congr 1
            simp [Ent.objsSet, Ent.objsRemove, hobjs]
      · by_cases hjd : j = dst
        · subst hjd
          rw [World.get_modify_ne _ _ _ _ (Ne.symm hsd),
            World.get_modify_ne _ _ _ _ (Ne.symm hxd), World.get_modify_self,
            World.get_modify_ne _ _ _ _ (Ne.symm hxd),
            World.get_modify_ne _ _ _ _ (Ne.symm hsd), World.get_modify_self]
          cases hg : W.get j with
          | none => rfl
          | some e0 =>
              have hno := objsOf_not_mem_get W j x hndst e0 hg
              dsimp only [Option.map]
              congr 1
              simp [Ent.objsRemove, Ent.objsAppend, lerase_append_not_mem _ _ hno]
        · rw [World.get_modify_ne _ _ _ _ hjs, World.get_modify_ne _ _ _ _ hjx,
            World.get_modify_ne _ _ _ _ hjd, World.get_modify_ne _ _ _ _ hjx,
            World.get_modify_ne _ _ _ _ hjs, World.get_modify_ne _ _ _ _ hjd]

theorem applyU_move_restore_ra (W : World) (x src dst : EId) (ps0 ps : String)
    (hwf : WF W) (hsrc : W.locOf x = some (ps0, src)) (hxd : x ≠ dst) :
    (((((W.modify src (Ent.objsRemove x)).modify dst (Ent.objsAppend x)).modify x
        (Ent.locSet ps dst)).modify dst (Ent.objsRemove x)).modify x
      (Ent.locSet ps0 src)).modify src (Ent.objsSet (W.objsOf src)) = W := by
  have hnx : ¬ x ∈ W.objsOf x := not_mem_objsOf_self W hwf x
  refine World.eq_of_get _ _ ?_ ?_ ?_ rfl rfl rfl rfl rfl rfl rfl
  · simp only [World.modify_spine]
    exact hwf.entsNodup
  · simp only [World.modify_spine]
  · intro j
    by_cases hjx : j = x
    · subst hjx
      by_cases hxs : j = src
      · subst hxs
        rw [World.get_modify_self, World.get_modify_self,
          World.get_modify_ne _ _ _ _ hxd, World.get_modify_self,
          World.get_modify_ne _ _ _ _ hxd, World.get_modify_self]
        cases hg : W.get j with
        | none => rfl
        | some e0 =>
            have halook := locOf_some_alook W j ps0 j hsrc e0 hg
            have hobjs := objsOf_get W j e0 hg
            dsimp only [Option.map]
            congr 1
            simp [Ent.objsSet, Ent.locSet, Ent.objsRemove,
              aset_restore_some _ _ _ _ halook, hobjs]
      · rw [World.get_modify_ne _ _ _ _ hxs, World.get_modify_self,
          World.get_modify_ne _ _ _ _ hxd, World.get_modify_self,
          World.get_modify_ne _ _ _ _ hxd, World.get_modify_ne _ _ _ _ hxs]
        cases hg : W.get j with
        | none => rfl
        | some e0 =>
            have halook := locOf_some_alook W j ps0 src hsrc e0 hg
            dsimp only [Option.map]
            congr 1
            simp [Ent.locSet, aset_restore_some _ _ _ _ halook]
    · by_cases hjs : j = src
      · subst hjs
        by_cases hsd2 : j = dst
        · subst hsd2
          rw [World.get_modify_self, World.get_modify_ne _ _ _ _ hjx,
            World.get_modify_self, World.get_modify_ne _ _ _ _ hjx,
            World.get_modify_self, World.get_modify_self]
          cases hg : W.get j with
          | none => rfl
          | some e0 =>
              have hobjs := objsOf_get W j e0 hg
              dsimp only [Option.map]
              congr 1
              simp [Ent.objsSet, Ent.objsRemove, Ent.objsAppend, hobjs]
        · rw [World.get_modify_self, World.get_modify_ne _ _ _ _ hjx,
            World.get_modify_ne _ _ _ _ hsd2, World.get_modify_ne _ _ _ _ hjx,
            World.get_modify_ne _ _ _ _ hsd2, World.get_modify_self]
          cases hg : W.get j with
          | none => rfl
          | some e0 =>
              have hobjs := objsOf_get W j e0 hg
              dsimp only [Option.map]
              congr 1
              simp [Ent.objsSet, Ent.objsRemove, hobjs]
      · by_cases hjd : j = dst
        · subst hjd
          rw [World.get_modify_ne _ _ _ _ hjs, World.get_modify_ne _ _ _ _ (Ne.symm hxd),
            World.get_modify_self, World.get_modify_ne _ _ _ _ (Ne.symm hxd),
            World.get_modify_self, World.get_modify_ne _ _ _ _ hjs]
          have hndst : ¬ x ∈ W.objsOf j :=
            not_mem_objsOf_of_locOf_ne W hwf x j ps0 src hsrc hjs
          cases hg : W.get j with
          | none => rfl
          | some e0 =>
              have hno := objsOf_not_mem_get W j x hndst e0 hg
              dsimp only [Option.map]
              congr 1
              simp [Ent.objsRemove, Ent.objsAppend, lerase_append_not_mem _ _ hno]
        · rw [World.get_modify_ne _ _ _ _ hjs, World.get_modify_ne _ _ _ _ hjx,
            World.get_modify_ne _ _ _ _ hjd, World.get_modify_ne _ _ _ _ hjx,
            World.get_modify_ne _ _ _ _ hjd, World.get_modify_ne _ _ _ _ hjs]

theorem WF_move_af (W : World) (x src dst : EId) (ps0 ps : String)
    (hwf : WF W) (hsrc : W.locOf x = some (ps0, src)) (hxd : x ≠ dst)
    (hsd : src ≠ dst) (hdstE : (W.get dst).isSome = true)
    (hplin : W.hasAttr dst (PKey.s "player") = true → ps = "in") :
    WF (((W.modify dst (Ent.objsAppend x)).modify src (Ent.objsRemove x)).modify x
      (Ent.locSet ps dst)) := by
  obtain ⟨eD, hgD⟩ := Option.isSome_iff_exists.mp hdstE
  obtain ⟨eX, hgX⟩ := get_isSome_of_locOf W x _ hsrc
  have hndst : ¬ x ∈ W.objsOf dst :=
    not_mem_objsOf_of_locOf_ne W hwf x dst ps0 src hsrc (Ne.symm hsd)
  have hattr : ∀ a k, (((W.modify dst (Ent.objsAppend x)).modify src
      (Ent.objsRemove x)).modify x (Ent.locSet ps dst)).hasAttr a k = W.hasAttr a k :=
    fun a k => by
      rw [World.hasAttr_modify_attrsEq _ x a k (Ent.locSet ps dst) (fun e => rfl),
        World.hasAttr_modify_attrsEq _ src a k (Ent.objsRemove x) (fun e => rfl),
        World.hasAttr_modify_attrsEq _ dst a k (Ent.objsAppend x) (fun e => rfl)]
  have hlocA : ∀ a, a ≠ x → (((W.modify dst (Ent.objsAppend x)).modify src
      (Ent.objsRemove x)).modify x (Ent.locSet ps dst)).locOf a = W.locOf a :=
    fun a ha => by
      rw [World.locOf_modify_ne _ _ _ _ ha,
        World.locOf_modify_propsEq _ src a (Ent.objsRemove x) (fun e => rfl),
        World.locOf_modify_propsEq _ dst a (Ent.objsAppend x) (fun e => rfl)]
  have hlocX : (((W.modify dst (Ent.objsAppend x)).modify src
      (Ent.objsRemove x)).modify x (Ent.locSet ps dst)).locOf x = some (ps, dst) := by
    obtain ⟨e1, he1⟩ : ∃ e1, ((W.modify dst (Ent.objsAppend x)).modify src
        (Ent.objsRemove x)).get x = some e1 := by
      refine Option.isSome_iff_exists.mp ?_
      rw [World.get_isSome_modify, World.get_isSome_modify, hgX]
      rfl
    exact locOf_modify_locSet_self _ x ps dst e1 he1
  have hobjsDst : (((W.modify dst (Ent.objsAppend x)).modify src
      (Ent.objsRemove x)).modify x (Ent.locSet ps dst)).objsOf dst =
      W.objsOf dst ++ [x] := by
    rw [World.objsOf_modify_objsEq _ x dst (Ent.locSet ps dst) (fun e => rfl),
      objsOf_modify_ne _ _ _ _ (Ne.symm hsd),
      objsOf_modify_objsAppend_self W dst x eD hgD]
  have hobjsSrc : (((W.modify dst (Ent.objsAppend x)).modify src
      (Ent.objsRemove x)).modify x (Ent.locSet ps dst)).objsOf src =
      lerase (W.objsOf src) x := by
    rw [World.objsOf_modify_objsEq _ x src (Ent.locSet ps dst) (fun e => rfl),
      objsOf_modify_objsRemove_self, objsOf_modify_ne _ _ _ _ hsd]
  have hobjsO : ∀ b, b ≠ dst → b ≠ src → (((W.modify dst (Ent.objsAppend x)).modify src
      (Ent.objsRemove x)).modify x (Ent.locSet ps dst)).objsOf b = W.objsOf b :=
    fun b h1 h2 => by
      rw [World.objsOf_modify_objsEq _ x b (Ent.locSet ps dst) (fun e => rfl),
        objsOf_modify_ne _ _ _ _ h2, objsOf_modify_ne _ _ _ _ h1]
  have hmattr : ∀ a, ((((W.modify dst (Ent.objsAppend x)).modify src
      (Ent.objsRemove x)).modify x (Ent.locSet ps dst)).get a).map Ent.attrs =
      (W.get a).map Ent.attrs := fun a => by
    rw [World.get_map_modify Ent.attrs _ x a (Ent.locSet ps dst) (fun e => rfl),
      World.get_map_modify Ent.attrs _ src a (Ent.objsRemove x) (fun e => rfl),
      World.get_map_modify Ent.attrs _ dst a (Ent.objsAppend x) (fun e => rfl)]
  have hpropNL : ∀ a k, k ≠ PKey.s "location" → (((W.modify dst
      (Ent.objsAppend x)).modify src (Ent.objsRemove x)).modify x
      (Ent.locSet ps dst)).prop a k = W.prop a k := fun a k hk => by
    rw [prop_modify_locSet_ne_key _ _ _ _ _ _ hk,
      World.prop_modify_propsEq _ src a k (Ent.objsRemove x) (fun e => rfl),
      World.prop_modify_propsEq _ dst a k (Ent.objsAppend x) (fun e => rfl)]
  constructor
  · simp only [World.modify_spine]
    exact hwf.entsNodup
  · intro a b
    by_cases hax : a = x
    · rw [hax, hlocX]
      by_cases hbd : b = dst
      · rw [hbd, hobjsDst]
        refine iff_of_true ?_ ?_
        · exact List.mem_append.mpr (Or.inr (List.mem_singleton.mpr rfl))
        · exact ⟨⟨ps, rfl⟩, hxd⟩
      · by_cases hbs : b = src
        · rw [hbs, hobjsSrc]
          refine iff_of_false ?_ ?_
          · exact not_mem_lerase_of_nodup _ _ (hwf.nodupObjs src)
          · rintro ⟨⟨q, hq⟩, _⟩
            simp only [Option.some.injEq, Prod.mk.injEq] at hq
            exact hsd hq.2.symm
        · rw [hobjsO b hbd hbs]
          refine iff_of_false ?_ ?_
          · intro hm
            obtain ⟨⟨q, hq⟩, _⟩ := (hwf.consist x b).mp hm
            rw [hsrc] at hq
            simp only [Option.some.injEq, Prod.mk.injEq] at hq
            exact hbs hq.2.symm
          · rintro ⟨⟨q, hq⟩, _⟩
            simp only [Option.some.injEq, Prod.mk.injEq] at hq
            exact hbd hq.2.symm
    · rw [hlocA a hax]
      by_cases hbd : b = dst
      · rw [hbd, hobjsDst]
        constructor
        · intro hm
          rcases List.mem_append.mp hm with hm | hm
          · exact (hwf.consist a dst).mp hm
          · rw [List.mem_singleton] at hm
            exact absurd hm hax
        · intro hr
          exact List.mem_append.mpr (Or.inl ((hwf.consist a dst).mpr hr))
      · by_cases hbs : b = src
        · rw [hbs, hobjsSrc, mem_lerase_ne _ _ _ hax]
          exact hwf.consist a src
        · rw [hobjsO b hbd hbs]
          exact hwf.consist a b
  · intro b
    by_cases hbd : b = dst
    · rw [hbd, hobjsDst]
      refine List.Nodup.append (hwf.nodupObjs dst) (List.nodup_singleton x) ?_
      intro a ha hb
      rw [List.mem_singleton] at hb
      rw [hb] at ha
      exact hndst ha
    · by_cases hbs : b = src
      · rw [hbs, hobjsSrc]
        exact nodup_lerase _ _ (hwf.nodupObjs src)
      · rw [hobjsO b hbd hbs]
        exact hwf.nodupObjs b
  · intro a e2 hg2
    have hm := hmattr a
    rw [hg2] at hm
    cases hgw : W.get a with
    | none => rw [hgw] at hm; exact Option.noConfusion hm
    | some e0 =>
        rw [hgw] at hm
        have h2 : e2.attrs = e0.attrs := Option.some.inj hm
        rw [h2]
        exact hwf.attrsSorted a e0 hgw
  · intro a q b hloc hpl
    rw [hattr] at hpl
    by_cases hax : a = x
    · rw [hax, hlocX] at hloc
      simp only [Option.some.injEq, Prod.mk.injEq] at hloc
      obtain ⟨hq, hb⟩ := hloc
      rw [← hb] at hpl
      rw [← hq]
      exact hplin hpl
    · rw [hlocA a hax] at hloc
      exact hwf.playerIn a q b hloc hpl
  · intro b hpl
    rw [hattr] at hpl
    by_cases hbx : b = x
    · rw [hbx, hlocX]
      rfl
    · rw [hlocA b hbx]
      exact hwf.playersLoc b hpl
  · intro a d v hd hp jj hv
    have hdW : d ∈ W.directions := hd
    have hdl : PKey.s d ≠ PKey.s "location" := by
      intro hh
      injection hh with hh2
      rw [hh2] at hdW
      exact hwf.locNotDir hdW
    rw [hpropNL a _ hdl] at hp
    have hr := hwf.dirTargets a d v hdW hp jj hv
    refine ⟨hr.1, ?_, ?_⟩
    · rw [hattr]
      exact hr.2.1
    · simp only [World.get_isSome_modify]
      exact hr.2.2
  · exact hwf.locNotDir
  · intro b hpl
    rw [hattr] at hpl
    rw [hattr, hattr]
    exact hwf.playerNotHolder b hpl
  · exact hwf.changeKeysOk

theorem WF_move_ra (W : World) (x src dst : EId) (ps0 ps : String)
    (hwf : WF W) (hsrc : W.locOf x = some (ps0, src)) (hxd : x ≠ dst)
    (hdstE : (W.get dst).isSome = true)
    (hplin : W.hasAttr dst (PKey.s "player") = true → ps = "in") :
    WF (((W.modify src (Ent.objsRemove x)).modify dst (Ent.objsAppend x)).modify x
      (Ent.locSet ps dst)) := by
  obtain ⟨eX, hgX⟩ := get_isSome_of_locOf W x _ hsrc
  have hattr : ∀ a k, (((W.modify src (Ent.objsRemove x)).modify dst
      (Ent.objsAppend x)).modify x (Ent.locSet ps dst)).hasAttr a k = W.hasAttr a k :=
    fun a k => by
      rw [World.hasAttr_modify_attrsEq _ x a k (Ent.locSet ps dst) (fun e => rfl),
        World.hasAttr_modify_attrsEq _ dst a k (Ent.objsAppend x) (fun e => rfl),
        World.hasAttr_modify_attrsEq _ src a k (Ent.objsRemove x) (fun e => rfl)]
  have hlocA : ∀ a, a ≠ x → (((W.modify src (Ent.objsRemove x)).modify dst
      (Ent.objsAppend x)).modify x (Ent.locSet ps dst)).locOf a = W.locOf a :=
    fun a ha => by
      rw [World.locOf_modify_ne _ _ _ _ ha,
        World.locOf_modify_propsEq _ dst a (Ent.objsAppend x) (fun e => rfl),
        World.locOf_modify_propsEq _ src a (Ent.objsRemove x) (fun e => rfl)]
  have hlocX : (((W.modify src (Ent.objsRemove x)).modify dst
      (Ent.objsAppend x)).modify x (Ent.locSet ps dst)).locOf x = some (ps, dst) := by
    obtain ⟨e1, he1⟩ : ∃ e1, ((W.modify src (Ent.objsRemove x)).modify dst
        (Ent.objsAppend x)).get x = some e1 := by
      refine Option.isSome_iff_exists.mp ?_
      rw [World.get_isSome_modify, World.get_isSome_modify, hgX]
      rfl
    exact locOf_modify_locSet_self _ x ps dst e1 he1
  have hobjsDstEq : (((W.modify src (Ent.objsRemove x)).modify dst
      (Ent.objsAppend x)).modify x (Ent.locSet ps dst)).objsOf dst =
      (if dst = src then lerase (W.objsOf dst) x else W.objsOf dst) ++ [x] := by
    obtain ⟨eD1, hgD1⟩ : ∃ e1, (W.modify src (Ent.objsRemove x)).get dst = some e1 := by
      refine Option.isSome_iff_exists.mp ?_
      rw [World.get_isSome_modify]
      exact hdstE
    rw [World.objsOf_modify_objsEq _ x dst (Ent.locSet ps dst) (fun e => rfl),
      objsOf_modify_objsAppend_self _ dst x eD1 hgD1]
    by_cases hds : dst = src
    · rw [if_pos hds, hds, objsOf_modify_objsRemove_self]
    · rw [if_neg hds, objsOf_modify_ne _ _ _ _ hds]
  have hxmemDst : x ∈ (((W.modify src (Ent.objsRemove x)).modify dst
      (Ent.objsAppend x)).modify x (Ent.locSet ps dst)).objsOf dst := by
    rw [hobjsDstEq]
    exact List.mem_append.mpr (Or.inr (List.mem_singleton.mpr rfl))
  have hmemDst : ∀ a, a ≠ x → (a ∈ (((W.modify src (Ent.objsRemove x)).modify dst
      (Ent.objsAppend x)).modify x (Ent.locSet ps dst)).objsOf dst ↔
      a ∈ W.objsOf dst) := by
    intro a ha
    rw [hobjsDstEq]
    by_cases hds : dst = src
    · rw [if_pos hds]
      constructor
      · intro hm
        rcases List.mem_append.mp hm with hm | hm
        · exact mem_lerase_imp _ _ _ hm
        · rw [List.mem_singleton] at hm
          exact absurd hm ha
      · intro hm
        exact List.mem_append.mpr (Or.inl ((mem_lerase_ne _ _ _ ha).mpr hm))
    · rw [if_neg hds]
      constructor
      · intro hm
        rcases List.mem_append.mp hm with hm | hm
        · exact hm
        · rw [List.mem_singleton] at hm
          exact absurd hm ha
      · exact fun hm => List.mem_append.mpr (Or.inl hm)
  have hnodupDst : ((((W.modify src (Ent.objsRemove x)).modify dst
      (Ent.objsAppend x)).modify x (Ent.locSet ps dst)).objsOf dst).Nodup := by
    rw [hobjsDstEq]
    refine List.Nodup.append ?_ (List.nodup_singleton x) ?_
    · by_cases hds : dst = src
      · rw [if_pos hds]
        exact nodup_lerase _ _ (hwf.nodupObjs dst)
      · rw [if_neg hds]
        exact hwf.nodupObjs dst
    · intro a ha hb
      rw [List.mem_singleton] at hb
      rw [hb] at ha
      by_cases hds : dst = src
      · rw [if_pos hds] at ha
        exact not_mem_lerase_of_nodup _ _ (hwf.nodupObjs dst) ha
      · rw [if_neg hds] at ha
        exact not_mem_objsOf_of_locOf_ne W hwf x dst ps0 src hsrc hds ha
  have hobjsSrc : src ≠ dst → (((W.modify src (Ent.objsRemove x)).modify dst
      (Ent.objsAppend x)).modify x (Ent.locSet ps dst)).objsOf src =
      lerase (W.objsOf src) x := by
    intro hsd
    rw [World.objsOf_modify_objsEq _ x src (Ent.locSet ps dst) (fun e => rfl),
      objsOf_modify_ne _ _ _ _ hsd, objsOf_modify_objsRemove_self]
  have hobjsO : ∀ b, b ≠ dst → b ≠ src → (((W.modify src (Ent.objsRemove x)).modify dst
      (Ent.objsAppend x)).modify x (Ent.locSet ps dst)).objsOf b = W.objsOf b :=
    fun b h1 h2 => by
      rw [World.objsOf_modify_objsEq _ x b (Ent.locSet ps dst) (fun e => rfl),
        objsOf_modify_ne _ _ _ _ h1, objsOf_modify_ne _ _ _ _ h2]
  have hmattr : ∀ a, ((((W.modify src (Ent.objsRemove x)).modify dst
      (Ent.objsAppend x)).modify x (Ent.locSet ps dst)).get a).map Ent.attrs =
      (W.get a).map Ent.attrs := fun a => by
    rw [World.get_map_modify Ent.attrs _ x a (Ent.locSet ps dst) (fun e => rfl),
      World.get_map_modify Ent.attrs _ dst a (Ent.objsAppend x) (fun e => rfl),
      World.get_map_modify Ent.attrs _ src a (Ent.objsRemove x) (fun e => rfl)]
  have hpropNL : ∀ a k, k ≠ PKey.s "location" → (((W.modify src
      (Ent.objsRemove x)).modify dst (Ent.objsAppend x)).modify x
      (Ent.locSet ps dst)).prop a k = W.prop a k := fun a k hk => by
    rw [prop_modify_locSet_ne_key _ _ _ _ _ _ hk,
      World.prop_modify_propsEq _ dst a k (Ent.objsAppend x) (fun e => rfl),
      World.prop_modify_propsEq _ src a k (Ent.objsRemove x) (fun e => rfl)]
  constructor
  · simp only [World.modify_spine]
    exact hwf.entsNodup
  · intro a b
    by_cases hax : a = x
    · rw [hax, hlocX]
      by_cases hbd : b = dst
      · rw [hbd]
        refine iff_of_true hxmemDst ⟨⟨ps, rfl⟩, hxd⟩
      · by_cases hbs : b = src
        · have hsd : src ≠ dst := fun hh => hbd (hbs.trans hh)
          rw [hbs, hobjsSrc hsd]
          refine iff_of_false ?_ ?_
          · exact not_mem_lerase_of_nodup _ _ (hwf.nodupObjs src)
          · rintro ⟨⟨q, hq⟩, _⟩
            simp only [Option.some.injEq, Prod.mk.injEq] at hq
            exact hsd hq.2.symm
        · rw [hobjsO b hbd hbs]
          refine iff_of_false ?_ ?_
          · intro hm
            obtain ⟨⟨q, hq⟩, _⟩ := (hwf.consist x b).mp hm
            rw [hsrc] at hq
            simp only [Option.some.injEq, Prod.mk.injEq] at hq
            exact hbs hq.2.symm
          · rintro ⟨⟨q, hq⟩, _⟩
            simp only [Option.some.injEq, Prod.mk.injEq] at hq
            exact hbd hq.2.symm
    · rw [hlocA a hax]
      by_cases hbd : b = dst
      · rw [hbd, hmemDst a hax]
        exact hwf.consist a dst
      · by_cases hbs : b = src
        · have hsd : src ≠ dst := fun hh => hbd (hbs.trans hh)
          rw [hbs, hobjsSrc hsd, mem_lerase_ne _ _ _ hax]
          exact hwf.consist a src
        · rw [hobjsO b hbd hbs]
          exact hwf.consist a b
  · intro b
    by_cases hbd : b = dst
    · rw [hbd]
      exact hnodupDst
    · by_cases hbs : b = src
      · have hsd : src ≠ dst := fun hh => hbd (hbs.trans hh)
        rw [hbs, hobjsSrc hsd]
        exact nodup_lerase _ _ (hwf.nodupObjs src)
      · rw [hobjsO b hbd hbs]
        exact hwf.nodupObjs b
  · intro a e2 hg2
    have hm := hmattr a
    rw [hg2] at hm
    cases hgw : W.get a with
    | none => rw [hgw] at hm; exact Option.noConfusion hm
    | some e0 =>
        rw [hgw] at hm
        have h2 : e2.attrs = e0.attrs := Option.some.inj hm
        rw [h2]
        exact hwf.attrsSorted a e0 hgw
  · intro a q b hloc hpl
    rw [hattr] at hpl
    by_cases hax : a = x
    · rw [hax, hlocX] at hloc
      simp only [Option.some.injEq, Prod.mk.injEq] at hloc
      obtain ⟨hq, hb⟩ := hloc
      rw [← hb] at hpl
      rw [← hq]
      exact hplin hpl
    · rw [hlocA a hax] at hloc
      exact hwf.playerIn a q b hloc hpl
  · intro b hpl
    rw [hattr] at hpl
    by_cases hbx : b = x
    · rw [hbx, hlocX]
      rfl
    · rw [hlocA b hbx]
      exact hwf.playersLoc b hpl
  · intro a d v hd hp jj hv
    have hdW : d ∈ W.directions := hd
    have hdl : PKey.s d ≠ PKey.s "location" := by
      intro hh
      injection hh with hh2
      rw [hh2] at hdW
      exact hwf.locNotDir hdW
    rw [hpropNL a _ hdl] at hp
    have hr := hwf.dirTargets a d v hdW hp jj hv
    refine ⟨hr.1, ?_, ?_⟩
    · rw [hattr]
      exact hr.2.1
    · simp only [World.get_isSome_modify]
      exact hr.2.2
  · exact hwf.locNotDir
  · intro b hpl
    rw [hattr] at hpl
    rw [hattr, hattr]
    exact hwf.playerNotHolder b hpl
  · exact hwf.changeKeysOk

theorem get_core_ok (e p location : EId) (locPos : String) (w0 W : World)
    (hdo : DescOnly w0 W) (hwf : WF w0)
    (hloc : W.locOf e = some (locPos, location))
    (hnpl : W.hasAttr e (PKey.s "player") = false)
    (hppl : W.hasAttr p (PKey.s "player") = true)
    (hnheld : ¬ W.locOf e = some ("in", p)) :
    Restores w0 ((describeMany [p, e]
        (((W.modify p (Ent.objsAppend e)).modify location (Ent.objsRemove e)).modify e
          (Ent.locSet "in" p))).push
        (URec.getU e location
          (match W.locOf e with | some (ps, _) => ps | none => "in")
          ((W.modify p (Ent.objsAppend e)).objsOf location))) ∧
    WF ((describeMany [p, e]
        (((W.modify p (Ent.objsAppend e)).modify location (Ent.objsRemove e)).modify e
          (Ent.locSet "in" p))).push
        (URec.getU e location
          (match W.locOf e with | some (ps, _) => ps | none => "in")
          ((W.modify p (Ent.objsAppend e)).objsOf location))) := by
  have hwfW : WF W := WF_descOnly w0 W hwf hdo
  have hep : e ≠ p := by
    intro hh
    rw [hh, hppl] at hnpl
    exact Bool.noConfusion hnpl
  have hlp : location ≠ p := by
    intro hh
    rw [hh] at hloc
    have hin := hwfW.playerIn e locPos p hloc hppl
    rw [hin] at hloc
    exact hnheld hloc
  have hop : (match W.locOf e with | some (ps, _) => ps | none => "in") = locPos := by
    rw [hloc]
  have hoo : (W.modify p (Ent.objsAppend e)).objsOf location = W.objsOf location :=
    objsOf_modify_ne _ _ _ _ hlp
  rw [hop, hoo]
  obtain ⟨eE, hgE⟩ := get_isSome_of_locOf W e _ hloc
  have happly : applyU (URec.getU e location locPos (W.objsOf location))
      (((W.modify p (Ent.objsAppend e)).modify location (Ent.objsRemove e)).modify e
        (Ent.locSet "in" p)) = W := by
    have hcur : (((W.modify p (Ent.objsAppend e)).modify location
        (Ent.objsRemove e)).modify e (Ent.locSet "in" p)).locOf e = some ("in", p) := by
      obtain ⟨e1, he1⟩ : ∃ e1, ((W.modify p (Ent.objsAppend e)).modify location
          (Ent.objsRemove e)).get e = some e1 := by
        refine Option.isSome_iff_exists.mp ?_
        rw [World.get_isSome_modify, World.get_isSome_modify, hgE]
        rfl
      exact locOf_modify_locSet_self _ e "in" p e1 he1
    simp only [applyU]
    rw [hcur]
    dsimp only
    exact applyU_move_restore_af W e location p locPos "in" hwfW hloc hep hlp
  constructor
  · exact restores_mut_desc w0 W
      (((W.modify p (Ent.objsAppend e)).modify location (Ent.objsRemove e)).modify e
        (Ent.locSet "in" p)) [p, e] (URec.getU e location locPos (W.objsOf location))
      (restores_descOnly _ _ hdo) rfl rfl happly
  · have hpE : (W.get p).isSome = true := get_isSome_of_hasAttr W p _ hppl
    exact WF_push _ _ (WF_descOnly _ _
      (WF_move_af W e location p locPos "in" hwfW hloc hep hlp hpE (fun _ => rfl))
      (descOnly_describeMany_of _ _ _ (descOnly_refl _)))

theorem get_ok (e p location : EId) (locPos : String) (w0 : World) (hwf : WF w0) :
    Restores w0 (get e p location locPos w0).2 ∧ WF (get e p location locPos w0).2 := by
  unfold get
  dsimp only
  split
  · rename_i hnil
    obtain ⟨he4, h41, hnheld⟩ := getHeldStage_nil _ _ _ _ hnil
    obtain ⟨he3, h31, hnpl⟩ := getPlayerStage_nil _ _ _ h41
    obtain ⟨he2, h21, hstatic⟩ := attrPresentStage_nil _ _ _ _ h31
    obtain ⟨he1, h11, hloc⟩ := locCheckStage_nil _ _ _ _ _ h21
    have hppl0 := validateReachability_nil_player e p location
      (AStmt.getV (some p) (some "can") true "get" (some (EArg.ent e)) none)
      (describeMany [p, e] w0) h11
    have hdvr : DescOnly (describeMany [p, e] w0)
        (validateReachability e p location
          (AStmt.getV (some p) (some "can") true "get" (some (EArg.ent e)) none)
          (describeMany [p, e] w0)).2 :=
      validateReachability_descOnly _ _ _ _ _
    have hppl : (validateReachability e p location
        (AStmt.getV (some p) (some "can") true "get" (some (EArg.ent e)) none)
        (describeMany [p, e] w0)).2.hasAttr p (PKey.s "player") = true := by
      rw [descOnly_hasAttr _ _ hdvr]
      exact hppl0
    rw [he3, he2, he1] at hnheld
    dsimp only at hnheld
    rw [he2, he1] at hnpl
    dsimp only at hnpl
    dsimp only at hloc
    rw [he4, he3, he2, he1]
    dsimp only
    exact get_core_ok e p location locPos w0 _
      (descOnly_validateReachability_of _ _ _ _ _ _
        (descOnly_describeMany_of _ _ _ (descOnly_refl w0)))
      hwf hloc hnpl hppl hnheld
  · refine (fun hdo => ⟨restores_descOnly _ _ hdo, WF_descOnly _ _ hwf hdo⟩) ?_
    apply descOnly_getHeldStage_of
    apply descOnly_getPlayerStage_of
    apply descOnly_attrPresentStage_of
    apply descOnly_locCheckStage_of
    exact descOnly_validateReachability_of _ _ _ _ _ _
      (descOnly_describeMany_of _ _ _ (descOnly_refl w0))

theorem dropPosStage_nil2 (e location : EId) (locPos : String) (canNot : AStmt)
    (acc : List Stmt × World) (h : (dropPosStage e location locPos canNot acc).1 = []) :
    acc.2.hasAttr location (PKey.s "container") = true ∨
    acc.2.hasAttr location (PKey.s "place") = true ∨
    acc.2.hasAttr location (PKey.s "supporter") = true ∨
    acc.2.hasAttr location (PKey.s "hollow") = true := by
  unfold dropPosStage at h
  dsimp only at h
  by_cases h1 : locPos = "in"
  · rw [if_pos h1] at h
    split at h
    · simp at h
    · rename_i h2
      rcases not_and_or.mp h2 with hc | hp
      · exact Or.inl (not_not.mp hc)
      · exact Or.inr (Or.inl (not_not.mp hp))
  · rw [if_neg h1] at h
    by_cases h2 : locPos = "on"
    · rw [if_pos h2] at h
      split at h
      · simp at h
      · rename_i h3
        exact Or.inr (Or.inr (Or.inl (not_not.mp h3)))
    · rw [if_neg h2] at h
      by_cases h3 : locPos = "under"
      · rw [if_pos h3] at h
        split at h
        · simp at h
        · rename_i h4
          exact Or.inr (Or.inr (Or.inr (not_not.mp h4)))
      · rw [if_neg h3] at h
        simp at h

theorem drop_core_ok (e p location : EId) (locPos : String) (w0 W : World)
    (hdo : DescOnly w0 W) (hwf : WF w0)
    (hloc : W.locOf e = some ("in", p))
    (hel : e ≠ location)
    (hex : W.hasAttr location (PKey.s "container") = true ∨
      W.hasAttr location (PKey.s "place") = true ∨
      W.hasAttr location (PKey.s "supporter") = true ∨
      W.hasAttr location (PKey.s "hollow") = true)
    (hpos : locPos = "in" ∨
      (locPos = "on" ∧ W.hasAttr location (PKey.s "supporter") = true) ∨
      (locPos = "under" ∧ W.hasAttr location (PKey.s "hollow") = true)) :
    Restores w0 ((describeMany [p, e, location]
        (((W.modify p (Ent.objsRemove e)).modify location (Ent.objsAppend e)).modify e
          (Ent.locSet locPos location))).push
        (URec.dropU e p
          (match ((W.modify p (Ent.objsRemove e)).modify location
            (Ent.objsAppend e)).locOf e with
           | some (ps, _) => ps | none => "in")
          (W.objsOf p))) ∧
    WF ((describeMany [p, e, location]
        (((W.modify p (Ent.objsRemove e)).modify location (Ent.objsAppend e)).modify e
          (Ent.locSet locPos location))).push
        (URec.dropU e p
          (match ((W.modify p (Ent.objsRemove e)).modify location
            (Ent.objsAppend e)).locOf e with
           | some (ps, _) => ps | none => "in")
          (W.objsOf p))) := by
  have hwfW : WF W := WF_descOnly w0 W hwf hdo
  have hop : (match ((W.modify p (Ent.objsRemove e)).modify location
      (Ent.objsAppend e)).locOf e with
      | some (ps, _) => ps | none => "in") = "in" := by
    rw [World.locOf_modify_propsEq _ location e (Ent.objsAppend e) (fun e2 => rfl),
      World.locOf_modify_propsEq _ p e (Ent.objsRemove e) (fun e2 => rfl), hloc]
  rw [hop]
  obtain ⟨eE, hgE⟩ := get_isSome_of_locOf W e _ hloc
  have happly : applyU (URec.dropU e p "in" (W.objsOf p))
      (((W.modify p (Ent.objsRemove e)).modify location (Ent.objsAppend e)).modify e
        (Ent.locSet locPos location)) = W := by
    have hcur : (((W.modify p (Ent.objsRemove e)).modify location
        (Ent.objsAppend e)).modify e (Ent.locSet locPos location)).locOf e =
        some (locPos, location) := by
      obtain ⟨e1, he1⟩ : ∃ e1, ((W.modify p (Ent.objsRemove e)).modify location
          (Ent.objsAppend e)).get e = some e1 := by
        refine Option.isSome_iff_exists.mp ?_
        rw [World.get_isSome_modify, World.get_isSome_modify, hgE]
        rfl
      exact locOf_modify_locSet_self _ e locPos location e1 he1
    simp only [applyU]
    rw [hcur]
    dsimp only
    exact applyU_move_restore_ra W e p location "in" locPos hwfW hloc hel
  constructor
  · exact restores_mut_desc w0 W
      (((W.modify p (Ent.objsRemove e)).modify location (Ent.objsAppend e)).modify e
        (Ent.locSet locPos location)) [p, e, location]
      (URec.dropU e p "in" (W.objsOf p))
      (restores_descOnly _ _ hdo) rfl rfl happly
  · have hdstE : (W.get location).isSome = true := by
      rcases hex with hh | hh | hh | hh <;> exact get_isSome_of_hasAttr W location _ hh
    have hplin : W.hasAttr location (PKey.s "player") = true → locPos = "in" := by
      intro hpl
      rcases hpos with hh | ⟨hh, hs⟩ | ⟨hh, hs⟩
      · exact hh
      · exact absurd hs (hwfW.playerNotHolder location hpl).1
      · exact absurd hs (hwfW.playerNotHolder location hpl).2
    exact WF_push _ _ (WF_descOnly _ _
      (WF_move_ra W e p location "in" locPos hwfW hloc hel hdstE hplin)
      (descOnly_describeMany_of _ _ _ (descOnly_refl _)))

set_option maxHeartbeats 1600000 in
theorem drop_ok (rnd : Rnd) (e p location : EId) (locPos : String) (w0 : World)
    (hwf : WF w0) :
    Restores w0 (drop rnd e p location locPos w0).2 ∧
    WF (drop rnd e p location locPos w0).2 := by
  unfold drop
  dsimp only
  split
  · rename_i hnil
    obtain ⟨he4, h41, hpos⟩ := dropPosStage_nil _ _ _ _ _ hnil
    have hex := dropPosStage_nil2 _ _ _ _ _ hnil
    obtain ⟨he3, h31⟩ := dropPathStage_nil _ _ _ _ h41
    obtain ⟨he2, h21, hel⟩ := dropSelfStage_nil _ _ _ _ h31
    obtain ⟨he1, h11, hloc⟩ := locCheckStage_nil _ _ _ _ _ h21
    rw [he3, he2, he1] at hpos hex
    dsimp only at hpos hex
    dsimp only at hloc
    rw [he4, he3, he2, he1]
    dsimp only
    exact drop_core_ok e p location locPos w0 _
      (descOnly_validateReachability_of _ _ _ _ _ _
        (descOnly_describeMany_of _ _ _ (descOnly_refl w0)))
      hwf hloc hel hex hpos
  · refine (fun hdo => ⟨restores_descOnly _ _ hdo, WF_descOnly _ _ hwf hdo⟩) ?_
    apply descOnly_dropPosStage_of
    apply descOnly_dropPathStage_of
    apply descOnly_dropSelfStage_of
    apply descOnly_locCheckStage_of
    exact descOnly_validateReachability_of _ _ _ _ _ _
      (descOnly_describeMany_of _ _ _ (descOnly_refl w0))

theorem goDirStage_nil2 (p : EId) (dir : String) (canNot : AStmt) (loc1p : EId)
    (acc : List Stmt × World) (h : (goDirStage p dir canNot loc1p acc).1 = []) :
    goDirStage p dir canNot loc1p acc = acc ∧ acc.1 = [] ∧ dir ∈ acc.2.directions := by
  unfold goDirStage at h ⊢
  dsimp only at h ⊢
  split at h
  · simp at h
  · rename_i h1
    split at h
    · simp at h
    · rename_i h2
      rw [if_neg h1, if_neg h2]
      refine ⟨rfl, h, ?_⟩
      by_contra hmem
      refine h1 ?_
      rw [eq_iff_iff]
      exact ⟨fun hc => absurd hc hmem, fun hc => absurd hc (by decide)⟩

theorem goObstacleStage_nil2 (p : EId) (dir : String) (canNot : AStmt)
    (loc1p fromL : EId) (acc : List Stmt × World)
    (h : (goObstacleStage p dir canNot loc1p fromL acc).1 = []) :
    acc.1 = [] ∧ DescOnly acc.2 (goObstacleStage p dir canNot loc1p fromL acc).2 := by
  unfold goObstacleStage at h ⊢
  dsimp only at h ⊢
  split at h
  · rename_i o heq
    split at h
    · split at h
      · simp at h
      · split at h
        · simp at h
        · simp at h
    · rename_i hcond
      rw [if_neg hcond]
      exact ⟨h, descOnly_describeMany_of _ _ _ (descOnly_refl _)⟩
  · exact ⟨h, descOnly_refl _⟩

theorem goCore_ok (rnd : Rnd) (p : EId) (dir : String) (loc1p : EId) (ps0 : String)
    (log : List Stmt) (w0 W : World) (hdo : DescOnly w0 W) (hwf : WF w0)
    (hsrc : W.locOf p = some (ps0, loc1p))
    (hppl : W.hasAttr p (PKey.s "player") = true)
    (hdir : dir ∈ W.directions) :
    Restores w0 (goCore rnd p dir loc1p log W).2 ∧ WF (goCore rnd p dir loc1p log W).2 := by
  have hwfW : WF W := WF_descOnly w0 W hwf hdo
  unfold goCore
  dsimp only
  split
  · rename_i newLoc heq
    obtain ⟨hnl_ne, hnl_np, hnl_ex⟩ := hwfW.dirTargets loc1p dir _ hdir heq newLoc rfl
    have hxd : p ≠ newLoc := by
      intro hh
      rw [← hh] at hnl_np
      exact hnl_np hppl
    have hsd : loc1p ≠ newLoc := Ne.symm hnl_ne
    have holo : (W.modify newLoc (Ent.objsAppend p)).objsOf loc1p = W.objsOf loc1p :=
      objsOf_modify_ne _ _ _ _ hsd
    have hlo2 : ((W.modify newLoc (Ent.objsAppend p)).modify loc1p
        (Ent.objsRemove p)).locOf p = some (ps0, loc1p) := by
      rw [World.locOf_modify_propsEq _ loc1p p (Ent.objsRemove p) (fun e2 => rfl),
        World.locOf_modify_propsEq _ newLoc p (Ent.objsAppend p) (fun e2 => rfl), hsrc]
    rw [holo, hlo2]
    dsimp only
    obtain ⟨eP, hgP⟩ := get_isSome_of_locOf W p _ hsrc
    obtain ⟨e1, he1⟩ : ∃ e1, ((W.modify newLoc (Ent.objsAppend p)).modify loc1p
        (Ent.objsRemove p)).get p = some e1 := by
      refine Option.isSome_iff_exists.mp ?_
      rw [World.get_isSome_modify, World.get_isSome_modify, hgP]
      rfl
    have hcur : (((W.modify newLoc (Ent.objsAppend p)).modify loc1p
        (Ent.objsRemove p)).modify p (Ent.locSet ps0 newLoc)).locOf p =
        some (ps0, newLoc) := locOf_modify_locSet_self _ p ps0 newLoc e1 he1
    have hbr : ((((W.modify newLoc (Ent.objsAppend p)).modify loc1p
        (Ent.objsRemove p)).modify p (Ent.locSet ps0 newLoc)).modify newLoc
        (Ent.objsRemove p)).modify p (Ent.locRestore loc1p) =
        ((((W.modify newLoc (Ent.objsAppend p)).modify loc1p
        (Ent.objsRemove p)).modify p (Ent.locSet ps0 newLoc)).modify newLoc
        (Ent.objsRemove p)).modify p (Ent.locSet ps0 loc1p) := by
      refine World.modify_ext_entity _ p _ _ (fun e2 he2 => ?_)
      rw [World.get_modify_ne _ _ _ _ hxd, World.get_modify_self, he1] at he2
      dsimp only [Option.map] at he2
      have he2e := (Option.some.inj he2).symm
      rw [he2e]
      simp [Ent.locRestore, Ent.locSet, alook_aset_self]
    have happly : applyU (URec.goU p loc1p (W.objsOf loc1p))
        (((W.modify newLoc (Ent.objsAppend p)).modify loc1p
          (Ent.objsRemove p)).modify p (Ent.locSet ps0 newLoc)) = W := by
      simp only [applyU]
      rw [hcur]
      dsimp only
      rw [hbr]
      exact applyU_move_restore_af W p loc1p newLoc ps0 ps0 hwfW hsrc hxd hsd
    have hR4 : Restores w0 ((((W.modify newLoc (Ent.objsAppend p)).modify loc1p
        (Ent.objsRemove p)).modify p (Ent.locSet ps0 newLoc)).push
        (URec.goU p loc1p (W.objsOf loc1p))) :=
      restores_mut_desc w0 W
        (((W.modify newLoc (Ent.objsAppend p)).modify loc1p
          (Ent.objsRemove p)).modify p (Ent.locSet ps0 newLoc)) []
        (URec.goU p loc1p (W.objsOf loc1p))
        (restores_descOnly _ _ hdo) rfl rfl happly
    have hW4 : WF ((((W.modify newLoc (Ent.objsAppend p)).modify loc1p
        (Ent.objsRemove p)).modify p (Ent.locSet ps0 newLoc)).push
        (URec.goU p loc1p (W.objsOf loc1p))) :=
      WF_push _ _ (WF_move_af W p loc1p newLoc ps0 ps0 hwfW hsrc hxd hsd hnl_ex
        (fun hh => absurd hh hnl_np))
    have hdo45 : DescOnly ((((W.modify newLoc (Ent.objsAppend p)).modify loc1p
        (Ent.objsRemove p)).modify p (Ent.locSet ps0 newLoc)).push
        (URec.goU p loc1p (W.objsOf loc1p)))
        (describeMany [p, loc1p] (look rnd newLoc p "in" (ps0, newLoc)
          ((((W.modify newLoc (Ent.objsAppend p)).modify loc1p
            (Ent.objsRemove p)).modify p (Ent.locSet ps0 newLoc)).push
            (URec.goU p loc1p (W.objsOf loc1p)))).2) :=
      descOnly_describeMany_of _ _ _ (descOnly_look_of _ _ _ _ _ _ _ (descOnly_refl _))
    exact ⟨restores_trans w0 _ _ hR4 (restores_descOnly _ _ hdo45),
      WF_descOnly _ _ hW4 hdo45⟩
  · exact ⟨restores_descOnly _ _ hdo, hwfW⟩

set_option maxHeartbeats 1600000 in
theorem go_ok (rnd : Rnd) (p : EId) (dir : String) (fromLoc : Option EId)
    (w0 : World) (hwf : WF w0) :
    Restores w0 (go rnd p dir fromLoc w0).2 ∧ WF (go rnd p dir fromLoc w0).2 := by
  unfold go
  dsimp only
  split
  · rename_i hnil
    obtain ⟨he2, h21, hdir⟩ := goDirStage_nil2 _ _ _ _ _ hnil
    obtain ⟨h11, hdoObs⟩ := goObstacleStage_nil2 _ _ _ _ _ _ h21
    dsimp only at h11 hdoObs
    have hppl0 := validateReachability_nil_player _ _ _ _ _ h11
    rw [describeE_hasAttr] at hppl0
    have hdoW := descOnly_trans w0 _ _
      (descOnly_validateReachability_of _ _ _ _ _ _ ⟨[p], rfl⟩) hdoObs
    have hwfX := WF_descOnly w0 _ hwf hdoW
    have hpplX := (descOnly_hasAttr _ _ hdoW p (PKey.s "player")).trans hppl0
    obtain ⟨x, hvlX⟩ := Option.isSome_iff_exists.mp (hwfX.playersLoc p hpplX)
    obtain ⟨ps0, l⟩ := x
    have hvlvr := (descOnly_locOf _ _ hdoObs p).symm.trans hvlX
    rw [he2]
    refine goCore_ok rnd p dir _ ps0 _ w0 _ hdoW hwf ?_ hpplX hdir
    conv_rhs => rw [hvlvr]
    exact hvlX
  · refine (fun hdo => ⟨restores_descOnly _ _ hdo, WF_descOnly _ _ hwf hdo⟩) ?_
    apply descOnly_goDirStage_of
    apply descOnly_goObstacleStage_of
    exact descOnly_validateReachability_of _ _ _ _ _ _ ⟨[p], rfl⟩

theorem ent_change_revert1 (k : PKey) (v : Val) (en : Ent) :
    Ent.seenRestore k (alook en.propSeen k)
      (Ent.propRestore k (alook en.props k) (Ent.changeApply k v en)) = en := by
  cases hv1 : alook en.props k with
  | none =>
      cases hv2 : alook en.propSeen k with
      | none =>
          simp [Ent.seenRestore, Ent.propRestore, Ent.changeApply,
            aset_restore_none _ _ _ hv1, aset_restore_none _ _ _ hv2]
      | some x2 =>
          simp [Ent.seenRestore, Ent.propRestore, Ent.changeApply,
            aset_restore_none _ _ _ hv1, aset_restore_some _ _ _ _ hv2]
  | some x1 =>
      cases hv2 : alook en.propSeen k with
      | none =>
          simp [Ent.seenRestore, Ent.propRestore, Ent.changeApply,
            aset_restore_some _ _ _ _ hv1, aset_restore_none _ _ _ hv2]
      | some x2 =>
          simp [Ent.seenRestore, Ent.propRestore, Ent.changeApply,
            aset_restore_some _ _ _ _ hv1, aset_restore_some _ _ _ _ hv2]

theorem ent_change_revert2 (k : PKey) (v : Val) (en : Ent) :
    Ent.propRestore k (alook en.props k)
      (Ent.seenRestore k (alook en.propSeen k) (Ent.changeApply k v en)) = en := by
  cases hv1 : alook en.props k with
  | none =>
      cases hv2 : alook en.propSeen k with
      | none =>
          simp [Ent.seenRestore, Ent.propRestore, Ent.changeApply,
            aset_restore_none _ _ _ hv1, aset_restore_none _ _ _ hv2]
      | some x2 =>
          simp [Ent.seenRestore, Ent.propRestore, Ent.changeApply,
            aset_restore_none _ _ _ hv1, aset_restore_some _ _ _ _ hv2]
  | some x1 =>
      cases hv2 : alook en.propSeen k with
      | none =>
          simp [Ent.seenRestore, Ent.propRestore, Ent.changeApply,
            aset_restore_some _ _ _ _ hv1, aset_restore_none _ _ _ hv2]
      | some x2 =>
          simp [Ent.seenRestore, Ent.propRestore, Ent.changeApply,
            aset_restore_some _ _ _ _ hv1, aset_restore_some _ _ _ _ hv2]

theorem descOnly_conflict_foldl (e2 : EId) (canNot2 : AStmt) (ekl2 : List String)
    (v2 : Val) (l : List EId) (acc : List Stmt × World) (w : World)
    (h : DescOnly w acc.2) :
    DescOnly w (l.foldl (fun (acc2 : List Stmt × World) obj =>
      (acc2.1 ++ [Stmt.cont [canNot2,
        AStmt.be (STopic.theChange e2 ekl2 v2) false (SCom.conflicting obj)]],
       describeMany [e2, obj] acc2.2)) acc).2 := by
  induction l generalizing acc with
  | nil => exact h
  | cons hd t ih =>
      rw [List.foldl_cons]
      exact ih _ (descOnly_describeMany_of _ _ _ h)

theorem WF_modify_propK (w : World) (i : EId) (k : PKey) (v : Val) (f : Ent → Ent)
    (hwf : WF w)
    (hk1 : k ≠ PKey.s "location") (hk2 : ∀ d, d ∈ w.directions → k ≠ PKey.s d)
    (hp : ∀ en, (f en).props = aset en.props k v)
    (hat : ∀ en, (f en).attrs = en.attrs)
    (ho : ∀ en, (f en).objs = en.objs) :
    WF (w.modify i f) := by
  have hloc : ∀ a, (w.modify i f).locOf a = w.locOf a := by
    intro a
    by_cases hai : a = i
    · subst hai
      rw [World.locOf, World.locOf, World.prop, World.prop, World.get_modify_self]
      cases hg : w.get a with
      | none => rfl
      | some en =>
          dsimp only [Option.map]
          rw [hp en, alook_aset_ne _ _ _ _ (Ne.symm hk1)]
    · exact World.locOf_modify_ne _ _ _ _ hai
  have hprop : ∀ a k2, k2 ≠ k → (w.modify i f).prop a k2 = w.prop a k2 := by
    intro a k2 hne
    by_cases hai : a = i
    · subst hai
      rw [World.prop, World.prop, World.get_modify_self]
      cases hg : w.get a with
      | none => rfl
      | some en =>
          dsimp only [Option.map]
          rw [hp en, alook_aset_ne _ _ _ _ hne]
    · exact World.prop_modify_ne _ _ _ _ _ hai
  have hattr : ∀ a k2, (w.modify i f).hasAttr a k2 = w.hasAttr a k2 :=
    fun a k2 => World.hasAttr_modify_attrsEq w i a k2 f hat
  have hobjs : ∀ a, (w.modify i f).objsOf a = w.objsOf a :=
    fun a => World.objsOf_modify_objsEq w i a f ho
  constructor
  · simp only [World.modify_spine]
    exact hwf.entsNodup
  · intro a b
    rw [hobjs b, hloc a]
    exact hwf.consist a b
  · intro b
    rw [hobjs b]
    exact hwf.nodupObjs b
  · intro a e2 hg2
    have hm : ((w.modify i f).get a).map Ent.attrs = (w.get a).map Ent.attrs :=
      World.get_map_modify Ent.attrs w i a f hat
    rw [hg2] at hm
    cases hgw : w.get a with
    | none => rw [hgw] at hm; exact Option.noConfusion hm
    | some e0 =>
        rw [hgw] at hm
        have h2 : e2.attrs = e0.attrs := Option.some.inj hm
        rw [h2]
        exact hwf.attrsSorted a e0 hgw
  · intro a q b hlc hpl
    rw [hloc a] at hlc
    rw [hattr] at hpl
    exact hwf.playerIn a q b hlc hpl
  · intro b hpl
    rw [hattr] at hpl
    rw [hloc b]
    exact hwf.playersLoc b hpl
  · intro a d v2 hd hp2 jj hv
    have hdW : d ∈ w.directions := hd
    rw [hprop a (PKey.s d) (fun hh => (hk2 d hdW) hh.symm)] at hp2
    have hr := hwf.dirTargets a d v2 hdW hp2 jj hv
    refine ⟨hr.1, ?_, ?_⟩
    · rw [hattr]
      exact hr.2.1
    · rw [World.get_isSome_modify]
      exact hr.2.2
  · exact hwf.locNotDir
  · intro b hpl
    rw [hattr] at hpl
    rw [hattr, hattr]
    exact hwf.playerNotHolder b hpl
  · exact hwf.changeKeysOk

theorem changeCore_ok (genDesc : World → EId → Bool) (e p : EId) (k : PKey) (v : Val)
    (ekl : List String) (canNot : AStmt) (log : List Stmt) (w0 W : World)
    (hdo : DescOnly w0 W) (hwf : WF w0)
    (hkc : log = [] → k ∈ W.changeActionProperties) :
    Restores w0 (changeCore genDesc e p k v ekl canNot log W).2 ∧
    WF (changeCore genDesc e p k v ekl canNot log W).2 := by
  have hdoW2 : DescOnly w0 (describeE e (describeE p W)) :=
    descOnly_describeMany_of _ _ [p, e] hdo
  have hwfW2 : WF (describeE e (describeE p W)) := WF_descOnly w0 _ hwf hdoW2
  unfold changeCore
  dsimp only
  split
  · rename_i hconf
    have hrev : (((describeE e (describeE p W)).modify e
        (Ent.changeApply k v)).modify e
        (Ent.propRestore k ((describeE e (describeE p W)).prop e k))).modify e
        (Ent.seenRestore k (propSeenOf (describeE e (describeE p W)) e k)) =
        describeE e (describeE p W) := by
      rw [World.modify_modify, World.modify_modify]
      refine World.modify_congr_id _ _ _ (fun en hg => ?_)
      have hov : (describeE e (describeE p W)).prop e k = alook en.props k := by
        rw [World.prop, hg]
      have hos : (propSeenOf (describeE e (describeE p W)) e k) = alook en.propSeen k := by
        rw [propSeenOf, hg]
      rw [hov, hos]
      exact ent_change_revert1 k v en
    rw [hrev]
    have hdof : DescOnly w0 (List.foldl (fun (acc2 : List Stmt × World) obj =>
        (acc2.1 ++ [Stmt.cont [canNot,
          AStmt.be (STopic.theChange e ekl v) false (SCom.conflicting obj)]],
         describeMany [e, obj] acc2.2))
        (log, describeE e (describeE p W))
        ((((describeE e (describeE p W)).modify e
          (Ent.changeApply k v)).ents.map Prod.fst).filter
          (fun i => ((describeE e (describeE p W)).modify e
            (Ent.changeApply k v)).prop i k = some v ∧
            genDesc ((describeE e (describeE p W)).modify e
              (Ent.changeApply k v)) i = false))).2 :=
      descOnly_conflict_foldl e canNot ekl v _ _ w0 hdoW2
    exact ⟨restores_descOnly _ _ hdof, WF_descOnly _ _ hwf hdof⟩
  · rename_i hnconf
    split
    · rename_i hlog
      have hkmem : k ∈ (describeE e (describeE p W)).changeActionProperties := by
        have hcc := descOnly_changeActionProperties W (describeE e (describeE p W))
          ⟨[p, e], rfl⟩
        rw [hcc]
        exact hkc hlog
      obtain ⟨hne1, hne2⟩ := hwfW2.changeKeysOk k hkmem
      have happly : applyU (URec.changeU e k ((describeE e (describeE p W)).prop e k))
          (((describeE e (describeE p W)).modify e (Ent.changeApply k v)).modify e
            (Ent.seenRestore k (propSeenOf (describeE e (describeE p W)) e k))) =
          describeE e (describeE p W) := by
        simp only [applyU]
        rw [World.modify_modify, World.modify_modify]
        refine World.modify_congr_id _ _ _ (fun en hg => ?_)
        have hov : (describeE e (describeE p W)).prop e k = alook en.props k := by
          rw [World.prop, hg]
        have hos : (propSeenOf (describeE e (describeE p W)) e k) = alook en.propSeen k := by
          rw [propSeenOf, hg]
        rw [hov, hos]
        exact ent_change_revert2 k v en
      have hR : Restores w0 ((((describeE e (describeE p W)).modify e
          (Ent.changeApply k v)).modify e
          (Ent.seenRestore k (propSeenOf (describeE e (describeE p W)) e k))).push
          (URec.changeU e k ((describeE e (describeE p W)).prop e k))) :=
        restores_mut_desc w0 (describeE e (describeE p W)) _ []
          (URec.changeU e k ((describeE e (describeE p W)).prop e k))
          (restores_descOnly _ _ hdoW2) rfl rfl happly
      have hWm : WF ((((describeE e (describeE p W)).modify e
          (Ent.changeApply k v)).modify e
          (Ent.seenRestore k (propSeenOf (describeE e (describeE p W)) e k))).push
          (URec.changeU e k ((describeE e (describeE p W)).prop e k))) := by
        refine WF_push _ _ ?_
        rw [World.modify_modify]
        exact WF_modify_propK _ e k v _ hwfW2 hne1
          (fun d hd => hne2 d hd) (fun en => rfl) (fun en => rfl) (fun en => rfl)
      have hdoE : DescOnly ((((describeE e (describeE p W)).modify e
          (Ent.changeApply k v)).modify e
          (Ent.seenRestore k (propSeenOf (describeE e (describeE p W)) e k))).push
          (URec.changeU e k ((describeE e (describeE p W)).prop e k)))
          (describeE e ((((describeE e (describeE p W)).modify e
          (Ent.changeApply k v)).modify e
          (Ent.seenRestore k (propSeenOf (describeE e (describeE p W)) e k))).push
          (URec.changeU e k ((describeE e (describeE p W)).prop e k)))) := ⟨[e], rfl⟩
      exact ⟨restores_trans w0 _ _ hR (restores_descOnly _ _ hdoE),
        WF_descOnly _ _ hWm hdoE⟩
    · rename_i hlog
      have hrev : (((describeE e (describeE p W)).modify e
          (Ent.changeApply k v)).modify e
          (Ent.seenRestore k (propSeenOf (describeE e (describeE p W)) e k))).modify e
          (Ent.propRestore k ((describeE e (describeE p W)).prop e k)) =
          describeE e (describeE p W) := by
        rw [World.modify_modify, World.modify_modify]
        refine World.modify_congr_id _ _ _ (fun en hg => ?_)
        have hov : (describeE e (describeE p W)).prop e k = alook en.props k := by
          rw [World.prop, hg]
        have hos : (propSeenOf (describeE e (describeE p W)) e k) = alook en.propSeen k := by
          rw [propSeenOf, hg]
        rw [hov, hos]
        exact ent_change_revert2 k v en
      rw [hrev]
      exact ⟨restores_descOnly _ _ hdoW2, hwfW2⟩

theorem change_ok (genDesc : World → EId → Bool) (e p : EId) (k : PKey) (v : Val)
    (w0 : World) (hwf : WF w0) :
    Restores w0 (change genDesc e p k v w0).2 ∧ WF (change genDesc e p k v w0).2 := by
  unfold change
  dsimp only
  refine changeCore_ok genDesc e p k v _ _ _ w0 _ ?_ hwf ?_
  · apply descOnly_changeSameStage_of
    apply descOnly_changeHeldStage_of
    apply descOnly_changeValStage_of
    apply descOnly_changeNameStage_of
    apply descOnly_changeKeyStage_of
    exact descOnly_describeMany_of _ _ _ (descOnly_refl w0)
  · intro hl
    obtain ⟨he5, h51, hneq⟩ := changeSameStage_nil _ _ _ _ _ _ hl
    obtain ⟨he4, h41⟩ := changeHeldStage_nil _ _ _ _ _ h51
    obtain ⟨he3, h31⟩ := changeValStage_nil _ _ _ _ h41
    obtain ⟨he2, h21⟩ := changeNameStage_nil _ _ _ _ _ h31
    obtain ⟨he1, h11, hkmem⟩ := changeKeyStage_nil _ _ _ _ h21
    rw [he5, he4, he3, he2, he1]
    exact hkmem

theorem mem_spine_of_entsGet_some (l : List (EId × Ent)) (i : EId) (e : Ent)
    (h : entsGet l i = some e) : i ∈ l.map Prod.fst := by
  induction l with
  | nil => simp [entsGet] at h
  | cons hd t ih =>
      obtain ⟨a, b⟩ := hd
      rw [entsGet] at h
      by_cases hai : a = i
      · simp [hai]
      · rw [if_neg hai] at h
        simp [ih h]

theorem entsGet_mem_pair (l : List (EId × Ent)) (i : EId) (e : Ent)
    (h : entsGet l i = some e) : (i, e) ∈ l := by
  induction l with
  | nil => simp [entsGet] at h
  | cons hd t ih =>
      obtain ⟨a, b⟩ := hd
      rw [entsGet] at h
      by_cases hai : a = i
      · rw [if_pos hai] at h
        have hbe := Option.some.inj h
        rw [← hai, ← hbe]
        exact List.mem_cons_self _ _
      · rw [if_neg hai] at h
        exact List.mem_cons_of_mem _ (ih h)

theorem mem_spine_of_get_some (w : World) (i : EId) (e : Ent) (h : w.get i = some e) :
    i ∈ w.ents.map Prod.fst :=
  mem_spine_of_entsGet_some w.ents i e h

theorem mem_spine_of_isSome (w : World) (i : EId) (h : (w.get i).isSome = true) :
    i ∈ w.ents.map Prod.fst := by
  obtain ⟨e, he⟩ := Option.isSome_iff_exists.mp h
  exact mem_spine_of_get_some w i e he

theorem mem_spine_of_locOf_some (w : World) (i : EId) (x : String × EId)
    (h : w.locOf i = some x) : i ∈ w.ents.map Prod.fst := by
  obtain ⟨e, he⟩ := get_isSome_of_locOf w i x h
  exact mem_spine_of_get_some w i e he

theorem mem_spine_of_hasAttr (w : World) (j : EId) (a : PKey)
    (h : w.hasAttr j a = true) : j ∈ w.ents.map Prod.fst :=
  mem_spine_of_isSome w j (get_isSome_of_hasAttr w j a h)

theorem mem_spine_of_prop_some (w : World) (i : EId) (k : PKey) (v : Val)
    (h : w.prop i k = some v) : i ∈ w.ents.map Prod.fst := by
  rw [World.prop] at h
  cases hg : w.get i with
  | none => rw [hg] at h; simp at h
  | some e => exact mem_spine_of_get_some w i e hg

theorem objsOf_eq_nil_of_not_mem_spine (w : World) (j : EId)
    (h : ¬ j ∈ w.ents.map Prod.fst) : w.objsOf j = [] := by
  rw [World.objsOf, World.get, entsGet_eq_none_of_not_mem _ _ h]

/-- Executable strict-sortedness test for attribute lists. -/
def ssortedB : List PKey → Bool
  | [] => true
  | a :: t => t.all (fun b => PKey.ble a b && !(decide (a = b))) && ssortedB t

theorem ssorted_of_ssortedB (l : List PKey) (h : ssortedB l = true) : ssorted l := by
  induction l with
  | nil => exact List.Pairwise.nil
  | cons a t ih =>
      rw [ssortedB, Bool.and_eq_true, List.all_eq_true] at h
      refine List.Pairwise.cons (fun b hb => ?_) (ih h.2)
      have hab := h.1 b hb
      simp only [Bool.and_eq_true, Bool.not_eq_true', decide_eq_false_iff_not] at hab
      exact hab

/-- Executable well-formedness check: the bounded version of `WF` over the
world's finite entity list. -/
def WFb (w : World) : Bool :=
  decide (w.ents.map Prod.fst).Nodup &&
  (w.ents.map Prod.fst).all (fun j => (w.objsOf j).all (fun i =>
    match w.locOf i with
    | some (_, j2) => decide (j2 = j) && decide (i ≠ j)
    | none => false)) &&
  (w.ents.map Prod.fst).all (fun i =>
    match w.locOf i with
    | some (_, j) => decide (i = j) || decide (i ∈ w.objsOf j)
    | none => true) &&
  (w.ents.map Prod.fst).all (fun j => decide (w.objsOf j).Nodup) &&
  w.ents.all (fun pr => ssortedB pr.2.attrs) &&
  (w.ents.map Prod.fst).all (fun i =>
    match w.locOf i with
    | some (ps, j) => !(w.hasAttr j (PKey.s "player")) || decide (ps = "in")
    | none => true) &&
  (w.ents.map Prod.fst).all (fun j =>
    !(w.hasAttr j (PKey.s "player")) || (w.locOf j).isSome) &&
  (w.ents.map Prod.fst).all (fun i => w.directions.all (fun d =>
    match w.prop i (PKey.s d) with
    | some (Val.ent jj) =>
        decide (jj ≠ i) && !(w.hasAttr jj (PKey.s "player")) && (w.get jj).isSome
    | _ => true)) &&
  !(decide ("location" ∈ w.directions)) &&
  (w.ents.map Prod.fst).all (fun j => !(w.hasAttr j (PKey.s "player")) ||
    (!(w.hasAttr j (PKey.s "supporter")) && !(w.hasAttr j (PKey.s "hollow")))) &&
  w.changeActionProperties.all (fun k => decide (k ≠ PKey.s "location") &&
    w.directions.all (fun d => decide (k ≠ PKey.s d)))

theorem WF_of_WFb (w : World) (h : WFb w = true) : WF w := by
  simp only [WFb, Bool.and_eq_true, List.all_eq_true, and_assoc] at h
  obtain ⟨h1, h2, h3, h4, h5, h6, h7, h8, h9, h10, h11⟩ := h
  constructor
  · exact of_decide_eq_true h1
  · intro i j
    constructor
    · intro hmem
      by_cases hj : j ∈ w.ents.map Prod.fst
      · have hh := h2 j hj i hmem
        cases hloc : w.locOf i with
        | none => rw [hloc] at hh; simp at hh
        | some x =>
            obtain ⟨ps, j2⟩ := x
            rw [hloc] at hh
            simp only [Bool.and_eq_true, decide_eq_true_eq] at hh
            exact ⟨⟨ps, by rw [hh.1]⟩, hh.2⟩
      · rw [objsOf_eq_nil_of_not_mem_spine w j hj] at hmem
        simp at hmem
    · rintro ⟨⟨ps, hloc⟩, hne⟩
      have hi : i ∈ w.ents.map Prod.fst := mem_spine_of_locOf_some w i _ hloc
      have hh := h3 i hi
      rw [hloc] at hh
      simp only [Bool.or_eq_true, decide_eq_true_eq] at hh
      rcases hh with hh | hh
      · exact absurd hh hne
      · exact hh
  · intro j
    by_cases hj : j ∈ w.ents.map Prod.fst
    · exact of_decide_eq_true (h4 j hj)
    · rw [objsOf_eq_nil_of_not_mem_spine w j hj]
      exact List.nodup_nil
  · intro i e hg
    exact ssorted_of_ssortedB _ (h5 (i, e) (entsGet_mem_pair w.ents i e hg))
  · intro i ps j hloc hpl
    have hi := mem_spine_of_locOf_some w i _ hloc
    have hh := h6 i hi
    rw [hloc] at hh
    simp only [Bool.or_eq_true, Bool.not_eq_true', decide_eq_true_eq] at hh
    rcases hh with hh | hh
    · rw [hpl] at hh
      exact absurd hh (by simp)
    · exact hh
  · intro j hpl
    have hj := mem_spine_of_hasAttr w j _ hpl
    have hh := h7 j hj
    simp only [Bool.or_eq_true, Bool.not_eq_true'] at hh
    rcases hh with hh | hh
    · rw [hpl] at hh
      exact absurd hh (by simp)
    · exact hh
  · intro i d v hd hp jj hv
    have hi := mem_spine_of_prop_some w i _ _ hp
    have hh := h8 i hi d hd
    rw [hp, hv] at hh
    simp only [Bool.and_eq_true, Bool.not_eq_true', decide_eq_true_eq] at hh
    refine ⟨hh.1.1, ?_, hh.2⟩
    intro hcc
    rw [hcc] at hh
    exact absurd hh.1.2 (by simp)
  · intro hcc
    rw [decide_eq_true hcc] at h9
    simp at h9
  · intro j hpl
    have hj := mem_spine_of_hasAttr w j _ hpl
    have hh := h10 j hj
    simp only [Bool.or_eq_true, Bool.and_eq_true, Bool.not_eq_true'] at hh
    rcases hh with hh | hh
    · rw [hpl] at hh
      exact absurd hh (by simp)
    · constructor
      · intro hcc
        rw [hcc] at hh
        exact absurd hh.1 (by simp)
      · intro hcc
        rw [hcc] at hh
        exact absurd hh.2 (by simp)
  · intro k hk
    have hh := h11 k hk
    simp only [Bool.and_eq_true, List.all_eq_true, decide_eq_true_eq] at hh
    exact ⟨hh.1, fun d hd => hh.2 d hd⟩

theorem applyAct_ok (rnd : Rnd) (gen : World → EId → Bool) (a : Act) (w : World)
    (hwf : WF w) : Restores w (applyAct rnd gen a w) ∧ WF (applyAct rnd gen a w) := by
  cases a with
  | goA p dir fromLoc => exact go_ok rnd p dir fromLoc w hwf
  | opensA e p loc pos => exact opens_ok e p loc pos w hwf
  | closesA e p loc pos => exact closes_ok e p loc pos w hwf
  | getA e p loc pos => exact get_ok e p loc pos w hwf
  | dropA e p loc pos => exact drop_ok rnd e p loc pos w hwf
  | changeA e p k v => exact change_ok gen e p k v w hwf

theorem applyActs_ok (rnd : Rnd) (gen : World → EId → Bool) (l : List Act) (w : World)
    (hwf : WF w) : Restores w (applyActs rnd gen l w) ∧ WF (applyActs rnd gen l w) := by
  induction l generalizing w with
  | nil => exact ⟨restores_refl w, hwf⟩
  | cons a t ih =>
      obtain ⟨hr1, hw1⟩ := applyAct_ok rnd gen a w hwf
      obtain ⟨hr2, hw2⟩ := ih (applyAct rnd gen a w) hw1
      exact ⟨restores_trans _ _ _ hr1 hr2, hw2⟩

/-- An entity with the given properties, attributes and contents and all
observation / description state empty, as built by `env_generators`. -/
def Ent.basic (props : List (PKey × Val)) (attrs : List PKey) (objs : List EId) : Ent :=
  ⟨props, attrs, objs, [], [], [], [], [], [], [], []⟩

/-- A minimal well-formed world: a top location `"room"` containing the
player `"p"` and a `"ball"`. -/
def c1okW : World :=
  { ents := [
      ("room", Ent.basic [(PKey.s "location", Val.loc "in" "room")] [PKey.s "place"]
        ["p", "ball"]),
      ("p", Ent.basic [(PKey.s "location", Val.loc "in" "room")] [PKey.s "player"] []),
      ("ball", Ent.basic [(PKey.s "location", Val.loc "in" "room")] [] [])],
    undo := [], changeActionProperties := [],
    locationPositions := ["in", "on", "under"], directions := [],
    allProperties := [], allVals := [], playerVals := [] }

/-- A malformed world: the ball is located `"on"` the player while already
listed among the player's contents, and the player's location is a self-loop. -/
def c1badW : World :=
  { ents := [
      ("p", Ent.basic [(PKey.s "location", Val.loc "in" "p")] [PKey.s "player"] ["b"]),
      ("b", Ent.basic [(PKey.s "location", Val.loc "on" "p")] [] [])],
    undo := [], changeActionProperties := [],
    locationPositions := ["in", "on", "under"], directions := [],
    allProperties := [], allVals := [], playerVals := [] }

/-- C1: on a well-formed world, a checkpoint taken by `saveState` (the undo-log
length) followed by any sequence of committed action-layer calls (`go`, `opens`,
`closes`, `get`, `drop`, `change`) is fully rolled back by `recoverState`: the
undo records appended after the checkpoint are replayed newest first, every
mutated entity is restored bit-for-bit, and the undo log is truncated back to
the checkpoint, so the resulting world equals the original. -/
theorem C1_recover_roundtrip (rnd : Rnd) (gen : World → EId → Bool) (l : List Act)
    (w0 : World) (hwf : WF w0) :
    recoverState (saveState w0) (applyActs rnd gen l w0) = w0 :=
  (applyActs_ok rnd gen l w0 hwf).1

/-- C1 witness: the roundtrip on the concrete well-formed world `c1okW` after a
successful `get`. -/
theorem C1_recover_roundtrip_witness :
    recoverState (saveState c1okW)
      (applyActs Rnd.low (fun _ _ => true) [Act.getA "ball" "p" "room" "in"] c1okW) =
      c1okW :=
  C1_recover_roundtrip Rnd.low (fun _ _ => true) [Act.getA "ball" "p" "room" "in"] c1okW
    (WF_of_WFb c1okW (by decide))

/-- C1 counterexample: on the raw (not well-formed) world `c1badW`, a committed
`get` duplicates `"b"` in the player's contents before the undo closure captures
them, so the rollback does not restore the original world: the claim is false
without a well-formedness restriction on the world. -/
theorem C1_recover_counterexample :
    recoverState (saveState c1badW)
      (applyActs Rnd.low (fun _ _ => true) [Act.getA "b" "p" "p" "on"] c1badW) ≠
      c1badW := by decide

theorem contextUpdate_lastContextId (ctx : List Sent) (w : World) (kb : KB) :
    (contextUpdate ctx w kb).2.lastContextId = ctx.length := rfl

theorem contextUpdate_fixed (ctx : List Sent) (w : World) (kb : KB)
    (h : kb.lastContextId = ctx.length) : contextUpdate ctx w kb = (w, kb) := by
  obtain ⟨db, ud, lci⟩ := kb
  simp only [KB.lastContextId] at h
  subst h
  simp [contextUpdate, Nat.sub_self, multiUpdate]

/-- C9: `contextUpdate` is idempotent on an unchanged context: running it a
second time with the same meta context processes no statements, so the world
(including every entity's visibility state), the sentence database and the
remembered `lastContextId` are all unchanged from the state after the first
call. -/
theorem C9_contextUpdate_idempotent (ctx : List Sent) (w : World) (kb : KB) :
    contextUpdate ctx (contextUpdate ctx w kb).1 (contextUpdate ctx w kb).2 =
      contextUpdate ctx w kb := by
  rw [contextUpdate_fixed ctx (contextUpdate ctx w kb).1 (contextUpdate ctx w kb).2
    (contextUpdate_lastContextId ctx w kb)]

theorem setMembers_player (st : AndState) (r : List (Option EId)) :
    (setMembers st r).player = st.player := by
  rw [setMembers]
  split <;> rfl

/-- C8: when the agent owning this `AndPolicy` state is not the current
speaker, `andParse` never consults a sub-policy (the result is identical for
arbitrary `otherPol` / `ownPol` oracles), and on the main path it returns
exactly `recursionBreak` of the post-`setMembers` state: no step at all when
no sub-goal is in progress, and the single placeholder step `Stmt.emptyS`
when the current sub-goal has not yet evaluated to success. -/
theorem C8_nonspeaker_break (st0 : AndState) (request : List (Option EId))
    (nDescribers : Nat) (currSpeaker : Option EId)
    (otherPol otherPol' : Nat → Option (List Stmt)) (ownPol ownPol' : Nat → PolO)
    (h2 : currSpeaker ≠ some st0.player) :
    andParse st0 request nDescribers currSpeaker otherPol ownPol =
      andParse st0 request nDescribers currSpeaker otherPol' ownPol' ∧
    (¬ nDescribers ≤ 1 →
      (setMembers st0 request).numGoals ≠ some 0 →
      (∀ g, computeGoal (setMembers st0 request) = some g →
        cgExec (setMembers st0 request) g ≠ 1) →
      andParse st0 request nDescribers currSpeaker otherPol ownPol =
        ((recursionBreak (setMembers st0 request)).1,
         (recursionBreak (setMembers st0 request)).2, setMembers st0 request) ∧
      ((setMembers st0 request).currGoalUidx = none →
        (recursionBreak (setMembers st0 request)).1 = none) ∧
      (∀ u, (setMembers st0 request).currGoalUidx = some u →
        ((nlook (setMembers st0 request).utteranceGoal u).getD { eval := none }).eval ≠
          some 1 →
        (recursionBreak (setMembers st0 request)).1 = some [Stmt.emptyS])) := by
  have hc : currSpeaker ≠ some (setMembers st0 request).player := by
    rw [setMembers_player]
    exact h2
  constructor
  · unfold andParse
    split
    · rfl
    · dsimp only
      split
      · rfl
      · rfl
  · intro h1 hB1 hB2
    refine ⟨?_, ?_, ?_⟩
    · unfold andParse
      rw [if_neg h1]
      dsimp only
      split
      · next h =>
          exfalso
          rcases h with h | h
          · exact hB1 h
          · cases hg : computeGoal (setMembers st0 request) with
            | none => rw [hg] at h; simp at h
            | some g =>
                rw [hg] at h
                simp at h
                exact hB2 g hg h
      · rfl
    · intro hn
      unfold recursionBreak
      rw [hn]
    · intro u hu hne
      unfold recursionBreak
      rw [hu]
      dsimp only
      rw [if_neg hne]

def c8req : List (Option EId) := [some "alice", some "bob"]

def c8st : AndState :=
  { player := "alice", currGoalUidx := some 0,
    utteranceGoal := [(0, { eval := none })],
    playersInOrder := [some "alice", some "bob"],
    stopAt := some 0, numGoals := some 1 }

/-- C8 witness: a concrete two-agent compound request where agent `"alice"`
is addressed but `"bob"` is the current speaker; `"alice"`'s policy replies
with the single placeholder step. -/
theorem C8_nonspeaker_break_witness :
    (andParse c8st c8req 2 (some "bob") (fun _ => none)
      (fun _ => ⟨none, none⟩)).1 = some [Stmt.emptyS] := by
  obtain ⟨-, h2⟩ := C8_nonspeaker_break c8st c8req 2 (some "bob") (fun _ => none)
    (fun _ => none) (fun _ => ⟨none, none⟩) (fun _ => ⟨none, none⟩) (by decide)
  have hB2 : ∀ g, computeGoal (setMembers c8st c8req) = some g →
      cgExec (setMembers c8st c8req) g ≠ 1 := by
    intro g hg
    have he : computeGoal (setMembers c8st c8req) = some CGoal.andG := by decide
    rw [he] at hg
    cases Option.some.inj hg
    decide
  obtain ⟨hmain, -, hplace⟩ := h2 (by decide) (by decide) hB2
  rw [hmain]
  exact hplace 0 (by decide) (by decide)

/-- The filtered contents list bound by `objects_loc_pos`: the contained
objects whose location preposition equals `lp`. -/
def holderOf (w : World) (entity : EId) (lp : String) : List EId :=
  (w.objsOf entity).filter
    (fun o => match w.locOf o with | some (ps, _) => ps = lp | none => false)

theorem objectsLocPos_def (rnd : Rnd) (w : World) (entity : EId) (lp : String) :
    objectsLocPos rnd w entity lp =
      (if 1 < (holderOf w entity lp).length then
        match (rnd.shuffle (holderOf w entity lp)).take
            (min (max (rnd.randint 1 (holderOf w entity lp).length) 1)
              (holderOf w entity lp).length) with
        | [x] => OLPRes.oneR x
        | l => OLPRes.manyR l
      else
        match holderOf w entity lp with
        | [] => OLPRes.noneR
        | [x] => OLPRes.oneR x
        | l => OLPRes.manyR l) := rfl

/-- A world whose container `"box"` holds two objects with preposition
`"in"`. -/
def c10W : World :=
  { ents := [
      ("box", Ent.basic [(PKey.s "location", Val.loc "in" "box")] [] ["a", "b"]),
      ("a", Ent.basic [(PKey.s "location", Val.loc "in" "box")] [] []),
      ("b", Ent.basic [(PKey.s "location", Val.loc "in" "box")] [] [])],
    undo := [], changeActionProperties := [],
    locationPositions := ["in", "on", "under"], directions := [],
    allProperties := [], allVals := [], playerVals := [] }

/-- C10: with the shuffle oracle a permutation (as `random.shuffle` is),
`objectsLocPos` returns `noneR` when no contained object carries the
preposition, the unique match when exactly one does, and with two or more
matches a non-empty selection of at most all of them; every returned object is
genuinely contained with that preposition, and on a concrete two-object
container the returned selection is a strict subset of the matching contents,
so a `look` success report may omit part of the contents. -/
theorem C10_objectsLocPos (rnd : Rnd) (w : World) (entity : EId) (lp : String)
    (hsh : ∀ l : List EId, List.Perm (rnd.shuffle l) l) :
    (holderOf w entity lp = [] → objectsLocPos rnd w entity lp = OLPRes.noneR) ∧
    (∀ x, holderOf w entity lp = [x] →
      objectsLocPos rnd w entity lp = OLPRes.oneR x) ∧
    (∀ x ∈ (objectsLocPos rnd w entity lp).described,
      x ∈ w.objsOf entity ∧ ∃ j, w.locOf x = some (lp, j)) ∧
    (1 < (holderOf w entity lp).length →
      (objectsLocPos rnd w entity lp).described ≠ [] ∧
      (objectsLocPos rnd w entity lp).described.length ≤
        (holderOf w entity lp).length) ∧
    (∃ (rnd2 : Rnd) (w2 : World) (e2 : EId) (lp2 : String),
      (objectsLocPos rnd2 w2 e2 lp2).described ≠ [] ∧
      (objectsLocPos rnd2 w2 e2 lp2).described.length <
        (holderOf w2 e2 lp2).length) := by
  refine ⟨?_, ?_, ?_, ?_, ?_⟩
  · intro h
    rw [objectsLocPos_def, h]
    rfl
  · intro x h
    rw [objectsLocPos_def, h]
    rfl
  · intro x hx
    rw [objectsLocPos_def] at hx
    have hxh : x ∈ holderOf w entity lp := by
      by_cases hlen : 1 < (holderOf w entity lp).length
      · rw [if_pos hlen] at hx
        split at hx
        · next y heq =>
            simp [OLPRes.described] at hx
            subst hx
            have hy : x ∈ (rnd.shuffle (holderOf w entity lp)).take
                (min (max (rnd.randint 1 (holderOf w entity lp).length) 1)
                  (holderOf w entity lp).length) := by
              rw [heq]
              simp
            exact ((hsh (holderOf w entity lp)).mem_iff).mp
              (List.take_subset _ _ hy)
        · simp [OLPRes.described] at hx
          exact ((hsh (holderOf w entity lp)).mem_iff).mp
            (List.take_subset _ _ hx)
      · rw [if_neg hlen] at hx
        split at hx
        · simp [OLPRes.described] at hx
        · next y heq =>
            simp [OLPRes.described] at hx
            rw [hx, heq]
            simp
        · simp [OLPRes.described] at hx
          exact hx
    rw [holderOf, List.mem_filter] at hxh
    obtain ⟨hmem, hpred⟩ := hxh
    have hpred2 : (match w.locOf x with
        | some (ps, _) => decide (ps = lp)
        | none => false) = true := hpred
    refine ⟨hmem, ?_⟩
    cases hQ : w.locOf x with
    | none => rw [hQ] at hpred2; simp at hpred2
    | some pr =>
        obtain ⟨ps, j⟩ := pr
        rw [hQ] at hpred2
        simp at hpred2
        exact ⟨j, by rw [hpred2]⟩
  · intro hlen
    rw [objectsLocPos_def, if_pos hlen]
    have hlen2 : (rnd.shuffle (holderOf w entity lp)).length =
        (holderOf w entity lp).length := (hsh _).length_eq
    constructor
    · split
      · next y heq => simp [OLPRes.described]
      · simp only [OLPRes.described]
        intro hcon
        have hc2 := congrArg List.length hcon
        rw [List.length_take, hlen2] at hc2
        simp only [List.length_nil] at hc2
        omega
    · split
      · next y heq =>
          simp [OLPRes.described]
          omega
      · simp only [OLPRes.described]
        rw [List.length_take, hlen2]
        omega
  · exact ⟨Rnd.low, c10W, "box", "in", by decide, by decide⟩

/-- C10 witness: on the two-object container of `c10W` the low oracle
returns a non-empty selection of at most the matching contents. -/
theorem C10_objectsLocPos_witness :
    (objectsLocPos Rnd.low c10W "box" "in").described ≠ [] ∧
    (objectsLocPos Rnd.low c10W "box" "in").described.length ≤
      (holderOf c10W "box" "in").length := by
  have h := C10_objectsLocPos Rnd.low c10W "box" "in" (fun l => List.Perm.refl l)
  exact h.2.2.2.1 (by decide)

theorem otSteps_get (f : EId → List Stmt) (acc : OTAcc)
    (h : acc.listSteps = acc.itemList.map f) (idx : Nat) (it : EId)
    (hm : acc.itemList.get? idx = some it) :
    (acc.listSteps.get? idx).getD [] = f it := by
  rw [h, List.get?_map, hm]
  rfl

theorem oneTaskLoop_lock (task : EId → TaskO) (negResFunc : EId → Stmt) :
    ∀ (items : List EId) (acc : OTAcc),
      acc.listSteps = acc.itemList.map (fun i => (task i).steps) →
      (oneTaskLoop task negResFunc items acc).listSteps =
        (oneTaskLoop task negResFunc items acc).itemList.map
          (fun i => (task i).steps) := by
  intro items
  induction items with
  | nil =>
      intro acc h
      simp only [oneTaskLoop]
      exact h
  | cons sitem rest ih =>
      intro acc h
      simp only [oneTaskLoop]
      split
      · exact ih _ h
      · apply ih
        simp [h]

theorem idxOf_get (l : List EId) (x : EId) (n : Nat) (h : idxOf l x = some n) :
    l.get? n = some x := by
  induction l generalizing n with
  | nil => simp [idxOf] at h
  | cons y t ih =>
      rw [idxOf] at h
      by_cases hy : y = x
      · rw [if_pos hy] at h
        injection h with h2
        subst h2
        simp [hy]
      · rw [if_neg hy] at h
        cases hm : idxOf t x with
        | none => rw [hm] at h; simp at h
        | some m =>
            rw [hm] at h
            simp at h
            subst h
            simpa using ih m hm

theorem idxOf_of_mem (l : List EId) (x : EId) (h : x ∈ l) :
    ∃ n, idxOf l x = some n := by
  induction l with
  | nil => simp at h
  | cons y t ih =>
      by_cases hy : y = x
      · exact ⟨0, by rw [idxOf, if_pos hy]⟩
      · have hx : x ∈ t := by
          rcases List.mem_cons.mp h with h2 | h2
          · exact absurd h2.symm hy
          · exact h2
        obtain ⟨m, hm⟩ := ih hx
        refine ⟨m + 1, ?_⟩
        rw [idxOf, if_neg hy, hm]
        rfl

/-- C7: one_task over the observed compatible candidates: if every candidate's
steps contain its failure response the shared negative response is returned
with a goal requiring it and the memo is untouched; otherwise, when every
candidate's steps or multiple-correct goal steps contain the failure response
the returned goal is the shared negative-response goal (NOT the
OR-combination), and only when some candidate survives both counts is the goal
the OR-combination of the surviving goals; across successive calls the steps
returned are always the task steps of the memoised candidate, and re-calling
with the memoised candidate keeps its steps and memo for any random pick. -/
theorem C7_oneTask_memo (w : World) (task : EId → TaskO) (player : EId) (item : Ent)
    (negResponse : Stmt) (negResFunc : EId → Stmt) (memo : Option EId)
    (pick pick2 : Nat → Nat) :
    ((oneTaskLoop task negResFunc ((queryEntityFromDb w item).filter (observedCompatible w item.descElems)) ⟨0, 0, [], [], []⟩).counter = ((queryEntityFromDb w item).filter (observedCompatible w item.descElems)).length →
      (oneTask w task player item negResponse negResFunc memo pick) =
        ⟨[Stmt.say player negResponse], Goal.css [Stmt.say player negResponse], memo⟩) ∧
    ((oneTaskLoop task negResFunc ((queryEntityFromDb w item).filter (observedCompatible w item.descElems)) ⟨0, 0, [], [], []⟩).counter ≠ ((queryEntityFromDb w item).filter (observedCompatible w item.descElems)).length →
      (oneTaskLoop task negResFunc ((queryEntityFromDb w item).filter (observedCompatible w item.descElems)) ⟨0, 0, [], [], []⟩).negGoals = ((queryEntityFromDb w item).filter (observedCompatible w item.descElems)).length →
      (oneTask w task player item negResponse negResFunc memo pick).goal = Goal.css [Stmt.say player negResponse]) ∧
    ((oneTaskLoop task negResFunc ((queryEntityFromDb w item).filter (observedCompatible w item.descElems)) ⟨0, 0, [], [], []⟩).counter ≠ ((queryEntityFromDb w item).filter (observedCompatible w item.descElems)).length →
      (oneTaskLoop task negResFunc ((queryEntityFromDb w item).filter (observedCompatible w item.descElems)) ⟨0, 0, [], [], []⟩).negGoals ≠ ((queryEntityFromDb w item).filter (observedCompatible w item.descElems)).length →
      (oneTask w task player item negResponse negResFunc memo pick).goal = Goal.orG (oneTaskLoop task negResFunc ((queryEntityFromDb w item).filter (observedCompatible w item.descElems)) ⟨0, 0, [], [], []⟩).goals) ∧
    (∀ it, (oneTask w task player item negResponse negResFunc memo pick).memo = some it →
      (oneTaskLoop task negResFunc ((queryEntityFromDb w item).filter (observedCompatible w item.descElems)) ⟨0, 0, [], [], []⟩).counter ≠ ((queryEntityFromDb w item).filter (observedCompatible w item.descElems)).length →
      (oneTask w task player item negResponse negResFunc memo pick).steps = (task it).steps ∧
      (oneTask w task player item negResponse negResFunc (some it) pick2).steps = (task it).steps ∧
      (oneTask w task player item negResponse negResFunc (some it) pick2).memo = some it) := by
  have hlock : (oneTaskLoop task negResFunc ((queryEntityFromDb w item).filter (observedCompatible w item.descElems)) ⟨0, 0, [], [], []⟩).listSteps = (oneTaskLoop task negResFunc ((queryEntityFromDb w item).filter (observedCompatible w item.descElems)) ⟨0, 0, [], [], []⟩).itemList.map (fun i => (task i).steps) :=
    oneTaskLoop_lock task negResFunc ((queryEntityFromDb w item).filter (observedCompatible w item.descElems)) ⟨0, 0, [], [], []⟩ rfl
  refine ⟨?_, ?_, ?_, ?_⟩
  · intro h
    unfold oneTask
    dsimp only
    rw [if_neg (not_not_intro h)]
  · intro h1 h2
    unfold oneTask
    dsimp only
    rw [if_pos h1]
    dsimp only
    rw [if_pos h2]
  · intro h1 h2
    unfold oneTask
    dsimp only
    rw [if_pos h1]
    dsimp only
    rw [if_neg h2]
  · intro it hm h1
    have hsecond : ∀ j, idxOf (oneTaskLoop task negResFunc ((queryEntityFromDb w item).filter (observedCompatible w item.descElems)) ⟨0, 0, [], [], []⟩).itemList it = some j →
        (oneTask w task player item negResponse negResFunc (some it) pick2).steps = (task it).steps ∧
        (oneTask w task player item negResponse negResFunc (some it) pick2).memo = some it := by
      intro j hj
      unfold oneTask
      dsimp only
      rw [if_pos h1]
      dsimp only
      rw [hj]
      dsimp only
      constructor
      · exact otSteps_get _ _ hlock _ _ (idxOf_get _ _ _ hj)
      · rfl
    unfold oneTask at hm
    dsimp only at hm
    rw [if_pos h1] at hm
    dsimp only at hm
    have hfirst : it ∈ (oneTaskLoop task negResFunc ((queryEntityFromDb w item).filter (observedCompatible w item.descElems)) ⟨0, 0, [], [], []⟩).itemList ∧
        (oneTask w task player item negResponse negResFunc memo pick).steps = (task it).steps := by
      cases memo with
      | none =>
          dsimp only at hm
          refine ⟨List.get?_mem hm, ?_⟩
          unfold oneTask
          dsimp only
          rw [if_pos h1]
          dsimp only
          exact otSteps_get _ _ hlock _ _ hm
      | some it0 =>
          dsimp only at hm
          cases hj0 : idxOf (oneTaskLoop task negResFunc ((queryEntityFromDb w item).filter (observedCompatible w item.descElems)) ⟨0, 0, [], [], []⟩).itemList it0 with
          | some j0 =>
              rw [hj0] at hm
              dsimp only at hm
              injection hm with hm2
              subst hm2
              have hget := idxOf_get _ _ _ hj0
              refine ⟨List.get?_mem hget, ?_⟩
              unfold oneTask
              dsimp only
              rw [if_pos h1]
              dsimp only
              rw [hj0]
              dsimp only
              exact otSteps_get _ _ hlock _ _ hget
          | none =>
              rw [hj0] at hm
              dsimp only at hm
              refine ⟨List.get?_mem hm, ?_⟩
              unfold oneTask
              dsimp only
              rw [if_pos h1]
              dsimp only
              rw [hj0]
              dsimp only
              exact otSteps_get _ _ hlock _ _ hm
    obtain ⟨j, hj⟩ := idxOf_of_mem _ _ hfirst.1
    obtain ⟨s2, m2⟩ := hsecond j hj
    exact ⟨hfirst.2, s2, m2⟩

def c7W : World :=
  { ents := [("c1", Ent.basic [] [] []), ("c2", Ent.basic [] [] [])],
    undo := [], changeActionProperties := [], locationPositions := [],
    directions := [], allProperties := [], allVals := [], playerVals := [] }

def c7item : Ent := Ent.basic [] [] []

def c7task : EId → TaskO := fun i =>
  if i = "c1" then { steps := [Stmt.say "p" Stmt.emptyS], goal := Goal.css [] }
  else { steps := [], goal := Goal.mc [Stmt.say "p" Stmt.emptyS] }

/-- C7 counterexample: a two-candidate scenario where not every candidate's
steps contain its failure response, yet the returned goal is the shared
negative-response goal and not an OR-combination of goals, refuting the
claimed dichotomy. -/
theorem C7_oneTask_counterexample :
    (oneTask c7W c7task "p" c7item Stmt.emptyS (fun _ => Stmt.emptyS) none
        (fun _ => 0)).goal = Goal.css [Stmt.say "p" Stmt.emptyS] ∧
    (∀ gs, (oneTask c7W c7task "p" c7item Stmt.emptyS (fun _ => Stmt.emptyS) none
        (fun _ => 0)).goal ≠ Goal.orG gs) ∧
    (oneTaskLoop c7task (fun _ => Stmt.emptyS)
        ((queryEntityFromDb c7W c7item).filter (observedCompatible c7W c7item.descElems))
        ⟨0, 0, [], [], []⟩).counter ≠
      ((queryEntityFromDb c7W c7item).filter
        (observedCompatible c7W c7item.descElems)).length := by
  have h1 : (oneTask c7W c7task "p" c7item Stmt.emptyS (fun _ => Stmt.emptyS) none
      (fun _ => 0)).goal = Goal.css [Stmt.say "p" Stmt.emptyS] := rfl
  refine ⟨h1, fun gs hc => ?_, by decide⟩
  rw [h1] at hc
  exact Goal.noConfusion hc

/-- C7 witness: the amended middle case on the concrete two-candidate
scenario. -/
theorem C7_oneTask_memo_witness :
    (oneTask c7W c7task "p" c7item Stmt.emptyS (fun _ => Stmt.emptyS) (some "c2")
      (fun _ => 0)).goal = Goal.css [Stmt.say "p" Stmt.emptyS] := by
  have h := C7_oneTask_memo c7W c7task "p" c7item Stmt.emptyS (fun _ => Stmt.emptyS)
    (some "c2") (fun _ => 0) (fun _ => 0)
  exact h.2.1 (by decide) (by decide)

theorem conflict_foldl_fst (e2 : EId) (canNot2 : AStmt) (ekl2 : List String)
    (v2 : Val) (l : List EId) (acc : List Stmt × World) :
    (l.foldl (fun (acc2 : List Stmt × World) obj =>
      (acc2.1 ++ [Stmt.cont [canNot2,
        AStmt.be (STopic.theChange e2 ekl2 v2) false (SCom.conflicting obj)]],
       describeMany [e2, obj] acc2.2)) acc).1 =
      acc.1 ++ l.map (fun obj => Stmt.cont [canNot2,
        AStmt.be (STopic.theChange e2 ekl2 v2) false (SCom.conflicting obj)]) := by
  induction l generalizing acc with
  | nil => simp
  | cons hd t ih =>
      rw [List.foldl_cons, ih]
      simp

theorem descOnly_propSeenOf (w w2 : World) (h : DescOnly w w2) (i : EId) (k : PKey) :
    propSeenOf w2 i k = propSeenOf w i k := by
  obtain ⟨l, rfl⟩ := h
  have hm := describeMany_get_map (fun e => alook e.propSeen k) (fun _ _ => rfl) l i w
  cases h2 : w.get i with
  | none =>
      rw [h2] at hm
      cases h1 : (describeMany l w).get i with
      | none => rw [propSeenOf, propSeenOf, h1, h2]
      | some e => rw [h1] at hm; simp at hm
  | some e0 =>
      rw [h2] at hm
      cases h1 : (describeMany l w).get i with
      | none => rw [h1] at hm; simp at hm
      | some e =>
          rw [h1] at hm
          simp at hm
          rw [propSeenOf, propSeenOf, h1, h2]
          exact hm

/-- C6: when the tentative application of `change` leaves a non-empty set of
conflicting objects (same key/value, no distinguishing description), the call
returns one "conflicting with" statement per conflicting object appended to
the stage log, the entity's property and `prop_seen` entry for the key are
restored to their pre-call values, and only description-cache undo records are
appended (the tentative mutation leaves no undo record); moreover `change`
is exactly this core applied after the guard stages. -/
theorem C6_change_conflict (genDesc : World → EId → Bool) (e p : EId) (k : PKey)
    (v : Val) (ekl : List String) (canNot : AStmt) (log : List Stmt) (w0 W : World)
    (hdo : DescOnly w0 W)
    (hconf : (((describeE e (describeE p W)).modify e
          (Ent.changeApply k v)).ents.map Prod.fst).filter
          (fun i => ((describeE e (describeE p W)).modify e
            (Ent.changeApply k v)).prop i k = some v ∧
            genDesc ((describeE e (describeE p W)).modify e
              (Ent.changeApply k v)) i = false) ≠ []) :
    (changeCore genDesc e p k v ekl canNot log W).1 =
      log ++ ((((describeE e (describeE p W)).modify e
          (Ent.changeApply k v)).ents.map Prod.fst).filter
          (fun i => ((describeE e (describeE p W)).modify e
            (Ent.changeApply k v)).prop i k = some v ∧
            genDesc ((describeE e (describeE p W)).modify e
              (Ent.changeApply k v)) i = false)).map (fun obj => Stmt.cont [canNot,
        AStmt.be (STopic.theChange e ekl v) false (SCom.conflicting obj)]) ∧
    (changeCore genDesc e p k v ekl canNot log W).2.prop e k = w0.prop e k ∧
    propSeenOf (changeCore genDesc e p k v ekl canNot log W).2 e k =
      propSeenOf w0 e k ∧
    (∃ recs, (changeCore genDesc e p k v ekl canNot log W).2.undo =
      w0.undo ++ recs ∧ ∀ r ∈ recs, r.isDesc = true) ∧
    change genDesc e p k v w0 =
      changeCore genDesc e p k v (keyParts k)
        (AStmt.changeV (some p) (some "can") true "change"
          (some (ChThing.entKey e (keyParts k))) (some v))
        (changeSameStage e k (keyParts k) v
          (AStmt.changeV (some p) (some "can") true "change"
            (some (ChThing.entKey e (keyParts k))) (some v))
          (changeHeldStage e p k
            (AStmt.changeV (some p) (some "can") true "change"
              (some (ChThing.entKey e (keyParts k))) (some v))
            (changeValStage k v
              (AStmt.changeV (some p) (some "can") true "change"
                (some (ChThing.entKey e (keyParts k))) (some v))
              (changeNameStage e k v
                (AStmt.changeV (some p) (some "can") true "change"
                  (some (ChThing.entKey e (keyParts k))) (some v))
                (changeKeyStage k (keyParts k)
                  (AStmt.changeV (some p) (some "can") true "change"
                    (some (ChThing.entKey e (keyParts k))) (some v))
                  ([], describeMany [p, e] w0)))))).1
        (changeSameStage e k (keyParts k) v
          (AStmt.changeV (some p) (some "can") true "change"
            (some (ChThing.entKey e (keyParts k))) (some v))
          (changeHeldStage e p k
            (AStmt.changeV (some p) (some "can") true "change"
              (some (ChThing.entKey e (keyParts k))) (some v))
            (changeValStage k v
              (AStmt.changeV (some p) (some "can") true "change"
                (some (ChThing.entKey e (keyParts k))) (some v))
              (changeNameStage e k v
                (AStmt.changeV (some p) (some "can") true "change"
                  (some (ChThing.entKey e (keyParts k))) (some v))
                (changeKeyStage k (keyParts k)
                  (AStmt.changeV (some p) (some "can") true "change"
                    (some (ChThing.entKey e (keyParts k))) (some v))
                  ([], describeMany [p, e] w0)))))).2 := by
  have hdoW2 : DescOnly w0 (describeE e (describeE p W)) :=
    descOnly_describeMany_of _ _ [p, e] hdo
  have hmain : (changeCore genDesc e p k v ekl canNot log W).1 =
      log ++ ((((describeE e (describeE p W)).modify e
          (Ent.changeApply k v)).ents.map Prod.fst).filter
          (fun i => ((describeE e (describeE p W)).modify e
            (Ent.changeApply k v)).prop i k = some v ∧
            genDesc ((describeE e (describeE p W)).modify e
              (Ent.changeApply k v)) i = false)).map (fun obj => Stmt.cont [canNot,
        AStmt.be (STopic.theChange e ekl v) false (SCom.conflicting obj)]) ∧
      DescOnly w0 (changeCore genDesc e p k v ekl canNot log W).2 := by
    unfold changeCore
    dsimp only
    split
    · constructor
      · exact conflict_foldl_fst e canNot ekl v _ _
      · have hrev : (((describeE e (describeE p W)).modify e
            (Ent.changeApply k v)).modify e
            (Ent.propRestore k ((describeE e (describeE p W)).prop e k))).modify e
            (Ent.seenRestore k (propSeenOf (describeE e (describeE p W)) e k)) =
            describeE e (describeE p W) := by
          rw [World.modify_modify, World.modify_modify]
          refine World.modify_congr_id _ _ _ (fun en hg => ?_)
          have hov : (describeE e (describeE p W)).prop e k = alook en.props k := by
            rw [World.prop, hg]
          have hos : (propSeenOf (describeE e (describeE p W)) e k) =
              alook en.propSeen k := by
            rw [propSeenOf, hg]
          rw [hov, hos]
          exact ent_change_revert1 k v en
        rw [hrev]
        exact descOnly_conflict_foldl e canNot ekl v _ _ w0 hdoW2
    · rename_i hn
      exact absurd hconf hn
  obtain ⟨hfst, hdof⟩ := hmain
  refine ⟨hfst, descOnly_prop _ _ hdof e k, descOnly_propSeenOf _ _ hdof e k, ?_, rfl⟩
  obtain ⟨l, hl⟩ := hdof
  rw [hl]
  exact describeMany_undo l w0

def c6W : World :=
  { ents := [
      ("x", Ent.basic [(PKey.s "color", Val.str "red")] [] []),
      ("y", Ent.basic [(PKey.s "color", Val.str "blue")] [] [])],
    undo := [], changeActionProperties := [PKey.s "color"],
    locationPositions := [], directions := [], allProperties := [],
    allVals := [], playerVals := [] }

/-- C6 witness: changing `"x"`'s colour to the colour `"y"` already has,
with no distinguishing description available, conflicts and leaves the
property at its pre-call value. -/
theorem C6_change_conflict_witness :
    (changeCore (fun _ _ => false) "x" "p" (PKey.s "color") (Val.str "blue") []
        (AStmt.changeV (some "p") (some "can") true "change"
          (some (ChThing.entKey "x" [])) (some (Val.str "blue"))) [] c6W).2.prop
      "x" (PKey.s "color") = c6W.prop "x" (PKey.s "color") := by
  have h := C6_change_conflict (fun _ _ => false) "x" "p" (PKey.s "color")
    (Val.str "blue") []
    (AStmt.changeV (some "p") (some "can") true "change"
      (some (ChThing.entKey "x" [])) (some (Val.str "blue")))
    [] c6W c6W (descOnly_refl c6W) (by decide)
  exact h.2.1

/-- The "is locked" blocking response of `validate_reachability`. -/
def lockStmt (negRes : AStmt) (c : EId) : Stmt :=
  Stmt.cont [negRes, AStmt.be (STopic.ent c) false (SCom.v (Val.str "locked"))]

/-- The "is not open" blocking response of `validate_reachability`. -/
def notOpenStmt (negRes : AStmt) (c : EId) : Stmt :=
  Stmt.cont [negRes, AStmt.be (STopic.ent c) true (SCom.v (Val.str "open"))]

theorem chainWalk_shapes (negRes : AStmt) : ∀ (fuel : Nat) (cur : EId) (w : World)
    (la na : List Stmt),
    (∀ s ∈ la, ∃ c, s = lockStmt negRes c) →
    (∀ s ∈ na, ∃ c, s = notOpenStmt negRes c) →
    (∀ s ∈ (chainWalk negRes fuel cur w la na).2.1, ∃ c, s = lockStmt negRes c) ∧
    (∀ s ∈ (chainWalk negRes fuel cur w la na).2.2, ∃ c, s = notOpenStmt negRes c) := by
  intro fuel
  induction fuel with
  | zero =>
      intro cur w la na hla hna
      simp only [chainWalk]
      exact ⟨hla, hna⟩
  | succ f ih =>
      intro cur w la na hla hna
      simp only [chainWalk]
      cases hlo : w.locOf cur with
      | none => exact ⟨hla, hna⟩
      | some pr =>
          obtain ⟨ps, nxt⟩ := pr
          dsimp only
          split
          · exact ⟨hla, hna⟩
          · split
            · refine ih nxt _ _ _ ?_ hna
              intro s hs
              rcases List.mem_append.mp hs with h | h
              · exact hla s h
              · simp at h
                exact ⟨cur, by rw [h, lockStmt]⟩
            · split
              · refine ih nxt _ la _ hla ?_
                intro s hs
                rcases List.mem_append.mp hs with h | h
                · exact hna s h
                · simp at h
                  exact ⟨cur, by rw [h, notOpenStmt]⟩
              · exact ih nxt _ la na hla hna

set_option maxHeartbeats 800000 in
theorem vr_fst_decomp (selfE player locEnt : EId) (negRes : AStmt) (w0 : World) :
    ∃ log3 lockedL notOpenL,
      (validateReachability selfE player locEnt negRes w0).1 =
        log3 ++ lockedL ++ (if lockedL = [] then notOpenL else []) ∧
      (∀ s ∈ log3, (∃ rest, s = Stmt.cont (negRes :: rest)) ∧
        ∀ c, s ≠ lockStmt negRes c ∧ s ≠ notOpenStmt negRes c) ∧
      (∀ s ∈ lockedL, ∃ c, s = lockStmt negRes c) ∧
      (∀ s ∈ notOpenL, ∃ c, s = notOpenStmt negRes c) := by
  have key : ∀ L, validateReachability selfE player locEnt negRes w0 = L →
      ∃ log3 lockedL notOpenL,
        L.1 = log3 ++ lockedL ++ (if lockedL = [] then notOpenL else []) ∧
        (∀ s ∈ log3, (∃ rest, s = Stmt.cont (negRes :: rest)) ∧
          ∀ c, s ≠ lockStmt negRes c ∧ s ≠ notOpenStmt negRes c) ∧
        (∀ s ∈ lockedL, ∃ c, s = lockStmt negRes c) ∧
        (∀ s ∈ notOpenL, ∃ c, s = notOpenStmt negRes c) := by
    intro L hL
    unfold validateReachability at hL
    lift_lets at hL
    extract_lets pTop st1 log0 wA typeOk locTop wDesc st2 log1 wB st3 log2 wC
      chainCond res w3 lockedL notOpenL at hL
    have hshape1 : ∀ s ∈ log0, (∃ rest, s = Stmt.cont (negRes :: rest)) ∧ ∀ cc,
        s ≠ lockStmt negRes cc ∧ s ≠ notOpenStmt negRes cc := by
      intro s hs
      unfold_let log0 st1 at hs
      split at hs
      · simp at hs
        subst hs
        refine ⟨⟨_, rfl⟩, fun cc => ?_⟩
        constructor <;> (intro hcon; simp [lockStmt, notOpenStmt] at hcon)
      · simp at hs
    have hshape2 : ∀ s ∈ log1, (∃ rest, s = Stmt.cont (negRes :: rest)) ∧ ∀ cc,
        s ≠ lockStmt negRes cc ∧ s ≠ notOpenStmt negRes cc := by
      intro s hs
      unfold_let log1 st2 at hs
      split at hs
      · simp at hs
        rcases hs with hs | hs
        · exact hshape1 s hs
        · subst hs
          refine ⟨⟨_, rfl⟩, fun cc => ?_⟩
          constructor <;> (intro hcon; simp [lockStmt, notOpenStmt] at hcon)
      · exact hshape1 s hs
    have hshape3 : ∀ s ∈ log2, (∃ rest, s = Stmt.cont (negRes :: rest)) ∧ ∀ cc,
        s ≠ lockStmt negRes cc ∧ s ≠ notOpenStmt negRes cc := by
      intro s hs
      unfold_let log2 st3 at hs
      dsimp only at hs
      split at hs
      · split at hs
        · simp at hs
          rcases hs with hs | hs
          · exact hshape2 s hs
          · subst hs
            refine ⟨⟨_, rfl⟩, fun cc => ?_⟩
            constructor <;> (intro hcon; simp [lockStmt, notOpenStmt] at hcon)
        · exact hshape2 s hs
      · exact hshape2 s hs
    have hcw := chainWalk_shapes negRes (wfuel wC) locEnt wC [] []
      (by simp) (by simp)
    split at hL
    · refine ⟨log2, lockedL, notOpenL, by rw [← hL], hshape3, ?_, ?_⟩
      · exact hcw.1
      · exact hcw.2
    · refine ⟨log2, [], [], ?_, hshape3, by simp, by simp⟩
      rw [← hL]
      simp
  exact key _ rfl

def c5neg : AStmt := AStmt.getV none none true "reach" none none

/-- A world where the item `"gem"` sits in a locked chest that itself sits in
a merely-closed openable chest inside the room. -/
def c5W : World :=
  { ents := [
      ("room", Ent.basic [(PKey.s "location", Val.loc "in" "room")] [PKey.s "place"]
        ["p", "chest2"]),
      ("p", Ent.basic [(PKey.s "location", Val.loc "in" "room")] [PKey.s "player"] []),
      ("chest2", Ent.basic [(PKey.s "location", Val.loc "in" "room")]
        [PKey.s "openable"] ["chest"]),
      ("chest", Ent.basic [(PKey.s "location", Val.loc "in" "chest2")]
        [PKey.s "container", PKey.s "locked"] ["gem"]),
      ("gem", Ent.basic [(PKey.s "location", Val.loc "in" "chest")] [] [])],
    undo := [], changeActionProperties := [],
    locationPositions := ["in", "on", "under"], directions := [],
    allProperties := [], allVals := [], playerVals := [] }

/-- A world where the only blocking container is openable and closed but not
locked. -/
def c5W2 : World :=
  { ents := [
      ("room", Ent.basic [(PKey.s "location", Val.loc "in" "room")] [PKey.s "place"]
        ["p", "box"]),
      ("p", Ent.basic [(PKey.s "location", Val.loc "in" "room")] [PKey.s "player"] []),
      ("box", Ent.basic [(PKey.s "location", Val.loc "in" "room")]
        [PKey.s "container", PKey.s "openable"] ["gem"]),
      ("gem", Ent.basic [(PKey.s "location", Val.loc "in" "box")] [] [])],
    undo := [], changeActionProperties := [],
    locationPositions := ["in", "on", "under"], directions := [],
    allProperties := [], allVals := [], playerVals := [] }

/-- C5: whenever `validate_reachability` emits an "is not open" blocking
response, no "is locked" response occurs in its output — "not open" feedback
is produced only when no container on the chain is locked; and on the
concrete chain with a locked chest inside a merely-closed chest, the output
reports exactly the locked chest. -/
theorem C5_locked_suppresses_notOpen (selfE player locEnt : EId) (negRes : AStmt)
    (w0 : World) (x : EId)
    (hmem : notOpenStmt negRes x ∈
      (validateReachability selfE player locEnt negRes w0).1) :
    (∀ y, lockStmt negRes y ∉
      (validateReachability selfE player locEnt negRes w0).1) ∧
    (validateReachability "gem" "p" "chest" c5neg c5W).1 = [lockStmt c5neg "chest"] := by
  obtain ⟨log3, lockedL, notOpenL, hdec, hlog, hlock, hopen⟩ :=
    vr_fst_decomp selfE player locEnt negRes w0
  refine ⟨?_, by decide⟩
  intro y hcon
  rw [hdec] at hmem hcon
  have hnotinlog : notOpenStmt negRes x ∉ log3 := fun h => ((hlog _ h).2 x).2 rfl
  have hnotinlock : notOpenStmt negRes x ∉ lockedL := by
    intro h
    obtain ⟨cc, hcc⟩ := hlock _ h
    simp [lockStmt, notOpenStmt] at hcc
  by_cases hLE : lockedL = []
  · subst hLE
    rw [if_pos rfl] at hcon
    rcases List.mem_append.mp hcon with hc | hc
    · rw [List.append_nil] at hc
      exact ((hlog _ hc).2 y).1 rfl
    · obtain ⟨cc, hcc⟩ := hopen _ hc
      simp [lockStmt, notOpenStmt] at hcc
  · rw [if_neg hLE] at hmem
    rcases List.mem_append.mp hmem with hm | hm
    · rcases List.mem_append.mp hm with hm2 | hm2
      · exact hnotinlog hm2
      · exact hnotinlock hm2
    · simp at hm

/-- C5 witness: in the merely-closed-box world a "not open" response is
emitted and no "is locked" response occurs. -/
theorem C5_locked_suppresses_notOpen_witness :
    lockStmt c5neg "box" ∉ (validateReachability "gem" "p" "box" c5neg c5W2).1 :=
  (C5_locked_suppresses_notOpen "gem" "p" "box" c5neg c5W2 "box" (by decide)).1 "box"

/-- Every statement of the list is a compound headed by the given
`can not` feedback describer. -/
def headedBy (canNot : AStmt) (L : List Stmt) : Prop :=
  ∀ s ∈ L, ∃ rest, s = Stmt.cont (canNot :: rest)

theorem vr_fst_headed (selfE player locEnt : EId) (negRes : AStmt) (w0 : World) :
    headedBy negRes (validateReachability selfE player locEnt negRes w0).1 := by
  obtain ⟨log3, lockedL, notOpenL, hdec, hlog, hlock, hopen⟩ :=
    vr_fst_decomp selfE player locEnt negRes w0
  intro s hs
  rw [hdec] at hs
  rcases List.mem_append.mp hs with h | h
  · rcases List.mem_append.mp h with h2 | h2
    · exact (hlog _ h2).1
    · obtain ⟨c, rfl⟩ := hlock _ h2
      exact ⟨_, rfl⟩
  · split at h
    · obtain ⟨c, rfl⟩ := hopen _ h
      exact ⟨_, rfl⟩
    · simp at h

theorem locCheckStage_headed (e : EId) (canNot : AStmt) (locPos : String)
    (location : EId) (acc : List Stmt × World) (h : headedBy canNot acc.1) :
    headedBy canNot (locCheckStage e canNot locPos location acc).1 := by
  unfold locCheckStage
  split
  · intro s hs
    rcases List.mem_append.mp hs with h2 | h2
    · exact h s h2
    · simp at h2
      subst h2
      exact ⟨_, rfl⟩
  · exact h

theorem attrMissingStage_headed (e : EId) (canNot : AStmt) (attr : String)
    (acc : List Stmt × World) (h : headedBy canNot acc.1) :
    headedBy canNot (attrMissingStage e canNot attr acc).1 := by
  unfold attrMissingStage
  split
  · intro s hs
    rcases List.mem_append.mp hs with h2 | h2
    · exact h s h2
    · simp at h2
      subst h2
      exact ⟨_, rfl⟩
  · exact h

theorem attrPresentStage_headed (e : EId) (canNot : AStmt) (attr : String)
    (acc : List Stmt × World) (h : headedBy canNot acc.1) :
    headedBy canNot (attrPresentStage e canNot attr acc).1 := by
  unfold attrPresentStage
  split
  · intro s hs
    rcases List.mem_append.mp hs with h2 | h2
    · exact h s h2
    · simp at h2
      subst h2
      exact ⟨_, rfl⟩
  · exact h


/-- A world where opening the door succeeds. -/
def c4Ws : World :=
  { ents := [
      ("room", Ent.basic [(PKey.s "location", Val.loc "in" "room")] [PKey.s "place"]
        ["p", "door1"]),
      ("p", Ent.basic [(PKey.s "location", Val.loc "in" "room")] [PKey.s "player"] []),
      ("door1", Ent.basic [(PKey.s "location", Val.loc "in" "room")]
        [PKey.s "openable"] [])],
    undo := [], changeActionProperties := [],
    locationPositions := ["in", "on", "under"], directions := [],
    allProperties := [], allVals := [], playerVals := [] }

/-- A world where the door is already open, so opening it is blocked. -/
def c4Wf : World :=
  { ents := [
      ("room", Ent.basic [(PKey.s "location", Val.loc "in" "room")] [PKey.s "place"]
        ["p", "door1"]),
      ("p", Ent.basic [(PKey.s "location", Val.loc "in" "room")] [PKey.s "player"] []),
      ("door1", Ent.basic [(PKey.s "location", Val.loc "in" "room")]
        [PKey.s "open", PKey.s "openable"] [])],
    undo := [], changeActionProperties := [],
    locationPositions := ["in", "on", "under"], directions := [],
    allProperties := [], allVals := [], playerVals := [] }

/-- C4 counterexample: a blocked `opens` call still mutates the world and
appends undo records (description memoisation), refuting "no world mutation
or undo record is made by the call". -/
theorem C4_opens_counterexample :
    (opens "door1" "p" (some "room") (some "in") c4Wf).1 ≠ [] ∧
    (opens "door1" "p" (some "room") (some "in") c4Wf).2.undo ≠ c4Wf.undo ∧
    (opens "door1" "p" (some "room") (some "in") c4Wf).2 ≠ c4Wf := by decide


def c3W : World :=
  { ents := [("x", Ent.basic [(PKey.s "color", Val.str "red")] [] [])],
    undo := [], changeActionProperties := [], locationPositions := [],
    directions := [], allProperties := [], allVals := [], playerVals := [] }

def c3stmt : Stmt :=
  Stmt.a (AStmt.be (STopic.poss "x" ["color"]) false (SCom.v (Val.str "red")))

/-- C3: the knowledge-base update pipeline never consults the trusted flag:
`singleUpdate` yields identical results for the untrusted and trusted versions
of any statement, and a concrete untrusted property statement is folded into
the entity's `prop_seen` visibility state both via `singleUpdate` and via
`contextUpdate`, which the specification forbids. -/
theorem C3_untrusted_updates_visibility :
    (∀ (st : Stmt) (w : World) (kb : KB),
      singleUpdate ⟨st, false⟩ w kb = singleUpdate ⟨st, true⟩ w kb) ∧
    propSeenOf (singleUpdate ⟨c3stmt, false⟩ c3W KB.init).1 "x" (PKey.s "color") =
      some (Val.str "red") ∧
    propSeenOf (contextUpdate [⟨c3stmt, false⟩] c3W KB.init).1 "x" (PKey.s "color") =
      some (Val.str "red") ∧
    propSeenOf c3W "x" (PKey.s "color") = none :=
  ⟨fun _ _ _ => rfl, by decide, by decide, by decide⟩

theorem alook_mem {α : Type} (l : List (PKey × α)) (k : PKey) (v : α)
    (h : alook l k = some v) : (k, v) ∈ l := by
  induction l with
  | nil => simp [alook] at h
  | cons hd t ih =>
      obtain ⟨k2, v2⟩ := hd
      rw [alook] at h
      by_cases hk : k2 = k
      · rw [if_pos hk] at h
        injection h with h2
        rw [← hk, ← h2]
        exact List.mem_cons_self _ _
      · rw [if_neg hk] at h
        exact List.mem_cons_of_mem _ (ih h)

theorem alook_eq_none_of_not_mem_keys {α : Type} (l : List (PKey × α)) (k : PKey)
    (h : ¬ k ∈ l.map Prod.fst) : alook l k = none := by
  induction l with
  | nil => rfl
  | cons hd t ih =>
      obtain ⟨k2, v2⟩ := hd
      have h1 : ¬ k2 = k := fun hc => h (by simp [hc])
      have h2 : ¬ k ∈ t.map Prod.fst := fun hc => h (by simp [hc])
      rw [alook, if_neg h1]
      exact ih h2

theorem mem_keys_aset {α : Type} (l : List (PKey × α)) (k k2 : PKey) (v : α)
    (h : k2 ∈ (aset l k v).map Prod.fst) : k2 = k ∨ k2 ∈ l.map Prod.fst := by
  induction l with
  | nil =>
      rw [aset, List.map_cons] at h
      rcases List.mem_cons.mp h with h | h
      · exact Or.inl h
      · simp at h
  | cons hd t ih =>
      obtain ⟨k3, v3⟩ := hd
      rw [aset] at h
      by_cases hk : k3 = k
      · rw [if_pos hk, List.map_cons] at h
        rcases List.mem_cons.mp h with h | h
        · exact Or.inr (by rw [List.map_cons, h]; exact List.mem_cons_self _ _)
        · exact Or.inr (by rw [List.map_cons]; exact List.mem_cons_of_mem _ h)
      · rw [if_neg hk, List.map_cons] at h
        rcases List.mem_cons.mp h with h | h
        · exact Or.inr (by rw [List.map_cons, h]; exact List.mem_cons_self _ _)
        · rcases ih h with h2 | h2
          · exact Or.inl h2
          · exact Or.inr (by rw [List.map_cons]; exact List.mem_cons_of_mem _ h2)

theorem nodup_keys_aset {α : Type} (l : List (PKey × α)) (k : PKey) (v : α)
    (h : (l.map Prod.fst).Nodup) : ((aset l k v).map Prod.fst).Nodup := by
  induction l with
  | nil =>
      rw [aset, List.map_cons]
      simp
  | cons hd t ih =>
      obtain ⟨k3, v3⟩ := hd
      obtain ⟨hni, hnd⟩ := List.nodup_cons.mp h
      rw [aset]
      by_cases hk : k3 = k
      · rw [if_pos hk]
        exact h
      · rw [if_neg hk, List.map_cons]
        refine List.nodup_cons.mpr ⟨fun hc => ?_, ih hnd⟩
        rcases mem_keys_aset t k k3 v hc with h2 | h2
        · exact hk h2
        · exact hni h2

theorem keys_adel_sublist {α : Type} (l : List (PKey × α)) (k : PKey) :
    List.Sublist ((adel l k).map Prod.fst) (l.map Prod.fst) := by
  induction l with
  | nil => exact List.Sublist.refl _
  | cons hd t ih =>
      obtain ⟨k3, v3⟩ := hd
      rw [adel]
      by_cases hk : k3 = k
      · rw [if_pos hk, List.map_cons]
        exact List.sublist_cons_of_sublist _ (List.Sublist.refl _)
      · rw [if_neg hk, List.map_cons, List.map_cons]
        exact List.Sublist.cons₂ _ ih

theorem alook_adel_of_nodup {α : Type} (l : List (PKey × α)) (k k2 : PKey) (sv : α)
    (hnd : (l.map Prod.fst).Nodup) (h : alook (adel l k) k2 = some sv) :
    alook l k2 = some sv := by
  induction l with
  | nil => simp [adel, alook] at h
  | cons hd t ih =>
      obtain ⟨k3, v3⟩ := hd
      obtain ⟨hni, hnd2⟩ := List.nodup_cons.mp hnd
      rw [adel] at h
      by_cases hk : k3 = k
      · rw [if_pos hk] at h
        rw [alook]
        by_cases hk2 : k3 = k2
        · exfalso
          have hnone : alook t k2 = none :=
            alook_eq_none_of_not_mem_keys t k2 (by rw [← hk2]; exact hni)
          rw [hnone] at h
          exact Option.noConfusion h
        · rw [if_neg hk2]
          exact h
      · rw [if_neg hk] at h
        rw [alook] at h ⊢
        by_cases hk2 : k3 = k2
        · rwa [if_pos hk2] at h ⊢
        · rw [if_neg hk2] at h ⊢
          exact ih hnd2 h

/-- The soundness invariant of the agent's positive property observations:
every `prop_seen` binding agrees with the entity's actual properties (and the
binding keys are duplicate-free). -/
def InvPS (w : World) : Prop :=
  ∀ i en, w.get i = some en →
    (en.propSeen.map Prod.fst).Nodup ∧
    (∀ k sv, alook en.propSeen k = some sv → alook en.props k = some sv)

/-- Every sentence of the factual database is a permission sentence (only
`change_updater` / `permit_updater` ever call `basic_update`). -/
def SentDbPermit (kb : KB) : Prop :=
  ∀ s ∈ kb.sentDb, ∃ act neg, asSingle s = some (AStmt.permitV act neg)

/-- One knowledge-base step preserves the world's actual properties, the
`prop_seen` soundness invariant, and the permission-only shape of the
factual database. -/
def PresPair (w : World) (kb : KB) (p : World × KB) : Prop :=
  (∀ i k, p.1.prop i k = w.prop i k) ∧
  (InvPS w → InvPS p.1) ∧
  (SentDbPermit kb → SentDbPermit p.2)

theorem presPair_refl (w : World) (kb : KB) : PresPair w kb (w, kb) :=
  ⟨fun _ _ => rfl, id, id⟩

theorem presPair_comp (w : World) (kb : KB) (w1 : World) (kb1 : KB)
    (p : World × KB) (h1 : PresPair w kb (w1, kb1)) (h2 : PresPair w1 kb1 p) :
    PresPair w kb p :=
  ⟨fun i k => (h2.1 i k).trans (h1.1 i k),
   fun h => h2.2.1 (h1.2.1 h),
   fun h => h2.2.2 (h1.2.2 h)⟩

theorem presPair_comp2 (w : World) (kb : KB) (p1 : World × KB)
    (p : World × KB) (h1 : PresPair w kb p1) (h2 : PresPair p1.1 p1.2 p) :
    PresPair w kb p :=
  ⟨fun i k => (h2.1 i k).trans (h1.1 i k),
   fun h => h2.2.1 (h1.2.1 h),
   fun h => h2.2.2 (h1.2.2 h)⟩

theorem presPair_foldl {α : Type} (f : World × KB → α → World × KB)
    (hf : ∀ w kb x, PresPair w kb (f (w, kb) x)) :
    ∀ (l : List α) (w : World) (kb : KB), PresPair w kb (l.foldl f (w, kb)) := by
  intro l
  induction l with
  | nil => intro w kb; exact presPair_refl w kb
  | cons x t ih =>
      intro w kb
      rw [List.foldl_cons]
      exact presPair_comp w kb (f (w, kb) x).1 (f (w, kb) x).2 _ (hf w kb x)
        (ih (f (w, kb) x).1 (f (w, kb) x).2)

theorem presPair_foldl_from {α : Type} (w : World) (kb : KB)
    (f : World × KB → α → World × KB)
    (hf : ∀ w1 kb1 x, PresPair w1 kb1 (f (w1, kb1) x)) :
    ∀ (l : List α) (R : World × KB), PresPair w kb R →
      PresPair w kb (l.foldl f R) := by
  intro l
  induction l with
  | nil => intro R hR; exact hR
  | cons x t ih =>
      intro R hR
      rw [List.foldl_cons]
      exact ih _ (presPair_comp2 _ _ _ _ hR (hf R.1 R.2 x))

theorem presPair_modify_vis (w : World) (kb : KB) (i : EId) (f : Ent → Ent)
    (kb2 : KB) (hp : ∀ e, (f e).props = e.props)
    (hs : ∀ e, (f e).propSeen = e.propSeen) (hdb : kb2.sentDb = kb.sentDb) :
    PresPair w kb (w.modify i f, kb2) := by
  refine ⟨fun j k => World.prop_modify_propsEq w i j k f hp, ?_, ?_⟩
  · intro hinv j en hg
    by_cases hj : j = i
    · subst hj
      rw [World.get_modify_self] at hg
      cases hw : w.get j with
      | none => rw [hw] at hg; exact Option.noConfusion hg
      | some e =>
          rw [hw] at hg
          injection hg with hg2
          obtain ⟨hnd, htr⟩ := hinv j e hw
          subst hg2
          rw [hs, hp]
          exact ⟨hnd, htr⟩
    · rw [World.get_modify_ne _ _ _ _ hj] at hg
      exact hinv j en hg
  · intro hdbp s hsmem
    rw [hdb] at hsmem
    exact hdbp s hsmem

theorem presPair_modify_vis2 (w : World) (kb : KB) (i : EId) (f g : Ent → Ent)
    (kb3 : KB) (hpf : ∀ e, (f e).props = e.props)
    (hsf : ∀ e, (f e).propSeen = e.propSeen)
    (hpg : ∀ e, (g e).props = e.props)
    (hsg : ∀ e, (g e).propSeen = e.propSeen)
    (hdb3 : kb3.sentDb = kb.sentDb) :
    PresPair w kb ((w.modify i f).modify i g, kb3) :=
  presPair_comp2 w kb (w.modify i f, kb) _
    (presPair_modify_vis w kb i f kb hpf hsf rfl)
    (presPair_modify_vis (w.modify i f) kb i g kb3 hpg hsg hdb3)

theorem addPropSeen_pres (i : EId) (k : PKey) (v : Val) (w : World) (kb : KB)
    (hv : w.prop i k = some v) : PresPair w kb (addPropSeen i k v w kb) := by
  unfold addPropSeen
  refine ⟨fun j k2 => World.prop_modify_propsEq w i j k2 _ (fun e => rfl), ?_, ?_⟩
  · intro hinv j en hg
    by_cases hj : j = i
    · subst hj
      rw [World.get_modify_self] at hg
      cases hw : w.get j with
      | none => rw [hw] at hg; exact Option.noConfusion hg
      | some e =>
          rw [hw] at hg
          injection hg with hg2
          obtain ⟨hnd, htr⟩ := hinv j e hw
          subst hg2
          refine ⟨nodup_keys_aset _ _ _ hnd, ?_⟩
          intro k2 sv hk2
          by_cases hkk : k2 = k
          · subst hkk
            rw [alook_aset_self] at hk2
            injection hk2 with hk3
            subst hk3
            rw [World.prop, hw] at hv
            exact hv
          · rw [alook_aset_ne _ _ _ _ hkk] at hk2
            exact htr k2 sv hk2
    · rw [World.get_modify_ne _ _ _ _ hj] at hg
      exact hinv j en hg
  · intro hdbp s hsmem
    exact hdbp s hsmem

theorem removePropSeen_pres (i : EId) (k : PKey) (w : World) (kb : KB) :
    PresPair w kb (removePropSeen i k w kb) := by
  unfold removePropSeen
  cases hw : w.get i with
  | none => exact presPair_refl w kb
  | some e =>
      dsimp only
      cases ho : alook e.propSeen k with
      | none => exact presPair_refl w kb
      | some old =>
          dsimp only
          refine ⟨fun j k2 => World.prop_modify_propsEq w i j k2 _ (fun e2 => rfl),
            ?_, fun hdbp s hsmem => hdbp s hsmem⟩
          intro hinv j en hg
          by_cases hj : j = i
          · subst hj
            rw [World.get_modify_self] at hg
            cases hw2 : w.get j with
            | none => rw [hw2] at hg; exact Option.noConfusion hg
            | some e2 =>
                rw [hw2] at hg
                injection hg with hg2
                obtain ⟨hnd, htr⟩ := hinv j e2 hw2
                subst hg2
                refine ⟨(keys_adel_sublist _ _).nodup hnd, ?_⟩
                intro k2 sv hk2
                exact htr k2 sv (alook_adel_of_nodup _ _ _ _ hnd hk2)
          · rw [World.get_modify_ne _ _ _ _ hj] at hg
            exact hinv j en hg

theorem addPropSeenNeg_phase2 (i : EId) (k : PKey) (v : Val) (w : World) (kb : KB)
    (w1 : World) (kb1 : KB) (hp : PresPair w kb (w1, kb1)) :
    PresPair w kb
      (match w1.get i with
       | none => (w1, kb1)
       | some e2 =>
          if v ∈ (alook e2.propSeenNeg k).getD [] then (w1, kb1)
          else
            (w1.modify i (fun en =>
              let newList := (alook en.propSeenNeg k).getD [] ++ [v]
              { en with propSeenNeg := aset en.propSeenNeg k newList }),
              { kb1 with undo := kb1.undo ++ [KRec.propSeenNegValU i k v] })) := by
  cases w1.get i with
  | none => exact hp
  | some e2 =>
      dsimp only
      split
      · exact hp
      · exact presPair_comp w kb w1 kb1 _ hp
          (presPair_modify_vis w1 kb1 i _ _ (fun e3 => rfl) (fun e3 => rfl) rfl)

theorem addPropSeenNeg_pres (i : EId) (k : PKey) (v : Val) (w : World) (kb : KB) :
    PresPair w kb (addPropSeenNeg i k v w kb) := by
  unfold addPropSeenNeg
  cases hw : w.get i with
  | none => exact presPair_refl w kb
  | some e =>
      dsimp only
      by_cases hc : alook e.propSeenNeg k = none
      · rw [if_pos hc]
        exact addPropSeenNeg_phase2 i k v w kb
          (w.modify i (fun en => { en with propSeenNeg := aset en.propSeenNeg k [] }))
          { kb with undo := kb.undo ++ [KRec.propSeenNegSetU i k] }
          (presPair_modify_vis w kb i _ _ (fun e3 => rfl) (fun e3 => rfl) rfl)
      · rw [if_neg hc]
        exact addPropSeenNeg_phase2 i k v w kb w kb (presPair_refl w kb)

theorem removePropSeenNeg_pres (i : EId) (k : PKey) (v : Val) (w : World) (kb : KB) :
    PresPair w kb (removePropSeenNeg i k v w kb) := by
  unfold removePropSeenNeg
  cases hw : w.get i with
  | none => exact presPair_refl w kb
  | some e =>
      dsimp only
      cases alook e.propSeenNeg k with
      | none => exact presPair_refl w kb
      | some l =>
          dsimp only
          split
          · exact presPair_modify_vis w kb i _ _ (fun e3 => rfl) (fun e3 => rfl) rfl
          · exact presPair_refl w kb

theorem addAttrSeen_pres (i : EId) (a : PKey) (neg : Bool) (w : World) (kb : KB) :
    PresPair w kb (addAttrSeen i a neg w kb) := by
  unfold addAttrSeen
  cases hw : w.get i with
  | none => exact presPair_refl w kb
  | some e =>
      dsimp only
      split <;> split
      all_goals first
        | exact presPair_refl w kb
        | exact presPair_modify_vis w kb i _ _ (fun e3 => rfl) (fun e3 => rfl) rfl

theorem removeAttrSeen_pres (i : EId) (a : PKey) (neg : Bool) (w : World) (kb : KB) :
    PresPair w kb (removeAttrSeen i a neg w kb) := by
  unfold removeAttrSeen
  cases hw : w.get i with
  | none => exact presPair_refl w kb
  | some e =>
      dsimp only
      split <;> split
      all_goals first
        | exact presPair_refl w kb
        | exact presPair_modify_vis w kb i _ _ (fun e3 => rfl) (fun e3 => rfl) rfl

theorem propertyUpdateAlt_pres (ent : EId) (pkey : Option PKey) (pval : Val)
    (pneg : Bool) (w : World) (kb : KB) :
    PresPair w kb (propertyUpdateAlt ent pkey pval pneg w kb) := by
  unfold propertyUpdateAlt
  cases hw : w.get ent with
  | none => exact presPair_refl w kb
  | some we =>
      dsimp only
      cases pkey with
      | some k =>
          dsimp only
          cases hc : alook we.props k with
          | none => exact presPair_refl w kb
          | some cur =>
              dsimp only
              split
              · rename_i hcond
                have hv : w.prop ent k = some pval := by
                  rw [World.prop, hw]
                  dsimp only
                  rw [hc, hcond.2]
                exact presPair_comp w kb (addPropSeen ent k pval w kb).1
                  (addPropSeen ent k pval w kb).2 _
                  (addPropSeen_pres ent k pval w kb hv)
                  (removePropSeenNeg_pres ent k pval _ _)
              · split
                · refine presPair_comp w kb (addPropSeenNeg ent k pval w kb).1
                    (addPropSeenNeg ent k pval w kb).2 _
                    (addPropSeenNeg_pres ent k pval w kb) ?_
                  cases (addPropSeenNeg ent k pval w kb).1.get ent with
                  | some we2 =>
                      dsimp only
                      split
                      · exact removePropSeen_pres ent k _ _
                      · exact presPair_refl _ _
                  | none => exact presPair_refl _ _
                · exact presPair_refl w kb
      | none =>
          dsimp only
          cases pval with
          | str a =>
              dsimp only
              split
              · exact presPair_comp w kb (addAttrSeen ent (PKey.s a) false w kb).1
                  (addAttrSeen ent (PKey.s a) false w kb).2 _
                  (addAttrSeen_pres ent (PKey.s a) false w kb)
                  (removeAttrSeen_pres ent (PKey.s a) true _ _)
              · split
                · exact presPair_comp w kb (addAttrSeen ent (PKey.s a) true w kb).1
                    (addAttrSeen ent (PKey.s a) true w kb).2 _
                    (addAttrSeen_pres ent (PKey.s a) true w kb)
                    (removeAttrSeen_pres ent (PKey.s a) false _ _)
                · exact presPair_refl w kb
          | ent i2 => exact presPair_refl w kb
          | loc p2 i2 => exact presPair_refl w kb
          | strs l2 => exact presPair_refl w kb

theorem propertyUpdate_pres (s : Stmt) (w : World) (kb : KB) :
    PresPair w kb (propertyUpdate s w kb).1 := by
  unfold propertyUpdate
  cases checkProp s with
  | none => exact presPair_refl w kb
  | some q =>
      obtain ⟨ent, pkey, pval, pneg⟩ := q
      dsimp only
      refine presPair_comp2 w kb _ _
        (propertyUpdateAlt_pres ent pkey pval pneg w kb) ?_
      cases (propertyUpdateAlt ent pkey pval pneg w kb).1.get ent with
      | none => exact presPair_refl _ _
      | some we =>
          dsimp only
          cases pkey with
          | none =>
              dsimp only
              split
              · exact propertyUpdateAlt_pres ent none (Val.str "open") true _ _
              · exact presPair_refl _ _
          | some k =>
              dsimp only
              split
              · cases alook we.props (PKey.s "type") with
                | none => exact presPair_refl _ _
                | some tv =>
                    dsimp only
                    split
                    · cases alook we.props (PKey.s "location") with
                      | some lv =>
                          exact propertyUpdateAlt_pres ent (some (PKey.s "location"))
                            lv false _ _
                      | none => exact presPair_refl _ _
                    · exact presPair_refl _ _
              · exact presPair_refl _ _

theorem haveUpdate_pres (s : Stmt) (w : World) (kb : KB) :
    PresPair w kb (haveUpdate s w kb) := by
  unfold haveUpdate
  split
  · exact presPair_refl w kb
  · dsimp only
    split
    · refine presPair_foldl_from w kb _ ?_ _ _ (presPair_refl w kb)
      intro w1 kb1 x
      dsimp only
      exact propertyUpdateAlt_pres _ _ _ _ w1 kb1
    · split
      · refine presPair_foldl_from w kb _ ?_ _ _ ?_
        · intro w1 kb1 x
          dsimp only
          split
          · exact presPair_refl w1 kb1
          · exact propertyUpdateAlt_pres _ _ _ _ w1 kb1
        · refine presPair_foldl_from w kb _ ?_ _ _ (presPair_refl w kb)
          intro w1 kb1 x
          dsimp only
          exact propertyUpdateAlt_pres _ _ _ _ w1 kb1
      · refine presPair_foldl_from w kb _ ?_ _ _ (presPair_refl w kb)
        intro w1 kb1 x
        dsimp only
        exact propertyUpdateAlt_pres _ _ _ _ w1 kb1

theorem seeUpdater_pres (s : Stmt) (w : World) (kb : KB) :
    PresPair w kb (seeUpdater s w kb) := by
  unfold seeUpdater
  repeat' split
  all_goals try dsimp only
  all_goals first
    | exact presPair_refl w kb
    | (refine presPair_foldl_from w kb _ ?_ _ _ (presPair_refl w kb)
       intro w1 kb1 x
       dsimp only
       exact propertyUpdateAlt_pres _ _ _ _ w1 kb1)

set_option maxHeartbeats 800000 in
theorem lookUpdater_pres (s : Stmt) (w : World) (kb : KB) :
    PresPair w kb (lookUpdater s w kb) := by
  unfold lookUpdater
  repeat' split
  all_goals try dsimp only
  all_goals first
    | exact presPair_refl w kb
    | exact seeUpdater_pres _ _ _
    | exact presPair_comp2 _ _ _ _ (propertyUpdateAlt_pres _ _ _ _ w kb)
        (propertyUpdateAlt_pres _ _ _ _ _ _)
    | exact presPair_comp2 _ _ _ _
        (presPair_comp2 _ _ _ _ (propertyUpdateAlt_pres _ _ _ _ w kb)
          (propertyUpdateAlt_pres _ _ _ _ _ _))
        (seeUpdater_pres _ _ _)

set_option maxHeartbeats 800000 in
theorem goUpdater_pres (s : Stmt) (w : World) (kb : KB) :
    PresPair w kb (goUpdater s w kb).1 := by
  unfold goUpdater
  repeat' split
  all_goals try dsimp only
  all_goals first
    | exact presPair_refl w kb
    | exact presPair_comp2 _ _ _ _ (propertyUpdateAlt_pres _ _ _ _ w kb)
        (propertyUpdateAlt_pres _ _ _ _ _ _)

theorem getUpdater_pres (s : Stmt) (w : World) (kb : KB) :
    PresPair w kb (getUpdater s w kb) := by
  unfold getUpdater
  repeat' split
  all_goals try dsimp only
  all_goals first
    | exact presPair_refl w kb
    | exact propertyUpdateAlt_pres _ _ _ _ w kb

theorem dropUpdater_pres (s : Stmt) (w : World) (kb : KB) :
    PresPair w kb (dropUpdater s w kb) := by
  unfold dropUpdater
  repeat' split
  all_goals try dsimp only
  all_goals first
    | exact presPair_refl w kb
    | exact presPair_comp2 _ _ _ _ (propertyUpdateAlt_pres _ _ _ _ w kb)
        (propertyUpdateAlt_pres _ _ _ _ _ _)

theorem opensUpdater_pres (s : Stmt) (w : World) (kb : KB) :
    PresPair w kb (opensUpdater s w kb) := by
  unfold opensUpdater
  repeat' split
  all_goals try dsimp only
  all_goals first
    | exact presPair_refl w kb
    | exact presPair_comp2 _ _ _ _ (propertyUpdateAlt_pres _ _ _ _ w kb)
        (propertyUpdateAlt_pres _ _ _ _ _ _)

theorem closeUpdater_pres (s : Stmt) (w : World) (kb : KB) :
    PresPair w kb (closeUpdater s w kb) := by
  unfold closeUpdater
  repeat' split
  all_goals try dsimp only
  all_goals first
    | exact presPair_refl w kb
    | exact presPair_comp2 _ _ _ _ (propertyUpdateAlt_pres _ _ _ _ w kb)
        (propertyUpdateAlt_pres _ _ _ _ _ _)

theorem updateElemExistsAlt_pres (i : EId) (elem : Option PKey) (pneg : Bool)
    (w : World) (kb : KB) :
    PresPair w kb (updateElemExistsAlt i elem pneg w kb) := by
  unfold updateElemExistsAlt
  cases hw : w.get i with
  | none => exact presPair_refl w kb
  | some we =>
      dsimp only
      repeat' split
      all_goals first
        | exact presPair_refl w kb
        | exact presPair_refl _ _
        | exact presPair_modify_vis w kb i _ _ (fun e3 => rfl) (fun e3 => rfl) rfl
        | exact presPair_modify_vis2 w kb i _ _ _ (fun e3 => rfl) (fun e3 => rfl)
            (fun e3 => rfl) (fun e3 => rfl) rfl

theorem updateElemExists_pres (s : Stmt) (w : World) (kb : KB) :
    PresPair w kb (updateElemExists s w kb) := by
  unfold updateElemExists
  split
  · exact presPair_refl w kb
  · exact updateElemExistsAlt_pres _ _ _ w kb

theorem basicUpdate_pres (s : Stmt) (w : World) (kb : KB)
    (hs : ∃ act neg, asSingle s = some (AStmt.permitV act neg)) :
    PresPair w kb (basicUpdate s w kb) := by
  unfold basicUpdate
  dsimp only
  have h1 : ∀ t0, t0 ∈ (if s ∈ kb.sentDb then kb
      else { kb with sentDb := kb.sentDb ++ [s],
                     undo := kb.undo ++ [KRec.addSentU s] }).sentDb →
      t0 ∈ kb.sentDb ∨ t0 = s := by
    intro t0 ht0
    split at ht0
    · exact Or.inl ht0
    · rcases List.mem_append.mp ht0 with h | h
      · exact Or.inl h
      · simp at h
        exact Or.inr h
  have h2 : ∀ (kb1 : KB), (∀ t0 ∈ kb1.sentDb, t0 ∈ kb.sentDb ∨ t0 = s) →
      ∀ t0 ∈ (if opposStmt s ∈ kb1.sentDb then
        { kb1 with sentDb := lerase kb1.sentDb (opposStmt s),
                   undo := kb1.undo ++ [KRec.removeSentU (opposStmt s)] }
      else kb1).sentDb, t0 ∈ kb.sentDb ∨ t0 = s := by
    intro kb1 hkb1 t0 ht0
    split at ht0
    · exact hkb1 t0 ((lerase_sublist _ _).subset ht0)
    · exact hkb1 t0 ht0
  refine ⟨fun i k => rfl, id, ?_⟩
  intro hdb t ht
  rcases h2 _ h1 t ht with h | h
  · exact hdb t h
  · obtain ⟨act, neg, hsh⟩ := hs
    exact ⟨act, neg, by rw [h]; exact hsh⟩

theorem changeUpdater_pres (s : Stmt) (w : World) (kb : KB) :
    PresPair w kb (changeUpdater s w kb) := by
  unfold changeUpdater
  split
  · next x heq => exact basicUpdate_pres s w kb ⟨_, _, heq⟩
  · exact presPair_refl w kb

theorem permitUpdater_pres (s : Stmt) (w : World) (kb : KB) :
    PresPair w kb (permitUpdater s w kb) := by
  unfold permitUpdater
  split
  · next act neg heq =>
      split
      · exact basicUpdate_pres s w kb ⟨_, _, heq⟩
      · exact presPair_refl w kb
  · exact presPair_refl w kb

set_option maxHeartbeats 1600000 in
theorem singleUpdate_pres (s : Sent) (w : World) (kb : KB) :
    PresPair w kb (singleUpdate s w kb) := by
  unfold singleUpdate
  dsimp only
  split
  · exact propertyUpdate_pres s.stmt w kb
  · refine presPair_comp2 _ _ _ _ (propertyUpdate_pres s.stmt w kb) ?_
    refine presPair_comp2 _ _ _ _ (haveUpdate_pres s.stmt _ _) ?_
    refine presPair_comp2 _ _ _ _ (lookUpdater_pres s.stmt _ _) ?_
    refine presPair_comp2 _ _ _ _ (seeUpdater_pres s.stmt _ _) ?_
    split
    · exact goUpdater_pres s.stmt _ _
    · refine presPair_comp2 _ _ _ _ (goUpdater_pres s.stmt _ _) ?_
      refine presPair_comp2 _ _ _ _ (getUpdater_pres s.stmt _ _) ?_
      refine presPair_comp2 _ _ _ _ (dropUpdater_pres s.stmt _ _) ?_
      refine presPair_comp2 _ _ _ _ (opensUpdater_pres s.stmt _ _) ?_
      refine presPair_comp2 _ _ _ _ (closeUpdater_pres s.stmt _ _) ?_
      refine presPair_comp2 _ _ _ _ (updateElemExists_pres s.stmt _ _) ?_
      refine presPair_comp2 _ _ _ _ (changeUpdater_pres s.stmt _ _) ?_
      exact permitUpdater_pres s.stmt _ _

theorem multiUpdate_pres : ∀ (sents : List Sent) (w : World) (kb : KB),
    PresPair w kb (multiUpdate sents w kb) := by
  intro sents
  induction sents with
  | nil => intro w kb; exact presPair_refl w kb
  | cons s t ih =>
      intro w kb
      rw [multiUpdate]
      exact presPair_comp w kb (singleUpdate s w kb).1 (singleUpdate s w kb).2 _
        (singleUpdate_pres s w kb) (ih _ _)

theorem contextUpdate_pres (ctx : List Sent) (w : World) (kb : KB) :
    PresPair w kb (contextUpdate ctx w kb) := by
  unfold contextUpdate
  dsimp only
  have h := multiUpdate_pres
    ((if (if ctx.length < kb.lastContextId then ctx.length
        else ctx.length - kb.lastContextId) > 0 ∧
        ctx.length ≥ (if ctx.length < kb.lastContextId then ctx.length
        else ctx.length - kb.lastContextId) then
      ctx.drop (ctx.length - (if ctx.length < kb.lastContextId then ctx.length
        else ctx.length - kb.lastContextId)) else []).filter hasRelFilter) w kb
  exact ⟨h.1, h.2.1, fun hdb => h.2.2 hdb⟩


theorem propertyCheckAlt_sound (E : EId) (K : PKey) (V : Val) (w : World)
    (hinv : InvPS w)
    (h : propertyCheckAlt E (some K) V false w = some true) :
    w.prop E K = some V := by
  unfold propertyCheckAlt at h
  cases hget : w.get E with
  | none => rw [hget] at h; exact absurd h (by simp)
  | some we =>
      rw [hget] at h
      dsimp only at h
      cases hps : alook we.propSeen K with
      | some sv =>
          rw [hps] at h
          dsimp only at h
          simp only [Bool.false_eq_true, if_false, Option.some.injEq,
            decide_eq_true_eq] at h
          have hpr := (hinv E we hget).2 K sv hps
          unfold World.prop
          rw [hget]
          dsimp only
          rw [hpr, h]
      | none =>
          rw [hps] at h
          dsimp only at h
          cases hne : alook we.propSeenNeg K with
          | some l =>
              rw [hne] at h
              dsimp only at h
              by_cases hv : V ∈ l
              · rw [if_pos hv] at h; exact absurd h (by simp)
              · rw [if_neg hv] at h; exact absurd h (by simp)
          | none =>
              rw [hne] at h
              exact absurd h (by simp)

theorem basicCheck_not_true (w : World) (kb : KB) (E : EId) (K : String) (V : Val)
    (hdb : SentDbPermit kb)
    (h : basicCheck w kb
        (Stmt.a (AStmt.be (STopic.poss E [K]) false (SCom.v V))) = some true) :
    False := by
  unfold basicCheck at h
  dsimp only [firstDesc] at h
  by_cases h1 : Stmt.a (flipNeg (AStmt.be (STopic.poss E [K]) false (SCom.v V)))
      ∈ kb.sentDb
  · rw [if_pos h1] at h; exact absurd h (by simp)
  · rw [if_neg h1] at h
    by_cases h2 : Stmt.a (AStmt.be (STopic.poss E [K]) false (SCom.v V)) ∈ kb.sentDb
    · obtain ⟨act, neg, heq⟩ := hdb _ h2
      simp [asSingle] at heq
    · rw [if_neg h2] at h; exact absurd h (by simp)

theorem propSeenFilterNone_nil (l : List (EId × Ent)) :
    (l.flatMap (fun pr =>
      (pr.2.propSeen.filter (fun kv => some kv.2 = (none : Option Val))).map
        Prod.fst)) = [] := by
  induction l with
  | nil => rfl
  | cons hd t ih =>
      rw [List.flatMap_cons, ih, List.append_nil]
      rw [List.filter_eq_nil_iff.mpr (fun kv _ => by simp)]
      rfl

theorem valIsKey_not_true (w : World) (kb : KB) (E : EId) (K : String) (V : Val)
    (hdb : SentDbPermit kb)
    (h : valIsKeyChecker w kb
        (Stmt.a (AStmt.be (STopic.poss E [K]) false (SCom.v V))) = some true) :
    False := by
  unfold valIsKeyChecker at h
  dsimp only [asSingle] at h
  rw [propSeenFilterNone_nil] at h
  split at h
  · exact absurd h (by simp)
  · split at h
    · exact absurd h (by simp)
    · rw [if_neg (by simp)] at h
      exact basicCheck_not_true w kb E K V hdb h

theorem checkKB_sound (genDesc : World → EId → Bool) (w : World) (kb : KB)
    (E : EId) (K : String) (V : Val) (hinv : InvPS w) (hdb : SentDbPermit kb)
    (h : checkKB genDesc w kb
        (Stmt.a (AStmt.be (STopic.poss E [K]) false (SCom.v V))) = some true) :
    w.prop E (PKey.s K) = some V := by
  unfold checkKB at h
  cases hpc : propertyCheck w kb
      (Stmt.a (AStmt.be (STopic.poss E [K]) false (SCom.v V))) with
  | some b =>
      rw [hpc] at h
      dsimp only at h
      have hb := Option.some.inj h
      have hpc2 : propertyCheckAlt E (some (PKey.s K)) V false w = some true := by
        rw [show propertyCheckAlt E (some (PKey.s K)) V false w
            = propertyCheck w kb
              (Stmt.a (AStmt.be (STopic.poss E [K]) false (SCom.v V))) from rfl,
          hpc, hb]
      exact propertyCheckAlt_sound E (PKey.s K) V w hinv hpc2
  | none =>
      rw [hpc] at h
      dsimp only at h
      rw [show haveCheck w kb
          (Stmt.a (AStmt.be (STopic.poss E [K]) false (SCom.v V))) = none from rfl] at h
      dsimp only at h
      rw [show checkElemExists w kb
          (Stmt.a (AStmt.be (STopic.poss E [K]) false (SCom.v V))) = none from rfl] at h
      dsimp only at h
      rw [show uniqueDescCheck genDesc w kb
          (Stmt.a (AStmt.be (STopic.poss E [K]) false (SCom.v V))) = none from rfl] at h
      dsimp only at h
      cases hv : valIsKeyChecker w kb
          (Stmt.a (AStmt.be (STopic.poss E [K]) false (SCom.v V))) with
      | some b =>
          rw [hv] at h
          dsimp only at h
          have hb := Option.some.inj h
          exact absurd (hb ▸ hv) (fun hx => valIsKey_not_true w kb E K V hdb hx)
      | none =>
          rw [hv] at h
          dsimp only at h
          exact absurd h (fun hx => basicCheck_not_true w kb E K V hdb hx)

/-- Executable form of the visibility soundness invariant. -/
def InvPSb (w : World) : Bool :=
  w.ents.all (fun pr =>
    (pr.2.propSeen.map Prod.fst).Nodup ∧
    pr.2.propSeen.all (fun kv => alook pr.2.props kv.1 = some kv.2))

theorem InvPS_of_InvPSb (w : World) (h : InvPSb w = true) : InvPS w := by
  intro i en hget
  have hmem := entsGet_mem_pair w.ents i en hget
  have h2 := List.all_eq_true.mp h _ hmem
  simp only [decide_eq_true_eq] at h2
  refine ⟨h2.1, ?_⟩
  intro k sv hsv
  have h3 := List.all_eq_true.mp h2.2 _ (alook_mem _ _ _ hsv)
  simpa using h3

/-- C2: whenever `KnowledgeBase.check`, evaluated after folding the committed
utterance history into the knowledge base, answers `True` for the property
statement `E 's K is V`, the world entity `E` actually has `V` stored under
`K` in its `properties`, both before and after the context update — the
knowledge base never confirms a property statement that is false in the
world, given the reachable-state invariants that every `prop_seen` binding
agrees with the actual properties and the factual sentence database holds
only permission sentences. -/
theorem C2_check_sound (genDesc : World → EId → Bool) (ctx : List Sent)
    (w : World) (kb : KB) (E : EId) (K : String) (V : Val)
    (hinv : InvPS w) (hdb : SentDbPermit kb)
    (h : checkTop genDesc ctx w kb
        (Stmt.a (AStmt.be (STopic.poss E [K]) false (SCom.v V))) = some true) :
    w.prop E (PKey.s K) = some V ∧
      (contextUpdate ctx w kb).1.prop E (PKey.s K) = some V := by
  have hp := contextUpdate_pres ctx w kb
  unfold checkTop at h
  dsimp only at h
  have h2 := checkKB_sound genDesc _ _ E K V (hp.2.1 hinv) (hp.2.2 hdb) h
  exact ⟨(hp.1 E (PKey.s K)) ▸ h2, h2⟩

def c2W : World :=
  { ents := [("x", Ent.basic [(PKey.s "color", Val.str "red")] [] [])],
    undo := [], changeActionProperties := [], locationPositions := [],
    directions := [], allProperties := [], allVals := [], playerVals := [] }

def c2stmt : Stmt :=
  Stmt.a (AStmt.be (STopic.poss "x" ["color"]) false (SCom.v (Val.str "red")))

theorem C2_check_sound_witness :
    c2W.prop "x" (PKey.s "color") = some (Val.str "red") ∧
      (contextUpdate [⟨c2stmt, true⟩] c2W KB.init).1.prop "x" (PKey.s "color")
        = some (Val.str "red") :=
  C2_check_sound (fun _ _ => false) [⟨c2stmt, true⟩] c2W KB.init "x" "color"
    (Val.str "red")
    (InvPS_of_InvPSb c2W (by decide))
    (fun s hs => absurd hs (List.not_mem_nil s))
    (by decide)



theorem descOnly_ents_length (w w2 : World) (h : DescOnly w w2) :
    w2.ents.length = w.ents.length := by
  obtain ⟨l, rfl⟩ := h
  exact describeMany_ents_length l w

theorem descOnly_wfuel (w w2 : World) (h : DescOnly w w2) : wfuel w2 = wfuel w := by
  unfold wfuel
  rw [descOnly_ents_length w w2 h]

theorem descOnly_topLocAux (w w2 : World) (h : DescOnly w w2) :
    ∀ (f : Nat) (cur : EId), topLocAux w2 f cur = topLocAux w f cur := by
  intro f
  induction f with
  | zero => intro cur; rfl
  | succ g ih =>
      intro cur
      unfold topLocAux
      rw [descOnly_locOf w w2 h cur]
      cases w.locOf cur with
      | none => rfl
      | some pr =>
          obtain ⟨a, b⟩ := pr
          dsimp only
          split
          · rfl
          · exact ih b

theorem descOnly_topLocation (w w2 : World) (h : DescOnly w w2) (i : EId) :
    topLocation w2 i = topLocation w i := by
  unfold topLocation
  rw [descOnly_locOf w w2 h i]
  cases w.locOf i with
  | none => rfl
  | some pr =>
      obtain ⟨a, b⟩ := pr
      dsimp only
      rw [descOnly_wfuel w w2 h, descOnly_topLocAux w w2 h]

theorem descOnly_itemPath (w w2 : World) (h : DescOnly w w2) :
    ∀ (f : Nat) (cur : EId), itemPath w2 f cur = itemPath w f cur := by
  intro f
  induction f with
  | zero => intro cur; rfl
  | succ g ih =>
      intro cur
      unfold itemPath
      rw [descOnly_locOf w w2 h cur]
      cases w.locOf cur with
      | none => rfl
      | some pr =>
          obtain ⟨a, b⟩ := pr
          dsimp only
          split
          · rfl
          · rw [ih b]

theorem descOnly_gtSize (w w2 : World) (h : DescOnly w w2) (a b : EId) :
    gtSize w2 a b = gtSize w a b := by
  unfold gtSize
  rw [descOnly_prop w w2 h a, descOnly_prop w w2 h b]

theorem descOnly_undo (w w2 : World) (h : DescOnly w w2) :
    ∃ recs, w2.undo = w.undo ++ recs ∧ ∀ x ∈ recs, x.isDesc = true := by
  obtain ⟨l, rfl⟩ := h
  exact describeMany_undo l w

/-- The feedback of the location-mismatch stage, computed from the pre-call
world (the stage only queries fields that `describe` calls preserve). -/
def locCheckLog (e : EId) (canNot : AStmt) (locPos : String) (location : EId)
    (w : World) : List Stmt :=
  if w.locOf e ≠ some (locPos, location) then
    [Stmt.cont [canNot,
      AStmt.be (STopic.poss e ["location"]) true (SCom.v (Val.loc locPos location))]]
  else []

/-- The feedback of the missing-attribute stage on the pre-call world. -/
def attrMissingLog (e : EId) (canNot : AStmt) (attr : String) (w : World) :
    List Stmt :=
  if ¬ w.hasAttr e (PKey.s attr) then
    [Stmt.cont [canNot, AStmt.be (STopic.ent e) true (SCom.v (Val.str attr))]]
  else []

/-- The feedback of the present-attribute stage on the pre-call world. -/
def attrPresentLog (e : EId) (canNot : AStmt) (attr : String) (w : World) :
    List Stmt :=
  if w.hasAttr e (PKey.s attr) then
    [Stmt.cont [canNot, AStmt.be (STopic.ent e) false (SCom.v (Val.str attr))]]
  else []

/-- The feedback of the player-entity check of `actions.get` on the pre-call
world. -/
def getPlayerLog (e : EId) (canNot : AStmt) (w : World) : List Stmt :=
  if w.hasAttr e (PKey.s "player") then
    [Stmt.cont [canNot,
      AStmt.be (STopic.ent e) false (SCom.v (Val.str "player")),
      AStmt.permitV PAct.gettingPlayers true]]
  else []

/-- The feedback of the already-held check of `actions.get` on the pre-call
world. -/
def getHeldLog (e p : EId) (canNot : AStmt) (w : World) : List Stmt :=
  if w.locOf e = some ("in", p) then
    [Stmt.cont [canNot,
      AStmt.be (STopic.poss e ["location"]) false (SCom.v (Val.loc "in" p))]]
  else []

/-- The feedback of the dropping-itself check of `actions.drop`. -/
def dropSelfLog (e location : EId) (canNot : AStmt) : List Stmt :=
  if e = location then
    [Stmt.cont [canNot, AStmt.permitV PAct.droppingItself true]]
  else []

/-- The feedback of the cyclic-holding check of `actions.drop` on the
pre-call world. -/
def dropPathLog (e location : EId) (canNot : AStmt) (w : World) : List Stmt :=
  let locPath := itemPath w (wfuel w) location
  if e ∈ locPath then
    let pre := locPath.takeWhile (fun x => x ≠ e)
    if pre ≠ [] then
      [Stmt.cont (canNot :: pre.map (fun x =>
        AStmt.be (STopic.poss x ["location"]) false
          (SCom.v (match w.prop x (PKey.s "location") with
                   | some v => v | none => Val.str ""))))]
    else []
  else []

/-- The feedback of the target-position suitability check of `actions.drop`
on the pre-call world. -/
def dropPosLog (e location : EId) (locPos : String) (canNot : AStmt) (w : World) :
    List Stmt :=
  if locPos = "in" then
    if ¬ w.hasAttr location (PKey.s "container") ∧ ¬ w.hasAttr location (PKey.s "place") then
      [Stmt.cont [canNot,
        AStmt.be (STopic.ent location) true (SCom.v (Val.str "container")),
        AStmt.be (STopic.ent location) true (SCom.v (Val.str "place"))]]
    else if w.hasAttr location (PKey.s "container") ∧ gtSize w e location then
      [Stmt.cont [canNot,
        AStmt.be (STopic.poss e ["size"]) false
          (SCom.v ((w.prop e (PKey.s "size")).getD (Val.str ""))),
        AStmt.be (STopic.poss location ["size"]) false
          (SCom.v ((w.prop location (PKey.s "size")).getD (Val.str "")))]]
    else []
  else if locPos = "on" then
    if ¬ w.hasAttr location (PKey.s "supporter") then
      [Stmt.cont [canNot,
        AStmt.be (STopic.ent location) true (SCom.v (Val.str "supporter"))]]
    else []
  else if locPos = "under" then
    if ¬ w.hasAttr location (PKey.s "hollow") then
      [Stmt.cont [canNot,
        AStmt.be (STopic.ent location) true (SCom.v (Val.str "hollow"))]]
    else []
  else
    [Stmt.a (AStmt.be STopic.theLocPos true (SCom.posSet ["in", "on", "under"]))]

/-- The feedback of the closed-door-obstacle check of `actions.go` on the
pre-call world. -/
def goObstacleLog (p : EId) (dir : String) (canNot : AStmt) (loc1p : EId)
    (w : World) : List Stmt :=
  match w.prop loc1p (PKey.p dir "obstacle") with
  | some (Val.ent o) =>
      if w.prop o (PKey.s "type") = some (Val.str "door") ∧
          ¬ w.hasAttr o (PKey.s "open") then
        let obsLoc := AStmt.be (STopic.poss loc1p [dir, "obstacle"]) false
          (SCom.v (Val.ent o))
        if w.hasAttr o (PKey.s "locked") then
          [Stmt.cont [canNot, obsLoc,
            AStmt.be (STopic.ent o) false (SCom.v (Val.str "locked"))]]
        else if ¬ w.hasAttr o (PKey.s "openable") then
          [Stmt.cont [canNot, obsLoc,
            AStmt.be (STopic.ent o) true (SCom.v (Val.str "openable"))]]
        else
          [Stmt.cont [canNot, obsLoc,
            AStmt.be (STopic.ent o) true (SCom.v (Val.str "open"))]]
      else []
  | _ => []

/-- The feedback of the direction checks of `actions.go` on the pre-call
world. -/
def goDirLog (dir : String) (canNot : AStmt) (loc1p : EId) (w : World) :
    List Stmt :=
  if (dir ∈ w.directions) = false then
    [Stmt.a (AStmt.be (STopic.v (Val.str dir)) true (SCom.v (Val.str "direction")))]
  else if w.prop loc1p (PKey.s dir) = none then
    [Stmt.cont [canNot, AStmt.haveV loc1p true (HPoss.strs ["direction", dir]) none]]
  else []

theorem locCheckStage_log (e : EId) (canNot : AStmt) (locPos : String)
    (location : EId) (acc : List Stmt × World) (w0 : World)
    (h : DescOnly w0 acc.2) :
    (locCheckStage e canNot locPos location acc).1 =
      acc.1 ++ locCheckLog e canNot locPos location w0 ∧
    DescOnly w0 (locCheckStage e canNot locPos location acc).2 := by
  unfold locCheckStage locCheckLog
  rw [descOnly_locOf w0 acc.2 h e]
  by_cases hc : w0.locOf e ≠ some (locPos, location)
  · simp only [if_pos hc]
    exact ⟨by trivial, descOnly_describeMany_of _ _ _ h⟩
  · simp only [if_neg hc]
    exact ⟨(List.append_nil _).symm, h⟩

theorem attrMissingStage_log (e : EId) (canNot : AStmt) (attr : String)
    (acc : List Stmt × World) (w0 : World) (h : DescOnly w0 acc.2) :
    (attrMissingStage e canNot attr acc).1 =
      acc.1 ++ attrMissingLog e canNot attr w0 ∧
    DescOnly w0 (attrMissingStage e canNot attr acc).2 := by
  unfold attrMissingStage attrMissingLog
  rw [descOnly_hasAttr w0 acc.2 h e]
  by_cases hc : ¬ w0.hasAttr e (PKey.s attr) = true
  · simp only [if_pos hc]
    exact ⟨by trivial, descOnly_describeE_of _ _ _ h⟩
  · simp only [if_neg hc]
    exact ⟨(List.append_nil _).symm, h⟩

theorem attrPresentStage_log (e : EId) (canNot : AStmt) (attr : String)
    (acc : List Stmt × World) (w0 : World) (h : DescOnly w0 acc.2) :
    (attrPresentStage e canNot attr acc).1 =
      acc.1 ++ attrPresentLog e canNot attr w0 ∧
    DescOnly w0 (attrPresentStage e canNot attr acc).2 := by
  unfold attrPresentStage attrPresentLog
  rw [descOnly_hasAttr w0 acc.2 h e]
  by_cases hc : w0.hasAttr e (PKey.s attr) = true
  · simp only [if_pos hc]
    exact ⟨by trivial, descOnly_describeE_of _ _ _ h⟩
  · simp only [if_neg hc]
    exact ⟨(List.append_nil _).symm, h⟩

theorem getPlayerStage_log (e : EId) (canNot : AStmt)
    (acc : List Stmt × World) (w0 : World) (h : DescOnly w0 acc.2) :
    (getPlayerStage e canNot acc).1 = acc.1 ++ getPlayerLog e canNot w0 ∧
    DescOnly w0 (getPlayerStage e canNot acc).2 := by
  unfold getPlayerStage getPlayerLog
  rw [descOnly_hasAttr w0 acc.2 h e]
  by_cases hc : w0.hasAttr e (PKey.s "player") = true
  · simp only [if_pos hc]
    exact ⟨by trivial, descOnly_describeE_of _ _ _ h⟩
  · simp only [if_neg hc]
    exact ⟨(List.append_nil _).symm, h⟩

theorem getHeldStage_log (e p : EId) (canNot : AStmt)
    (acc : List Stmt × World) (w0 : World) (h : DescOnly w0 acc.2) :
    (getHeldStage e p canNot acc).1 = acc.1 ++ getHeldLog e p canNot w0 ∧
    DescOnly w0 (getHeldStage e p canNot acc).2 := by
  unfold getHeldStage getHeldLog
  rw [descOnly_locOf w0 acc.2 h e]
  by_cases hc : w0.locOf e = some ("in", p)
  · simp only [if_pos hc]
    exact ⟨by trivial, descOnly_describeMany_of _ _ _ h⟩
  · simp only [if_neg hc]
    exact ⟨(List.append_nil _).symm, h⟩

theorem dropSelfStage_log (e location : EId) (canNot : AStmt)
    (acc : List Stmt × World) (w0 : World) (h : DescOnly w0 acc.2) :
    (dropSelfStage e location canNot acc).1 =
      acc.1 ++ dropSelfLog e location canNot ∧
    DescOnly w0 (dropSelfStage e location canNot acc).2 := by
  unfold dropSelfStage dropSelfLog
  by_cases hc : e = location
  · simp only [if_pos hc]
    exact ⟨by trivial, h⟩
  · simp only [if_neg hc]
    exact ⟨(List.append_nil _).symm, h⟩

theorem dropPathStage_log (e location : EId) (canNot : AStmt)
    (acc : List Stmt × World) (w0 : World) (h : DescOnly w0 acc.2) :
    (dropPathStage e location canNot acc).1 =
      acc.1 ++ dropPathLog e location canNot w0 ∧
    DescOnly w0 (dropPathStage e location canNot acc).2 := by
  unfold dropPathStage dropPathLog
  dsimp only
  rw [descOnly_itemPath w0 acc.2 h, descOnly_wfuel w0 acc.2 h]
  simp only [descOnly_prop w0 acc.2 h]
  by_cases hc : e ∈ itemPath w0 (wfuel w0) location
  · simp only [if_pos hc]
    by_cases hp : (itemPath w0 (wfuel w0) location).takeWhile (fun x => x ≠ e) ≠ []
    · simp only [if_pos hp]
      exact ⟨by trivial, descOnly_describeMany_of _ _ _ h⟩
    · simp only [if_neg hp]
      exact ⟨(List.append_nil _).symm, h⟩
  · simp only [if_neg hc]
    exact ⟨(List.append_nil _).symm, h⟩

theorem dropPosStage_log (e location : EId) (locPos : String) (canNot : AStmt)
    (acc : List Stmt × World) (w0 : World) (h : DescOnly w0 acc.2) :
    (dropPosStage e location locPos canNot acc).1 =
      acc.1 ++ dropPosLog e location locPos canNot w0 ∧
    DescOnly w0 (dropPosStage e location locPos canNot acc).2 := by
  unfold dropPosStage dropPosLog
  dsimp only
  rw [descOnly_hasAttr w0 acc.2 h location, descOnly_gtSize w0 acc.2 h e location]
  simp only [descOnly_prop w0 acc.2 h, descOnly_hasAttr w0 acc.2 h]
  by_cases h1 : locPos = "in"
  · simp only [if_pos h1]
    by_cases h2 : ¬ w0.hasAttr location (PKey.s "container") = true ∧
        ¬ w0.hasAttr location (PKey.s "place") = true
    · simp only [if_pos h2]
      exact ⟨by trivial, descOnly_describeMany_of _ _ _ h⟩
    · simp only [if_neg h2]
      by_cases h3 : w0.hasAttr location (PKey.s "container") = true ∧
          gtSize w0 e location = true
      · have hdo2 : DescOnly w0 (describeMany [e, location] acc.2) :=
          descOnly_describeMany_of _ _ _ h
        simp only [if_pos h3, descOnly_prop w0 _ hdo2]
        exact ⟨by trivial, hdo2⟩
      · simp only [if_neg h3]
        exact ⟨(List.append_nil _).symm, h⟩
  · simp only [if_neg h1]
    by_cases h4 : locPos = "on"
    · simp only [if_pos h4]
      by_cases h5 : ¬ w0.hasAttr location (PKey.s "supporter") = true
      · simp only [if_pos h5]
        exact ⟨by trivial, descOnly_describeE_of _ _ _ h⟩
      · simp only [if_neg h5]
        exact ⟨(List.append_nil _).symm, h⟩
    · simp only [if_neg h4]
      by_cases h6 : locPos = "under"
      · simp only [if_pos h6]
        by_cases h7 : ¬ w0.hasAttr location (PKey.s "hollow") = true
        · simp only [if_pos h7]
          exact ⟨by trivial, descOnly_describeE_of _ _ _ h⟩
        · simp only [if_neg h7]
          exact ⟨(List.append_nil _).symm, h⟩
      · simp only [if_neg h6]
        exact ⟨by trivial, h⟩

theorem goObstacleStage_log (p : EId) (dir : String) (canNot : AStmt)
    (loc1p fromL : EId) (acc : List Stmt × World) (w0 : World)
    (h : DescOnly w0 acc.2) :
    (goObstacleStage p dir canNot loc1p fromL acc).1 =
      acc.1 ++ goObstacleLog p dir canNot loc1p w0 ∧
    DescOnly w0 (goObstacleStage p dir canNot loc1p fromL acc).2 := by
  unfold goObstacleStage goObstacleLog
  dsimp only
  rw [descOnly_prop w0 acc.2 h loc1p]
  cases hpr : w0.prop loc1p (PKey.p dir "obstacle") with
  | none => exact ⟨(List.append_nil _).symm, h⟩
  | some v =>
      cases v with
      | ent o =>
          dsimp only
          have hdo2 : DescOnly w0 (describeMany [loc1p, o, fromL, p] acc.2) :=
            descOnly_describeMany_of _ _ _ h
          rw [descOnly_prop w0 _ hdo2 o, descOnly_hasAttr w0 _ hdo2 o]
          by_cases hc : w0.prop o (PKey.s "type") = some (Val.str "door") ∧
              ¬ w0.hasAttr o (PKey.s "open") = true
          · simp only [if_pos hc]
            rw [descOnly_hasAttr w0 _ hdo2 o]
            by_cases hl : w0.hasAttr o (PKey.s "locked") = true
            · simp only [if_pos hl]
              exact ⟨by trivial, hdo2⟩
            · simp only [if_neg hl]
              rw [descOnly_hasAttr w0 _ hdo2 o]
              by_cases ho : ¬ w0.hasAttr o (PKey.s "openable") = true
              · simp only [if_pos ho]
                exact ⟨by trivial, hdo2⟩
              · simp only [if_neg ho]
                exact ⟨by trivial, hdo2⟩
          · simp only [if_neg hc]
            exact ⟨(List.append_nil _).symm, hdo2⟩
      | str a => exact ⟨(List.append_nil _).symm, h⟩
      | strs a => exact ⟨(List.append_nil _).symm, h⟩
      | loc a b => exact ⟨(List.append_nil _).symm, h⟩

theorem goDirStage_log (p : EId) (dir : String) (canNot : AStmt) (loc1p : EId)
    (acc : List Stmt × World) (w0 : World) (h : DescOnly w0 acc.2) :
    (goDirStage p dir canNot loc1p acc).1 =
      acc.1 ++ goDirLog dir canNot loc1p w0 ∧
    DescOnly w0 (goDirStage p dir canNot loc1p acc).2 := by
  unfold goDirStage goDirLog
  dsimp only
  rw [descOnly_directions w0 acc.2 h, descOnly_prop w0 acc.2 h loc1p]
  by_cases h1 : (dir ∈ w0.directions) = false
  · simp only [if_pos h1]
    exact ⟨by trivial, h⟩
  · simp only [if_neg h1]
    by_cases h2 : w0.prop loc1p (PKey.s dir) = none
    · simp only [if_pos h2]
      exact ⟨by trivial, descOnly_describeMany_of _ _ _ h⟩
    · simp only [if_neg h2]
      exact ⟨(List.append_nil _).symm, h⟩



/-- The not-a-player feedback of `validate_reachability` on the pre-call
world. -/
def vrLog1 (player : EId) (negRes : AStmt) (w : World) : List Stmt :=
  if ¬ w.hasAttr player (PKey.s "player") then
    [Stmt.cont [negRes, AStmt.be (STopic.ent player) true (SCom.v (Val.str "player"))]]
  else []

/-- The `type != door` test of `validate_reachability` on the pre-call
world. -/
def vrTypeOk (selfE : EId) (w : World) : Bool :=
  match w.prop selfE (PKey.s "type") with
  | some x => x ≠ Val.str "door"
  | none => true

/-- The wrong-top-location feedback of `validate_reachability` on the
pre-call world. -/
def vrLog2 (selfE player locEnt : EId) (negRes : AStmt) (w : World) : List Stmt :=
  if vrTypeOk selfE w = true ∧ topLocation w locEnt ≠ topLocation w player then
    [Stmt.cont [negRes,
      AStmt.be (STopic.poss player ["location"]) true
        (SCom.v (Val.loc "in" ((topLocation w locEnt).getD "")))]]
  else []

/-- The door-side feedback of `validate_reachability` on the pre-call
world. -/
def vrLog3 (selfE player locEnt : EId) (negRes : AStmt) (w : World) : List Stmt :=
  match w.prop selfE (PKey.s "type"), w.prop selfE (PKey.s "door_to"), w.locOf selfE with
  | some (Val.str "door"), some dv, some (_, l1) =>
      let doorToNe : Bool :=
        match dv with
        | Val.ent d => decide (some d ≠ topLocation w player)
        | _ => true
      let dId : EId := match dv with | Val.ent d => d | _ => ""
      if doorToNe = true ∧ some l1 ≠ topLocation w player ∧ locEnt = l1 then
        [Stmt.cont [negRes,
          AStmt.be (STopic.poss player ["location"]) true (SCom.v (Val.loc "in" dId)),
          AStmt.be (STopic.poss player ["location"]) true (SCom.v (Val.loc "in" l1))]]
      else []
  | _, _, _ => []

/-- The container-chain guard of `validate_reachability` on the pre-call
world. -/
def vrChainCond (selfE locEnt : EId) (w : World) : Bool :=
  w.hasAttr locEnt (PKey.s "container") &&
    (match w.locOf selfE, topLocation w locEnt with
     | some (_, l1), some t => decide (l1 ≠ t)
     | some _, none => true
     | none, _ => false)

/-- The locked and not-open responses of the container-chain walk, computed
from the pre-call world. -/
def chainWalkLog (negRes : AStmt) (w : World) : Nat → EId → List Stmt × List Stmt
  | 0, _ => ([], [])
  | Nat.succ f, cur =>
      match w.locOf cur with
      | none => ([], [])
      | some (_, nxt) =>
          if nxt = cur then ([], [])
          else if w.hasAttr cur (PKey.s "locked") then
            let r := chainWalkLog negRes w f nxt
            (lockStmt negRes cur :: r.1, r.2)
          else if w.hasAttr cur (PKey.s "openable") ∧ ¬ w.hasAttr cur (PKey.s "open") then
            let r := chainWalkLog negRes w f nxt
            (r.1, notOpenStmt negRes cur :: r.2)
          else chainWalkLog negRes w f nxt

/-- The complete blocking-feedback list of `validate_reachability`, one
statement per blocking reason, computed from the pre-call world. -/
def vrLog (selfE player locEnt : EId) (negRes : AStmt) (w : World) : List Stmt :=
  let base := vrLog1 player negRes w ++ vrLog2 selfE player locEnt negRes w ++
    vrLog3 selfE player locEnt negRes w
  if vrChainCond selfE locEnt w then
    let r := chainWalkLog negRes w (wfuel w) locEnt
    base ++ r.1 ++ (if r.1 = [] then r.2 else [])
  else base

theorem chainWalk_log (negRes : AStmt) (w0 : World) :
    ∀ (fuel : Nat) (cur : EId) (w : World) (la na : List Stmt),
      DescOnly w0 w →
      (chainWalk negRes fuel cur w la na).2.1 =
        la ++ (chainWalkLog negRes w0 fuel cur).1 ∧
      (chainWalk negRes fuel cur w la na).2.2 =
        na ++ (chainWalkLog negRes w0 fuel cur).2 := by
  intro fuel
  induction fuel with
  | zero =>
      intro cur w la na h
      unfold chainWalk chainWalkLog
      exact ⟨(List.append_nil _).symm, (List.append_nil _).symm⟩
  | succ f ih =>
      intro cur w la na h
      unfold chainWalk chainWalkLog
      rw [descOnly_locOf w0 w h cur]
      cases hlo : w0.locOf cur with
      | none => exact ⟨(List.append_nil _).symm, (List.append_nil _).symm⟩
      | some pr =>
          obtain ⟨ps, nxt⟩ := pr
          dsimp only
          rw [descOnly_hasAttr w0 w h cur, descOnly_hasAttr w0 w h cur,
            descOnly_hasAttr w0 w h cur]
          by_cases h1 : nxt = cur
          · simp only [if_pos h1]
            exact ⟨(List.append_nil _).symm, (List.append_nil _).symm⟩
          · simp only [if_neg h1]
            by_cases h2 : w0.hasAttr cur (PKey.s "locked") = true
            · simp only [if_pos h2]
              obtain ⟨e1, e2⟩ := ih nxt (describeE cur w)
                (la ++ [Stmt.cont [negRes,
                  AStmt.be (STopic.ent cur) false (SCom.v (Val.str "locked"))]]) na
                (descOnly_describeE_of _ _ _ h)
              refine ⟨?_, e2⟩
              rw [e1, lockStmt]
              simp
            · simp only [if_neg h2]
              by_cases h3 : w0.hasAttr cur (PKey.s "openable") = true ∧
                  ¬ w0.hasAttr cur (PKey.s "open") = true
              · simp only [if_pos h3]
                obtain ⟨e1, e2⟩ := ih nxt (describeE cur w) la
                  (na ++ [Stmt.cont [negRes,
                    AStmt.be (STopic.ent cur) true (SCom.v (Val.str "open"))]])
                  (descOnly_describeE_of _ _ _ h)
                refine ⟨e1, ?_⟩
                rw [e2, notOpenStmt]
                simp
              · simp only [if_neg h3]
                exact ih nxt w la na h

theorem vrMatch3_fst (A B : Option Val) (C : Option (String × EId)) (pT : Option EId)
    (negRes : AStmt) (player locEnt : EId) (Lg : List Stmt) (wB : World)
    (f : EId → EId → World) :
    (match A, B, C with
     | some (Val.str "door"), some dv, some (_, l1) =>
         let doorToNe : Bool :=
           match dv with | Val.ent d => decide (some d ≠ pT) | _ => true
         let dId : EId := match dv with | Val.ent d => d | _ => ""
         if doorToNe = true ∧ some l1 ≠ pT ∧ locEnt = l1 then
           (Lg ++ [Stmt.cont [negRes,
             AStmt.be (STopic.poss player ["location"]) true (SCom.v (Val.loc "in" dId)),
             AStmt.be (STopic.poss player ["location"]) true (SCom.v (Val.loc "in" l1))]],
            f dId l1)
         else (Lg, wB)
     | _, _, _ => (Lg, wB)).1
    = Lg ++
      (match A, B, C with
       | some (Val.str "door"), some dv, some (_, l1) =>
           let doorToNe : Bool :=
             match dv with | Val.ent d => decide (some d ≠ pT) | _ => true
           let dId : EId := match dv with | Val.ent d => d | _ => ""
           if doorToNe = true ∧ some l1 ≠ pT ∧ locEnt = l1 then
             [Stmt.cont [negRes,
               AStmt.be (STopic.poss player ["location"]) true (SCom.v (Val.loc "in" dId)),
               AStmt.be (STopic.poss player ["location"]) true (SCom.v (Val.loc "in" l1))]]
           else []
       | _, _, _ => []) := by
  split
  · dsimp only
    split
    · rfl
    · exact (List.append_nil _).symm
  · exact (List.append_nil _).symm

theorem vrMatch3_snd (A B : Option Val) (C : Option (String × EId)) (pT : Option EId)
    (negRes : AStmt) (player locEnt : EId) (Lg : List Stmt) (wB w0 : World)
    (hB : DescOnly w0 wB)
    (hf : ∀ dId l1, DescOnly w0 (describeMany [player, dId, l1] wB)) :
    DescOnly w0 (match A, B, C with
     | some (Val.str "door"), some dv, some (_, l1) =>
         let doorToNe : Bool :=
           match dv with | Val.ent d => decide (some d ≠ pT) | _ => true
         let dId : EId := match dv with | Val.ent d => d | _ => ""
         if doorToNe = true ∧ some l1 ≠ pT ∧ locEnt = l1 then
           (Lg ++ [Stmt.cont [negRes,
             AStmt.be (STopic.poss player ["location"]) true (SCom.v (Val.loc "in" dId)),
             AStmt.be (STopic.poss player ["location"]) true (SCom.v (Val.loc "in" l1))]],
            describeMany [player, dId, l1] wB)
         else (Lg, wB)
     | _, _, _ => (Lg, wB)).2 := by
  split
  · dsimp only
    split
    · exact hf _ _
    · exact hB
  · exact hB

set_option maxHeartbeats 1600000 in
theorem vr_log (selfE player locEnt : EId) (negRes : AStmt) (w0 w : World)
    (h : DescOnly w0 w) :
    (validateReachability selfE player locEnt negRes w).1 =
      vrLog selfE player locEnt negRes w0 := by
  have key : ∀ L, validateReachability selfE player locEnt negRes w = L →
      L.1 = vrLog selfE player locEnt negRes w0 := by
    intro L hL
    unfold validateReachability at hL
    lift_lets at hL
    extract_lets pTop st1 log0 wA typeOk locTop wDesc st2 log1 wB st3 log2 wC
      chainCond res w3 lockedL notOpenL at hL
    have hpt : pTop = topLocation w0 player := by
      unfold_let pTop
      exact descOnly_topLocation w0 w h player
    have hst1 : log0 = vrLog1 player negRes w0 ∧ DescOnly w0 wA := by
      unfold_let log0 wA st1
      unfold vrLog1
      rw [descOnly_hasAttr w0 w h player]
      by_cases hc : ¬ w0.hasAttr player (PKey.s "player") = true
      · simp only [if_pos hc]
        exact ⟨by trivial, descOnly_describeE_of _ _ _ h⟩
      · simp only [if_neg hc]
        exact ⟨by trivial, h⟩
    have hta : typeOk = vrTypeOk selfE w0 := by
      unfold_let typeOk
      unfold vrTypeOk
      rw [descOnly_prop w0 wA hst1.2 selfE (PKey.s "type")]
      try rfl
    have hlt : locTop = topLocation w0 locEnt := by
      unfold_let locTop
      exact descOnly_topLocation w0 wA hst1.2 locEnt
    have hst2 : log1 = vrLog1 player negRes w0 ++ vrLog2 selfE player locEnt negRes w0 ∧
        DescOnly w0 wB := by
      unfold_let log1 wB st2
      unfold vrLog2
      rw [hta, hlt, hpt, hst1.1]
      by_cases hc : vrTypeOk selfE w0 = true ∧
          topLocation w0 locEnt ≠ topLocation w0 player
      · simp only [if_pos hc]
        refine ⟨by trivial, ?_⟩
        unfold_let wDesc
        exact descOnly_describeMany_of _ _ _ hst1.2
      · simp only [if_neg hc]
        exact ⟨(List.append_nil _).symm, hst1.2⟩
    have hst3 : log2 = (vrLog1 player negRes w0 ++
          vrLog2 selfE player locEnt negRes w0) ++
          vrLog3 selfE player locEnt negRes w0 ∧
        DescOnly w0 wC := by
      constructor
      · unfold_let log2 st3
        unfold vrLog3
        rw [descOnly_prop w0 wB hst2.2 selfE (PKey.s "type"),
          descOnly_prop w0 wB hst2.2 selfE (PKey.s "door_to"),
          descOnly_locOf w0 wB hst2.2 selfE, hpt, hst2.1]
        exact vrMatch3_fst (w0.prop selfE (PKey.s "type"))
          (w0.prop selfE (PKey.s "door_to")) (w0.locOf selfE)
          (topLocation w0 player) negRes player locEnt
          (vrLog1 player negRes w0 ++ vrLog2 selfE player locEnt negRes w0) wB
          (fun dId l1 => describeMany [player, dId, l1] wB)
      · unfold_let wC st3
        exact vrMatch3_snd (wB.prop selfE (PKey.s "type"))
          (wB.prop selfE (PKey.s "door_to")) (wB.locOf selfE) pTop negRes player
          locEnt log1 wB w0 hst2.2
          (fun dId l1 => descOnly_describeMany_of _ _ _ hst2.2)
    have hcc : chainCond = vrChainCond selfE locEnt w0 := by
      unfold_let chainCond
      unfold vrChainCond
      rw [descOnly_hasAttr w0 wC hst3.2 locEnt, descOnly_locOf w0 wC hst3.2 selfE,
        descOnly_topLocation w0 wC hst3.2 locEnt]
      try rfl
    have hres1 : lockedL = (chainWalkLog negRes w0 (wfuel w0) locEnt).1 := by
      unfold_let lockedL res
      rw [descOnly_wfuel w0 wC hst3.2]
      rw [(chainWalk_log negRes w0 (wfuel w0) locEnt wC [] [] hst3.2).1]
      exact List.nil_append _
    have hres2 : notOpenL = (chainWalkLog negRes w0 (wfuel w0) locEnt).2 := by
      unfold_let notOpenL res
      rw [descOnly_wfuel w0 wC hst3.2]
      rw [(chainWalk_log negRes w0 (wfuel w0) locEnt wC [] [] hst3.2).2]
      exact List.nil_append _
    rw [← hL]
    unfold vrLog
    rw [← hcc]
    split
    · dsimp only
      rw [hres1, hres2, hst3.1]
    · dsimp only
      exact hst3.1
  exact key _ rfl

theorem vr_descOnly_of (selfE player locEnt : EId) (negRes : AStmt) (w0 w : World)
    (h : DescOnly w0 w) :
    DescOnly w0 (validateReachability selfE player locEnt negRes w).2 :=
  descOnly_trans w0 w _ h (validateReachability_descOnly selfE player locEnt negRes w)



/-- The blocking-feedback list of `actions.opens` on the pre-call world: one
statement per blocking reason, in stage order. -/
def opensBlockers (e p : EId) (loc0 : Option EId) (pos0 : Option String)
    (w0 : World) : List Stmt :=
  let location := loc0.getD (match w0.locOf e with | some (_, l) => l | none => e)
  let locPos := pos0.getD (match w0.locOf e with | some (ps, _) => ps | none => "")
  let canNot := AStmt.opensV p (some "can") true "open" e
  vrLog e p location canNot w0 ++ locCheckLog e canNot locPos location w0 ++
    attrMissingLog e canNot "openable" w0 ++ attrPresentLog e canNot "locked" w0 ++
    attrPresentLog e canNot "open" w0

/-- The blocking-feedback list of `actions.closes` on the pre-call world. -/
def closesBlockers (e p : EId) (location : EId) (locPos : String)
    (w0 : World) : List Stmt :=
  let canNot := AStmt.closeV p (some "can") true "close" e
  vrLog e p location canNot w0 ++ locCheckLog e canNot locPos location w0 ++
    attrMissingLog e canNot "openable" w0 ++ attrPresentLog e canNot "locked" w0 ++
    attrMissingLog e canNot "open" w0

theorem filter_isDesc_nil (recs : List URec) (h : ∀ x ∈ recs, x.isDesc = true) :
    recs.filter (fun r => !r.isDesc) = [] :=
  List.filter_eq_nil_iff.mpr (fun a ha => by simp [h a ha])

set_option maxHeartbeats 1600000 in
theorem opens_decomp (e p : EId) (loc0 : Option EId) (pos0 : Option String)
    (w0 : World) :
    ∃ recs, (opens e p loc0 pos0 w0).2.undo = w0.undo ++ recs ∧
      (opensBlockers e p loc0 pos0 w0 = [] →
        (opens e p loc0 pos0 w0).1 =
          [Stmt.cont [AStmt.opensV p none false "opens" e]] ∧
        recs.filter (fun r => !r.isDesc) = [URec.opensU e]) ∧
      (opensBlockers e p loc0 pos0 w0 ≠ [] →
        (opens e p loc0 pos0 w0).1 = opensBlockers e p loc0 pos0 w0 ∧
        recs.filter (fun r => !r.isDesc) = []) := by
  have key : ∀ P, opens e p loc0 pos0 w0 = P →
      ∃ recs, P.2.undo = w0.undo ++ recs ∧
        (opensBlockers e p loc0 pos0 w0 = [] →
          P.1 = [Stmt.cont [AStmt.opensV p none false "opens" e]] ∧
          recs.filter (fun r => !r.isDesc) = [URec.opensU e]) ∧
        (opensBlockers e p loc0 pos0 w0 ≠ [] →
          P.1 = opensBlockers e p loc0 pos0 w0 ∧
          recs.filter (fun r => !r.isDesc) = []) := by
    intro P hL
    unfold opens at hL
    lift_lets at hL
    extract_lets location locPos wD canNotV vr st1 st2 st3 st4 wS1 wS2 wS3 at hL
    have hwD : DescOnly w0 wD := by
      unfold_let wD
      exact ⟨[p, e], rfl⟩
    have hvr2 : DescOnly w0 vr.2 := by
      unfold_let vr
      exact vr_descOnly_of e p location canNotV w0 wD hwD
    have hvr1 : vr.1 = vrLog e p location canNotV w0 := by
      unfold_let vr
      exact vr_log e p location canNotV w0 wD hwD
    have hst1 : st1.1 = vr.1 ++ locCheckLog e canNotV locPos location w0 ∧
        DescOnly w0 st1.2 := by
      unfold_let st1
      exact locCheckStage_log e canNotV locPos location (vr.1, vr.2) w0 hvr2
    have hst2 : st2.1 = st1.1 ++ attrMissingLog e canNotV "openable" w0 ∧
        DescOnly w0 st2.2 := by
      unfold_let st2
      exact attrMissingStage_log e canNotV "openable" st1 w0 hst1.2
    have hst3 : st3.1 = st2.1 ++ attrPresentLog e canNotV "locked" w0 ∧
        DescOnly w0 st3.2 := by
      unfold_let st3
      exact attrPresentStage_log e canNotV "locked" st2 w0 hst2.2
    have hst4 : st4.1 = st3.1 ++ attrPresentLog e canNotV "open" w0 ∧
        DescOnly w0 st4.2 := by
      unfold_let st4
      exact attrPresentStage_log e canNotV "open" st3 w0 hst3.2
    have hB : st4.1 = opensBlockers e p loc0 pos0 w0 := by
      rw [hst4.1, hst3.1, hst2.1, hst1.1, hvr1]
      unfold opensBlockers
      unfold_let canNotV location locPos
      rfl
    obtain ⟨r4, hr4, ha4⟩ := descOnly_undo w0 st4.2 hst4.2
    split at hL
    · rename_i hnil
      obtain ⟨rS, hrS, haS⟩ := describeMany_undo [p, e] st4.2
      refine ⟨r4 ++ rS ++ [URec.opensU e], ?_, ?_, ?_⟩
      · rw [← hL]
        show wS3.undo = w0.undo ++ (r4 ++ rS ++ [URec.opensU e])
        unfold_let wS3 wS2
        rw [World.push_undo, World.modify_undo]
        show wS1.undo ++ [URec.opensU e] = _
        unfold_let wS1
        rw [hrS, hr4]
        simp
      · intro _
        refine ⟨by rw [← hL], ?_⟩
        rw [List.filter_append, List.filter_append]
        rw [filter_isDesc_nil r4 ha4, filter_isDesc_nil rS haS]
        rfl
      · intro hne
        exact absurd (hB ▸ hnil) hne
    · rename_i hnenil
      refine ⟨r4, ?_, ?_, ?_⟩
      · rw [← hL]
        exact hr4
      · intro hBe
        exact absurd (hB.symm ▸ hBe) hnenil
      · intro _
        exact ⟨by rw [← hL]; exact hB, filter_isDesc_nil r4 ha4⟩
  exact key _ rfl

set_option maxHeartbeats 1600000 in
theorem closes_decomp (e p : EId) (location : EId) (locPos : String)
    (w0 : World) :
    ∃ recs, (closes e p location locPos w0).2.undo = w0.undo ++ recs ∧
      (closesBlockers e p location locPos w0 = [] →
        (closes e p location locPos w0).1 =
          [Stmt.a (AStmt.closeV p none false "closes" e)] ∧
        recs.filter (fun r => !r.isDesc) = [URec.closesU e]) ∧
      (closesBlockers e p location locPos w0 ≠ [] →
        (closes e p location locPos w0).1 = closesBlockers e p location locPos w0 ∧
        recs.filter (fun r => !r.isDesc) = []) := by
  have key : ∀ P, closes e p location locPos w0 = P →
      ∃ recs, P.2.undo = w0.undo ++ recs ∧
        (closesBlockers e p location locPos w0 = [] →
          P.1 = [Stmt.a (AStmt.closeV p none false "closes" e)] ∧
          recs.filter (fun r => !r.isDesc) = [URec.closesU e]) ∧
        (closesBlockers e p location locPos w0 ≠ [] →
          P.1 = closesBlockers e p location locPos w0 ∧
          recs.filter (fun r => !r.isDesc) = []) := by
    intro P hL
    unfold closes at hL
    lift_lets at hL
    extract_lets wD canNotV vr st1 st2 st3 st4 wS1 wS2 wS3 at hL
    have hwD : DescOnly w0 wD := by
      unfold_let wD
      exact ⟨[p, e], rfl⟩
    have hvr2 : DescOnly w0 vr.2 := by
      unfold_let vr
      exact vr_descOnly_of e p location canNotV w0 wD hwD
    have hvr1 : vr.1 = vrLog e p location canNotV w0 := by
      unfold_let vr
      exact vr_log e p location canNotV w0 wD hwD
    have hst1 : st1.1 = vr.1 ++ locCheckLog e canNotV locPos location w0 ∧
        DescOnly w0 st1.2 := by
      unfold_let st1
      exact locCheckStage_log e canNotV locPos location (vr.1, vr.2) w0 hvr2
    have hst2 : st2.1 = st1.1 ++ attrMissingLog e canNotV "openable" w0 ∧
        DescOnly w0 st2.2 := by
      unfold_let st2
      exact attrMissingStage_log e canNotV "openable" st1 w0 hst1.2
    have hst3 : st3.1 = st2.1 ++ attrPresentLog e canNotV "locked" w0 ∧
        DescOnly w0 st3.2 := by
      unfold_let st3
      exact attrPresentStage_log e canNotV "locked" st2 w0 hst2.2
    have hst4 : st4.1 = st3.1 ++ attrMissingLog e canNotV "open" w0 ∧
        DescOnly w0 st4.2 := by
      unfold_let st4
      exact attrMissingStage_log e canNotV "open" st3 w0 hst3.2
    have hB : st4.1 = closesBlockers e p location locPos w0 := by
      rw [hst4.1, hst3.1, hst2.1, hst1.1, hvr1]
      unfold closesBlockers
      unfold_let canNotV
      rfl
    obtain ⟨r4, hr4, ha4⟩ := descOnly_undo w0 st4.2 hst4.2
    split at hL
    · rename_i hnil
      obtain ⟨rS, hrS, haS⟩ := describeMany_undo [p, e] wS1
      refine ⟨r4 ++ rS ++ [URec.closesU e], ?_, ?_, ?_⟩
      · rw [← hL]
        show wS3.undo = w0.undo ++ (r4 ++ rS ++ [URec.closesU e])
        unfold_let wS3
        rw [World.push_undo]
        show wS2.undo ++ [URec.closesU e] = _
        unfold_let wS2
        rw [hrS]
        show (wS1.undo ++ rS) ++ [URec.closesU e] = _
        unfold_let wS1
        rw [World.modify_undo, hr4]
        simp
      · intro _
        refine ⟨by rw [← hL], ?_⟩
        rw [List.filter_append, List.filter_append]
        rw [filter_isDesc_nil r4 ha4, filter_isDesc_nil rS haS]
        rfl
      · intro hne
        exact absurd (hB ▸ hnil) hne
    · rename_i hnenil
      refine ⟨r4, ?_, ?_, ?_⟩
      · rw [← hL]
        exact hr4
      · intro hBe
        exact absurd (hB.symm ▸ hBe) hnenil
      · intro _
        exact ⟨by rw [← hL]; exact hB, filter_isDesc_nil r4 ha4⟩
  exact key _ rfl



/-- The blocking-feedback list of `actions.get` on the pre-call world. -/
def getBlockers (e p : EId) (location : EId) (locPos : String) (w0 : World) :
    List Stmt :=
  let canNot := AStmt.getV (some p) (some "can") true "get" (some (EArg.ent e)) none
  vrLog e p location canNot w0 ++ locCheckLog e canNot locPos location w0 ++
    attrPresentLog e canNot "static" w0 ++ getPlayerLog e canNot w0 ++
    getHeldLog e p canNot w0

/-- The blocking-feedback list of `actions.drop` on the pre-call world. -/
def dropBlockers (e p : EId) (location : EId) (locPos : String) (w0 : World) :
    List Stmt :=
  let canNot := AStmt.dropV (some p) (some "can") true "drop" (some (EArg.ent e)) none
  vrLog location p location canNot w0 ++ locCheckLog e canNot "in" p w0 ++
    dropSelfLog e location canNot ++ dropPathLog e location canNot w0 ++
    dropPosLog e location locPos canNot w0

set_option maxHeartbeats 1600000 in
theorem get_decomp (e p : EId) (location : EId) (locPos : String) (w0 : World) :
    ∃ recs, (DF.get e p location locPos w0).2.undo = w0.undo ++ recs ∧
      (getBlockers e p location locPos w0 = [] →
        (DF.get e p location locPos w0).1 =
          [Stmt.a (AStmt.getV (some p) none false "gets" (some (EArg.ent e)) none)] ∧
        ∃ op ol, recs.filter (fun r => !r.isDesc) = [URec.getU e location op ol]) ∧
      (getBlockers e p location locPos w0 ≠ [] →
        (DF.get e p location locPos w0).1 = getBlockers e p location locPos w0 ∧
        recs.filter (fun r => !r.isDesc) = []) := by
  have key : ∀ P, DF.get e p location locPos w0 = P →
      ∃ recs, P.2.undo = w0.undo ++ recs ∧
        (getBlockers e p location locPos w0 = [] →
          P.1 =
            [Stmt.a (AStmt.getV (some p) none false "gets" (some (EArg.ent e)) none)] ∧
          ∃ op ol, recs.filter (fun r => !r.isDesc) = [URec.getU e location op ol]) ∧
        (getBlockers e p location locPos w0 ≠ [] →
          P.1 = getBlockers e p location locPos w0 ∧
          recs.filter (fun r => !r.isDesc) = []) := by
    intro P hL
    unfold DF.get at hL
    lift_lets at hL
    extract_lets wD canNotV vr st1 st2 st3 st4 wA oldPos wB oldObjs wC wE wF wG at hL
    have hwD : DescOnly w0 wD := by
      unfold_let wD
      exact ⟨[p, e], rfl⟩
    have hvr2 : DescOnly w0 vr.2 := by
      unfold_let vr
      exact vr_descOnly_of e p location canNotV w0 wD hwD
    have hvr1 : vr.1 = vrLog e p location canNotV w0 := by
      unfold_let vr
      exact vr_log e p location canNotV w0 wD hwD
    have hst1 : st1.1 = vr.1 ++ locCheckLog e canNotV locPos location w0 ∧
        DescOnly w0 st1.2 := by
      unfold_let st1
      exact locCheckStage_log e canNotV locPos location (vr.1, vr.2) w0 hvr2
    have hst2 : st2.1 = st1.1 ++ attrPresentLog e canNotV "static" w0 ∧
        DescOnly w0 st2.2 := by
      unfold_let st2
      exact attrPresentStage_log e canNotV "static" st1 w0 hst1.2
    have hst3 : st3.1 = st2.1 ++ getPlayerLog e canNotV w0 ∧
        DescOnly w0 st3.2 := by
      unfold_let st3
      exact getPlayerStage_log e canNotV st2 w0 hst2.2
    have hst4 : st4.1 = st3.1 ++ getHeldLog e p canNotV w0 ∧
        DescOnly w0 st4.2 := by
      unfold_let st4
      exact getHeldStage_log e p canNotV st3 w0 hst3.2
    have hB : st4.1 = getBlockers e p location locPos w0 := by
      rw [hst4.1, hst3.1, hst2.1, hst1.1, hvr1]
      unfold getBlockers
      unfold_let canNotV
      rfl
    obtain ⟨r4, hr4, ha4⟩ := descOnly_undo w0 st4.2 hst4.2
    split at hL
    · rename_i hnil
      obtain ⟨rS, hrS, haS⟩ := describeMany_undo [p, e] wE
      refine ⟨r4 ++ rS ++ [URec.getU e location oldPos oldObjs], ?_, ?_, ?_⟩
      · rw [← hL]
        show wG.undo = w0.undo ++ (r4 ++ rS ++ [URec.getU e location oldPos oldObjs])
        unfold_let wG
        rw [World.push_undo]
        show wF.undo ++ [URec.getU e location oldPos oldObjs] = _
        unfold_let wF
        rw [hrS]
        show (wE.undo ++ rS) ++ _ = _
        unfold_let wE wC wB wA
        rw [World.modify_undo, World.modify_undo, World.modify_undo, hr4]
        simp
      · intro _
        refine ⟨by rw [← hL], oldPos, oldObjs, ?_⟩
        rw [List.filter_append, List.filter_append]
        rw [filter_isDesc_nil r4 ha4, filter_isDesc_nil rS haS]
        rfl
      · intro hne
        exact absurd (hB ▸ hnil) hne
    · rename_i hnenil
      refine ⟨r4, ?_, ?_, ?_⟩
      · rw [← hL]
        exact hr4
      · intro hBe
        exact absurd (hB.symm ▸ hBe) hnenil
      · intro _
        exact ⟨by rw [← hL]; exact hB, filter_isDesc_nil r4 ha4⟩
  exact key _ rfl

set_option maxHeartbeats 1600000 in
theorem drop_decomp (rnd : Rnd) (e p : EId) (location : EId) (locPos : String)
    (w0 : World) :
    ∃ recs, (drop rnd e p location locPos w0).2.undo = w0.undo ++ recs ∧
      (dropBlockers e p location locPos w0 = [] →
        (drop rnd e p location locPos w0).1 =
          [Stmt.a (AStmt.dropV (some p) none false "drops" (some (EArg.ent e))
            (some (locPos, location)))] ∧
        ∃ op ol, recs.filter (fun r => !r.isDesc) = [URec.dropU e p op ol]) ∧
      (dropBlockers e p location locPos w0 ≠ [] →
        (drop rnd e p location locPos w0).1 = dropBlockers e p location locPos w0 ∧
        recs.filter (fun r => !r.isDesc) = []) := by
  have key : ∀ P, drop rnd e p location locPos w0 = P →
      ∃ recs, P.2.undo = w0.undo ++ recs ∧
        (dropBlockers e p location locPos w0 = [] →
          P.1 =
            [Stmt.a (AStmt.dropV (some p) none false "drops" (some (EArg.ent e))
              (some (locPos, location)))] ∧
          ∃ op ol, recs.filter (fun r => !r.isDesc) = [URec.dropU e p op ol]) ∧
        (dropBlockers e p location locPos w0 ≠ [] →
          P.1 = dropBlockers e p location locPos w0 ∧
          recs.filter (fun r => !r.isDesc) = []) := by
    intro P hL
    unfold drop at hL
    lift_lets at hL
    extract_lets wD canNotV vr st1 st2 st3 st4 wA oldObjs wB wC oldPos wE wF wG at hL
    have hwD : DescOnly w0 wD := by
      unfold_let wD
      exact ⟨[p, e], rfl⟩
    have hvr2 : DescOnly w0 vr.2 := by
      unfold_let vr
      exact vr_descOnly_of location p location canNotV w0 wD hwD
    have hvr1 : vr.1 = vrLog location p location canNotV w0 := by
      unfold_let vr
      exact vr_log location p location canNotV w0 wD hwD
    have hst1 : st1.1 = vr.1 ++ locCheckLog e canNotV "in" p w0 ∧
        DescOnly w0 st1.2 := by
      unfold_let st1
      exact locCheckStage_log e canNotV "in" p (vr.1, vr.2) w0 hvr2
    have hst2 : st2.1 = st1.1 ++ dropSelfLog e location canNotV ∧
        DescOnly w0 st2.2 := by
      unfold_let st2
      exact dropSelfStage_log e location canNotV st1 w0 hst1.2
    have hst3 : st3.1 = st2.1 ++ dropPathLog e location canNotV w0 ∧
        DescOnly w0 st3.2 := by
      unfold_let st3
      exact dropPathStage_log e location canNotV st2 w0 hst2.2
    have hst4 : st4.1 = st3.1 ++ dropPosLog e location locPos canNotV w0 ∧
        DescOnly w0 st4.2 := by
      unfold_let st4
      exact dropPosStage_log e location locPos canNotV st3 w0 hst3.2
    have hB : st4.1 = dropBlockers e p location locPos w0 := by
      rw [hst4.1, hst3.1, hst2.1, hst1.1, hvr1]
      unfold dropBlockers
      unfold_let canNotV
      rfl
    obtain ⟨r4, hr4, ha4⟩ := descOnly_undo w0 st4.2 hst4.2
    split at hL
    · rename_i hnil
      obtain ⟨rS, hrS, haS⟩ := describeMany_undo [p, e, location] wE
      refine ⟨r4 ++ rS ++ [URec.dropU e p oldPos oldObjs], ?_, ?_, ?_⟩
      · rw [← hL]
        show wG.undo = w0.undo ++ (r4 ++ rS ++ [URec.dropU e p oldPos oldObjs])
        unfold_let wG
        rw [World.push_undo]
        show wF.undo ++ [URec.dropU e p oldPos oldObjs] = _
        unfold_let wF
        rw [hrS]
        show (wE.undo ++ rS) ++ _ = _
        unfold_let wE wC wB wA
        rw [World.modify_undo, World.modify_undo, World.modify_undo, hr4]
        simp
      · intro _
        refine ⟨by rw [← hL], oldPos, oldObjs, ?_⟩
        rw [List.filter_append, List.filter_append]
        rw [filter_isDesc_nil r4 ha4, filter_isDesc_nil rS haS]
        rfl
      · intro hne
        exact absurd (hB ▸ hnil) hne
    · rename_i hnenil
      refine ⟨r4, ?_, ?_, ?_⟩
      · rw [← hL]
        exact hr4
      · intro hBe
        exact absurd (hB.symm ▸ hBe) hnenil
      · intro _
        exact ⟨by rw [← hL]; exact hB, filter_isDesc_nil r4 ha4⟩
  exact key _ rfl



/-- `from_location.properties[direction]`'s holder as read by `actions.go`
(the player's location on the pre-call world). -/
def goLoc1 (p : EId) (w0 : World) : EId :=
  match w0.locOf p with | some (_, l) => l | none => p

/-- The blocking-feedback list of `actions.go` on the pre-call world. -/
def goBlockers (p : EId) (dir : String) (fromLoc : Option EId) (w0 : World) :
    List Stmt :=
  let fromL := fromLoc.getD (match w0.locOf p with | some (_, l) => l | none => p)
  let canNot := AStmt.goV p (some "can") true "go" dir none
  vrLog p p fromL canNot w0 ++ goObstacleLog p dir canNot (goLoc1 p w0) w0 ++
    goDirLog dir canNot (goLoc1 p w0) w0

set_option maxHeartbeats 1600000 in
theorem go_decomp (rnd : Rnd) (p : EId) (dir : String) (fromLoc : Option EId)
    (w0 : World) :
    ∃ recs, (go rnd p dir fromLoc w0).2.undo = w0.undo ++ recs ∧
      (goBlockers p dir fromLoc w0 = [] →
        ∀ nl, w0.prop (goLoc1 p w0) (PKey.s dir) = some (Val.ent nl) →
          (∃ intro0, (go rnd p dir fromLoc w0).1 =
            [Stmt.cont (AStmt.goV p none false "goes" dir (some (goLoc1 p w0))
              :: intro0)]) ∧
          ∃ ol, recs.filter (fun r => !r.isDesc) = [URec.goU p (goLoc1 p w0) ol]) ∧
      (goBlockers p dir fromLoc w0 ≠ [] →
        (go rnd p dir fromLoc w0).1 = goBlockers p dir fromLoc w0 ∧
        recs.filter (fun r => !r.isDesc) = []) := by
  have key : ∀ P, go rnd p dir fromLoc w0 = P →
      ∃ recs, P.2.undo = w0.undo ++ recs ∧
        (goBlockers p dir fromLoc w0 = [] →
          ∀ nl, w0.prop (goLoc1 p w0) (PKey.s dir) = some (Val.ent nl) →
            (∃ intro0, P.1 =
              [Stmt.cont (AStmt.goV p none false "goes" dir (some (goLoc1 p w0))
                :: intro0)]) ∧
            ∃ ol, recs.filter (fun r => !r.isDesc) = [URec.goU p (goLoc1 p w0) ol]) ∧
        (goBlockers p dir fromLoc w0 ≠ [] →
          P.1 = goBlockers p dir fromLoc w0 ∧
          recs.filter (fun r => !r.isDesc) = []) := by
    intro P hL
    unfold go at hL
    lift_lets at hL
    extract_lets fromL wE canNotV vr loc1p st1 st2 at hL
    have hwE : DescOnly w0 wE := by
      unfold_let wE
      exact ⟨[p], rfl⟩
    have hvr2 : DescOnly w0 vr.2 := by
      unfold_let vr
      exact vr_descOnly_of p p fromL canNotV w0 wE hwE
    have hvr1 : vr.1 = vrLog p p fromL canNotV w0 := by
      unfold_let vr
      exact vr_log p p fromL canNotV w0 wE hwE
    have hl1 : loc1p = goLoc1 p w0 := by
      unfold_let loc1p
      unfold goLoc1
      rw [descOnly_locOf w0 vr.2 hvr2 p]
      try rfl
    have hst1 : st1.1 = vr.1 ++ goObstacleLog p dir canNotV loc1p w0 ∧
        DescOnly w0 st1.2 := by
      unfold_let st1
      exact goObstacleStage_log p dir canNotV loc1p fromL (vr.1, vr.2) w0 hvr2
    have hst2 : st2.1 = st1.1 ++ goDirLog dir canNotV loc1p w0 ∧
        DescOnly w0 st2.2 := by
      unfold_let st2
      exact goDirStage_log p dir canNotV loc1p st1 w0 hst1.2
    have hB : st2.1 = goBlockers p dir fromLoc w0 := by
      rw [hst2.1, hst1.1, hvr1, hl1]
      unfold goBlockers
      unfold_let canNotV fromL
      rfl
    obtain ⟨r2, hr2, ha2⟩ := descOnly_undo w0 st2.2 hst2.2
    split at hL
    · rename_i hnil
      unfold goCore at hL
      split at hL
      · rename_i nl0 heq
        lift_lets at hL
        extract_lets wB oldLoc oldObjs wC oldPos wE2 wP lr wF moved
          intro0 at hL
        obtain ⟨rS1, hrS1, haS1⟩ :=
          descOnly_undo wP lr.2 (by
            unfold_let lr
            exact look_descOnly rnd nl0 p "in" (oldPos, nl0) wP)
        obtain ⟨rS2, hrS2, haS2⟩ := describeMany_undo [p, oldLoc] lr.2
        refine ⟨r2 ++ [URec.goU p (goLoc1 p w0) oldObjs] ++ rS1 ++ rS2,
          ?_, ?_, ?_⟩
        · rw [← hL]
          show wF.undo = _
          unfold_let wF
          rw [hrS2, hrS1]
          show (wP.undo ++ rS1) ++ rS2 = _
          unfold_let wP
          rw [World.push_undo]
          show ((wE2.undo ++ [URec.goU p oldLoc oldObjs]) ++ rS1) ++ rS2 = _
          unfold_let wE2 wC wB oldLoc
          rw [World.modify_undo, World.modify_undo, World.modify_undo,
            hr2, hl1]
          simp
        · intro _ nl hdir
          constructor
          · refine ⟨intro0, ?_⟩
            rw [← hL]
            show [Stmt.cont (moved :: intro0)] = _
            unfold_let moved oldLoc
            rw [hl1]
          · refine ⟨oldObjs, ?_⟩
            rw [List.filter_append, List.filter_append, List.filter_append]
            rw [filter_isDesc_nil r2 ha2, filter_isDesc_nil rS1 haS1,
              filter_isDesc_nil rS2 haS2]
            simp [URec.isDesc]
        · intro hne
          exact absurd (hB ▸ hnil) hne
      · rename_i hne0
        refine ⟨r2, by rw [← hL]; exact hr2, ?_, ?_⟩
        · intro _ nl hdir
          rw [← hl1] at hdir
          rw [← descOnly_prop w0 st2.2 hst2.2 loc1p (PKey.s dir)] at hdir
          exact absurd hdir (hne0 nl)
        · intro hne
          exact absurd (hB ▸ hnil) hne
    · rename_i hnenil
      refine ⟨r2, ?_, ?_, ?_⟩
      · rw [← hL]
        exact hr2
      · intro hBe
        exact absurd (hB.symm ▸ hBe) hnenil
      · intro _
        exact ⟨by rw [← hL]; exact hB, filter_isDesc_nil r2 ha2⟩
  exact key _ rfl



theorem chainWalkLog_shapes (negRes : AStmt) (w : World) :
    ∀ (f : Nat) (cur : EId),
      (∀ s ∈ (chainWalkLog negRes w f cur).1, ∃ c, s = lockStmt negRes c) ∧
      (∀ s ∈ (chainWalkLog negRes w f cur).2, ∃ c, s = notOpenStmt negRes c) := by
  intro f
  induction f with
  | zero =>
      intro cur
      unfold chainWalkLog
      exact ⟨fun s hs => absurd hs (List.not_mem_nil s),
        fun s hs => absurd hs (List.not_mem_nil s)⟩
  | succ g ih =>
      intro cur
      unfold chainWalkLog
      cases w.locOf cur with
      | none =>
          exact ⟨fun s hs => absurd hs (List.not_mem_nil s),
            fun s hs => absurd hs (List.not_mem_nil s)⟩
      | some pr =>
          obtain ⟨ps, nxt⟩ := pr
          dsimp only
          split
          · exact ⟨fun s hs => absurd hs (List.not_mem_nil s),
              fun s hs => absurd hs (List.not_mem_nil s)⟩
          · split
            · refine ⟨?_, (ih nxt).2⟩
              intro s hs
              rcases List.mem_cons.mp hs with h | h
              · exact ⟨cur, h⟩
              · exact (ih nxt).1 s h
            · split
              · refine ⟨(ih nxt).1, ?_⟩
                intro s hs
                rcases List.mem_cons.mp hs with h | h
                · exact ⟨cur, h⟩
                · exact (ih nxt).2 s h
              · exact ih nxt

theorem vrLog_headed (selfE player locEnt : EId) (negRes : AStmt) (w : World) :
    headedBy negRes (vrLog selfE player locEnt negRes w) := by
  have hbase : headedBy negRes
      (vrLog1 player negRes w ++ vrLog2 selfE player locEnt negRes w ++
        vrLog3 selfE player locEnt negRes w) := by
    intro s hs
    rcases List.mem_append.mp hs with h | h
    · rcases List.mem_append.mp h with h2 | h2
      · unfold vrLog1 at h2
        split at h2
        · simp at h2
          subst h2
          exact ⟨_, rfl⟩
        · simp at h2
      · unfold vrLog2 at h2
        split at h2
        · simp at h2
          subst h2
          exact ⟨_, rfl⟩
        · simp at h2
    · unfold vrLog3 at h
      split at h
      · dsimp only at h
        split at h
        · simp at h
          subst h
          exact ⟨_, rfl⟩
        · simp at h
      · simp at h
  intro s hs
  unfold vrLog at hs
  dsimp only at hs
  split at hs
  · rcases List.mem_append.mp hs with h | h
    · rcases List.mem_append.mp h with h2 | h2
      · exact hbase s h2
      · obtain ⟨c, rfl⟩ := (chainWalkLog_shapes negRes w (wfuel w) locEnt).1 s h2
        exact ⟨_, rfl⟩
    · split at h
      · obtain ⟨c, rfl⟩ := (chainWalkLog_shapes negRes w (wfuel w) locEnt).2 s h
        exact ⟨_, rfl⟩
      · simp at h
  · exact hbase s hs

theorem locCheckLog_headed (e : EId) (canNot : AStmt) (lp : String) (loc : EId)
    (w : World) : headedBy canNot (locCheckLog e canNot lp loc w) := by
  intro s hs
  unfold locCheckLog at hs
  split at hs
  · simp at hs
    subst hs
    exact ⟨_, rfl⟩
  · simp at hs

theorem attrMissingLog_headed (e : EId) (canNot : AStmt) (attr : String)
    (w : World) : headedBy canNot (attrMissingLog e canNot attr w) := by
  intro s hs
  unfold attrMissingLog at hs
  split at hs
  · simp at hs
    subst hs
    exact ⟨_, rfl⟩
  · simp at hs

theorem attrPresentLog_headed (e : EId) (canNot : AStmt) (attr : String)
    (w : World) : headedBy canNot (attrPresentLog e canNot attr w) := by
  intro s hs
  unfold attrPresentLog at hs
  split at hs
  · simp at hs
    subst hs
    exact ⟨_, rfl⟩
  · simp at hs

theorem getPlayerLog_headed (e : EId) (canNot : AStmt) (w : World) :
    headedBy canNot (getPlayerLog e canNot w) := by
  intro s hs
  unfold getPlayerLog at hs
  split at hs
  · simp at hs
    subst hs
    exact ⟨_, rfl⟩
  · simp at hs

theorem getHeldLog_headed (e p : EId) (canNot : AStmt) (w : World) :
    headedBy canNot (getHeldLog e p canNot w) := by
  intro s hs
  unfold getHeldLog at hs
  split at hs
  · simp at hs
    subst hs
    exact ⟨_, rfl⟩
  · simp at hs

theorem dropSelfLog_headed (e loc : EId) (canNot : AStmt) :
    headedBy canNot (dropSelfLog e loc canNot) := by
  intro s hs
  unfold dropSelfLog at hs
  split at hs
  · simp at hs
    subst hs
    exact ⟨_, rfl⟩
  · simp at hs

theorem dropPathLog_headed (e loc : EId) (canNot : AStmt) (w : World) :
    headedBy canNot (dropPathLog e loc canNot w) := by
  intro s hs
  unfold dropPathLog at hs
  dsimp only at hs
  split at hs
  · split at hs
    · simp at hs
      subst hs
      exact ⟨_, rfl⟩
    · simp at hs
  · simp at hs

theorem goObstacleLog_headed (p : EId) (dir : String) (canNot : AStmt)
    (loc1p : EId) (w : World) : headedBy canNot (goObstacleLog p dir canNot loc1p w) := by
  intro s hs
  unfold goObstacleLog at hs
  split at hs
  · dsimp only at hs
    split at hs
    · split at hs
      · simp at hs
        subst hs
        exact ⟨_, rfl⟩
      · split at hs
        · simp at hs
          subst hs
          exact ⟨_, rfl⟩
        · simp at hs
          subst hs
          exact ⟨_, rfl⟩
    · simp at hs
  · simp at hs

/-- Every statement of a blocked action's list is either a `can not`-headed
compound or a bare `is (not)` description (never an action's success
statement). -/
def feedbackShaped (canNot : AStmt) (L : List Stmt) : Prop :=
  ∀ s ∈ L, (∃ rest, s = Stmt.cont (canNot :: rest)) ∨
    (∃ t n c, s = Stmt.a (AStmt.be t n c))

theorem headedBy_append (c : AStmt) (a b : List Stmt) (ha : headedBy c a)
    (hb : headedBy c b) : headedBy c (a ++ b) :=
  fun s hs => (List.mem_append.mp hs).elim (ha s) (hb s)

theorem headedBy_shaped (c : AStmt) (L : List Stmt) (h : headedBy c L) :
    feedbackShaped c L :=
  fun s hs => Or.inl (h s hs)

theorem feedbackShaped_append (c : AStmt) (a b : List Stmt)
    (ha : feedbackShaped c a) (hb : feedbackShaped c b) :
    feedbackShaped c (a ++ b) :=
  fun s hs => (List.mem_append.mp hs).elim (ha s) (hb s)

theorem dropPosLog_shaped (e loc : EId) (lp : String) (canNot : AStmt)
    (w : World) : feedbackShaped canNot (dropPosLog e loc lp canNot w) := by
  intro s hs
  unfold dropPosLog at hs
  split at hs
  · split at hs
    · simp at hs
      subst hs
      exact Or.inl ⟨_, rfl⟩
    · split at hs
      · simp at hs
        subst hs
        exact Or.inl ⟨_, rfl⟩
      · simp at hs
  · split at hs
    · split at hs
      · simp at hs
        subst hs
        exact Or.inl ⟨_, rfl⟩
      · simp at hs
    · split at hs
      · split at hs
        · simp at hs
          subst hs
          exact Or.inl ⟨_, rfl⟩
        · simp at hs
      · simp at hs
        subst hs
        exact Or.inr ⟨_, _, _, rfl⟩

theorem goDirLog_shaped (dir : String) (canNot : AStmt) (loc1p : EId)
    (w : World) : feedbackShaped canNot (goDirLog dir canNot loc1p w) := by
  intro s hs
  unfold goDirLog at hs
  split at hs
  · simp at hs
    subst hs
    exact Or.inr ⟨_, _, _, rfl⟩
  · split at hs
    · simp at hs
      subst hs
      exact Or.inl ⟨_, rfl⟩
    · simp at hs

theorem opensBlockers_headed (e p : EId) (loc0 : Option EId) (pos0 : Option String)
    (w0 : World) :
    headedBy (AStmt.opensV p (some "can") true "open" e)
      (opensBlockers e p loc0 pos0 w0) := by
  unfold opensBlockers
  dsimp only
  exact headedBy_append _ _ _ (headedBy_append _ _ _ (headedBy_append _ _ _
    (headedBy_append _ _ _ (vrLog_headed _ _ _ _ _) (locCheckLog_headed _ _ _ _ _))
    (attrMissingLog_headed _ _ _ _)) (attrPresentLog_headed _ _ _ _))
    (attrPresentLog_headed _ _ _ _)

theorem closesBlockers_headed (e p : EId) (location : EId) (locPos : String)
    (w0 : World) :
    headedBy (AStmt.closeV p (some "can") true "close" e)
      (closesBlockers e p location locPos w0) := by
  unfold closesBlockers
  dsimp only
  exact headedBy_append _ _ _ (headedBy_append _ _ _ (headedBy_append _ _ _
    (headedBy_append _ _ _ (vrLog_headed _ _ _ _ _) (locCheckLog_headed _ _ _ _ _))
    (attrMissingLog_headed _ _ _ _)) (attrPresentLog_headed _ _ _ _))
    (attrMissingLog_headed _ _ _ _)

theorem getBlockers_headed (e p : EId) (location : EId) (locPos : String)
    (w0 : World) :
    headedBy (AStmt.getV (some p) (some "can") true "get" (some (EArg.ent e)) none)
      (getBlockers e p location locPos w0) := by
  unfold getBlockers
  dsimp only
  exact headedBy_append _ _ _ (headedBy_append _ _ _ (headedBy_append _ _ _
    (headedBy_append _ _ _ (vrLog_headed _ _ _ _ _) (locCheckLog_headed _ _ _ _ _))
    (attrPresentLog_headed _ _ _ _)) (getPlayerLog_headed _ _ _))
    (getHeldLog_headed _ _ _ _)

theorem dropBlockers_shaped (e p : EId) (location : EId) (locPos : String)
    (w0 : World) :
    feedbackShaped (AStmt.dropV (some p) (some "can") true "drop"
        (some (EArg.ent e)) none)
      (dropBlockers e p location locPos w0) := by
  unfold dropBlockers
  dsimp only
  exact feedbackShaped_append _ _ _ (feedbackShaped_append _ _ _
    (feedbackShaped_append _ _ _ (feedbackShaped_append _ _ _
      (headedBy_shaped _ _ (vrLog_headed _ _ _ _ _))
      (headedBy_shaped _ _ (locCheckLog_headed _ _ _ _ _)))
      (headedBy_shaped _ _ (dropSelfLog_headed _ _ _)))
      (headedBy_shaped _ _ (dropPathLog_headed _ _ _ _)))
    (dropPosLog_shaped _ _ _ _ _)

theorem goBlockers_shaped (p : EId) (dir : String) (fromLoc : Option EId)
    (w0 : World) :
    feedbackShaped (AStmt.goV p (some "can") true "go" dir none)
      (goBlockers p dir fromLoc w0) := by
  unfold goBlockers
  dsimp only
  exact feedbackShaped_append _ _ _ (feedbackShaped_append _ _ _
    (headedBy_shaped _ _ (vrLog_headed _ _ _ _ _))
    (headedBy_shaped _ _ (goObstacleLog_headed _ _ _ _ _)))
    (goDirLog_shaped _ _ _ _)



set_option maxHeartbeats 800000 in
/-- C4: for every call of `go`, `opens`, `closes`, `get` and `drop`: when the
pre-call world satisfies no blocking condition, the returned list is exactly
the one success statement and the non-description undo records appended are
exactly the action's single undo record (for `go`, on the source's assumption
that the direction property names an entity — it raises otherwise); when
blocking conditions hold, the returned list is exactly the feedback list with
one statement per blocking reason, computed from the pre-call world in stage
order (with `validate_reachability`'s locked-over-closed priority), it
contains no success statement, and no non-description undo record is
appended. Blocked calls are not free of side effects: description-cache
mutations and description undo records can occur even then (see the
counterexample). -/
theorem C4_action_feedback (rnd : Rnd) (e p : EId) (loc0 : Option EId)
    (pos0 : Option String) (location : EId) (locPos dir : String)
    (fromLoc : Option EId) (w0 : World) :
    (∃ recs, (opens e p loc0 pos0 w0).2.undo = w0.undo ++ recs ∧
      (opensBlockers e p loc0 pos0 w0 = [] →
        (opens e p loc0 pos0 w0).1 =
          [Stmt.cont [AStmt.opensV p none false "opens" e]] ∧
        recs.filter (fun r => !r.isDesc) = [URec.opensU e]) ∧
      (opensBlockers e p loc0 pos0 w0 ≠ [] →
        (opens e p loc0 pos0 w0).1 = opensBlockers e p loc0 pos0 w0 ∧
        Stmt.cont [AStmt.opensV p none false "opens" e] ∉
          (opens e p loc0 pos0 w0).1 ∧
        recs.filter (fun r => !r.isDesc) = [])) ∧
    (∃ recs, (closes e p location locPos w0).2.undo = w0.undo ++ recs ∧
      (closesBlockers e p location locPos w0 = [] →
        (closes e p location locPos w0).1 =
          [Stmt.a (AStmt.closeV p none false "closes" e)] ∧
        recs.filter (fun r => !r.isDesc) = [URec.closesU e]) ∧
      (closesBlockers e p location locPos w0 ≠ [] →
        (closes e p location locPos w0).1 = closesBlockers e p location locPos w0 ∧
        Stmt.a (AStmt.closeV p none false "closes" e) ∉
          (closes e p location locPos w0).1 ∧
        recs.filter (fun r => !r.isDesc) = [])) ∧
    (∃ recs, (DF.get e p location locPos w0).2.undo = w0.undo ++ recs ∧
      (getBlockers e p location locPos w0 = [] →
        (DF.get e p location locPos w0).1 =
          [Stmt.a (AStmt.getV (some p) none false "gets" (some (EArg.ent e)) none)] ∧
        ∃ op ol, recs.filter (fun r => !r.isDesc) = [URec.getU e location op ol]) ∧
      (getBlockers e p location locPos w0 ≠ [] →
        (DF.get e p location locPos w0).1 = getBlockers e p location locPos w0 ∧
        Stmt.a (AStmt.getV (some p) none false "gets" (some (EArg.ent e)) none) ∉
          (DF.get e p location locPos w0).1 ∧
        recs.filter (fun r => !r.isDesc) = [])) ∧
    (∃ recs, (drop rnd e p location locPos w0).2.undo = w0.undo ++ recs ∧
      (dropBlockers e p location locPos w0 = [] →
        (drop rnd e p location locPos w0).1 =
          [Stmt.a (AStmt.dropV (some p) none false "drops" (some (EArg.ent e))
            (some (locPos, location)))] ∧
        ∃ op ol, recs.filter (fun r => !r.isDesc) = [URec.dropU e p op ol]) ∧
      (dropBlockers e p location locPos w0 ≠ [] →
        (drop rnd e p location locPos w0).1 = dropBlockers e p location locPos w0 ∧
        Stmt.a (AStmt.dropV (some p) none false "drops" (some (EArg.ent e))
          (some (locPos, location))) ∉ (drop rnd e p location locPos w0).1 ∧
        recs.filter (fun r => !r.isDesc) = [])) ∧
    (∃ recs, (go rnd p dir fromLoc w0).2.undo = w0.undo ++ recs ∧
      (goBlockers p dir fromLoc w0 = [] →
        ∀ nl, w0.prop (goLoc1 p w0) (PKey.s dir) = some (Val.ent nl) →
          (∃ intro0, (go rnd p dir fromLoc w0).1 =
            [Stmt.cont (AStmt.goV p none false "goes" dir (some (goLoc1 p w0))
              :: intro0)]) ∧
          ∃ ol, recs.filter (fun r => !r.isDesc) = [URec.goU p (goLoc1 p w0) ol]) ∧
      (goBlockers p dir fromLoc w0 ≠ [] →
        (go rnd p dir fromLoc w0).1 = goBlockers p dir fromLoc w0 ∧
        (∀ intro0 dest, Stmt.cont (AStmt.goV p none false "goes" dir dest
          :: intro0) ∉ (go rnd p dir fromLoc w0).1) ∧
        recs.filter (fun r => !r.isDesc) = [])) := by
  refine ⟨?_, ?_, ?_, ?_, ?_⟩
  · obtain ⟨recs, h1, h2, h3⟩ := opens_decomp e p loc0 pos0 w0
    refine ⟨recs, h1, h2, ?_⟩
    intro hne
    obtain ⟨hres, hfil⟩ := h3 hne
    refine ⟨hres, ?_, hfil⟩
    intro hmem
    rw [hres] at hmem
    obtain ⟨rest, hr⟩ := opensBlockers_headed e p loc0 pos0 w0 _ hmem
    simp at hr
  · obtain ⟨recs, h1, h2, h3⟩ := closes_decomp e p location locPos w0
    refine ⟨recs, h1, h2, ?_⟩
    intro hne
    obtain ⟨hres, hfil⟩ := h3 hne
    refine ⟨hres, ?_, hfil⟩
    intro hmem
    rw [hres] at hmem
    obtain ⟨rest, hr⟩ := closesBlockers_headed e p location locPos w0 _ hmem
    simp at hr
  · obtain ⟨recs, h1, h2, h3⟩ := get_decomp e p location locPos w0
    refine ⟨recs, h1, h2, ?_⟩
    intro hne
    obtain ⟨hres, hfil⟩ := h3 hne
    refine ⟨hres, ?_, hfil⟩
    intro hmem
    rw [hres] at hmem
    obtain ⟨rest, hr⟩ := getBlockers_headed e p location locPos w0 _ hmem
    simp at hr
  · obtain ⟨recs, h1, h2, h3⟩ := drop_decomp rnd e p location locPos w0
    refine ⟨recs, h1, h2, ?_⟩
    intro hne
    obtain ⟨hres, hfil⟩ := h3 hne
    refine ⟨hres, ?_, hfil⟩
    intro hmem
    rw [hres] at hmem
    rcases dropBlockers_shaped e p location locPos w0 _ hmem with ⟨rest, hr⟩ |
      ⟨t, n, c, hr⟩
    · simp at hr
    · simp at hr
  · obtain ⟨recs, h1, h2, h3⟩ := go_decomp rnd p dir fromLoc w0
    refine ⟨recs, h1, h2, ?_⟩
    intro hne
    obtain ⟨hres, hfil⟩ := h3 hne
    refine ⟨hres, ?_, hfil⟩
    intro intro0 dest hmem
    rw [hres] at hmem
    rcases goBlockers_shaped p dir fromLoc w0 _ hmem with ⟨rest, hr⟩ |
      ⟨t, n, c, hr⟩
    · simp at hr
    · simp at hr

/-- C4 witness: a concrete successful `opens` returns exactly the success
statement, and a concrete blocked `opens` returns exactly the one-per-reason
feedback list. -/
theorem C4_action_feedback_witness :
    (opens "door1" "p" (some "room") (some "in") c4Ws).1 =
      [Stmt.cont [AStmt.opensV "p" none false "opens" "door1"]] ∧
    (opens "door1" "p" (some "room") (some "in") c4Wf).1 =
      opensBlockers "door1" "p" (some "room") (some "in") c4Wf := by
  obtain ⟨recs, h1, h2, h3⟩ :=
    (C4_action_feedback Rnd.low "door1" "p" (some "room") (some "in") "room"
      "in" "n" none c4Ws).1
  obtain ⟨recs2, g1, g2, g3⟩ :=
    (C4_action_feedback Rnd.low "door1" "p" (some "room") (some "in") "room"
      "in" "n" none c4Wf).1
  exact ⟨(h2 (by decide)).1, (g3 (by decide)).1⟩

end DF
